import Mathlib

/-!
Verification of `ft::RBTree` (pharick/containers).

Shallow embedding of `srcs/rb_tree.hpp` and `srcs/iterators/rb_tree_iterator.hpp`.

* Memory is an explicit heap `Nat → Option (RBTreeNode α)`; a pointer is an `Option Nat`
  (`none` is `NULL`).  Dereferencing `NULL` or a freed cell makes the operation return `none`.
* Every `while` loop and every recursion of the source is a function with a fuel argument;
  the public operations supply `fresh + 1` units of fuel, where `fresh` bounds every
  address that was ever allocated.  Running out of fuel also yields `none`.
* `size_type` is modelled by `Nat`: the counter never exceeds the number of nodes that
  were allocated, so the increment cannot wrap.
-/

namespace ft

/-- Node of the tree (`struct RBTreeNode`): `value` is the pointee of `T *value`
(`none` when the pointer is `NULL`, as in the sentinel), `color = true` is red. -/
structure RBTreeNode (α : Type) where
  value : Option α
  left : Option Nat
  right : Option Nat
  parent : Option Nat
  color : Bool

/-- Constructor `RBTreeNode(T *value)`: no links, colour red. -/
def RBTreeNode.new {α : Type} (value : Option α) : RBTreeNode α :=
  { value := value, left := none, right := none, parent := none, color := true }

/-- State of a `class RBTree` object together with the memory it lives in. -/
structure RBTree (α : Type) where
  heap : Nat → Option (RBTreeNode α)
  fresh : Nat
  _comp : α → α → Bool
  _root : Option Nat
  _end : Nat
  _size : Nat

variable {α : Type}

/-- Heap with cell `a` replaced by `c`. -/
def store (h : Nat → Option (RBTreeNode α)) (a : Nat) (c : Option (RBTreeNode α)) :
    Nat → Option (RBTreeNode α) :=
  fun b => if b = a then c else h b

/-- Read through a pointer (`*p`). -/
def RBTree.node (t : RBTree α) (p : Option Nat) : Option (RBTreeNode α) :=
  p.bind t.heap

/-- Write through a pointer (`p->field = ...`). -/
def RBTree.write (t : RBTree α) (p : Option Nat) (f : RBTreeNode α → RBTreeNode α) :
    Option (RBTree α) :=
  match p with
  | none => none
  | some a =>
    match t.heap a with
    | none => none
    | some n => some { t with heap := store t.heap a (some (f n)) }

/-- Fuel handed to the loops of a public operation. -/
def RBTree.fuel (t : RBTree α) : Nat := t.fresh + 1

/-- `_find_leftmost_node`. -/
def RBTree._find_leftmost_node (t : RBTree α) : Nat → Option Nat → Option (Option Nat)
  | 0, _ => none
  | _ + 1, none => some none
  | fuel + 1, some a =>
    match t.heap a with
    | none => none
    | some n =>
      match n.left with
      | none => some (some a)
      | some l => t._find_leftmost_node fuel (some l)

/-- `_find_rightmost_node`. -/
def RBTree._find_rightmost_node (t : RBTree α) : Nat → Option Nat → Option (Option Nat)
  | 0, _ => none
  | _ + 1, none => some none
  | fuel + 1, some a =>
    match t.heap a with
    | none => none
    | some n =>
      match n.right with
      | none => some (some a)
      | some r => t._find_rightmost_node fuel (some r)

/-- `_create_node`: a fresh cell holding a copy of `val`. -/
def RBTree._create_node (t : RBTree α) (val : α) : RBTree α × Option Nat :=
  ({ t with heap := store t.heap t.fresh (some (RBTreeNode.new (some val))),
            fresh := t.fresh + 1 }, some t.fresh)

/-- `_clear_node`: the node is read (`node->value`) and its cell released. -/
def RBTree._clear_node (t : RBTree α) (node : Option Nat) : Option (RBTree α) :=
  match t.node node, node with
  | some _, some a => some { t with heap := store t.heap a none }
  | _, _ => none

/-- The `while (x)` loop of `_bst_insert`.  `Sum.inl x` is the early
`return (make_pair(x, false))`, `Sum.inr y` the exit with `x == NULL`. -/
def RBTree._bst_insert_loop (t : RBTree α) (node : Option Nat) :
    Nat → Option Nat → Option Nat → Option (Option Nat ⊕ Option Nat)
  | 0, _, _ => none
  | _ + 1, none, y => some (Sum.inr y)
  | fuel + 1, some x, _ =>
    match t.heap x, t.node node with
    | some nx, some nn =>
      match nx.value, nn.value with
      | some xv, some v =>
        if t._comp xv v then t._bst_insert_loop node fuel nx.right (some x)
        else if t._comp v xv then t._bst_insert_loop node fuel nx.left (some x)
        else some (Sum.inl (some x))
      | _, _ => none
    | _, _ => none

/-- `_bst_insert`. -/
def RBTree._bst_insert (t : RBTree α) (node : Option Nat) :
    Option (RBTree α × Option Nat × Bool) :=
  match t._root with
  | none => some ({ t with _root := node }, node, true)
  | some r =>
    match t._bst_insert_loop node t.fuel (some r) none with
    | none => none
    | some (Sum.inl x) => some (t, x, false)
    | some (Sum.inr y) =>
      match t.write node (fun n => { n with parent := y }) with
      | none => none
      | some t1 =>
        match t1.node y, t1.node node with
        | some ny, some nn =>
          match ny.value, nn.value with
          | some yv, some v =>
            if t1._comp yv v then
              (t1.write y (fun n => { n with right := node })).map (fun t2 => (t2, node, true))
            else
              (t1.write y (fun n => { n with left := node })).map (fun t2 => (t2, node, true))
          | _, _ => none
        | _, _ => none

/-- `_rotateLeft`. -/
def RBTree._rotateLeft (t : RBTree α) (node : Option Nat) : Option (RBTree α) :=
  match t.node node with
  | none => none
  | some n =>
  let right := n.right
  match t.node right with
  | none => none
  | some nr =>
  match t.write node (fun c => { c with right := nr.left }) with
  | none => none
  | some t =>
  match t.node node with
  | none => none
  | some n =>
  match (if n.right.isSome then t.write n.right (fun c => { c with parent := node })
         else some t) with
  | none => none
  | some t =>
  match t.node node with
  | none => none
  | some n =>
  match t.write right (fun c => { c with parent := n.parent }) with
  | none => none
  | some t =>
  match t.node node with
  | none => none
  | some n =>
  match (if n.parent.isNone then some { t with _root := right }
         else
           match t.node n.parent with
           | none => none
           | some np =>
             if node = np.left then t.write n.parent (fun c => { c with left := right })
             else t.write n.parent (fun c => { c with right := right })) with
  | none => none
  | some t =>
  match t.write right (fun c => { c with left := node }) with
  | none => none
  | some t => t.write node (fun c => { c with parent := right })

/-- `_rotateRight`. -/
def RBTree._rotateRight (t : RBTree α) (node : Option Nat) : Option (RBTree α) :=
  match t.node node with
  | none => none
  | some n =>
  let left := n.left
  match t.node left with
  | none => none
  | some nl =>
  match t.write node (fun c => { c with left := nl.right }) with
  | none => none
  | some t =>
  match t.node node with
  | none => none
  | some n =>
  match (if n.left.isSome then t.write n.left (fun c => { c with parent := node })
         else some t) with
  | none => none
  | some t =>
  match t.node node with
  | none => none
  | some n =>
  match t.write left (fun c => { c with parent := n.parent }) with
  | none => none
  | some t =>
  match t.node node with
  | none => none
  | some n =>
  match (if n.parent.isNone then some { t with _root := left }
         else
           match t.node n.parent with
           | none => none
           | some np =>
             if node = np.left then t.write n.parent (fun c => { c with left := left })
             else t.write n.parent (fun c => { c with right := left })) with
  | none => none
  | some t =>
  match t.write left (fun c => { c with right := node }) with
  | none => none
  | some t => t.write node (fun c => { c with parent := left })

/-- `ft::swap(parent->color, grandparent->color)`. -/
def RBTree.swapColor (t : RBTree α) (p g : Option Nat) : Option (RBTree α) :=
  match t.node p, t.node g with
  | some np, some ng =>
    match t.write p (fun c => { c with color := ng.color }) with
    | none => none
    | some t => t.write g (fun c => { c with color := np.color })
  | _, _ => none

/-- Loop condition of `_balance`:
`node != _root && node->color && node->parent->color`. -/
def RBTree._balance_cond (t : RBTree α) (node : Option Nat) : Option Bool :=
  if node = t._root then some false
  else
    match t.node node with
    | none => none
    | some n =>
      if n.color then
        match t.node n.parent with
        | none => none
        | some np => some np.color
      else some false

/-- The test `uncle && uncle->color`. -/
def RBTree.redUncle (t : RBTree α) (uncle : Option Nat) : Option Bool :=
  if uncle.isSome then
    match t.node uncle with
    | none => none
    | some u => some u.color
  else some false

/-- The recolouring branch of `_balance`. -/
def RBTree.recolor (t : RBTree α) (parent grandparent uncle : Option Nat) :
    Option (RBTree α) :=
  match t.write grandparent (fun c => { c with color := true }) with
  | none => none
  | some t =>
    match t.write parent (fun c => { c with color := false }) with
    | none => none
    | some t => t.write uncle (fun c => { c with color := false })

/-- Body of the `while` loop of `_balance`; returns the state and the new `node`. -/
def RBTree._balance_body (t : RBTree α) (node : Option Nat) :
    Option (RBTree α × Option Nat) :=
  match t.node node with
  | none => none
  | some n =>
  let parent := n.parent
  match t.node parent with
  | none => none
  | some np =>
  let grandparent := np.parent
  match t.node grandparent with
  | none => none
  | some ng =>
  if parent = ng.left then
    let uncle := ng.right
    match t.redUncle uncle with
    | none => none
    | some true => (t.recolor parent grandparent uncle).map (fun t => (t, grandparent))
    | some false =>
      match (if node = np.right then
               match t._rotateLeft parent with
               | none => none
               | some t =>
                 match t.node parent with
                 | none => none
                 | some n2 => some (t, n2.parent)
             else some (t, parent)) with
      | none => none
      | some (t, parent) =>
        match t._rotateRight grandparent with
        | none => none
        | some t => (t.swapColor parent grandparent).map (fun t => (t, parent))
  else
    let uncle := ng.left
    match t.redUncle uncle with
    | none => none
    | some true => (t.recolor parent grandparent uncle).map (fun t => (t, grandparent))
    | some false =>
      match (if node = np.left then
               match t._rotateRight parent with
               | none => none
               | some t =>
                 match t.node parent with
                 | none => none
                 | some n2 => some (t, n2.parent)
             else some (t, parent)) with
      | none => none
      | some (t, parent) =>
        match t._rotateLeft grandparent with
        | none => none
        | some t => (t.swapColor parent grandparent).map (fun t => (t, parent))

/-- The `while` loop of `_balance`. -/
def RBTree._balance_loop : Nat → RBTree α → Option Nat → Option (RBTree α)
  | 0, _, _ => none
  | fuel + 1, t, node =>
    match t._balance_cond node with
    | none => none
    | some false => some t
    | some true =>
      match t._balance_body node with
      | none => none
      | some (t1, node1) => _balance_loop fuel t1 node1

/-- `_balance`. -/
def RBTree._balance (t : RBTree α) (node : Option Nat) : Option (RBTree α) :=
  match _balance_loop t.fuel t node with
  | none => none
  | some t1 => t1.write t1._root (fun c => { c with color := false })

/-- Default constructor: the sentinel is allocated at address `0`. -/
def RBTree.empty (comp : α → α → Bool) : RBTree α :=
  { heap := store (fun _ => none) 0 (some (RBTreeNode.new none)),
    fresh := 1, _comp := comp, _root := none, _end := 0, _size := 0 }

/-- Closing statements `_root->parent = _end; _end->left = _root;`. -/
def RBTree.attach (t : RBTree α) : Option (RBTree α) :=
  match t.write t._root (fun c => { c with parent := some t._end }) with
  | none => none
  | some t1 => t1.write (some t1._end) (fun c => { c with left := t1._root })

/-- `insert(const value_type &)`: the new state, the node of the returned iterator and
the flag. -/
def RBTree.insert (t : RBTree α) (val : α) : Option (RBTree α × Option Nat × Bool) :=
  match t._create_node val with
  | (t0, node) =>
    match (if t0._root.isSome then t0.write t0._root (fun c => { c with parent := none })
           else some t0) with
    | none => none
    | some t1 =>
      match t1._bst_insert node with
      | none => none
      | some (t2, res, false) =>
        match t2._clear_node node with
        | none => none
        | some t3 => (t3.attach).map (fun t4 => (t4, res, false))
      | some (t2, res, true) =>
        match t2._balance node with
        | none => none
        | some t3 => (t3.attach).map (fun t4 => ({ t4 with _size := t4._size + 1 }, res, true))

/-- Replacement of `node` by `child` below `node->parent` in the one-child cases of
`_bst_erase`: the `if (node->parent == _end) ... else if (node->parent->left == node) ...
else ...` statement. -/
def RBTree.splice (t : RBTree α) (node child : Option Nat) : Option (RBTree α) :=
  match t.node node with
  | none => none
  | some n =>
    if n.parent = some t._end then
      RBTree.write { t with _root := child } child (fun c => { c with parent := none })
    else
      match t.node n.parent with
      | none => none
      | some np =>
        match (if np.left = node then t.write n.parent (fun c => { c with left := child })
               else t.write n.parent (fun c => { c with right := child })) with
        | none => none
        | some t =>
          match t.node node with
          | none => none
          | some n1 => t.write child (fun c => { c with parent := n1.parent })

/-- Detachment of the leaf `node` from `parent` in `_bst_erase`. -/
def RBTree.detach (t : RBTree α) (node parent : Option Nat) : Option (RBTree α) :=
  if parent = some t._end then some { t with _root := none }
  else
    match t.node parent with
    | none => none
    | some np =>
      if np.left = node then t.write parent (fun c => { c with left := none })
      else t.write parent (fun c => { c with right := none })

/-- `_bst_erase`: the new state and the node handed to `_balance`. -/
def RBTree._bst_erase : Nat → RBTree α → Option Nat → Option (RBTree α × Option Nat)
  | 0, _, _ => none
  | _ + 1, t, none => some (t, none)
  | fuel + 1, t, some a =>
    let node := some a
    match t.node node with
    | none => none
    | some n =>
      let parent := n.parent
      if n.left.isNone && n.right.isNone then
        match t.detach node parent with
        | none => none
        | some t => (t._clear_node node).map (fun t => (t, parent))
      else if n.right.isNone then
        let left := n.left
        match t.splice node left with
        | none => none
        | some t => (t._clear_node node).map (fun t => (t, left))
      else if n.left.isNone then
        let right := n.right
        match t.splice node right with
        | none => none
        | some t => (t._clear_node node).map (fun t => (t, right))
      else
        match t._find_rightmost_node t.fuel n.left with
        | none => none
        | some prev =>
          match t.node prev with
          | none => none
          | some np =>
            match np.value, n.value with
            | some pv, some _ =>
              match t.write node (fun c => { c with value := some pv }) with
              | none => none
              | some t => _bst_erase fuel t prev
            | _, _ => none

/-- `erase(iterator position)`; `position` is the node the iterator holds. -/
def RBTree.erase (t : RBTree α) (position : Option Nat) : Option (RBTree α) :=
  match RBTree._bst_erase t.fuel t position with
  | none => none
  | some (t, parent) =>
    match (if parent ≠ some t._end then t._balance parent else some t) with
    | none => none
    | some t =>
      match (if t._size = 1 then some { t with _root := none } else t.attach) with
      | none => none
      | some t => some { t with _size := t._size - 1 }

/-- `_bst_find`. -/
def RBTree._bst_find (t : RBTree α) (val : α) : Nat → Option Nat → Option (Option Nat)
  | 0, _ => none
  | _ + 1, none => some (some t._end)
  | fuel + 1, some a =>
    match t.heap a with
    | none => none
    | some n =>
      match n.value with
      | none => none
      | some v =>
        if t._comp v val then t._bst_find val fuel n.right
        else if t._comp val v then t._bst_find val fuel n.left
        else some (some a)

/-- `_bst_lower_bound`. -/
def RBTree._bst_lower_bound (t : RBTree α) (val : α) : Nat → Option Nat → Option (Option Nat)
  | 0, _ => none
  | _ + 1, none => some (some t._end)
  | fuel + 1, some a =>
    match t.heap a with
    | none => none
    | some n =>
      match n.value with
      | none => none
      | some v =>
        if t._comp v val then t._bst_lower_bound val fuel n.right
        else
          match t._bst_lower_bound val fuel n.left with
          | none => none
          | some left => if left ≠ some t._end then some left else some (some a)

/-- `find`: the node of the returned iterator. -/
def RBTree.find (t : RBTree α) (val : α) : Option (Option Nat) :=
  t._bst_find val t.fuel t._root

/-- `end()`. -/
def RBTree.end_ (t : RBTree α) : Option Nat := some t._end

/-- `count`. -/
def RBTree.count (t : RBTree α) (val : α) : Option Nat :=
  (t.find val).map (fun it => if it = t.end_ then 0 else 1)

/-- `lower_bound`. -/
def RBTree.lower_bound (t : RBTree α) (val : α) : Option (Option Nat) :=
  t._bst_lower_bound val t.fuel t._root

/-- `begin()`. -/
def RBTree.begin_ (t : RBTree α) : Option (Option Nat) :=
  match t._root with
  | none => some t.end_
  | some r => t._find_leftmost_node t.fuel (some r)

/-- `size()`. -/
def RBTree.size (t : RBTree α) : Nat := t._size

/-- `rb_tree_iterator::operator*`. -/
def RBTree.deref (t : RBTree α) (it : Option Nat) : Option α :=
  (t.node it).bind (fun n => n.value)

/-- Loop `while (_node->left) _node = _node->left;` of `operator++`. -/
def RBTree.incr_down (t : RBTree α) : Nat → Option Nat → Option (Option Nat)
  | 0, _ => none
  | fuel + 1, _node =>
    match t.node _node with
    | none => none
    | some n => if n.left.isSome then t.incr_down fuel n.left else some _node

/-- Loop `while (p && _node == p->right) { _node = p; p = p->parent; }` of `operator++`;
returns the final `_node`. -/
def RBTree.incr_up (t : RBTree α) : Nat → Option Nat → Option Nat → Option (Option Nat)
  | 0, _, _ => none
  | _ + 1, _node, none => some _node
  | fuel + 1, _node, some p =>
    match t.heap p with
    | none => none
    | some np => if _node = np.right then t.incr_up fuel (some p) np.parent else some _node

/-- `rb_tree_iterator::operator++`. -/
def RBTree.incr (t : RBTree α) (_node : Option Nat) : Option (Option Nat) :=
  match t.node _node with
  | none => none
  | some n =>
    if n.right.isSome then t.incr_down t.fuel n.right
    else
      match t.incr_up t.fuel _node n.parent with
      | none => none
      | some top =>
        match t.node top with
        | none => none
        | some nt => some nt.parent

/-- Values met by `for (it = first; it != end(); ++it)`, with at most `fuel` steps. -/
def RBTree.walk (t : RBTree α) : Nat → Option Nat → Option (List α)
  | 0, _ => none
  | fuel + 1, it =>
    if it = t.end_ then some []
    else
      match t.deref it, t.incr it with
      | some v, some it1 => (t.walk fuel it1).map (fun vs => v :: vs)
      | _, _ => none

/-- Sequence visited from `begin()` to `end()`. -/
def RBTree.toList (t : RBTree α) : Option (List α) :=
  match t.begin_ with
  | none => none
  | some it => t.walk t.fuel it

/-- `insert(InputIterator first, InputIterator last)` on the values of the range. -/
def RBTree.insert_range (t : RBTree α) : List α → Option (RBTree α)
  | [] => some t
  | v :: vs =>
    match t.insert v with
    | none => none
    | some (t1, _, _) => t1.insert_range vs

/-- `erase(const value_type &val)`: the new state and the number of elements removed. -/
def RBTree.erase_val (t : RBTree α) (val : α) : Option (RBTree α × Nat) :=
  match t.find val with
  | none => none
  | some it =>
    if it = t.end_ then some (t, 0)
    else (t.erase it).map (fun t1 => (t1, 1))

/-! ## Specification vocabulary -/

/-- Picture of a linked tree: address, colour (`true` is red), left subtree, value,
right subtree of every node. -/
inductive Shape (α : Type) where
  | nil : Shape α
  | node (a : Nat) (c : Bool) (l : Shape α) (v : α) (r : Shape α) : Shape α

/-- Pointer to the top node of a shape. -/
def Shape.ptr : Shape α → Option Nat
  | .nil => none
  | .node a _ _ _ _ => some a

/-- Addresses of the nodes, in order. -/
def Shape.addrs : Shape α → List Nat
  | .nil => []
  | .node a _ l _ r => l.addrs ++ a :: r.addrs

/-- Values of the nodes, in order (the in-order sequence). -/
def Shape.toList : Shape α → List α
  | .nil => []
  | .node _ _ l v r => l.toList ++ v :: r.toList

/-- Number of nodes. -/
def Shape.count : Shape α → Nat
  | .nil => 0
  | .node _ _ l _ r => l.count + 1 + r.count

/-- Number of nodes on the longest path from the top down to a leaf. -/
def Shape.height : Shape α → Nat
  | .nil => 0
  | .node _ _ l _ r => max l.height r.height + 1

/-- The top node is red. -/
def Shape.isRed : Shape α → Bool
  | .nil => false
  | .node _ c _ _ _ => c

/-- No red node has a red child. -/
def Shape.noRedRed : Shape α → Bool
  | .nil => true
  | .node _ c l _ r => (!c || (!l.isRed && !r.isRed)) && l.noRedRed && r.noRedRed

/-- `some n` when every path from the top to an absent child holds `n` black nodes. -/
def Shape.blackHeight : Shape α → Option Nat
  | .nil => some 0
  | .node _ c l _ r =>
    match l.blackHeight, r.blackHeight with
    | some n, some m => if n = m then some (if c then n else n + 1) else none
    | _, _ => none

/-- Colour invariants: black root, no red node with a red child, equal black height. -/
def Shape.isRB (s : Shape α) : Bool :=
  !s.isRed && s.noRedRed && s.blackHeight.isSome

/-- Read the picture of the tree hanging from pointer `p` off the heap. -/
def RBTree.shapeAt (t : RBTree α) : Nat → Option Nat → Option (Shape α)
  | 0, _ => none
  | _ + 1, none => some .nil
  | fuel + 1, some a =>
    match t.heap a with
    | none => none
    | some n =>
      match n.value, t.shapeAt fuel n.left, t.shapeAt fuel n.right with
      | some v, some l, some r => some (.node a n.color l v r)
      | _, _, _ => none

/-- Picture of the tree reachable from `_root`. -/
def RBTree.shape (t : RBTree α) : Option (Shape α) :=
  t.shapeAt t.fuel t._root

/-- Recursive in-order listing of the values reachable from `_root`. -/
def RBTree.inorder (t : RBTree α) : Option (List α) :=
  t.shape.map Shape.toList

/-- `less<T>` on natural numbers. -/
def natLess : Nat → Nat → Bool := fun x y => decide (x < y)

/-- Tree obtained from the empty tree by inserting `ins` in order and then erasing the
values `ers` in order (each through `find` and `erase(iterator)`). -/
def RBTree.build (ins ers : List Nat) : Option (RBTree Nat) :=
  ers.foldl (fun ot v => ot.bind (fun t => (t.erase_val v).map Prod.fst))
    ((RBTree.empty natLess).insert_range ins)

/-- Observations made on a tree: the sequence visited from `begin()` to `end()`, the
recursive in-order listing, `size()`, the height and the colour invariants. -/
def RBTree.observe (t : RBTree Nat) : Option (List Nat × List Nat × Nat × Nat × Bool) :=
  match t.toList, t.shape with
  | some w, some s => some (w, s.toList, t.size, s.height, s.isRB)
  | _, _ => none

/-- Nodes in order, each with its address and its value. -/
def Shape.nodes : Shape α → List (Nat × α)
  | .nil => []
  | .node a _ l v r => l.nodes ++ (a, v) :: r.nodes

/-- The heap `h` holds the linked tree pictured by `s`, the parent link of the top node
being `par`: every node has the value, colour and child links of the picture and every
child points back to its parent. -/
def Rep (h : Nat → Option (RBTreeNode α)) : Shape α → Option Nat → Prop
  | .nil, _ => True
  | .node a c l v r, par =>
    h a = some { value := some v, left := l.ptr, right := r.ptr, parent := par, color := c } ∧
      Rep h l (some a) ∧ Rep h r (some a)

/-- BST ordering: everything in the left subtree of a node is less than the node and
everything in its right subtree is greater. -/
def Shape.BST (comp : α → α → Bool) : Shape α → Prop
  | .nil => True
  | .node _ _ l v r =>
    (∀ x ∈ l.toList, comp x v = true) ∧ (∀ x ∈ r.toList, comp v x = true) ∧
      l.BST comp ∧ r.BST comp

/-- Equivalence induced by the comparator: neither value goes before the other. -/
def equiv (comp : α → α → Bool) (x y : α) : Bool := !comp x y && !comp y x

/-- The comparator is a strict weak ordering. -/
structure StrictWeak (comp : α → α → Bool) : Prop where
  irrefl : ∀ a, comp a a = false
  trans : ∀ a b c, comp a b = true → comp b c = true → comp a c = true
  equiv_trans : ∀ a b c, equiv comp a b = true → equiv comp b c = true → equiv comp a c = true

/-- Consistent links: `_root` heads a linked tree pictured by `s` whose nodes are pairwise
distinct cells, the root's parent link is the sentinel, the sentinel is a value-less node
outside the tree whose `left` caches the root of a non-empty tree, and no cell beyond the
allocation mark is in use. -/
structure WF (t : RBTree α) (s : Shape α) : Prop where
  root : t._root = s.ptr
  rep : Rep t.heap s (some t._end)
  nodup : s.addrs.Nodup
  end_notin : t._end ∉ s.addrs
  sentinel : ∃ l, t.heap t._end =
      some { value := none, left := l, right := none, parent := none, color := true } ∧
    (s.ptr ≠ none → l = s.ptr)
  bound : ∀ a, t.fresh ≤ a → t.heap a = none

/-- The sequence `l` with `v` placed at its sorted position. -/
def placeSorted (comp : α → α → Bool) (v : α) (l : List α) : List α :=
  l.takeWhile (fun x => comp x v) ++ v :: l.dropWhile (fun x => comp x v)

/-- Cursor to the first node, in order, whose value satisfies `p`; `end()` if there is none. -/
def Shape.firstWhere (s : Shape α) (p : α → Bool) (e : Option Nat) : Option Nat :=
  match s.nodes.find? (fun n => p n.2) with
  | some n => some n.1
  | none => e

/-- One step of the path from a node up to the root: the node passed (address, colour,
value), the side the path came from and the subtree on the other side. -/
structure Frame (α : Type) where
  isLeft : Bool
  a : Nat
  c : Bool
  v : α
  sib : Shape α

/-- The node of a frame with `s` put back below it. -/
def Frame.fill (f : Frame α) (s : Shape α) : Shape α :=
  match f.isLeft with
  | true => .node f.a f.c s f.v f.sib
  | false => .node f.a f.c f.sib f.v s

/-- The whole tree: `s` put back at the end of the path `ctx` (nearest ancestor first). -/
def plug : List (Frame α) → Shape α → Shape α
  | [], s => s
  | f :: fs, s => plug fs (f.fill s)

/-- Parent link of the subtree at the end of a path. -/
def ctxPtr (ctx : List (Frame α)) (par : Option Nat) : Option Nat :=
  match ctx with
  | [] => par
  | f :: _ => some f.a

/-- Addresses of the nodes on and beside a path. -/
def ctxAddrs : List (Frame α) → List Nat
  | [] => []
  | f :: fs => f.a :: (f.sib.addrs ++ ctxAddrs fs)

/-- Cell of the node of a frame when the child on the path is `p` and the parent is `q`. -/
def Frame.cell (f : Frame α) (p q : Option Nat) : RBTreeNode α :=
  match f.isLeft with
  | true => { value := some f.v, left := p, right := f.sib.ptr, parent := q, color := f.c }
  | false => { value := some f.v, left := f.sib.ptr, right := p, parent := q, color := f.c }

/-- The heap holds the nodes on and beside the path `ctx`, the child at its end being `p`
and the parent link of the root being `par`. -/
def RepCtx (h : Nat → Option (RBTreeNode α)) : List (Frame α) → Option Nat → Option Nat → Prop
  | [], _, _ => True
  | f :: fs, par, p =>
    h f.a = some (f.cell p (ctxPtr fs par)) ∧ Rep h f.sib (some f.a) ∧
      RepCtx h fs par (some f.a)

/-- The top node recoloured. -/
def Shape.setColor (c : Bool) : Shape α → Shape α
  | .nil => .nil
  | .node a _ l v r => .node a c l v r

/-- Recolouring step of the fix-up on pictures: parent `f1` and uncle black, grandparent
`f2` red. -/
def recolorStep (f1 f2 : Frame α) (s : Shape α) : Shape α :=
  Frame.fill { f2 with c := true, sib := f2.sib.setColor false }
    (Frame.fill { f1 with c := false } s)

/-- Rotation step of the fix-up on pictures: the subtree of grandparent `f2` after the
rotation(s) and the colour swap. -/
def rotStep (f1 f2 : Frame α) (s : Shape α) : Shape α :=
  match f2.isLeft, f1.isLeft, s with
  | true, true, s => .node f1.a f2.c s f1.v (.node f2.a f1.c f1.sib f2.v f2.sib)
  | true, false, .node x cx l vx r =>
    .node x f2.c (.node f1.a f1.c f1.sib f1.v l) vx (.node f2.a cx r f2.v f2.sib)
  | false, false, s => .node f1.a f2.c (.node f2.a f1.c f2.sib f2.v f1.sib) f1.v s
  | false, true, .node x cx l vx r =>
    .node x f2.c (.node f2.a cx f2.sib f2.v l) vx (.node f1.a f1.c r f1.v f1.sib)
  | _, _, .nil => .nil

/-- One iteration of the loop of `_balance` on pictures: the new subtree of `node`. -/
def balStep (f1 f2 : Frame α) (s : Shape α) : Shape α :=
  if f2.sib.isRed then recolorStep f1 f2 s else rotStep f1 f2 s

/-- The `while` loop of `_balance` on pictures, for a root whose parent link is `NULL`:
`s` is the subtree of `node`, `ctx` the path from `node` up to the root. -/
def fixup : List (Frame α) → Shape α → Shape α
  | [], s => s
  | [f1], s => f1.fill s
  | f1 :: f2 :: rest, s =>
    if s.isRed && f1.c then fixup rest (balStep f1 f2 s)
    else plug (f1 :: f2 :: rest) s

/-- The root of the tree around a path is black (nothing is asked of the empty path). -/
def rootBlack (ctx : List (Frame α)) : Prop :=
  ∀ f, ctx.getLast? = some f → f.c = false

/-- The path `ctx` fits a red-black tree around a subtree of black height `n`: every
sibling subtree is balanced with the matching black height and a red node on the path
has a black sibling subtree and a black parent. -/
def Hole : List (Frame α) → Nat → Prop
  | [], _ => True
  | f :: fs, n =>
    f.sib.noRedRed = true ∧ f.sib.blackHeight = some n ∧
      (f.c = true → f.sib.isRed = false ∧ ∀ g gs, fs = g :: gs → g.c = false) ∧
      Hole fs (if f.c then n else n + 1)

/-- A tree holding the single value `5`: sentinel at address `0`, root at address `1`. -/
def exampleTree : RBTree Nat :=
  { heap := store (store (fun _ => none) 0
      (some { value := none, left := some 1, right := none, parent := none, color := true })) 1
      (some { value := some 5, left := none, right := none, parent := some 0, color := false }),
    fresh := 2, _comp := natLess, _root := some 1, _end := 0, _size := 1 }

/-- Picture of `exampleTree`. -/
def exampleShape : Shape Nat := .node 1 false .nil 5 .nil

/-- `_bst_upper_bound`. -/
def RBTree._bst_upper_bound (t : RBTree α) (val : α) : Nat → Option Nat → Option (Option Nat)
  | 0, _ => none
  | _ + 1, none => some (some t._end)
  | fuel + 1, some a =>
    match t.heap a with
    | none => none
    | some n =>
      match n.value with
      | none => none
      | some v =>
        if !t._comp val v then t._bst_upper_bound val fuel n.right
        else
          match t._bst_upper_bound val fuel n.left with
          | none => none
          | some left => if left ≠ some t._end then some left else some (some a)

/-- `upper_bound`: the node of the returned iterator. -/
def RBTree.upper_bound (t : RBTree α) (val : α) : Option (Option Nat) :=
  t._bst_upper_bound val t.fuel t._root

/-- `equal_range`: the nodes of the two iterators of the returned pair. -/
def RBTree.equal_range (t : RBTree α) (val : α) : Option (Option Nat × Option Nat) :=
  match t.lower_bound val, t.upper_bound val with
  | some l, some u => some (l, u)
  | _, _ => none

/-- Loop `while (_node->right) _node = _node->right;` of `operator--`. -/
def RBTree.decr_down (t : RBTree α) : Nat → Option Nat → Option (Option Nat)
  | 0, _ => none
  | fuel + 1, _node =>
    match t.node _node with
    | none => none
    | some n => if n.right.isSome then t.decr_down fuel n.right else some _node

/-- Loop `while (p && _node == p->left) { _node = p; p = p->parent; }` of `operator--`;
returns the final `_node`. -/
def RBTree.decr_up (t : RBTree α) : Nat → Option Nat → Option Nat → Option (Option Nat)
  | 0, _, _ => none
  | _ + 1, _node, none => some _node
  | fuel + 1, _node, some p =>
    match t.heap p with
    | none => none
    | some np => if _node = np.left then t.decr_up fuel (some p) np.parent else some _node

/-- `rb_tree_iterator::operator--`. -/
def RBTree.decr (t : RBTree α) (_node : Option Nat) : Option (Option Nat) :=
  match t.node _node with
  | none => none
  | some n =>
    if n.left.isSome then t.decr_down t.fuel n.left
    else
      match t.decr_up t.fuel _node n.parent with
      | none => none
      | some top =>
        match t.node top with
        | none => none
        | some nt => some nt.parent

/-- The iterator `it` advanced `k` times with `operator++`. -/
def RBTree.advance (t : RBTree α) : Nat → Option Nat → Option (Option Nat)
  | 0, it => some it
  | k + 1, it =>
    match t.incr it with
    | none => none
    | some it1 => t.advance k it1

/-- `_bst_clear`: post-order destruction of the nodes below `node`. -/
def RBTree._bst_clear : Nat → RBTree α → Option Nat → Option (RBTree α)
  | 0, _, _ => none
  | _ + 1, t, none => some t
  | fuel + 1, t, some a =>
    match t.heap a with
    | none => none
    | some n =>
      match _bst_clear fuel t n.left with
      | none => none
      | some t1 =>
        match t1.heap a with
        | none => none
        | some n1 =>
          match _bst_clear fuel t1 n1.right with
          | none => none
          | some t2 => t2._clear_node (some a)

/-- `clear`. -/
def RBTree.clear (t : RBTree α) : Option (RBTree α) :=
  match RBTree._bst_clear t.fuel t t._root with
  | none => none
  | some t1 => some { t1 with _root := none, _size := 0 }

/-- `_bst_clone`: pre-order copy of the nodes below `node` into fresh cells; returns the
state and the root of the copy. -/
def RBTree._bst_clone : Nat → RBTree α → Option Nat → Option Nat →
    Option (RBTree α × Option Nat)
  | 0, _, _, _ => none
  | _ + 1, t, none, _ => some (t, none)
  | fuel + 1, t, some a, parent =>
    match t.heap a with
    | none => none
    | some n =>
      match n.value with
      | none => none
      | some v =>
        match t._create_node v with
        | (t1, new_node) =>
          match t1.write new_node (fun c => { c with parent := parent }) with
          | none => none
          | some t2 =>
            match t2.heap a with
            | none => none
            | some n2 =>
              match t2.write new_node (fun c => { c with color := n2.color }) with
              | none => none
              | some t3 =>
                match t3.heap a with
                | none => none
                | some n3 =>
                  match _bst_clone fuel t3 n3.left new_node with
                  | none => none
                  | some (t4, l) =>
                    match t4.write new_node (fun c => { c with left := l }) with
                    | none => none
                    | some t5 =>
                      match t5.heap a with
                      | none => none
                      | some n5 =>
                        match _bst_clone fuel t5 n5.right new_node with
                        | none => none
                        | some (t6, r) =>
                          match t6.write new_node (fun c => { c with right := r }) with
                          | none => none
                          | some t7 => some (t7, new_node)

/-- Copy constructor `RBTree(const RBTree &src)`: the new object, living in the memory of
`src` extended by the fresh cells. -/
def RBTree.copy (src : RBTree α) : Option (RBTree α) :=
  match RBTree._bst_clone src.fuel { src with _root := none } src._root none with
  | none => none
  | some (t1, root) =>
    let t2 : RBTree α :=
      { t1 with heap := store t1.heap t1.fresh (some (RBTreeNode.new none)),
                fresh := t1.fresh + 1, _root := root, _end := t1.fresh }
    if t2._root.isSome then t2.attach else some t2

/-- `operator=(const RBTree &other)` on the object `t`; the nodes of `other` are read from
the memory of `t`, in which both objects live, and two objects are the same object exactly
when they own the same sentinel. -/
def RBTree.assign (t other : RBTree α) : Option (RBTree α) :=
  if t._end = other._end then some t
  else
    match t.clear with
    | none => none
    | some t1 =>
      match RBTree._bst_clone t1.fuel { t1 with _comp := other._comp } other._root none with
      | none => none
      | some (t2, root) => some { t2 with _root := root, _size := other._size }

/-- Default constructor run in the memory of the object `m`: the sentinel is allocated at
the first free address. -/
def RBTree.emptyIn (m : RBTree α) (comp : α → α → Bool) : RBTree α :=
  { heap := store m.heap m.fresh (some (RBTreeNode.new none)),
    fresh := m.fresh + 1, _comp := comp, _root := none, _end := m.fresh, _size := 0 }

/-- The object `t` seen in the memory of `m` (after operations on another object of the
same memory). -/
def RBTree.inMemoryOf (t m : RBTree α) : RBTree α :=
  { t with heap := m.heap, fresh := m.fresh }

/-! ## Further specification vocabulary -/

/-- Nodes that come before the subtree at the end of a path, in order. -/
def ctxBefore : List (Frame α) → List (Nat × α)
  | [] => []
  | f :: fs =>
    match f.isLeft with
    | true => ctxBefore fs
    | false => ctxBefore fs ++ (f.sib.nodes ++ [(f.a, f.v)])

/-- Nodes that come after the subtree at the end of a path, in order. -/
def ctxAfter : List (Frame α) → List (Nat × α)
  | [] => []
  | f :: fs =>
    match f.isLeft with
    | true => (f.a, f.v) :: (f.sib.nodes ++ ctxAfter fs)
    | false => ctxAfter fs

/-- Cursor to the first node of a list of nodes; `e` when the list is empty. -/
def cursorHead (e : Nat) : List (Nat × α) → Option Nat
  | [] => some e
  | n :: _ => some n.1

/-- Cursor to the last node of a list of nodes; `NULL` when the list is empty. -/
def cursorLast (l : List (Nat × α)) : Option Nat :=
  match l.getLast? with
  | none => none
  | some n => some n.1

/-- Cursor reached after `k` steps through the nodes `l`: the `k`-th node, or `e` past the
last one. -/
def cursorAt (e : Nat) (l : List (Nat × α)) (k : Nat) : Option Nat :=
  cursorHead e (l.drop k)

/-- The picture with the addresses forgotten: layout, colours and values only. -/
def Shape.strip : Shape α → Shape α
  | .nil => .nil
  | .node _ c l v r => .node 0 c l.strip v r.strip

/-- Loop of `erase(iterator first, iterator last)`:
`while (first != last) { next = first; next++; erase(first); first = next; }`. -/
def RBTree.erase_loop : Nat → RBTree α → Option Nat → Option Nat → Option (RBTree α)
  | 0, _, _, _ => none
  | fuel + 1, t, first, last =>
    if first = last then some t
    else
      match t.incr first with
      | none => none
      | some next =>
        match t.erase first with
        | none => none
        | some t1 => erase_loop fuel t1 next last

/-- `erase(iterator first, iterator last)`. -/
def RBTree.erase_range (t : RBTree α) (first last : Option Nat) : Option (RBTree α) :=
  RBTree.erase_loop t.fuel t first last

/-- `empty()`: `return (!_root)`. -/
def RBTree.empty_ (t : RBTree α) : Bool := !t._root.isSome

/-- `swap(RBTree &x)`: the members of the two objects are exchanged (the allocators carry no
state); each object stays in the memory it lives in.  Returns the new `*this` and `x`. -/
def RBTree.swap (t x : RBTree α) : RBTree α × RBTree α :=
  ({ t with _comp := x._comp, _root := x._root, _end := x._end, _size := x._size },
   { x with _comp := t._comp, _root := t._root, _end := t._end, _size := t._size })

/-- `rbegin()`: the base cursor of `reverse_iterator(end())`. -/
def RBTree.rbegin (t : RBTree α) : Option Nat := t.end_

/-- `rend()`: the base cursor of `reverse_iterator(begin())`. -/
def RBTree.rend (t : RBTree α) : Option (Option Nat) := t.begin_

/-- `reverse_iterator::operator*`: `*(--base())`, on the base cursor `it`. -/
def RBTree.rderef (t : RBTree α) (it : Option Nat) : Option α :=
  match t.decr it with
  | none => none
  | some p => t.deref p

/-- `reverse_iterator::operator++`: `_it--`, on the base cursor `it`. -/
def RBTree.rincr (t : RBTree α) (it : Option Nat) : Option (Option Nat) :=
  t.decr it

/-- Values met by `for (rit = first; rit != rend(); ++rit)` on base cursors, with at most
`fuel` steps. -/
def RBTree.rwalk (t : RBTree α) : Nat → Option Nat → Option (List α)
  | 0, _ => none
  | fuel + 1, it =>
    match t.rend with
    | none => none
    | some e =>
      if it = e then some []
      else
        match t.rderef it, t.rincr it with
        | some v, some it1 => (t.rwalk fuel it1).map (fun vs => v :: vs)
        | _, _ => none

/-- Sequence visited from `rbegin()` to `rend()`. -/
def RBTree.rtoList (t : RBTree α) : Option (List α) :=
  t.rwalk t.fuel t.rbegin

/-- Members of `class set`: the tree. -/
structure set_ (α : Type) where
  _tree : RBTree α

/-- `set::end`. -/
def set_.end_ (s : set_ α) : Option Nat := s._tree.end_

/-- `set::lower_bound`: `return (_tree.lower_bound(val))`. -/
def set_.lower_bound (s : set_ α) (val : α) : Option (Option Nat) :=
  s._tree.lower_bound val

/-- `set::upper_bound`: `return (_tree.lower_bound(val))`. -/
def set_.upper_bound (s : set_ α) (val : α) : Option (Option Nat) :=
  s._tree.lower_bound val

/-- `set::equal_range`: `return (_tree.equal_range(val))`. -/
def set_.equal_range (s : set_ α) (val : α) : Option (Option Nat × Option Nat) :=
  s._tree.equal_range val

/-- Members of `class map`: the tree of pairs. -/
structure map (K V : Type) where
  _tree : RBTree (K × V)

/-- `map::value_compare::operator()`: `return (_comp(x.first, y.first))`. -/
def map.value_compare {K V : Type} (_comp : K → K → Bool) (x y : K × V) : Bool :=
  _comp x.1 y.1

/-- `map::insert(const value_type &)`. -/
def map.insert {K V : Type} (m : map K V) (val : K × V) :
    Option (map K V × Option Nat × Bool) :=
  match m._tree.insert val with
  | none => none
  | some (t, it, b) => some (⟨t⟩, it, b)

/-- `map::operator[]`: `res = insert(make_pair(k, mapped_type())); return ((*res.first).second)`.
Returns the new state, the node of `res.first` and the mapped value the returned reference
designates. -/
def map.subscript {K V : Type} [Inhabited V] (m : map K V) (k : K) :
    Option (map K V × Option Nat × V) :=
  match m.insert (k, default) with
  | none => none
  | some (m1, it, _) =>
    match m1._tree.deref it with
    | none => none
    | some p => some (m1, it, p.2)

/-- `map::find`: `_tree.find(make_pair(k, mapped_type()))`. -/
def map.find {K V : Type} [Inhabited V] (m : map K V) (k : K) : Option (Option Nat) :=
  m._tree.find (k, default)

/-- `map::count`. -/
def map.count {K V : Type} [Inhabited V] (m : map K V) (k : K) : Option Nat :=
  m._tree.count (k, default)

/-- `map::lower_bound`. -/
def map.lower_bound {K V : Type} [Inhabited V] (m : map K V) (k : K) : Option (Option Nat) :=
  m._tree.lower_bound (k, default)

/-- `map::upper_bound`. -/
def map.upper_bound {K V : Type} [Inhabited V] (m : map K V) (k : K) : Option (Option Nat) :=
  m._tree.upper_bound (k, default)

/-- `map::erase(const key_type &)`: the new state and the number of elements removed. -/
def map.erase {K V : Type} [Inhabited V] (m : map K V) (k : K) : Option (map K V × Nat) :=
  match m._tree.erase_val (k, default) with
  | none => none
  | some (t, n) => some (⟨t⟩, n)

/-! ## Specification vocabulary for ranges -/

/-- The sorted sequence `acc` after `x` was offered: unchanged when a member of `acc` is
equivalent to `x`, else `x` placed at its sorted position. -/
def sortedInsert (comp : α → α → Bool) (acc : List α) (x : α) : List α :=
  if acc.any (fun e => equiv comp e x) then acc else placeSorted comp x acc

/-- The members of `l` in their order in `l`, keeping of every class of equivalent values
the first occurrence only. -/
def keepFirst (comp : α → α → Bool) (l : List α) : List α :=
  l.foldl (fun acc x => if acc.any (fun e => equiv comp e x) then acc else acc ++ [x]) []

/-- Two tree objects in one memory: the tree of `exampleTree` and an empty tree constructed
after it. -/
def twoTreesA : RBTree Nat := exampleTree.inMemoryOf (RBTree.emptyIn exampleTree natLess)

/-- The empty tree constructed in the memory of `exampleTree`. -/
def twoTreesB : RBTree Nat := RBTree.emptyIn exampleTree natLess

/-- A map holding the single pair `(5, 50)`: sentinel at address `0`, root at address `1`. -/
def exampleMap : map Nat Nat :=
  ⟨{ heap := store (store (fun _ => none) 0
      (some { value := none, left := some 1, right := none, parent := none, color := true })) 1
      (some { value := some (5, 50), left := none, right := none, parent := some 0,
              color := false }),
     fresh := 2, _comp := map.value_compare natLess, _root := some 1, _end := 0, _size := 1 }⟩

/-- Picture of the tree of `exampleMap`. -/
def exampleMapShape : Shape (Nat × Nat) := .node 1 false .nil (5, 50) .nil

/-! ## The list container (`list.hpp`) -/

/-- Node of the list (`struct ListNode`): `value` is the pointee of `T *value`, which the
two creation functions always allocate. -/
structure ListNode (α : Type) where
  value : α
  next : Option Nat
  prev : Option Nat

/-- Memory in which list objects live: the cells and the allocation mark. -/
structure ListMem (α : Type) where
  heap : Nat → Option (ListNode α)
  fresh : Nat

/-- Cells with cell `a` replaced by `c`. -/
def lstore (h : Nat → Option (ListNode α)) (a : Nat) (c : Option (ListNode α)) :
    Nat → Option (ListNode α) :=
  fun b => if b = a then c else h b

/-- Read through a pointer (`*p`). -/
def ListMem.node (m : ListMem α) (p : Option Nat) : Option (ListNode α) :=
  match p with
  | none => none
  | some a => m.heap a

/-- Write through a pointer (`p->field = ...`). -/
def ListMem.write (m : ListMem α) (p : Option Nat) (f : ListNode α → ListNode α) :
    Option (ListMem α) :=
  match p with
  | none => none
  | some a =>
    match m.heap a with
    | none => none
    | some n => some { m with heap := lstore m.heap a (some (f n)) }

/-- Fuel handed to the loops of a public operation. -/
def ListMem.fuel (m : ListMem α) : Nat := m.fresh + 1

/-- `_createEndNode`: a fresh cell holding `T()` whose links point to itself. -/
def list._createEndNode [Inhabited α] (m : ListMem α) : ListMem α × Nat :=
  ({ heap := lstore m.heap m.fresh
      (some { value := default, next := some m.fresh, prev := some m.fresh }),
     fresh := m.fresh + 1 }, m.fresh)

/-- `_clearNode`: the node is read (`node->value`) and its cell released. -/
def list._clearNode (m : ListMem α) (node : Option Nat) : Option (ListMem α) :=
  match node with
  | none => none
  | some a =>
    match m.heap a with
    | none => none
    | some _ => some { m with heap := lstore m.heap a none }

/-- `begin()` of the list object whose member `_last` is given: `iterator(_last->next)`. -/
def list.begin_ (m : ListMem α) (_last : Nat) : Option (Option Nat) :=
  match m.heap _last with
  | none => none
  | some n => some n.next

/-- `end()`: `iterator(_last)`. -/
def list.end_ (_last : Nat) : Option Nat := some _last

/-- `list_iterator::operator++`: `_node = _node->next`. -/
def list.incr (m : ListMem α) (_node : Option Nat) : Option (Option Nat) :=
  match m.node _node with
  | none => none
  | some n => some n.next

/-- `list_iterator::operator*`. -/
def list.deref (m : ListMem α) (_node : Option Nat) : Option α :=
  match m.node _node with
  | none => none
  | some n => some n.value

/-- Values met by `for (it = first; it != end(); it++)`, with at most `fuel` steps. -/
def list.walk (m : ListMem α) (_last : Nat) : Nat → Option Nat → Option (List α)
  | 0, _ => none
  | fuel + 1, it =>
    if it = list.end_ _last then some []
    else
      match list.deref m it, list.incr m it with
      | some v, some it1 =>
        match list.walk m _last fuel it1 with
        | none => none
        | some vs => some (v :: vs)
      | _, _ => none

/-- Sequence visited from `begin()` to `end()`. -/
def list.toList (m : ListMem α) (_last : Nat) : Option (List α) :=
  match list.begin_ m _last with
  | none => none
  | some it => list.walk m _last m.fuel it

/-- `splice(position, src, first, last)`. -/
def list.splice (m : ListMem α) (position first last : Option Nat) : Option (ListMem α) :=
  match m.node first, m.node position, m.node last with
  | some nf, some np, some nl =>
    -- src_prev = first->prev, src_next = last, this_prev = position->prev,
    -- this_next = position, first_node = first, last_node = last->prev
    match m.write nf.prev (fun c => { c with next := last }) with
    | none => none
    | some m1 =>
      match m1.write last (fun c => { c with prev := nf.prev }) with
      | none => none
      | some m2 =>
        match m2.write np.prev (fun c => { c with next := first }) with
        | none => none
        | some m3 =>
          match m3.write first (fun c => { c with prev := np.prev }) with
          | none => none
          | some m4 =>
            match m4.write position (fun c => { c with prev := nl.prev }) with
            | none => none
            | some m5 => m5.write nl.prev (fun c => { c with next := position })
  | _, _, _ => none

/-- The `while` loop of `_split`; returns `slow`. -/
def list._split_loop (m : ListMem α) (_last : Nat) :
    Nat → Option Nat → Option Nat → Option Nat → Option Nat → Option (Option Nat)
  | 0, _, _, _, _ => none
  | fuel + 1, fast, slow, fast_next, fast_next2 =>
    if fast_next ≠ list.end_ _last ∧ fast_next2 ≠ list.end_ _last then
      match list.incr m fast with
      | none => none
      | some f1 =>
        match list.incr m f1 with
        | none => none
        | some f2 =>
          match list.incr m f2 with
          | none => none
          | some fn =>
            match list.incr m fn with
            | none => none
            | some fn2 =>
              match list.incr m slow with
              | none => none
              | some s1 => list._split_loop m _last fuel f2 s1 fn fn2
    else some slow

/-- `_split`: the memory afterwards and the member `_last` of the new list object that
holds the second half. -/
def list._split [Inhabited α] (m : ListMem α) (_last : Nat) : Option (ListMem α × Nat) :=
  match list.begin_ m _last with
  | none => none
  | some fast =>
    match list.incr m fast with
    | none => none
    | some fast_next =>
      match list.incr m fast_next with
      | none => none
      | some fast_next2 =>
        match list._split_loop m _last m.fuel fast fast fast_next fast_next2 with
        | none => none
        | some slow =>
          match list.incr m slow with
          | none => none
          | some slow1 =>
            match list._createEndNode m with
            | (m1, second) =>
              match list.splice m1 (list.end_ second) slow1 (list.end_ _last) with
              | none => none
              | some m2 => some (m2, second)

/-- `_insertNodeBefore(node, newNode)`. -/
def list._insertNodeBefore (m : ListMem α) (node newNode : Option Nat) : Option (ListMem α) :=
  match m.node node with
  | none => none
  | some n =>
    match m.write n.prev (fun c => { c with next := newNode }) with
    | none => none
    | some m1 =>
      match m1.write newNode (fun c => { c with prev := n.prev }) with
      | none => none
      | some m2 =>
        match m2.write newNode (fun c => { c with next := node }) with
        | none => none
        | some m3 => m3.write node (fun c => { c with prev := newNode })

/-- The `while` loop of `merge(src, comp)`. -/
def list.merge_loop (comp : α → α → Bool) (_last src_last : Nat) :
    Nat → ListMem α → Option Nat → Option Nat → Option (ListMem α)
  | 0, _, _, _ => none
  | fuel + 1, m, node1, node2 =>
    if node2 = list.end_ src_last then some m
    else
      match m.node node1, m.node node2 with
      | some n1, some n2 =>
        if node1 = list.end_ _last || comp n2.value n1.value then
          match list._insertNodeBefore m node1 node2 with
          | none => none
          | some m1 => list.merge_loop comp _last src_last fuel m1 node1 n2.next
        else list.merge_loop comp _last src_last fuel m n1.next node2
      | _, _ => none

/-- `merge(src, comp)` on the list objects with members `_last` and `src_last`. -/
def list.merge (comp : α → α → Bool) (m : ListMem α) (_last src_last : Nat) :
    Option (ListMem α) :=
  match list.begin_ m _last, list.begin_ m src_last with
  | some node1, some node2 =>
    match list.merge_loop comp _last src_last m.fuel m node1 node2 with
    | none => none
    | some m1 =>
      match m1.write (list.end_ src_last) (fun c => { c with prev := list.end_ src_last }) with
      | none => none
      | some m2 => m2.write (list.end_ src_last) (fun c => { c with next := list.end_ src_last })
  | _, _ => none

/-- The `while` loop of `_clear`. -/
def list._clear_loop (_last : Nat) : Nat → ListMem α → Option Nat → Option (ListMem α)
  | 0, _, _ => none
  | fuel + 1, m, node =>
    if node = some _last then some m
    else
      match m.node node with
      | none => none
      | some n =>
        match list._clearNode m node with
        | none => none
        | some m1 => list._clear_loop _last fuel m1 n.next

/-- `_clear`. -/
def list._clear (m : ListMem α) (_last : Nat) : Option (ListMem α) :=
  match m.heap _last with
  | none => none
  | some n =>
    match list._clear_loop _last m.fuel m n.next with
    | none => none
    | some m1 =>
      match m1.write (some _last) (fun c => { c with next := some _last }) with
      | none => none
      | some m2 => m2.write (some _last) (fun c => { c with prev := some _last })

/-- Destructor `~list` (run by `delete second`): `_clear()`, then the sentinel is
released. -/
def list.destroy (m : ListMem α) (_last : Nat) : Option (ListMem α) :=
  match list._clear m _last with
  | none => none
  | some m1 => list._clearNode m1 (some _last)

/-- `sort(comp)` with a bound on the depth of the recursion. -/
def list.sort_rec [Inhabited α] (comp : α → α → Bool) : Nat → ListMem α → Nat → Option (ListMem α)
  | 0, _, _ => none
  | fuel + 1, m, _last =>
    match list.begin_ m _last with
    | none => none
    | some b =>
      if b = list.end_ _last then some m
      else
        match list.incr m b with
        | none => none
        | some b1 =>
          if b1 = list.end_ _last then some m
          else
            match list._split m _last with
            | none => none
            | some (m1, second) =>
              match list.sort_rec comp fuel m1 _last with
              | none => none
              | some m2 =>
                match list.sort_rec comp fuel m2 second with
                | none => none
                | some m3 =>
                  match list.merge comp m3 _last second with
                  | none => none
                  | some m4 => list.destroy m4 second

/-- `sort(comp)` on the list object with member `_last`. -/
def list.sort [Inhabited α] (comp : α → α → Bool) (m : ListMem α) (_last : Nat) :
    Option (ListMem α) :=
  list.sort_rec comp m.fuel m _last

/-! ## Specification vocabulary for lists -/

/-- Address of the first node of a run of nodes; `q` when the run is empty. -/
def headAddr (q : Nat) : List (Nat × α) → Nat
  | [] => q
  | n :: _ => n.1

/-- Address of the last node of a run of nodes; `p` when the run is empty. -/
def lastAddr (p : Nat) : List (Nat × α) → Nat
  | [] => p
  | n :: xs => lastAddr n.1 xs

/-- The cells `h` hold the run of nodes `xs` (address and value), linked in both
directions: the node before the first is `p` and the node after the last is `q`. -/
def Chain (h : Nat → Option (ListNode α)) : Nat → List (Nat × α) → Nat → Prop
  | _, [], _ => True
  | p, n :: xs, q =>
    h n.1 = some { value := n.2, next := some (headAddr q xs), prev := some p } ∧
      Chain h n.1 xs q

/-- The list object whose member `_last` is `e` holds the nodes `xs` in this order: the
sentinel and the nodes form a ring linked in both directions, and are pairwise distinct
cells. -/
structure IsList (m : ListMem α) (e : Nat) (xs : List (Nat × α)) : Prop where
  sentinel : ∃ d, m.heap e =
    some { value := d, next := some (headAddr e xs), prev := some (lastAddr e xs) }
  chain : Chain m.heap e xs e
  nodup : (e :: xs.map Prod.fst).Nodup

/-- No cell beyond the allocation mark is in use. -/
def ListMem.Bounded (m : ListMem α) : Prop := ∀ a, m.fresh ≤ a → m.heap a = none

/-- The ordering handed to the stable sort of the specification: `p` may stay before `q`
unless the value of `q` goes before the value of `p`. -/
def notAfter (comp : α → α → Bool) (p q : Nat × α) : Bool := !comp q.2 p.2

/-- A list holding `7, 3`: sentinel at address `0`, nodes at addresses `1` and `2`. -/
def exampleList : ListMem Nat :=
  { heap := lstore (lstore (lstore (fun _ => none) 0
      (some { value := 0, next := some 1, prev := some 2 })) 1
      (some { value := 7, next := some 2, prev := some 0 })) 2
      (some { value := 3, next := some 0, prev := some 1 }),
    fresh := 3 }

/-! ## Further operations of the list container (`list.hpp`) -/

/-- `empty()`: `_last->next == _last`. -/
def list.empty_ (m : ListMem α) (_last : Nat) : Option Bool :=
  match m.heap _last with
  | none => none
  | some n => some (decide (n.next = some _last))

/-- The `while` loop of `size()`. -/
def list.size_loop (m : ListMem α) (_last : Nat) : Nat → Nat → Option Nat → Option Nat
  | 0, _, _ => none
  | fuel + 1, size, node =>
    if node ≠ some _last then
      match m.node node with
      | none => none
      | some n => list.size_loop m _last fuel (size + 1) n.next
    else some size

/-- `size()`: the nodes met from `_last->next` until `_last` are counted. -/
def list.size (m : ListMem α) (_last : Nat) : Option Nat :=
  match m.heap _last with
  | none => none
  | some n => list.size_loop m _last m.fuel 0 n.next

/-- `splice(position, src)`: `splice(position, src, src.begin(), src.end())`. -/
def list.splice_all (m : ListMem α) (position : Option Nat) (src_last : Nat) :
    Option (ListMem α) :=
  match list.begin_ m src_last with
  | none => none
  | some first => list.splice m position first (list.end_ src_last)

/-- The `while` loop shared by `operator==` and `operator<` of lists: the two cursors where
it stops. -/
def list.compare_loop [DecidableEq α] (m : ListMem α) (lhs rhs : Nat) :
    Nat → Option Nat → Option Nat → Option (Option Nat × Option Nat)
  | 0, _, _ => none
  | fuel + 1, it1, it2 =>
    if it1 ≠ list.end_ lhs ∧ it2 ≠ list.end_ rhs then
      match list.deref m it1, list.deref m it2 with
      | some x, some y =>
        if x = y then
          match list.incr m it1, list.incr m it2 with
          | some a, some b => list.compare_loop m lhs rhs fuel a b
          | _, _ => none
        else some (it1, it2)
      | _, _ => none
    else some (it1, it2)

/-- `operator==` of two list objects with members `_last` equal to `lhs` and `rhs`. -/
def list.operator_eq [DecidableEq α] (m : ListMem α) (lhs rhs : Nat) : Option Bool :=
  match list.begin_ m lhs, list.begin_ m rhs with
  | some b1, some b2 =>
    match list.compare_loop m lhs rhs m.fuel b1 b2 with
    | none => none
    | some (it1, it2) => some (decide (it1 = list.end_ lhs) && decide (it2 = list.end_ rhs))
  | _, _ => none

/-- `operator<` of two list objects with members `_last` equal to `lhs` and `rhs`. -/
def list.operator_lt [DecidableEq α] [LT α] [∀ a b : α, Decidable (a < b)] (m : ListMem α)
    (lhs rhs : Nat) : Option Bool :=
  match list.begin_ m lhs, list.begin_ m rhs with
  | some b1, some b2 =>
    match list.compare_loop m lhs rhs m.fuel b1 b2 with
    | none => none
    | some (it1, it2) =>
      if it1 = list.end_ lhs ∧ it2 ≠ list.end_ rhs then some true
      else if it1 ≠ list.end_ lhs ∧ it2 ≠ list.end_ rhs then
        match list.deref m it1, list.deref m it2 with
        | some x, some y => some (decide (x < y))
        | _, _ => none
      else some false
  | _, _ => none

/-- Two list objects in one memory: the list with sentinel `0` holds `3, 7` (nodes `1`,
`2`), the list with sentinel `3` holds `5` (node `4`). -/
def twoLists : ListMem Nat :=
  { heap := lstore (lstore (lstore (lstore (lstore (fun _ => none) 0
      (some { value := 0, next := some 1, prev := some 2 })) 1
      (some { value := 3, next := some 2, prev := some 0 })) 2
      (some { value := 7, next := some 0, prev := some 1 })) 3
      (some { value := 0, next := some 4, prev := some 4 })) 4
      (some { value := 5, next := some 3, prev := some 3 }),
    fresh := 5 }

/-- Two list objects of integers in one memory: the list with sentinel `0` holds `1, 2`
(nodes `1`, `2`), the list with sentinel `3` holds `1, 3` (nodes `4`, `5`). -/
def twoIntLists : ListMem Int :=
  { heap := lstore (lstore (lstore (lstore (lstore (lstore (fun _ => none) 0
      (some { value := 0, next := some 1, prev := some 2 })) 1
      (some { value := 1, next := some 2, prev := some 0 })) 2
      (some { value := 2, next := some 0, prev := some 1 })) 3
      (some { value := 0, next := some 4, prev := some 5 })) 4
      (some { value := 1, next := some 5, prev := some 3 })) 5
      (some { value := 3, next := some 3, prev := some 4 }),
    fresh := 6 }

/-! ## The vector container (`vector.hpp`) -/

/-- Number of values of `size_type` (`size_t`, 64 bits): its arithmetic wraps around at this
number. -/
def sizeMod : Nat := 2 ^ 64

/-- `ft::max` (`algorithm.hpp`). -/
def algorithm.max (a b : Nat) : Nat := if a > b then a else b

/-- `ft::min` (`algorithm.hpp`). -/
def algorithm.min (a b : Nat) : Nat := if a < b then a else b

/-- The allocator: its `max_size()` and the address of the next block it hands out. -/
structure allocator where
  max_size : Nat
  next : Nat

/-- `allocate(n)`: the address of a fresh block of `n` cells; no block of more than
`max_size()` cells is handed out. -/
def allocator.allocate (a : allocator) (n : Nat) : Option (allocator × Nat) :=
  if n > a.max_size then none else some ({ a with next := a.next + n }, a.next)

/-- The vector object: its members `_alloc`, `_capacity`, `_size`, `_data` (the address of
the block), and the cells of the block `_data` points to, a cell being `none` as long as no
object lives in it. -/
structure vector (α : Type) where
  _alloc : allocator
  _capacity : Nat
  _size : Nat
  _data : Nat
  cells : List (Option α)

/-- Default constructor: capacity and size `0`, `_data = _alloc.allocate(_capacity)`. -/
def vector.empty (a : allocator) : Option (vector α) :=
  match a.allocate 0 with
  | none => none
  | some (a1, p) => some { _alloc := a1, _capacity := 0, _size := 0, _data := p, cells := [] }

/-- `begin()`: `iterator(_data)`; an iterator is the address it holds. -/
def vector.begin_ (v : vector α) : Int := (v._data : Int)

/-- `end()`: `iterator(_data + _size)`. -/
def vector.end_ (v : vector α) : Int := (v._data : Int) + (v._size : Int)

/-- `size()`. -/
def vector.size (v : vector α) : Nat := v._size

/-- `capacity()`. -/
def vector.capacity (v : vector α) : Nat := v._capacity

/-- `max_size()`. -/
def vector.max_size (v : vector α) : Nat := v._alloc.max_size

/-- `empty()`. -/
def vector.empty_ (v : vector α) : Bool := decide (v._size = 0)

/-- Index in the block of the cell the address `p` designates, when it lies in the block. -/
def vector.index (v : vector α) (p : Int) : Option Nat :=
  if (v._data : Int) ≤ p ∧ p < (v._data : Int) + (v.cells.length : Int) then
    some (p - (v._data : Int)).toNat
  else none

/-- Read through a pointer or iterator (`*p`): the cell lies in the block and holds an
object. -/
def vector.deref (v : vector α) (p : Int) : Option α :=
  match v.index p with
  | none => none
  | some i =>
    match v.cells[i]? with
    | some (some x) => some x
    | _ => none

/-- Store through a pointer or iterator (`*p = x`, `_alloc.construct(p, x)`): the cell lies
in the block; elements are plain values, so that storing does not depend on what the cell
held. -/
def vector.assign (v : vector α) (p : Int) (x : α) : Option (vector α) :=
  match v.index p with
  | none => none
  | some i => some { v with cells := v.cells.set i (some x) }

/-- `_alloc.destroy(p)`: the object living in the cell is destroyed. -/
def vector.destroy (v : vector α) (p : Int) : Option (vector α) :=
  match v.index p with
  | none => none
  | some i =>
    match v.cells[i]? with
    | some (some _) => some { v with cells := v.cells.set i none }
    | _ => none

/-- `operator[]`: `_data[n]`. -/
def vector.subscript (v : vector α) (n : Nat) : Option α :=
  v.deref ((v._data : Int) + (n : Int))

/-- What a parameter of type `const value_type &` refers to: an object that lives outside
the storage of the vector, or the object in the cell at address `p` of the block the vector
owns when the call is made. -/
inductive vector.Ref (α : Type) where
  | outside (x : α)
  | inside (p : Int)

/-- The reference `operator[]` returns: `_data[n]`. -/
def vector.subscript_ref (v : vector α) (n : Nat) : vector.Ref α :=
  vector.Ref.inside ((v._data : Int) + (n : Int))

/-- Read through a reference parameter. `released` tells that `_realloc` has destroyed the
objects of the block the reference may point into and deallocated that block since the call
was made: the object referred to is gone then. -/
def vector.read (v : vector α) (released : Bool) : vector.Ref α → Option α
  | vector.Ref.outside x => some x
  | vector.Ref.inside p => if released then none else v.deref p

/-- The `for` loop of `_realloc`: the objects of the old block (of `v`) are copied into the
cells `new` of the new block and destroyed; returns the cells of the new block. -/
def vector._realloc_loop : Nat → vector α → List (Option α) → Nat → Option (List (Option α))
  | 0, _, _, _ => none
  | fuel + 1, v, new, i =>
    if i < v._size then
      match v.deref ((v._data : Int) + (i : Int)) with
      | none => none
      | some x =>
        if i < new.length then
          match v.destroy ((v._data : Int) + (i : Int)) with
          | none => none
          | some v1 => vector._realloc_loop fuel v1 (new.set i (some x)) (i + 1)
        else none
    else some new

/-- `_realloc(n)`: the new state, and whether the old block was released (its objects
destroyed by the loop, then `_alloc.deallocate(_data, _capacity)`). -/
def vector._realloc (v : vector α) (n : Nat) : Option (vector α × Bool) :=
  if n ≤ v._capacity then some (v, false)
  else
    match v._alloc.allocate n with
    | none => none
    | some (a1, _new_data) =>
      match vector._realloc_loop (v._size + 1) v (List.replicate n none) 0 with
      | none => none
      | some new =>
        some ({ _alloc := a1, _capacity := n, _size := v._size, _data := _new_data,
                cells := new }, true)

/-- The `for` loop of `insert(position, val)`:
`for (it = end() - 1; it >= position; it--) *(it + 1) = *it;`. -/
def vector.insert_loop (position : Int) : Nat → vector α → Int → Option (vector α)
  | 0, _, _ => none
  | fuel + 1, v, it =>
    if ¬ (position > it) then
      match v.deref it with
      | none => none
      | some x =>
        match v.assign (it + 1) x with
        | none => none
        | some v1 => vector.insert_loop position fuel v1 (it - 1)
    else some v

/-- `insert(position, val)`: the new state and the returned iterator. The parameter `val`
is a reference (`const value_type &val`); it is read by `_alloc.construct(position.base(),
val)`, after `_realloc` and the loop. -/
def vector.insert (v : vector α) (position : Int) (val : vector.Ref α) :
    Option (vector α × Int) :=
  let offset : Int := position - v.begin_
  match (if (v._size + 1) % sizeMod > v._capacity then
           v._realloc (algorithm.max (algorithm.min (v._capacity * 2 % sizeMod) v.max_size) 1)
         else some (v, false)) with
  | none => none
  | some (v1, released) =>
    let position := v1.begin_ + offset
    match vector.insert_loop position (v1._size + 1) v1 (v1.end_ - 1) with
    | none => none
    | some v2 =>
      match v2.read released val with
      | none => none
      | some x =>
        match v2.assign position x with
        | none => none
        | some v3 => some ({ v3 with _size := (v3._size + 1) % sizeMod }, position)

/-- The `for` loop of `erase(position)`:
`for (it = position; it < end() - 1; it++) *it = *(it + 1);`. -/
def vector.erase_loop : Nat → vector α → Int → Option (vector α)
  | 0, _, _ => none
  | fuel + 1, v, it =>
    if v.end_ - 1 > it then
      match v.deref (it + 1) with
      | none => none
      | some x =>
        match v.assign it x with
        | none => none
        | some v1 => vector.erase_loop fuel v1 (it + 1)
    else some v

/-- `erase(position)`: the new state and the returned iterator. -/
def vector.erase (v : vector α) (position : Int) : Option (vector α × Int) :=
  match v.destroy position with
  | none => none
  | some v1 =>
    match vector.erase_loop (v1._size + 1) v1 position with
    | none => none
    | some v2 => some ({ v2 with _size := (v2._size + sizeMod - 1) % sizeMod }, position)

/-- `push_back(val)`: `insert(end(), val)`; `val` is a reference. -/
def vector.push_back (v : vector α) (val : vector.Ref α) : Option (vector α) :=
  match v.insert v.end_ val with
  | none => none
  | some (v1, _) => some v1

/-- `pop_back()`: `erase(end() - 1)`. -/
def vector.pop_back (v : vector α) : Option (vector α) :=
  match v.erase (v.end_ - 1) with
  | none => none
  | some (v1, _) => some v1

/-- `back()`: `_data[_size - 1]`, read. -/
def vector.back (v : vector α) : Option α :=
  v.subscript ((v._size + sizeMod - 1) % sizeMod)

/-- `back()`: the reference `_data[_size - 1]` it returns. -/
def vector.back_ref (v : vector α) : vector.Ref α :=
  v.subscript_ref ((v._size + sizeMod - 1) % sizeMod)

/-- Exceptions thrown by the containers. -/
inductive Thrown where
  | out_of_range

/-- `at(n)`: throws `out_of_range` when `n >= _size`, else returns `(*this)[n]`. -/
def vector.at_ (v : vector α) (n : Nat) : Except Thrown (Option α) :=
  if n ≥ v._size then Except.error Thrown.out_of_range else Except.ok (v.subscript n)

/-- The `while` loop shared by `operator==` and `operator<` of vectors: the two iterators
where it stops. -/
def vector.compare_loop [DecidableEq α] (lhs rhs : vector α) :
    Nat → Int → Int → Option (Int × Int)
  | 0, _, _ => none
  | fuel + 1, it1, it2 =>
    if it1 ≠ lhs.end_ ∧ it2 ≠ rhs.end_ then
      match lhs.deref it1, rhs.deref it2 with
      | some x, some y =>
        if x = y then vector.compare_loop lhs rhs fuel (it1 + 1) (it2 + 1)
        else some (it1, it2)
      | _, _ => none
    else some (it1, it2)

/-- `operator==` of vectors. -/
def vector.operator_eq [DecidableEq α] (lhs rhs : vector α) : Option Bool :=
  match vector.compare_loop lhs rhs (lhs._size + 1) lhs.begin_ rhs.begin_ with
  | none => none
  | some (it1, it2) => some (decide (it1 = lhs.end_) && decide (it2 = rhs.end_))

/-- `operator<` of vectors. -/
def vector.operator_lt [DecidableEq α] [LT α] [∀ a b : α, Decidable (a < b)]
    (lhs rhs : vector α) : Option Bool :=
  match vector.compare_loop lhs rhs (lhs._size + 1) lhs.begin_ rhs.begin_ with
  | none => none
  | some (it1, it2) =>
    if it1 = lhs.end_ ∧ it2 ≠ rhs.end_ then some true
    else if it1 ≠ lhs.end_ ∧ it2 ≠ rhs.end_ then
      match lhs.deref it1, rhs.deref it2 with
      | some x, some y => some (decide (x < y))
      | _, _ => none
    else some false

/-! ## The stack adaptor (`stack.hpp`) over the vector -/

/-- The stack object: its member `c`, the underlying container. -/
structure stack (α : Type) where
  c : vector α

/-- `empty()`. -/
def stack.empty_ (s : stack α) : Bool := s.c.empty_

/-- `size()`. -/
def stack.size (s : stack α) : Nat := s.c.size

/-- `top()`: `c.back()`, read. -/
def stack.top (s : stack α) : Option α := s.c.back

/-- `top()`: the reference `c.back()` it returns. -/
def stack.top_ref (s : stack α) : vector.Ref α := s.c.back_ref

/-- `push(val)`: `c.push_back(val)`; `val` is a reference (`const value_type &val`). -/
def stack.push (s : stack α) (val : vector.Ref α) : Option (stack α) :=
  match s.c.push_back val with
  | none => none
  | some c1 => some { c := c1 }

/-- `pop()`: `c.pop_back()`. -/
def stack.pop (s : stack α) : Option (stack α) :=
  match s.c.pop_back with
  | none => none
  | some c1 => some { c := c1 }

/-! ## Specification vocabulary for vectors and sequences -/

/-- The vector object `v` holds the sequence `xs`: its size is the length of `xs`, its block
has `_capacity` cells, of which the first `_size` hold the members of `xs` in order. -/
structure vector.Holds (v : vector α) (xs : List α) : Prop where
  size : v._size = xs.length
  block : v.cells.length = v._capacity
  le : v._size ≤ v._capacity
  elems : ∀ i, i < xs.length → v.cells[i]? = some xs[i]?

/-- Lexicographic order of sequences: `a` is a proper beginning of `b`, or at the first
position where the two differ the member of `a` is the smaller one. -/
def lexSmaller [LT α] (a b : List α) : Prop :=
  (∃ c, c ≠ [] ∧ b = a ++ c) ∨
    (∃ p x s y t, a = p ++ x :: s ∧ b = p ++ y :: t ∧ x < y)

/-- The two sequences left when the longest common beginning of `a` and `b` is dropped. -/
def dropCommon [DecidableEq α] : List α → List α → List α × List α
  | x :: xs, y :: ys => if x = y then dropCommon xs ys else (x :: xs, y :: ys)
  | a, b => (a, b)

/-- The two sequences are both empty: the value `operator==` returns, in terms of what is
left of the two sequences where its loop stops. -/
def bothEmpty : List α × List α → Bool
  | ([], []) => true
  | _ => false

/-- The value `operator<` returns, in terms of what is left of the two sequences where its
loop stops: the left one is exhausted and the right one is not, or both are not and the
next member on the left is smaller than the next member on the right. -/
def lexLtRest [LT α] [∀ a b : α, Decidable (a < b)] : List α × List α → Bool
  | ([], _ :: _) => true
  | (x :: _, y :: _) => decide (x < y)
  | _ => false

/-- A vector holding `7, 3` in a block of two cells at address `4`. -/
def exampleVector : vector Nat :=
  { _alloc := { max_size := 1000, next := 6 }, _capacity := 2, _size := 2, _data := 4,
    cells := [some 7, some 3] }

/-- A vector holding `7, 3` in a block of four cells at address `4`. -/
def exampleVectorSpare : vector Nat :=
  { _alloc := { max_size := 1000, next := 8 }, _capacity := 4, _size := 2, _data := 4,
    cells := [some 7, some 3, none, none] }

/-- A vector of integers holding `1, 2`. -/
def exampleVectorA : vector Int :=
  { _alloc := { max_size := 1000, next := 6 }, _capacity := 2, _size := 2, _data := 4,
    cells := [some 1, some 2] }

/-- A vector of integers holding `1, 3` in a block of four cells. -/
def exampleVectorB : vector Int :=
  { _alloc := { max_size := 1000, next := 14 }, _capacity := 4, _size := 2, _data := 10,
    cells := [some 1, some 3, none, none] }

/-! ## Proofs -/

theorem Shape.addrs_eq_map (s : Shape α) : s.addrs = s.nodes.map Prod.fst := by
  induction s with
  | nil => rfl
  | node a c l v r ihl ihr => simp [Shape.addrs, Shape.nodes, ihl, ihr]

theorem Shape.toList_eq_map (s : Shape α) : s.toList = s.nodes.map Prod.snd := by
  induction s with
  | nil => rfl
  | node a c l v r ihl ihr => simp [Shape.toList, Shape.nodes, ihl, ihr]

theorem Shape.count_eq_length (s : Shape α) : s.count = s.addrs.length := by
  induction s with
  | nil => rfl
  | node a c l v r ihl ihr => simp [Shape.count, Shape.addrs, ihl, ihr]; omega

theorem Shape.height_le_count (s : Shape α) : s.height ≤ s.count := by
  induction s with
  | nil => simp [Shape.height]
  | node a c l v r ihl ihr => simp [Shape.count, Shape.height]; omega

theorem Rep.frame {h h' : Nat → Option (RBTreeNode α)} {s : Shape α} {par : Option Nat}
    (hs : Rep h s par) (hag : ∀ a ∈ s.addrs, h' a = h a) : Rep h' s par := by
  induction s generalizing par with
  | nil => trivial
  | node a c l v r ihl ihr =>
    obtain ⟨h1, h2, h3⟩ := hs
    refine ⟨?_, ihl h2 ?_, ihr h3 ?_⟩
    · rw [hag a (by simp [Shape.addrs])]; exact h1
    · intro b hb; exact hag b (by simp [Shape.addrs, hb])
    · intro b hb; exact hag b (by simp [Shape.addrs, hb])

theorem Rep.alloc {h : Nat → Option (RBTreeNode α)} {s : Shape α} {par : Option Nat}
    (hs : Rep h s par) {a : Nat} (ha : a ∈ s.addrs) : ∃ n, h a = some n := by
  induction s generalizing par with
  | nil => simp [Shape.addrs] at ha
  | node b c l v r ihl ihr =>
    obtain ⟨h1, h2, h3⟩ := hs
    simp [Shape.addrs] at ha
    rcases ha with ha | ha | ha
    · exact ihl h2 ha
    · subst ha; exact ⟨_, h1⟩
    · exact ihr h3 ha

theorem length_le_of_nodup_lt {l : List Nat} {n : Nat} (hd : l.Nodup) (hl : ∀ a ∈ l, a < n) :
    l.length ≤ n := by
  have hsub : l ⊆ List.range n := fun a ha => List.mem_range.2 (hl a ha)
  have := (List.subperm_of_subset hd hsub).length_le
  simpa using this

theorem WF.addr_lt {t : RBTree α} {s : Shape α} (w : WF t s) {a : Nat} (ha : a ∈ s.addrs) :
    a < t.fresh := by
  by_contra hlt
  obtain ⟨n, hn⟩ := w.rep.alloc ha
  rw [w.bound a (by omega)] at hn
  cases hn

theorem WF.end_lt {t : RBTree α} {s : Shape α} (w : WF t s) : t._end < t.fresh := by
  by_contra hlt
  obtain ⟨l, hl, _⟩ := w.sentinel
  rw [w.bound _ (by omega)] at hl
  cases hl

theorem WF.count_lt {t : RBTree α} {s : Shape α} (w : WF t s) : s.count < t.fresh := by
  have h1 : (t._end :: s.addrs).Nodup := List.nodup_cons.2 ⟨w.end_notin, w.nodup⟩
  have h2 := length_le_of_nodup_lt h1 (n := t.fresh) (by
    intro a ha
    rcases List.mem_cons.1 ha with rfl | ha
    · exact w.end_lt
    · exact w.addr_lt ha)
  rw [Shape.count_eq_length]
  simpa using h2

theorem WF.height_lt_fuel {t : RBTree α} {s : Shape α} (w : WF t s) : s.height < t.fuel := by
  have := w.count_lt
  have := s.height_le_count
  unfold RBTree.fuel
  omega

theorem StrictWeak.asymm {comp : α → α → Bool} (hsw : StrictWeak comp) {a b : α}
    (hab : comp a b = true) : comp b a = false := by
  cases hba : comp b a with
  | false => rfl
  | true =>
    have := hsw.trans a b a hab hba
    rw [hsw.irrefl] at this
    cases this

theorem equiv_false_of_lt {comp : α → α → Bool} {a b : α} (h : comp a b = true) :
    equiv comp a b = false := by
  simp [equiv, h]

theorem equiv_false_of_gt {comp : α → α → Bool} {a b : α} (h : comp b a = true) :
    equiv comp a b = false := by
  simp [equiv, h]

theorem Shape.mem_toList_of_mem_nodes {s : Shape α} {a : Nat} {e : α} (h : (a, e) ∈ s.nodes) :
    e ∈ s.toList := by
  rw [Shape.toList_eq_map]
  exact List.mem_map.2 ⟨(a, e), h, rfl⟩

theorem bst_find_spec (t : RBTree α) (hsw : StrictWeak t._comp) (val : α) :
    ∀ (s : Shape α) (par : Option Nat) (fuel : Nat), Rep t.heap s par → s.BST t._comp →
      s.height < fuel →
      ∃ c, t._bst_find val fuel s.ptr = some c ∧
        ((c = some t._end ∧ ∀ e ∈ s.toList, equiv t._comp e val = false) ∨
         (∃ a e, c = some a ∧ (a, e) ∈ s.nodes ∧ equiv t._comp e val = true)) := by
  intro s
  induction s with
  | nil =>
    intro par fuel _ _ hf
    cases fuel with
    | zero => simp [Shape.height] at hf
    | succ fuel =>
      refine ⟨some t._end, by simp [RBTree._bst_find, Shape.ptr], Or.inl ⟨rfl, ?_⟩⟩
      simp [Shape.toList]
  | node a c l v r ihl ihr =>
    intro par fuel hrep hbst hf
    obtain ⟨h1, h2, h3⟩ := hrep
    obtain ⟨b1, b2, b3, b4⟩ := hbst
    cases fuel with
    | zero => simp at hf
    | succ fuel =>
      simp only [Shape.height] at hf
      rw [show (Shape.node a c l v r).ptr = some a from rfl]
      simp only [RBTree._bst_find, h1]
      by_cases hc1 : t._comp v val = true
      · obtain ⟨c', hc', hres⟩ := ihr (some a) fuel h3 b4 (by omega)
        refine ⟨c', by simp [hc1, hc'], ?_⟩
        rcases hres with ⟨rfl, hall⟩ | ⟨a', e', rfl, hmem, heq⟩
        · left
          refine ⟨rfl, ?_⟩
          intro e he
          simp only [Shape.toList, List.mem_append, List.mem_cons] at he
          rcases he with he | rfl | he
          · exact equiv_false_of_lt (hsw.trans _ _ _ (b1 e he) hc1)
          · exact equiv_false_of_lt hc1
          · exact hall e he
        · right
          exact ⟨a', e', rfl, by simp [Shape.nodes, hmem], heq⟩
      · by_cases hc2 : t._comp val v = true
        · obtain ⟨c', hc', hres⟩ := ihl (some a) fuel h2 b3 (by omega)
          refine ⟨c', by simp [hc1, hc2, hc'], ?_⟩
          rcases hres with ⟨rfl, hall⟩ | ⟨a', e', rfl, hmem, heq⟩
          · left
            refine ⟨rfl, ?_⟩
            intro e he
            simp only [Shape.toList, List.mem_append, List.mem_cons] at he
            rcases he with he | rfl | he
            · exact hall e he
            · exact equiv_false_of_gt hc2
            · exact equiv_false_of_gt (hsw.trans _ _ _ hc2 (b2 e he))
          · right
            exact ⟨a', e', rfl, by simp [Shape.nodes, hmem], heq⟩
        · refine ⟨some a, by simp [hc1, hc2], Or.inr ⟨a, v, rfl, by simp [Shape.nodes], ?_⟩⟩
          simp [equiv, hc1, hc2]

theorem equiv_symm {comp : α → α → Bool} {a b : α} (h : equiv comp a b = true) :
    equiv comp b a = true := by
  simp [equiv] at h ⊢
  exact ⟨h.2, h.1⟩

theorem Shape.BST.pairwise {comp : α → α → Bool} (hsw : StrictWeak comp) :
    ∀ {s : Shape α}, s.BST comp → s.nodes.Pairwise (fun p q => comp p.2 q.2 = true) := by
  intro s
  induction s with
  | nil => intro _; simp [Shape.nodes]
  | node a c l v r ihl ihr =>
    intro hb
    obtain ⟨b1, b2, b3, b4⟩ := hb
    simp only [Shape.nodes]
    rw [List.pairwise_append]
    refine ⟨ihl b3, List.pairwise_cons.2 ⟨?_, ihr b4⟩, ?_⟩
    · intro q hq
      exact b2 _ (Shape.mem_toList_of_mem_nodes (a := q.1) hq)
    · intro p hp q hq
      have hpv : comp p.2 v = true := b1 _ (Shape.mem_toList_of_mem_nodes (a := p.1) hp)
      rcases List.mem_cons.1 hq with rfl | hq
      · exact hpv
      · exact hsw.trans _ _ _ hpv (b2 _ (Shape.mem_toList_of_mem_nodes (a := q.1) hq))

theorem Shape.BST.equiv_unique {comp : α → α → Bool} (hsw : StrictWeak comp) {s : Shape α}
    (hb : s.BST comp) {val : α} {p q : Nat × α} (hp : p ∈ s.nodes) (hq : q ∈ s.nodes)
    (hpe : equiv comp p.2 val = true) (hqe : equiv comp q.2 val = true) : p = q := by
  by_contra hne
  have hpw := (Shape.BST.pairwise hsw hb).imp
    (S := fun (p q : Nat × α) => comp p.2 q.2 = true ∨ comp q.2 p.2 = true) (fun h => Or.inl h)
  have hsym : Symmetric (fun p q : Nat × α => comp p.2 q.2 = true ∨ comp q.2 p.2 = true) :=
    fun _ _ h => h.symm
  have hrel := hpw.forall hsym hp hq hne
  have heq := hsw.equiv_trans _ _ _ hpe (equiv_symm hqe)
  rcases hrel with h | h
  · rw [equiv_false_of_lt h] at heq; cases heq
  · rw [equiv_false_of_gt h] at heq; cases heq

theorem Rep.node_of_mem {h : Nat → Option (RBTreeNode α)} {s : Shape α} {par : Option Nat}
    (hs : Rep h s par) {a : Nat} {e : α} (ha : (a, e) ∈ s.nodes) :
    ∃ n, h a = some n ∧ n.value = some e := by
  induction s generalizing par with
  | nil => simp [Shape.nodes] at ha
  | node b c l v r ihl ihr =>
    obtain ⟨h1, h2, h3⟩ := hs
    simp only [Shape.nodes, List.mem_append, List.mem_cons, Prod.mk.injEq] at ha
    rcases ha with ha | ⟨rfl, rfl⟩ | ha
    · exact ihl h2 ha
    · exact ⟨_, h1, rfl⟩
    · exact ihr h3 ha

theorem Shape.mem_addrs_of_mem_nodes {s : Shape α} {a : Nat} {e : α} (h : (a, e) ∈ s.nodes) :
    a ∈ s.addrs := by
  rw [Shape.addrs_eq_map]
  exact List.mem_map.2 ⟨(a, e), h, rfl⟩

theorem find_count_general (t : RBTree α) (s : Shape α) (val : α) (hwf : WF t s)
    (hsw : StrictWeak t._comp) (hbst : s.BST t._comp) :
    ∃ c, t.find val = some c ∧
      ((c = t.end_ ∧ (∀ e ∈ s.toList, equiv t._comp e val = false) ∧ t.count val = some 0) ∨
       (∃ a e, c = some a ∧ (a, e) ∈ s.nodes ∧ equiv t._comp e val = true ∧
          t.deref c = some e ∧
          (∀ a' e', (a', e') ∈ s.nodes → equiv t._comp e' val = true → a' = a ∧ e' = e) ∧
          t.count val = some 1)) := by
  obtain ⟨c, hc, hres⟩ := bst_find_spec t hsw val s (some t._end) t.fuel hwf.rep hbst
    hwf.height_lt_fuel
  have hfind : t.find val = some c := by
    unfold RBTree.find
    rw [hwf.root]
    exact hc
  refine ⟨c, hfind, ?_⟩
  rcases hres with ⟨rfl, hall⟩ | ⟨a, e, rfl, hmem, heq⟩
  · left
    refine ⟨rfl, hall, ?_⟩
    simp [RBTree.count, hfind, RBTree.end_]
  · right
    obtain ⟨n, hn, hv⟩ := hwf.rep.node_of_mem hmem
    refine ⟨a, e, rfl, hmem, heq, ?_, ?_, ?_⟩
    · simp [RBTree.deref, RBTree.node, hn, hv]
    · intro a' e' hmem' heq'
      have := Shape.BST.equiv_unique hsw hbst hmem' hmem heq' heq
      simpa using this
    · have hne : a ≠ t._end := by
        rintro rfl
        exact hwf.end_notin (Shape.mem_addrs_of_mem_nodes hmem)
      simp [RBTree.count, hfind, RBTree.end_, hne]

theorem Shape.find_nodes_none_of_all {s : Shape α} {p : α → Bool}
    (h : ∀ x ∈ s.toList, p x = false) : s.nodes.find? (fun n => p n.2) = none := by
  rw [List.find?_eq_none]
  intro n hn
  simp [h n.2 (Shape.mem_toList_of_mem_nodes (a := n.1) hn)]

theorem bst_lower_bound_spec (t : RBTree α) (hsw : StrictWeak t._comp) (val : α) :
    ∀ (s : Shape α) (par : Option Nat) (fuel : Nat), Rep t.heap s par → s.BST t._comp →
      t._end ∉ s.addrs → s.height < fuel →
      t._bst_lower_bound val fuel s.ptr =
        some (s.firstWhere (fun e => !t._comp e val) (some t._end)) := by
  intro s
  induction s with
  | nil =>
    intro par fuel _ _ _ hf
    cases fuel with
    | zero => simp [Shape.height] at hf
    | succ fuel => simp [RBTree._bst_lower_bound, Shape.ptr, Shape.firstWhere, Shape.nodes]
  | node a c l v r ihl ihr =>
    intro par fuel hrep hbst hend hf
    obtain ⟨h1, h2, h3⟩ := hrep
    obtain ⟨b1, b2, b3, b4⟩ := hbst
    simp only [Shape.addrs, List.mem_append, List.mem_cons, not_or] at hend
    obtain ⟨e1, e2, e3⟩ := hend
    cases fuel with
    | zero => simp at hf
    | succ fuel =>
      simp only [Shape.height] at hf
      rw [show (Shape.node a c l v r).ptr = some a from rfl]
      simp only [RBTree._bst_lower_bound, h1]
      by_cases hc1 : t._comp v val = true
      · rw [if_pos hc1, ihr (some a) fuel h3 b4 e3 (by omega)]
        have hl : l.nodes.find? (fun n => !t._comp n.2 val) = none :=
          Shape.find_nodes_none_of_all (p := fun e => !t._comp e val) (by
            intro x hx
            simp [hsw.trans _ _ _ (b1 x hx) hc1])
        simp [Shape.firstWhere, Shape.nodes, List.find?_append, hl, hc1]
      · rw [if_neg hc1, ihl (some a) fuel h2 b3 e1 (by omega)]
        simp only [Shape.firstWhere, Shape.nodes, List.find?_append]
        cases hfl : l.nodes.find? (fun n => !t._comp n.2 val) with
        | none => simp [hc1]
        | some n =>
          have hn : n.1 ≠ t._end := by
            intro heq
            apply e1
            rw [← heq]
            exact Shape.mem_addrs_of_mem_nodes (e := n.2) (List.mem_of_find?_eq_some hfl)
          simp [hn]

theorem store_same (h : Nat → Option (RBTreeNode α)) (a : Nat) (c : Option (RBTreeNode α)) :
    store h a c a = c := by simp [store]

theorem store_other (h : Nat → Option (RBTreeNode α)) (c : Option (RBTreeNode α)) {a b : Nat}
    (hne : b ≠ a) : store h a c b = h b := by simp [store, hne]

theorem rotateLeft_cells (t : RBTree α) (x y : Nat) (nx ny : RBTreeNode α)
    (hx : t.heap x = some nx) (hxr : nx.right = some y) (hy : t.heap y = some ny) (hxy : x ≠ y)
    (hb : ∀ b, ny.left = some b → b ≠ x ∧ b ≠ y ∧ ∃ nb, t.heap b = some nb)
    (hp : ∀ p, nx.parent = some p → p ≠ x ∧ p ≠ y ∧ ny.left ≠ some p ∧ ∃ np, t.heap p = some np) :
    ∃ t', t._rotateLeft (some x) = some t' ∧
      t'.heap x = some { nx with right := ny.left, parent := some y } ∧
      t'.heap y = some { ny with left := some x, parent := nx.parent } ∧
      (∀ b nb, ny.left = some b → t.heap b = some nb →
        t'.heap b = some { nb with parent := some x }) ∧
      (∀ p np, nx.parent = some p → t.heap p = some np →
        t'.heap p = some (if some x = np.left then { np with left := some y }
                          else { np with right := some y })) ∧
      (∀ a, a ≠ x → a ≠ y → ny.left ≠ some a → nx.parent ≠ some a → t'.heap a = t.heap a) ∧
      t'._root = (if nx.parent = none then some y else t._root) ∧
      t'.fresh = t.fresh ∧ t'._comp = t._comp ∧ t'._end = t._end ∧ t'._size = t._size := by
  obtain ⟨xv, xl, xr, xp, xc⟩ := nx
  obtain ⟨yv, yl, yr, yp, yc⟩ := ny
  simp only at hxr hb hp
  subst hxr
  have hyx : y ≠ x := fun h => hxy h.symm
  cases hyl : yl with
  | none =>
    subst hyl
    cases xp with
    | none =>
      simp only [RBTree._rotateLeft, RBTree.node, RBTree.write, Option.some_bind, hx, hy,
        store_same, store_other _ _ hxy, store_other _ _ hyx, Option.isSome_some,
        Option.isSome_none, Option.isNone_none, Option.isNone_some, if_true, if_false,
        Bool.false_eq_true]
      refine ⟨_, rfl, ?_, ?_, ?_, ?_, ?_, rfl, rfl, rfl, rfl, rfl⟩
      · simp only [store_same]
      · simp only [store_same, store_other _ _ hyx]
      · intro b nb hb; cases hb
      · intro p np hp; cases hp
      · intro a h1 h2 _ _
        simp only [store_other _ _ h1, store_other _ _ h2]
    | some p =>
      obtain ⟨hpx, hpy, -, np, hnp⟩ := hp p rfl
      have hxp : x ≠ p := fun h => hpx h.symm
      have hyp : y ≠ p := fun h => hpy h.symm
      obtain ⟨pv, pl, pr, pp, pc⟩ := np
      by_cases hl : some x = pl
      · subst hl
        simp only [RBTree._rotateLeft, RBTree.node, RBTree.write, Option.some_bind, hx, hy, hnp,
          store_same, store_other _ _ hxy, store_other _ _ hyx, store_other _ _ hpx,
          store_other _ _ hpy, store_other _ _ hxp, store_other _ _ hyp, Option.isSome_some,
          Option.isSome_none, Option.isNone_none, Option.isNone_some, if_true, if_false,
          Bool.false_eq_true]
        refine ⟨_, rfl, ?_, ?_, ?_, ?_, ?_, ?_, rfl, rfl, rfl, rfl⟩
        · simp only [store_same]
        · simp only [store_same, store_other _ _ hyx]
        · intro b nb hb; cases hb
        · intro p' np' hp' hnp'
          cases hp'
          rw [hnp] at hnp'
          cases hnp'
          simp only [store_same, store_other _ _ hpx, store_other _ _ hpy, if_true]
        · intro a h1 h2 _ h4
          have h4' : a ≠ p := fun h => h4 (by rw [h])
          simp only [store_other _ _ h1, store_other _ _ h2, store_other _ _ h4']
        · simp
      · simp only [RBTree._rotateLeft, RBTree.node, RBTree.write, Option.some_bind, hx, hy, hnp,
          store_same, store_other _ _ hxy, store_other _ _ hyx, store_other _ _ hpx,
          store_other _ _ hpy, store_other _ _ hxp, store_other _ _ hyp, Option.isSome_some,
          Option.isSome_none, Option.isNone_none, Option.isNone_some, if_true, if_false,
          Bool.false_eq_true, hl]
        refine ⟨_, rfl, ?_, ?_, ?_, ?_, ?_, ?_, rfl, rfl, rfl, rfl⟩
        · simp only [store_same]
        · simp only [store_same, store_other _ _ hyx]
        · intro b nb hb; cases hb
        · intro p' np' hp' hnp'
          cases hp'
          rw [hnp] at hnp'
          cases hnp'
          simp only [store_same, store_other _ _ hpx, store_other _ _ hpy, if_false, hl]
        · intro a h1 h2 _ h4
          have h4' : a ≠ p := fun h => h4 (by rw [h])
          simp only [store_other _ _ h1, store_other _ _ h2, store_other _ _ h4']
        · simp
  | some b =>
    subst hyl
    obtain ⟨hbx, hby, nb, hnb⟩ := hb b rfl
    have hxb : x ≠ b := fun h => hbx h.symm
    have hyb : y ≠ b := fun h => hby h.symm
    cases xp with
    | none =>
      simp only [RBTree._rotateLeft, RBTree.node, RBTree.write, Option.some_bind, hx, hy, hnb,
        store_same, store_other _ _ hxy, store_other _ _ hyx, store_other _ _ hbx,
        store_other _ _ hby, store_other _ _ hxb, store_other _ _ hyb, Option.isSome_some,
        Option.isSome_none, Option.isNone_none, Option.isNone_some, if_true, if_false,
        Bool.false_eq_true]
      refine ⟨_, rfl, ?_, ?_, ?_, ?_, ?_, rfl, rfl, rfl, rfl, rfl⟩
      · simp only [store_same]
      · simp only [store_same, store_other _ _ hyx]
      · intro b' nb' hb' hnb'
        cases hb'
        rw [hnb] at hnb'
        cases hnb'
        simp only [store_same, store_other _ _ hbx, store_other _ _ hby]
      · intro p np hp; cases hp
      · intro a h1 h2 h3 _
        have h3' : a ≠ b := fun h => h3 (by rw [h])
        simp only [store_other _ _ h1, store_other _ _ h2, store_other _ _ h3']
    | some p =>
      obtain ⟨hpx, hpy, hpb, np, hnp⟩ := hp p rfl
      have hxp : x ≠ p := fun h => hpx h.symm
      have hyp : y ≠ p := fun h => hpy h.symm
      have hbp : b ≠ p := fun h => hpb (by rw [h])
      have hpb' : p ≠ b := fun h => hbp h.symm
      obtain ⟨pv, pl, pr, pp, pc⟩ := np
      by_cases hl : some x = pl
      · subst hl
        simp only [RBTree._rotateLeft, RBTree.node, RBTree.write, Option.some_bind, hx, hy, hnb,
          hnp, store_same, store_other _ _ hxy, store_other _ _ hyx, store_other _ _ hbx,
          store_other _ _ hby, store_other _ _ hxb, store_other _ _ hyb, store_other _ _ hpx,
          store_other _ _ hpy, store_other _ _ hxp, store_other _ _ hyp, store_other _ _ hbp,
          store_other _ _ hpb', Option.isSome_some, Option.isNone_some, if_true, if_false,
          Bool.false_eq_true]
        refine ⟨_, rfl, ?_, ?_, ?_, ?_, ?_, ?_, rfl, rfl, rfl, rfl⟩
        · simp only [store_same]
        · simp only [store_same, store_other _ _ hyx]
        · intro b' nb' hb' hnb'
          cases hb'
          rw [hnb] at hnb'
          cases hnb'
          simp only [store_same, store_other _ _ hbx, store_other _ _ hby, store_other _ _ hbp]
        · intro p' np' hp' hnp'
          cases hp'
          rw [hnp] at hnp'
          cases hnp'
          simp only [store_same, store_other _ _ hpx, store_other _ _ hpy, if_true]
        · intro a h1 h2 h3 h4
          have h3' : a ≠ b := fun h => h3 (by rw [h])
          have h4' : a ≠ p := fun h => h4 (by rw [h])
          simp only [store_other _ _ h1, store_other _ _ h2, store_other _ _ h3',
            store_other _ _ h4']
        · simp
      · simp only [RBTree._rotateLeft, RBTree.node, RBTree.write, Option.some_bind, hx, hy, hnb,
          hnp, store_same, store_other _ _ hxy, store_other _ _ hyx, store_other _ _ hbx,
          store_other _ _ hby, store_other _ _ hxb, store_other _ _ hyb, store_other _ _ hpx,
          store_other _ _ hpy, store_other _ _ hxp, store_other _ _ hyp, store_other _ _ hbp,
          store_other _ _ hpb', Option.isSome_some, Option.isNone_some, if_true, if_false,
          Bool.false_eq_true, hl]
        refine ⟨_, rfl, ?_, ?_, ?_, ?_, ?_, ?_, rfl, rfl, rfl, rfl⟩
        · simp only [store_same]
        · simp only [store_same, store_other _ _ hyx]
        · intro b' nb' hb' hnb'
          cases hb'
          rw [hnb] at hnb'
          cases hnb'
          simp only [store_same, store_other _ _ hbx, store_other _ _ hby, store_other _ _ hbp]
        · intro p' np' hp' hnp'
          cases hp'
          rw [hnp] at hnp'
          cases hnp'
          simp only [store_same, store_other _ _ hpx, store_other _ _ hpy, if_false, hl]
        · intro a h1 h2 h3 h4
          have h3' : a ≠ b := fun h => h3 (by rw [h])
          have h4' : a ≠ p := fun h => h4 (by rw [h])
          simp only [store_other _ _ h1, store_other _ _ h2, store_other _ _ h3',
            store_other _ _ h4']
        · simp

theorem rotateRight_cells (t : RBTree α) (x y : Nat) (nx ny : RBTreeNode α)
    (hx : t.heap x = some nx) (hxr : nx.left = some y) (hy : t.heap y = some ny) (hxy : x ≠ y)
    (hb : ∀ b, ny.right = some b → b ≠ x ∧ b ≠ y ∧ ∃ nb, t.heap b = some nb)
    (hp : ∀ p, nx.parent = some p → p ≠ x ∧ p ≠ y ∧ ny.right ≠ some p ∧ ∃ np, t.heap p = some np) :
    ∃ t', t._rotateRight (some x) = some t' ∧
      t'.heap x = some { nx with left := ny.right, parent := some y } ∧
      t'.heap y = some { ny with right := some x, parent := nx.parent } ∧
      (∀ b nb, ny.right = some b → t.heap b = some nb →
        t'.heap b = some { nb with parent := some x }) ∧
      (∀ p np, nx.parent = some p → t.heap p = some np →
        t'.heap p = some (if some x = np.left then { np with left := some y }
                          else { np with right := some y })) ∧
      (∀ a, a ≠ x → a ≠ y → ny.right ≠ some a → nx.parent ≠ some a → t'.heap a = t.heap a) ∧
      t'._root = (if nx.parent = none then some y else t._root) ∧
      t'.fresh = t.fresh ∧ t'._comp = t._comp ∧ t'._end = t._end ∧ t'._size = t._size := by
  obtain ⟨xv, xl, xr, xp, xc⟩ := nx
  obtain ⟨yv, yl, yr, yp, yc⟩ := ny
  simp only at hxr hb hp
  subst hxr
  have hyx : y ≠ x := fun h => hxy h.symm
  cases hyl : yr with
  | none =>
    subst hyl
    cases xp with
    | none =>
      simp only [RBTree._rotateRight, RBTree.node, RBTree.write, Option.some_bind, hx, hy,
        store_same, store_other _ _ hxy, store_other _ _ hyx, Option.isSome_some,
        Option.isSome_none, Option.isNone_none, Option.isNone_some, if_true, if_false,
        Bool.false_eq_true]
      refine ⟨_, rfl, ?_, ?_, ?_, ?_, ?_, rfl, rfl, rfl, rfl, rfl⟩
      · simp only [store_same]
      · simp only [store_same, store_other _ _ hyx]
      · intro b nb hb; cases hb
      · intro p np hp; cases hp
      · intro a h1 h2 _ _
        simp only [store_other _ _ h1, store_other _ _ h2]
    | some p =>
      obtain ⟨hpx, hpy, -, np, hnp⟩ := hp p rfl
      have hxp : x ≠ p := fun h => hpx h.symm
      have hyp : y ≠ p := fun h => hpy h.symm
      obtain ⟨pv, pl, pr, pp, pc⟩ := np
      by_cases hl : some x = pl
      · subst hl
        simp only [RBTree._rotateRight, RBTree.node, RBTree.write, Option.some_bind, hx, hy, hnp,
          store_same, store_other _ _ hxy, store_other _ _ hyx, store_other _ _ hpx,
          store_other _ _ hpy, store_other _ _ hxp, store_other _ _ hyp, Option.isSome_some,
          Option.isSome_none, Option.isNone_none, Option.isNone_some, if_true, if_false,
          Bool.false_eq_true]
        refine ⟨_, rfl, ?_, ?_, ?_, ?_, ?_, ?_, rfl, rfl, rfl, rfl⟩
        · simp only [store_same]
        · simp only [store_same, store_other _ _ hyx]
        · intro b nb hb; cases hb
        · intro p' np' hp' hnp'
          cases hp'
          rw [hnp] at hnp'
          cases hnp'
          simp only [store_same, store_other _ _ hpx, store_other _ _ hpy, if_true]
        · intro a h1 h2 _ h4
          have h4' : a ≠ p := fun h => h4 (by rw [h])
          simp only [store_other _ _ h1, store_other _ _ h2, store_other _ _ h4']
        · simp
      · simp only [RBTree._rotateRight, RBTree.node, RBTree.write, Option.some_bind, hx, hy, hnp,
          store_same, store_other _ _ hxy, store_other _ _ hyx, store_other _ _ hpx,
          store_other _ _ hpy, store_other _ _ hxp, store_other _ _ hyp, Option.isSome_some,
          Option.isSome_none, Option.isNone_none, Option.isNone_some, if_true, if_false,
          Bool.false_eq_true, hl]
        refine ⟨_, rfl, ?_, ?_, ?_, ?_, ?_, ?_, rfl, rfl, rfl, rfl⟩
        · simp only [store_same]
        · simp only [store_same, store_other _ _ hyx]
        · intro b nb hb; cases hb
        · intro p' np' hp' hnp'
          cases hp'
          rw [hnp] at hnp'
          cases hnp'
          simp only [store_same, store_other _ _ hpx, store_other _ _ hpy, if_false, hl]
        · intro a h1 h2 _ h4
          have h4' : a ≠ p := fun h => h4 (by rw [h])
          simp only [store_other _ _ h1, store_other _ _ h2, store_other _ _ h4']
        · simp
  | some b =>
    subst hyl
    obtain ⟨hbx, hby, nb, hnb⟩ := hb b rfl
    have hxb : x ≠ b := fun h => hbx h.symm
    have hyb : y ≠ b := fun h => hby h.symm
    cases xp with
    | none =>
      simp only [RBTree._rotateRight, RBTree.node, RBTree.write, Option.some_bind, hx, hy, hnb,
        store_same, store_other _ _ hxy, store_other _ _ hyx, store_other _ _ hbx,
        store_other _ _ hby, store_other _ _ hxb, store_other _ _ hyb, Option.isSome_some,
        Option.isSome_none, Option.isNone_none, Option.isNone_some, if_true, if_false,
        Bool.false_eq_true]
      refine ⟨_, rfl, ?_, ?_, ?_, ?_, ?_, rfl, rfl, rfl, rfl, rfl⟩
      · simp only [store_same]
      · simp only [store_same, store_other _ _ hyx]
      · intro b' nb' hb' hnb'
        cases hb'
        rw [hnb] at hnb'
        cases hnb'
        simp only [store_same, store_other _ _ hbx, store_other _ _ hby]
      · intro p np hp; cases hp
      · intro a h1 h2 h3 _
        have h3' : a ≠ b := fun h => h3 (by rw [h])
        simp only [store_other _ _ h1, store_other _ _ h2, store_other _ _ h3']
    | some p =>
      obtain ⟨hpx, hpy, hpb, np, hnp⟩ := hp p rfl
      have hxp : x ≠ p := fun h => hpx h.symm
      have hyp : y ≠ p := fun h => hpy h.symm
      have hbp : b ≠ p := fun h => hpb (by rw [h])
      have hpb' : p ≠ b := fun h => hbp h.symm
      obtain ⟨pv, pl, pr, pp, pc⟩ := np
      by_cases hl : some x = pl
      · subst hl
        simp only [RBTree._rotateRight, RBTree.node, RBTree.write, Option.some_bind, hx, hy, hnb,
          hnp, store_same, store_other _ _ hxy, store_other _ _ hyx, store_other _ _ hbx,
          store_other _ _ hby, store_other _ _ hxb, store_other _ _ hyb, store_other _ _ hpx,
          store_other _ _ hpy, store_other _ _ hxp, store_other _ _ hyp, store_other _ _ hbp,
          store_other _ _ hpb', Option.isSome_some, Option.isNone_some, if_true, if_false,
          Bool.false_eq_true]
        refine ⟨_, rfl, ?_, ?_, ?_, ?_, ?_, ?_, rfl, rfl, rfl, rfl⟩
        · simp only [store_same]
        · simp only [store_same, store_other _ _ hyx]
        · intro b' nb' hb' hnb'
          cases hb'
          rw [hnb] at hnb'
          cases hnb'
          simp only [store_same, store_other _ _ hbx, store_other _ _ hby, store_other _ _ hbp]
        · intro p' np' hp' hnp'
          cases hp'
          rw [hnp] at hnp'
          cases hnp'
          simp only [store_same, store_other _ _ hpx, store_other _ _ hpy, if_true]
        · intro a h1 h2 h3 h4
          have h3' : a ≠ b := fun h => h3 (by rw [h])
          have h4' : a ≠ p := fun h => h4 (by rw [h])
          simp only [store_other _ _ h1, store_other _ _ h2, store_other _ _ h3',
            store_other _ _ h4']
        · simp
      · simp only [RBTree._rotateRight, RBTree.node, RBTree.write, Option.some_bind, hx, hy, hnb,
          hnp, store_same, store_other _ _ hxy, store_other _ _ hyx, store_other _ _ hbx,
          store_other _ _ hby, store_other _ _ hxb, store_other _ _ hyb, store_other _ _ hpx,
          store_other _ _ hpy, store_other _ _ hxp, store_other _ _ hyp, store_other _ _ hbp,
          store_other _ _ hpb', Option.isSome_some, Option.isNone_some, if_true, if_false,
          Bool.false_eq_true, hl]
        refine ⟨_, rfl, ?_, ?_, ?_, ?_, ?_, ?_, rfl, rfl, rfl, rfl⟩
        · simp only [store_same]
        · simp only [store_same, store_other _ _ hyx]
        · intro b' nb' hb' hnb'
          cases hb'
          rw [hnb] at hnb'
          cases hnb'
          simp only [store_same, store_other _ _ hbx, store_other _ _ hby, store_other _ _ hbp]
        · intro p' np' hp' hnp'
          cases hp'
          rw [hnp] at hnp'
          cases hnp'
          simp only [store_same, store_other _ _ hpx, store_other _ _ hpy, if_false, hl]
        · intro a h1 h2 h3 h4
          have h3' : a ≠ b := fun h => h3 (by rw [h])
          have h4' : a ≠ p := fun h => h4 (by rw [h])
          simp only [store_other _ _ h1, store_other _ _ h2, store_other _ _ h3',
            store_other _ _ h4']
        · simp

theorem Frame.fill_ptr (f : Frame α) (s : Shape α) : (f.fill s).ptr = some f.a := by
  obtain ⟨il, a, c, v, sib⟩ := f
  cases il <;> rfl

theorem rep_fill {h : Nat → Option (RBTreeNode α)} (f : Frame α) (s : Shape α) (q : Option Nat) :
    Rep h (f.fill s) q ↔
      h f.a = some (f.cell s.ptr q) ∧ Rep h f.sib (some f.a) ∧ Rep h s (some f.a) := by
  obtain ⟨il, a, c, v, sib⟩ := f
  cases il
  · simp only [Frame.fill, Rep, Frame.cell]
  · simp only [Frame.fill, Rep, Frame.cell]
    constructor
    · rintro ⟨h1, h2, h3⟩; exact ⟨h1, h3, h2⟩
    · rintro ⟨h1, h2, h3⟩; exact ⟨h1, h3, h2⟩

theorem rep_plug {h : Nat → Option (RBTreeNode α)} (ctx : List (Frame α)) (s : Shape α)
    (par : Option Nat) :
    Rep h (plug ctx s) par ↔ RepCtx h ctx par s.ptr ∧ Rep h s (ctxPtr ctx par) := by
  induction ctx generalizing s with
  | nil => simp [plug, RepCtx, ctxPtr]
  | cons f fs ih =>
    simp only [plug, ih, RepCtx, ctxPtr, rep_fill, Frame.fill_ptr]
    constructor
    · rintro ⟨h1, h2, h3, h4⟩; exact ⟨⟨h2, h3, h1⟩, h4⟩
    · rintro ⟨⟨h2, h3, h1⟩, h4⟩; exact ⟨h1, h2, h3, h4⟩

theorem Frame.fill_addrs (f : Frame α) (s : Shape α) :
    (f.fill s).addrs.Perm (s.addrs ++ f.a :: f.sib.addrs) := by
  obtain ⟨il, a, c, v, sib⟩ := f
  cases il
  · simp only [Frame.fill, Shape.addrs]
    exact List.perm_append_comm.trans List.perm_middle.symm
  · simp only [Frame.fill, Shape.addrs]
    exact List.Perm.refl _

theorem addrs_plug (ctx : List (Frame α)) (s : Shape α) :
    (plug ctx s).addrs.Perm (s.addrs ++ ctxAddrs ctx) := by
  induction ctx generalizing s with
  | nil => simp [plug, ctxAddrs]
  | cons f fs ih =>
    simp only [plug, ctxAddrs]
    refine (ih (f.fill s)).trans ?_
    have := (f.fill_addrs s).append_right (ctxAddrs fs)
    refine this.trans ?_
    simp

theorem mem_addrs_plug {ctx : List (Frame α)} {s : Shape α} {a : Nat} :
    a ∈ (plug ctx s).addrs ↔ a ∈ s.addrs ∨ a ∈ ctxAddrs ctx := by
  rw [(addrs_plug ctx s).mem_iff, List.mem_append]

theorem nodup_plug {ctx : List (Frame α)} {s : Shape α} :
    (plug ctx s).addrs.Nodup ↔ (s.addrs ++ ctxAddrs ctx).Nodup :=
  (addrs_plug ctx s).nodup_iff

theorem ptr_plug_cons (f : Frame α) (fs : List (Frame α)) (s s' : Shape α) :
    (plug (f :: fs) s).ptr = (plug (f :: fs) s').ptr := by
  induction fs generalizing f s s' with
  | nil => simp [plug, Frame.fill_ptr]
  | cons g gs ih =>
    show (plug (g :: gs) (f.fill s)).ptr = (plug (g :: gs) (f.fill s')).ptr
    exact ih g _ _

theorem ptr_plug_of_ptr (ctx : List (Frame α)) {s s' : Shape α} (h : s.ptr = s'.ptr) :
    (plug ctx s).ptr = (plug ctx s').ptr := by
  cases ctx with
  | nil => exact h
  | cons f fs => exact ptr_plug_cons f fs s s'

/-- Transfer of a linked tree to a heap that agrees on its cells, the top cell possibly
getting a new parent link. -/
theorem Rep.move {h h' : Nat → Option (RBTreeNode α)} {s : Shape α} {par par' : Option Nat}
    (hs : Rep h s par) (hnd : s.addrs.Nodup)
    (htop : ∀ a n, s.ptr = some a → h a = some n → h' a = some { n with parent := par' })
    (hrest : ∀ a ∈ s.addrs, s.ptr ≠ some a → h' a = h a) : Rep h' s par' := by
  cases s with
  | nil => trivial
  | node a c l v r =>
    obtain ⟨h1, h2, h3⟩ := hs
    simp only [Shape.addrs] at hnd
    have hnd' := List.nodup_append.1 hnd
    have hal : a ∉ l.addrs := fun hm => hnd'.2.2 hm (List.mem_cons_self _ _)
    have har : a ∉ r.addrs := (List.nodup_cons.1 hnd'.2.1).1
    refine ⟨?_, h2.frame ?_, h3.frame ?_⟩
    · rw [htop a _ rfl h1]
    · intro b hb
      apply hrest b (by simp [Shape.addrs, hb])
      intro heq
      simp only [Shape.ptr, Option.some.injEq] at heq
      exact hal (heq ▸ hb)
    · intro b hb
      apply hrest b (by simp [Shape.addrs, hb])
      intro heq
      simp only [Shape.ptr, Option.some.injEq] at heq
      exact har (heq ▸ hb)

theorem RepCtx.frame_ctx {h h' : Nat → Option (RBTreeNode α)} {ctx : List (Frame α)}
    {par p : Option Nat} (hc : RepCtx h ctx par p) (hag : ∀ a ∈ ctxAddrs ctx, h' a = h a) :
    RepCtx h' ctx par p := by
  induction ctx generalizing p with
  | nil => trivial
  | cons f fs ih =>
    obtain ⟨h1, h2, h3⟩ := hc
    refine ⟨?_, h2.frame ?_, ih h3 ?_⟩
    · rw [hag f.a (by simp [ctxAddrs])]; exact h1
    · intro b hb; exact hag b (by simp [ctxAddrs, hb])
    · intro b hb; exact hag b (by simp [ctxAddrs, hb])

/-- Transfer of a path to a heap in which only the child link at its end was redirected. -/
theorem RepCtx.move_ctx {h h' : Nat → Option (RBTreeNode α)} {ctx : List (Frame α)}
    {par p p' : Option Nat} (hc : RepCtx h ctx par p) (hnd : (ctxAddrs ctx).Nodup)
    (htop : ∀ f fs, ctx = f :: fs → h' f.a = some (f.cell p' (ctxPtr fs par)))
    (hrest : ∀ a ∈ ctxAddrs ctx, ctxPtr ctx none ≠ some a → h' a = h a) :
    RepCtx h' ctx par p' := by
  cases ctx with
  | nil => trivial
  | cons f fs =>
    obtain ⟨h1, h2, h3⟩ := hc
    simp only [ctxAddrs, List.nodup_cons, List.mem_append, not_or] at hnd
    refine ⟨htop f fs rfl, h2.frame ?_, h3.frame_ctx ?_⟩
    · intro b hb
      apply hrest b (by simp [ctxAddrs, hb])
      intro heq
      simp only [ctxPtr, Option.some.injEq] at heq
      exact hnd.1.1 (heq ▸ hb)
    · intro b hb
      apply hrest b (by simp [ctxAddrs, hb])
      intro heq
      simp only [ctxPtr, Option.some.injEq] at heq
      exact hnd.1.2 (heq ▸ hb)

theorem ctxPtr_mem {ctx : List (Frame α)} {par : Option Nat} {p : Nat}
    (h : ctxPtr ctx par = some p) (hm : ctx = [] → par = none) : p ∈ ctxAddrs ctx := by
  cases ctx with
  | nil => rw [hm rfl] at h; cases h
  | cons f fs =>
    simp only [ctxPtr, Option.some.injEq] at h
    simp [ctxAddrs, h]

theorem Shape.ptr_mem {s : Shape α} {a : Nat} (h : s.ptr = some a) : a ∈ s.addrs := by
  cases s with
  | nil => cases h
  | node b c l v r =>
    simp only [Shape.ptr, Option.some.injEq] at h
    simp [Shape.addrs, h]

theorem Rep.top {h : Nat → Option (RBTreeNode α)} {s : Shape α} {par : Option Nat}
    (hs : Rep h s par) {a : Nat} (ha : s.ptr = some a) :
    ∃ n, h a = some n ∧ n.parent = par := by
  cases s with
  | nil => cases ha
  | node b c l v r =>
    simp only [Shape.ptr, Option.some.injEq] at ha
    subst ha
    exact ⟨_, hs.1, rfl⟩

theorem RepCtx.top_cell {h : Nat → Option (RBTreeNode α)} {f : Frame α} {fs : List (Frame α)}
    {par p : Option Nat} (hc : RepCtx h (f :: fs) par p) :
    h f.a = some (f.cell p (ctxPtr fs par)) := hc.1

theorem Frame.cell_repoint (f : Frame α) (x : Nat) (q p' : Option Nat)
    (hx : f.sib.ptr ≠ some x) :
    (if some x = (f.cell (some x) q).left then { f.cell (some x) q with left := p' }
      else { f.cell (some x) q with right := p' }) = f.cell p' q := by
  obtain ⟨il, a, c, v, sib⟩ := f
  cases il
  · have : ¬ some x = sib.ptr := fun h => hx h.symm
    simp [Frame.cell, this]
  · simp [Frame.cell]

theorem rotateLeft_shape (t : RBTree α) (ctx : List (Frame α)) (par : Option Nat)
    (x : Nat) (cx : Bool) (A : Shape α) (vx : α) (y : Nat) (cy : Bool) (B : Shape α) (vy : α)
    (C : Shape α)
    (hrep : Rep t.heap (plug ctx (.node x cx A vx (.node y cy B vy C))) par)
    (hnd : (plug ctx (.node x cx A vx (.node y cy B vy C))).addrs.Nodup)
    (hroot : t._root = (plug ctx (.node x cx A vx (.node y cy B vy C))).ptr)
    (hmode : ctx = [] → par = none) :
    ∃ t', t._rotateLeft (some x) = some t' ∧
      Rep t'.heap (plug ctx (.node y cy (.node x cx A vx B) vy C)) par ∧
      t'._root = (plug ctx (.node y cy (.node x cx A vx B) vy C)).ptr ∧
      (∀ a, a ∉ (plug ctx (.node x cx A vx (.node y cy B vy C))).addrs →
        t'.heap a = t.heap a) ∧
      t'.fresh = t.fresh ∧ t'._comp = t._comp ∧ t'._end = t._end ∧ t'._size = t._size := by
  obtain ⟨hc, hX⟩ := (rep_plug ctx _ par).1 hrep
  obtain ⟨hx, hA, hY⟩ := hX
  obtain ⟨hy, hB, hC⟩ := hY
  have hnd2 := nodup_plug.1 hnd
  obtain ⟨hndX, hndC, hdisj⟩ := List.nodup_append.1 hnd2
  have hXmem : ∀ a, a ∈ (Shape.node x cx A vx (.node y cy B vy C)).addrs ↔
      (a ∈ A.addrs ∨ a = x ∨ a ∈ B.addrs ∨ a = y ∨ a ∈ C.addrs) := by
    intro a; simp [Shape.addrs]
  have hxX : x ∈ (Shape.node x cx A vx (.node y cy B vy C)).addrs := by simp [Shape.addrs]
  have hyX : y ∈ (Shape.node x cx A vx (.node y cy B vy C)).addrs := by simp [Shape.addrs]
  simp only [Shape.addrs] at hndX
  have hxy : x ≠ y := by
    rintro rfl
    have := (List.nodup_append.1 hndX).2.1
    simp at this
  have hAx : x ∉ A.addrs := fun hm => (List.nodup_append.1 hndX).2.2 hm (by simp)
  have hAy : y ∉ A.addrs := fun hm => (List.nodup_append.1 hndX).2.2 hm (by simp)
  have hndR := (List.nodup_cons.1 (List.nodup_append.1 hndX).2.1)
  have hBx : x ∉ B.addrs := fun hm => hndR.1 (by simp [hm])
  have hCx : x ∉ C.addrs := fun hm => hndR.1 (by simp [hm])
  have hBy : y ∉ B.addrs := fun hm => (List.nodup_append.1 hndR.2).2.2 hm (by simp)
  have hCy : y ∉ C.addrs := (List.nodup_cons.1 (List.nodup_append.1 hndR.2).2.1).1
  have hAB : ∀ a, a ∈ A.addrs → a ∉ B.addrs := fun a h1 h2 =>
    (List.nodup_append.1 hndX).2.2 h1 (by simp [h2])
  have hBC : ∀ a, a ∈ B.addrs → a ∉ C.addrs := fun a h1 h2 =>
    (List.nodup_append.1 hndR.2).2.2 h1 (by simp [h2])
  have hndA : A.addrs.Nodup := (List.nodup_append.1 hndX).1
  have hndB : B.addrs.Nodup := (List.nodup_append.1 hndR.2).1
  obtain ⟨t', hrun, cx', cy', cb, cp, cother, croot, e1, e2, e3, e4⟩ :=
    rotateLeft_cells t x y _ _ hx rfl hy hxy
      (by
        intro b hb
        have hbm : b ∈ B.addrs := Shape.ptr_mem hb
        refine ⟨fun h => hBx (h ▸ hbm), fun h => hBy (h ▸ hbm), ?_⟩
        obtain ⟨n, hn, -⟩ := hB.top hb
        exact ⟨n, hn⟩)
      (by
        intro p hp
        have hpm : p ∈ ctxAddrs ctx := ctxPtr_mem hp hmode
        refine ⟨fun h => hdisj hxX (h ▸ hpm), fun h => hdisj hyX (h ▸ hpm), ?_, ?_⟩
        · intro hb
          exact hdisj ((hXmem p).2 (Or.inr (Or.inr (Or.inl (Shape.ptr_mem hb))))) hpm
        · cases ctx with
          | nil => rw [hmode rfl] at hp; cases hp
          | cons f fs =>
            simp only [ctxPtr, Option.some.injEq] at hp
            subst hp
            exact ⟨_, hc.top_cell⟩)
  simp only at cx' cy' cb cp cother croot
  refine ⟨t', hrun, ?_, ?_, ?_, e1, e2, e3, e4⟩
  · rw [rep_plug]
    constructor
    · refine hc.move_ctx hndC ?_ ?_
      · intro f fs hctx
        subst hctx
        rw [cp f.a _ rfl hc.top_cell]
        congr 1
        apply Frame.cell_repoint
        intro hs
        exact hdisj hxX (by simp [ctxAddrs, Shape.ptr_mem hs])
      · intro a ha hne
        apply cother a
        · intro h; exact hdisj hxX (h ▸ ha)
        · intro h; exact hdisj hyX (h ▸ ha)
        · intro hb
          exact hdisj ((hXmem a).2 (Or.inr (Or.inr (Or.inl (Shape.ptr_mem hb))))) ha
        · intro hp
          cases ctx with
          | nil => simp [ctxAddrs] at ha
          | cons f fs => exact hne (by simpa [ctxPtr] using hp)
    · refine ⟨?_, ⟨?_, ?_, ?_⟩, ?_⟩
      · rw [cy']; rfl
      · rw [cx']
      · apply hA.frame
        intro a ha
        apply cother a
        · intro h; exact hAx (h ▸ ha)
        · intro h; exact hAy (h ▸ ha)
        · intro hb; exact hAB a ha (Shape.ptr_mem hb)
        · intro hp
          exact hdisj ((hXmem a).2 (Or.inl ha)) (ctxPtr_mem hp hmode)
      · apply hB.move hndB
        · intro a n ha hn
          exact cb a n ha hn
        · intro a ha hne
          apply cother a
          · intro h; exact hBx (h ▸ ha)
          · intro h; exact hBy (h ▸ ha)
          · exact hne
          · intro hp
            exact hdisj ((hXmem a).2 (Or.inr (Or.inr (Or.inl ha)))) (ctxPtr_mem hp hmode)
      · apply hC.frame
        intro a ha
        apply cother a
        · intro h; exact hCx (h ▸ ha)
        · intro h; exact hCy (h ▸ ha)
        · intro hb; exact hBC a (Shape.ptr_mem hb) ha
        · intro hp
          exact hdisj ((hXmem a).2 (Or.inr (Or.inr (Or.inr (Or.inr ha)))))
            (ctxPtr_mem hp hmode)
  · rw [croot]
    cases ctx with
    | nil => simp [hmode rfl, ctxPtr, plug, Shape.ptr]
    | cons f fs =>
      simp only [ctxPtr, reduceCtorEq, if_false]
      rw [hroot]
      exact ptr_plug_cons f fs _ _
  · intro a ha
    rw [mem_addrs_plug, not_or] at ha
    apply cother a
    · intro h; exact ha.1 (h ▸ hxX)
    · intro h; exact ha.1 (h ▸ hyX)
    · intro hb; exact ha.1 ((hXmem a).2 (Or.inr (Or.inr (Or.inl (Shape.ptr_mem hb)))))
    · intro hp; exact ha.2 (ctxPtr_mem hp hmode)

theorem rotateRight_shape (t : RBTree α) (ctx : List (Frame α)) (par : Option Nat)
    (x : Nat) (cx : Bool) (y : Nat) (cy : Bool) (A : Shape α) (vy : α) (B : Shape α) (vx : α)
    (C : Shape α)
    (hrep : Rep t.heap (plug ctx (.node x cx (.node y cy A vy B) vx C)) par)
    (hnd : (plug ctx (.node x cx (.node y cy A vy B) vx C)).addrs.Nodup)
    (hroot : t._root = (plug ctx (.node x cx (.node y cy A vy B) vx C)).ptr)
    (hmode : ctx = [] → par = none) :
    ∃ t', t._rotateRight (some x) = some t' ∧
      Rep t'.heap (plug ctx (.node y cy A vy (.node x cx B vx C))) par ∧
      t'._root = (plug ctx (.node y cy A vy (.node x cx B vx C))).ptr ∧
      (∀ a, a ∉ (plug ctx (.node x cx (.node y cy A vy B) vx C)).addrs →
        t'.heap a = t.heap a) ∧
      t'.fresh = t.fresh ∧ t'._comp = t._comp ∧ t'._end = t._end ∧ t'._size = t._size := by
  obtain ⟨hc, hX⟩ := (rep_plug ctx _ par).1 hrep
  obtain ⟨hx, hY, hC⟩ := hX
  obtain ⟨hy, hA, hB⟩ := hY
  have hnd2 := nodup_plug.1 hnd
  obtain ⟨hndX, hndC, hdisj⟩ := List.nodup_append.1 hnd2
  have hXmem : ∀ a, a ∈ (Shape.node x cx (.node y cy A vy B) vx C).addrs ↔
      (a ∈ A.addrs ∨ a = x ∨ a ∈ B.addrs ∨ a = y ∨ a ∈ C.addrs) := by
    intro a; simp [Shape.addrs]; tauto
  have hxX : x ∈ (Shape.node x cx (.node y cy A vy B) vx C).addrs := by simp [Shape.addrs]
  have hyX : y ∈ (Shape.node x cx (.node y cy A vy B) vx C).addrs := by simp [Shape.addrs]
  simp only [Shape.addrs] at hndX
  obtain ⟨hndL, hndR, hdLR⟩ := List.nodup_append.1 hndX
  obtain ⟨hndA, hndyB, hdAB⟩ := List.nodup_append.1 hndL
  have hxy : x ≠ y := fun h => @hdLR y (by simp) (by simp [h])
  have hAx : x ∉ A.addrs := fun hm => @hdLR x (by simp [hm]) (by simp)
  have hBx : x ∉ B.addrs := fun hm => @hdLR x (by simp [hm]) (by simp)
  have hCx : x ∉ C.addrs := (List.nodup_cons.1 hndR).1
  have hAy : y ∉ A.addrs := fun hm => @hdAB y hm (by simp)
  have hBy : y ∉ B.addrs := (List.nodup_cons.1 hndyB).1
  have hCy : y ∉ C.addrs := fun hm => @hdLR y (by simp) (by simp [hm])
  have hAB : ∀ a, a ∈ A.addrs → a ∉ B.addrs := fun a h1 h2 => @hdAB a h1 (by simp [h2])
  have hBC : ∀ a, a ∈ B.addrs → a ∉ C.addrs := fun a h1 h2 =>
    @hdLR a (by simp [h1]) (by simp [h2])
  have hndB : B.addrs.Nodup := (List.nodup_cons.1 hndyB).2
  obtain ⟨t', hrun, cx', cy', cb, cp, cother, croot, e1, e2, e3, e4⟩ :=
    rotateRight_cells t x y _ _ hx rfl hy hxy
      (by
        intro b hb
        have hbm : b ∈ B.addrs := Shape.ptr_mem hb
        refine ⟨fun h => hBx (h ▸ hbm), fun h => hBy (h ▸ hbm), ?_⟩
        obtain ⟨n, hn, -⟩ := hB.top hb
        exact ⟨n, hn⟩)
      (by
        intro p hp
        have hpm : p ∈ ctxAddrs ctx := ctxPtr_mem hp hmode
        refine ⟨fun h => hdisj hxX (h ▸ hpm), fun h => hdisj hyX (h ▸ hpm), ?_, ?_⟩
        · intro hb
          exact hdisj ((hXmem p).2 (Or.inr (Or.inr (Or.inl (Shape.ptr_mem hb))))) hpm
        · cases ctx with
          | nil => rw [hmode rfl] at hp; cases hp
          | cons f fs =>
            simp only [ctxPtr, Option.some.injEq] at hp
            subst hp
            exact ⟨_, hc.top_cell⟩)
  simp only at cx' cy' cb cp cother croot
  refine ⟨t', hrun, ?_, ?_, ?_, e1, e2, e3, e4⟩
  · rw [rep_plug]
    constructor
    · refine hc.move_ctx hndC ?_ ?_
      · intro f fs hctx
        subst hctx
        rw [cp f.a _ rfl hc.top_cell]
        congr 1
        apply Frame.cell_repoint
        intro hs
        exact hdisj hxX (by simp [ctxAddrs, Shape.ptr_mem hs])
      · intro a ha hne
        apply cother a
        · intro h; exact hdisj hxX (h ▸ ha)
        · intro h; exact hdisj hyX (h ▸ ha)
        · intro hb
          exact hdisj ((hXmem a).2 (Or.inr (Or.inr (Or.inl (Shape.ptr_mem hb))))) ha
        · intro hp
          cases ctx with
          | nil => simp [ctxAddrs] at ha
          | cons f fs => exact hne (by simpa [ctxPtr] using hp)
    · refine ⟨?_, ?_, ⟨?_, ?_, ?_⟩⟩
      · rw [cy']; rfl
      · apply hA.frame
        intro a ha
        apply cother a
        · intro h; exact hAx (h ▸ ha)
        · intro h; exact hAy (h ▸ ha)
        · intro hb; exact hAB a ha (Shape.ptr_mem hb)
        · intro hp
          exact hdisj ((hXmem a).2 (Or.inl ha)) (ctxPtr_mem hp hmode)
      · rw [cx']
      · apply hB.move hndB
        · intro a n ha hn
          exact cb a n ha hn
        · intro a ha hne
          apply cother a
          · intro h; exact hBx (h ▸ ha)
          · intro h; exact hBy (h ▸ ha)
          · exact hne
          · intro hp
            exact hdisj ((hXmem a).2 (Or.inr (Or.inr (Or.inl ha)))) (ctxPtr_mem hp hmode)
      · apply hC.frame
        intro a ha
        apply cother a
        · intro h; exact hCx (h ▸ ha)
        · intro h; exact hCy (h ▸ ha)
        · intro hb; exact hBC a (Shape.ptr_mem hb) ha
        · intro hp
          exact hdisj ((hXmem a).2 (Or.inr (Or.inr (Or.inr (Or.inr ha)))))
            (ctxPtr_mem hp hmode)
  · rw [croot]
    cases ctx with
    | nil => simp [hmode rfl, ctxPtr, plug, Shape.ptr]
    | cons f fs =>
      simp only [ctxPtr, reduceCtorEq, if_false]
      rw [hroot]
      exact ptr_plug_cons f fs _ _
  · intro a ha
    rw [mem_addrs_plug, not_or] at ha
    apply cother a
    · intro h; exact ha.1 (h ▸ hxX)
    · intro h; exact ha.1 (h ▸ hyX)
    · intro hb; exact ha.1 ((hXmem a).2 (Or.inr (Or.inr (Or.inl (Shape.ptr_mem hb)))))
    · intro hp; exact ha.2 (ctxPtr_mem hp hmode)

theorem setColor_shape (t : RBTree α) (ctx : List (Frame α)) (par : Option Nat)
    (a : Nat) (c c' : Bool) (l : Shape α) (v : α) (r : Shape α)
    (hrep : Rep t.heap (plug ctx (.node a c l v r)) par)
    (hnd : (plug ctx (.node a c l v r)).addrs.Nodup) :
    ∃ t', t.write (some a) (fun n => { n with color := c' }) = some t' ∧
      Rep t'.heap (plug ctx (.node a c' l v r)) par ∧
      t'._root = t._root ∧
      (∀ b, b ∉ (plug ctx (.node a c l v r)).addrs → t'.heap b = t.heap b) ∧
      t'.fresh = t.fresh ∧ t'._comp = t._comp ∧ t'._end = t._end ∧ t'._size = t._size := by
  obtain ⟨hc, hX⟩ := (rep_plug ctx _ par).1 hrep
  obtain ⟨ha, hl, hr⟩ := hX
  have hnd2 := nodup_plug.1 hnd
  obtain ⟨hndX, -, hdisj⟩ := List.nodup_append.1 hnd2
  simp only [Shape.addrs] at hndX
  obtain ⟨-, hndR, hdLR⟩ := List.nodup_append.1 hndX
  have hal : a ∉ l.addrs := fun hm => @hdLR a hm (by simp)
  have har : a ∉ r.addrs := (List.nodup_cons.1 hndR).1
  have haX : a ∈ (Shape.node a c l v r).addrs := by simp [Shape.addrs]
  refine ⟨⟨store t.heap a (some ⟨some v, l.ptr, r.ptr, ctxPtr ctx par, c'⟩), t.fresh, t._comp,
    t._root, t._end, t._size⟩, by simp only [RBTree.write, ha], ?_, rfl, ?_, rfl, rfl, rfl, rfl⟩
  · rw [rep_plug]
    constructor
    · apply hc.frame_ctx
      intro b hb
      exact store_other _ _ (fun h => hdisj haX (h ▸ hb))
    · refine ⟨?_, hl.frame ?_, hr.frame ?_⟩
      · simp only [store_same]
      · intro b hb
        exact store_other _ _ (fun h => hal (h ▸ hb))
      · intro b hb
        exact store_other _ _ (fun h => har (h ▸ hb))
  · intro b hb
    rw [mem_addrs_plug, not_or] at hb
    exact store_other _ _ (fun h => hb.1 (h ▸ haX))

theorem plug_addrs_congr (ctx : List (Frame α)) {s s' : Shape α}
    (h : s.addrs.Perm s'.addrs) : (plug ctx s).addrs.Perm (plug ctx s').addrs :=
  (addrs_plug ctx s).trans ((h.append_right _).trans (addrs_plug ctx s').symm)

theorem Frame.fill_nodes_congr (f : Frame α) {s s' : Shape α} (h : s.nodes = s'.nodes) :
    (f.fill s).nodes = (f.fill s').nodes := by
  obtain ⟨il, a, c, v, sib⟩ := f
  cases il <;> simp [Frame.fill, Shape.nodes, h]

theorem plug_nodes_congr (ctx : List (Frame α)) {s s' : Shape α} (h : s.nodes = s'.nodes) :
    (plug ctx s).nodes = (plug ctx s').nodes := by
  induction ctx generalizing s s' with
  | nil => exact h
  | cons f fs ih => exact ih (f.fill_nodes_congr h)

theorem addrs_of_nodes_eq {s s' : Shape α} (h : s.nodes = s'.nodes) : s.addrs = s'.addrs := by
  rw [Shape.addrs_eq_map, Shape.addrs_eq_map, h]

theorem toList_of_nodes_eq {s s' : Shape α} (h : s.nodes = s'.nodes) :
    s.toList = s'.toList := by
  rw [Shape.toList_eq_map, Shape.toList_eq_map, h]

theorem Frame.nodes_recolor (f : Frame α) (c : Bool) (s : Shape α) :
    (Frame.fill { f with c := c } s).nodes = (f.fill s).nodes := by
  obtain ⟨il, a, c0, v, sib⟩ := f
  cases il <;> rfl

theorem Shape.nodes_setColor (c : Bool) (s : Shape α) : (s.setColor c).nodes = s.nodes := by
  cases s <;> rfl

theorem rep_cell {h : Nat → Option (RBTreeNode α)} {ctx : List (Frame α)} {par : Option Nat}
    {a : Nat} {c : Bool} {l : Shape α} {v : α} {r : Shape α}
    (hrep : Rep h (plug ctx (.node a c l v r)) par) :
    h a = some { value := some v, left := l.ptr, right := r.ptr, parent := ctxPtr ctx par,
                 color := c } :=
  ((rep_plug ctx _ par).1 hrep).2.1

theorem swapColor_spec (t : RBTree α) (ctx : List (Frame α)) (par : Option Nat)
    (f : Frame α) (g : Nat) (cg : Bool) (gl : Shape α) (vg : α) (gr : Shape α)
    (hrep : Rep t.heap (plug (f :: ctx) (.node g cg gl vg gr)) par)
    (hnd : (plug (f :: ctx) (.node g cg gl vg gr)).addrs.Nodup) :
    ∃ t', t.swapColor (some f.a) (some g) = some t' ∧
      Rep t'.heap (plug ({ f with c := cg } :: ctx) (.node g f.c gl vg gr)) par ∧
      t'._root = t._root ∧
      (∀ b, b ∉ (plug (f :: ctx) (.node g cg gl vg gr)).addrs → t'.heap b = t.heap b) ∧
      t'.fresh = t.fresh ∧ t'._comp = t._comp ∧ t'._end = t._end ∧ t'._size = t._size := by
  have hg := rep_cell hrep
  obtain ⟨il, p, cp, vp, sp⟩ := f
  cases il
  · simp only [plug, Frame.fill] at hrep hnd
    have hp := rep_cell hrep
    obtain ⟨t1, hw1, hrep1, hroot1, hfr1, e1, e2, e3, e4⟩ :=
      setColor_shape t ctx par p cp cg sp vp (.node g cg gl vg gr) hrep hnd
    have hrep1' : Rep t1.heap (plug (⟨false, p, cg, vp, sp⟩ :: ctx) (.node g cg gl vg gr)) par :=
      hrep1
    have hn : (plug (⟨false, p, cg, vp, sp⟩ :: ctx) (.node g cg gl vg gr)).addrs =
        (plug ctx (.node p cp sp vp (.node g cg gl vg gr))).addrs :=
      addrs_of_nodes_eq (show (plug ctx (.node p cg sp vp (.node g cg gl vg gr))).nodes = _ from
        plug_nodes_congr ctx rfl)
    obtain ⟨t2, hw2, hrep2, hroot2, hfr2, e1', e2', e3', e4'⟩ :=
      setColor_shape t1 (⟨false, p, cg, vp, sp⟩ :: ctx) par g cg cp gl vg gr hrep1'
        (by rw [hn]; exact hnd)
    refine ⟨t2, ?_, hrep2, hroot2.trans hroot1, ?_, e1'.trans e1, e2'.trans e2, e3'.trans e3,
      e4'.trans e4⟩
    · simp only [RBTree.swapColor, RBTree.node, Option.some_bind, hp, hg, hw1, hw2]
    · intro b hb
      rw [hfr2 b (by rw [hn]; exact hb), hfr1 b hb]
  · simp only [plug, Frame.fill] at hrep hnd
    have hp := rep_cell hrep
    obtain ⟨t1, hw1, hrep1, hroot1, hfr1, e1, e2, e3, e4⟩ :=
      setColor_shape t ctx par p cp cg (.node g cg gl vg gr) vp sp hrep hnd
    have hrep1' : Rep t1.heap (plug (⟨true, p, cg, vp, sp⟩ :: ctx) (.node g cg gl vg gr)) par :=
      hrep1
    have hn : (plug (⟨true, p, cg, vp, sp⟩ :: ctx) (.node g cg gl vg gr)).addrs =
        (plug ctx (.node p cp (.node g cg gl vg gr) vp sp)).addrs :=
      addrs_of_nodes_eq (show (plug ctx (.node p cg (.node g cg gl vg gr) vp sp)).nodes = _ from
        plug_nodes_congr ctx rfl)
    obtain ⟨t2, hw2, hrep2, hroot2, hfr2, e1', e2', e3', e4'⟩ :=
      setColor_shape t1 (⟨true, p, cg, vp, sp⟩ :: ctx) par g cg cp gl vg gr hrep1'
        (by rw [hn]; exact hnd)
    refine ⟨t2, ?_, hrep2, hroot2.trans hroot1, ?_, e1'.trans e1, e2'.trans e2, e3'.trans e3,
      e4'.trans e4⟩
    · simp only [RBTree.swapColor, RBTree.node, Option.some_bind, hp, hg, hw1, hw2]
    · intro b hb
      rw [hfr2 b (by rw [hn]; exact hb), hfr1 b hb]

theorem redUncle_spec (t : RBTree α) (u : Shape α) (par : Option Nat)
    (hu : Rep t.heap u par) : t.redUncle u.ptr = some u.isRed := by
  cases u with
  | nil => simp [RBTree.redUncle, Shape.ptr, Shape.isRed]
  | node a c l v r =>
    simp only [RBTree.redUncle, Shape.ptr, Option.isSome_some, if_true, RBTree.node,
      Option.some_bind, hu.1, Shape.isRed]

theorem recolor_spec (t : RBTree α) (rest : List (Frame α)) (par : Option Nat)
    (f1 f2 : Frame α) (s : Shape α) (u : Nat) (cu : Bool) (ul : Shape α) (vu : α) (ur : Shape α)
    (hsib : f2.sib = .node u cu ul vu ur)
    (hrep : Rep t.heap (plug (f1 :: f2 :: rest) s) par)
    (hnd : (plug (f1 :: f2 :: rest) s).addrs.Nodup) :
    ∃ t', t.recolor (some f1.a) (some f2.a) (some u) = some t' ∧
      Rep t'.heap (plug rest (recolorStep f1 f2 s)) par ∧
      t'._root = t._root ∧
      (∀ b, b ∉ (plug (f1 :: f2 :: rest) s).addrs → t'.heap b = t.heap b) ∧
      t'.fresh = t.fresh ∧ t'._comp = t._comp ∧ t'._end = t._end ∧ t'._size = t._size := by
  obtain ⟨il1, p, cp, vp, sp⟩ := f1
  obtain ⟨il2, g, cg, vg, sg⟩ := f2
  simp only at hsib
  subst hsib
  cases il1 <;> cases il2
  · simp only [plug, Frame.fill] at hrep hnd
    obtain ⟨t1, hw1, hrep1, hroot1, hfr1, e1, e2, e3, e4⟩ :=
      setColor_shape t rest par g cg true (.node u cu ul vu ur) vg (.node p cp sp vp s) hrep hnd
    have hn1 : (plug rest (.node g true (.node u cu ul vu ur) vg (.node p cp sp vp s))).addrs = (plug rest (.node g cg (.node u cu ul vu ur) vg (.node p cp sp vp s))).addrs :=
      addrs_of_nodes_eq (plug_nodes_congr rest rfl)
    have hrep1' : Rep t1.heap (plug (⟨false, g, true, vg, (.node u cu ul vu ur)⟩ :: rest)
        (.node p cp sp vp s)) par := hrep1
    obtain ⟨t2, hw2, hrep2, hroot2, hfr2, e1', e2', e3', e4'⟩ :=
      setColor_shape t1 (⟨false, g, true, vg, (.node u cu ul vu ur)⟩ :: rest) par p cp false sp vp s hrep1'
        (by rw [show (plug (⟨false, g, true, vg, (.node u cu ul vu ur)⟩ :: rest) (.node p cp sp vp s)).addrs =
              (plug rest (.node g true (.node u cu ul vu ur) vg (.node p cp sp vp s))).addrs from rfl, hn1]; exact hnd)
    have hn2 : (plug rest (.node g true (.node u cu ul vu ur) vg (.node p false sp vp s))).addrs = (plug rest (.node g cg (.node u cu ul vu ur) vg (.node p cp sp vp s))).addrs :=
      addrs_of_nodes_eq (plug_nodes_congr rest rfl)
    have hrep2' : Rep t2.heap (plug (⟨true, g, true, vg, (.node p false sp vp s)⟩ :: rest)
        (.node u cu ul vu ur)) par := hrep2
    obtain ⟨t3, hw3, hrep3, hroot3, hfr3, e1'', e2'', e3'', e4''⟩ :=
      setColor_shape t2 (⟨true, g, true, vg, (.node p false sp vp s)⟩ :: rest) par
        u cu false ul vu ur hrep2'
        (by rw [show (plug (⟨true, g, true, vg, (.node p false sp vp s)⟩ :: rest)
              (.node u cu ul vu ur)).addrs = (plug rest (.node g true (.node u cu ul vu ur) vg (.node p false sp vp s))).addrs from rfl, hn2]; exact hnd)
    refine ⟨t3, ?_, hrep3, (hroot3.trans hroot2).trans hroot1, ?_, (e1''.trans e1').trans e1,
      (e2''.trans e2').trans e2, (e3''.trans e3').trans e3, (e4''.trans e4').trans e4⟩
    · simp only [RBTree.recolor, hw1, hw2, hw3]
    · intro b hb
      simp only [plug, Frame.fill] at hb
      rw [hfr3 b (by rw [show (plug (⟨true, g, true, vg, (.node p false sp vp s)⟩ :: rest)
              (.node u cu ul vu ur)).addrs = (plug rest (.node g true (.node u cu ul vu ur) vg (.node p false sp vp s))).addrs from rfl, hn2]; exact hb),
        hfr2 b (by rw [show (plug (⟨false, g, true, vg, (.node u cu ul vu ur)⟩ :: rest)
              (.node p cp sp vp s)).addrs = (plug rest (.node g true (.node u cu ul vu ur) vg (.node p cp sp vp s))).addrs from rfl, hn1]; exact hb),
        hfr1 b hb]
  · simp only [plug, Frame.fill] at hrep hnd
    obtain ⟨t1, hw1, hrep1, hroot1, hfr1, e1, e2, e3, e4⟩ :=
      setColor_shape t rest par g cg true (.node p cp sp vp s) vg (.node u cu ul vu ur) hrep hnd
    have hn1 : (plug rest (.node g true (.node p cp sp vp s) vg (.node u cu ul vu ur))).addrs = (plug rest (.node g cg (.node p cp sp vp s) vg (.node u cu ul vu ur))).addrs :=
      addrs_of_nodes_eq (plug_nodes_congr rest rfl)
    have hrep1' : Rep t1.heap (plug (⟨true, g, true, vg, (.node u cu ul vu ur)⟩ :: rest)
        (.node p cp sp vp s)) par := hrep1
    obtain ⟨t2, hw2, hrep2, hroot2, hfr2, e1', e2', e3', e4'⟩ :=
      setColor_shape t1 (⟨true, g, true, vg, (.node u cu ul vu ur)⟩ :: rest) par p cp false sp vp s hrep1'
        (by rw [show (plug (⟨true, g, true, vg, (.node u cu ul vu ur)⟩ :: rest) (.node p cp sp vp s)).addrs =
              (plug rest (.node g true (.node p cp sp vp s) vg (.node u cu ul vu ur))).addrs from rfl, hn1]; exact hnd)
    have hn2 : (plug rest (.node g true (.node p false sp vp s) vg (.node u cu ul vu ur))).addrs = (plug rest (.node g cg (.node p cp sp vp s) vg (.node u cu ul vu ur))).addrs :=
      addrs_of_nodes_eq (plug_nodes_congr rest rfl)
    have hrep2' : Rep t2.heap (plug (⟨false, g, true, vg, (.node p false sp vp s)⟩ :: rest)
        (.node u cu ul vu ur)) par := hrep2
    obtain ⟨t3, hw3, hrep3, hroot3, hfr3, e1'', e2'', e3'', e4''⟩ :=
      setColor_shape t2 (⟨false, g, true, vg, (.node p false sp vp s)⟩ :: rest) par
        u cu false ul vu ur hrep2'
        (by rw [show (plug (⟨false, g, true, vg, (.node p false sp vp s)⟩ :: rest)
              (.node u cu ul vu ur)).addrs = (plug rest (.node g true (.node p false sp vp s) vg (.node u cu ul vu ur))).addrs from rfl, hn2]; exact hnd)
    refine ⟨t3, ?_, hrep3, (hroot3.trans hroot2).trans hroot1, ?_, (e1''.trans e1').trans e1,
      (e2''.trans e2').trans e2, (e3''.trans e3').trans e3, (e4''.trans e4').trans e4⟩
    · simp only [RBTree.recolor, hw1, hw2, hw3]
    · intro b hb
      simp only [plug, Frame.fill] at hb
      rw [hfr3 b (by rw [show (plug (⟨false, g, true, vg, (.node p false sp vp s)⟩ :: rest)
              (.node u cu ul vu ur)).addrs = (plug rest (.node g true (.node p false sp vp s) vg (.node u cu ul vu ur))).addrs from rfl, hn2]; exact hb),
        hfr2 b (by rw [show (plug (⟨true, g, true, vg, (.node u cu ul vu ur)⟩ :: rest)
              (.node p cp sp vp s)).addrs = (plug rest (.node g true (.node p cp sp vp s) vg (.node u cu ul vu ur))).addrs from rfl, hn1]; exact hb),
        hfr1 b hb]
  · simp only [plug, Frame.fill] at hrep hnd
    obtain ⟨t1, hw1, hrep1, hroot1, hfr1, e1, e2, e3, e4⟩ :=
      setColor_shape t rest par g cg true (.node u cu ul vu ur) vg (.node p cp s vp sp) hrep hnd
    have hn1 : (plug rest (.node g true (.node u cu ul vu ur) vg (.node p cp s vp sp))).addrs = (plug rest (.node g cg (.node u cu ul vu ur) vg (.node p cp s vp sp))).addrs :=
      addrs_of_nodes_eq (plug_nodes_congr rest rfl)
    have hrep1' : Rep t1.heap (plug (⟨false, g, true, vg, (.node u cu ul vu ur)⟩ :: rest)
        (.node p cp s vp sp)) par := hrep1
    obtain ⟨t2, hw2, hrep2, hroot2, hfr2, e1', e2', e3', e4'⟩ :=
      setColor_shape t1 (⟨false, g, true, vg, (.node u cu ul vu ur)⟩ :: rest) par p cp false s vp sp hrep1'
        (by rw [show (plug (⟨false, g, true, vg, (.node u cu ul vu ur)⟩ :: rest) (.node p cp s vp sp)).addrs =
              (plug rest (.node g true (.node u cu ul vu ur) vg (.node p cp s vp sp))).addrs from rfl, hn1]; exact hnd)
    have hn2 : (plug rest (.node g true (.node u cu ul vu ur) vg (.node p false s vp sp))).addrs = (plug rest (.node g cg (.node u cu ul vu ur) vg (.node p cp s vp sp))).addrs :=
      addrs_of_nodes_eq (plug_nodes_congr rest rfl)
    have hrep2' : Rep t2.heap (plug (⟨true, g, true, vg, (.node p false s vp sp)⟩ :: rest)
        (.node u cu ul vu ur)) par := hrep2
    obtain ⟨t3, hw3, hrep3, hroot3, hfr3, e1'', e2'', e3'', e4''⟩ :=
      setColor_shape t2 (⟨true, g, true, vg, (.node p false s vp sp)⟩ :: rest) par
        u cu false ul vu ur hrep2'
        (by rw [show (plug (⟨true, g, true, vg, (.node p false s vp sp)⟩ :: rest)
              (.node u cu ul vu ur)).addrs = (plug rest (.node g true (.node u cu ul vu ur) vg (.node p false s vp sp))).addrs from rfl, hn2]; exact hnd)
    refine ⟨t3, ?_, hrep3, (hroot3.trans hroot2).trans hroot1, ?_, (e1''.trans e1').trans e1,
      (e2''.trans e2').trans e2, (e3''.trans e3').trans e3, (e4''.trans e4').trans e4⟩
    · simp only [RBTree.recolor, hw1, hw2, hw3]
    · intro b hb
      simp only [plug, Frame.fill] at hb
      rw [hfr3 b (by rw [show (plug (⟨true, g, true, vg, (.node p false s vp sp)⟩ :: rest)
              (.node u cu ul vu ur)).addrs = (plug rest (.node g true (.node u cu ul vu ur) vg (.node p false s vp sp))).addrs from rfl, hn2]; exact hb),
        hfr2 b (by rw [show (plug (⟨false, g, true, vg, (.node u cu ul vu ur)⟩ :: rest)
              (.node p cp s vp sp)).addrs = (plug rest (.node g true (.node u cu ul vu ur) vg (.node p cp s vp sp))).addrs from rfl, hn1]; exact hb),
        hfr1 b hb]
  · simp only [plug, Frame.fill] at hrep hnd
    obtain ⟨t1, hw1, hrep1, hroot1, hfr1, e1, e2, e3, e4⟩ :=
      setColor_shape t rest par g cg true (.node p cp s vp sp) vg (.node u cu ul vu ur) hrep hnd
    have hn1 : (plug rest (.node g true (.node p cp s vp sp) vg (.node u cu ul vu ur))).addrs = (plug rest (.node g cg (.node p cp s vp sp) vg (.node u cu ul vu ur))).addrs :=
      addrs_of_nodes_eq (plug_nodes_congr rest rfl)
    have hrep1' : Rep t1.heap (plug (⟨true, g, true, vg, (.node u cu ul vu ur)⟩ :: rest)
        (.node p cp s vp sp)) par := hrep1
    obtain ⟨t2, hw2, hrep2, hroot2, hfr2, e1', e2', e3', e4'⟩ :=
      setColor_shape t1 (⟨true, g, true, vg, (.node u cu ul vu ur)⟩ :: rest) par p cp false s vp sp hrep1'
        (by rw [show (plug (⟨true, g, true, vg, (.node u cu ul vu ur)⟩ :: rest) (.node p cp s vp sp)).addrs =
              (plug rest (.node g true (.node p cp s vp sp) vg (.node u cu ul vu ur))).addrs from rfl, hn1]; exact hnd)
    have hn2 : (plug rest (.node g true (.node p false s vp sp) vg (.node u cu ul vu ur))).addrs = (plug rest (.node g cg (.node p cp s vp sp) vg (.node u cu ul vu ur))).addrs :=
      addrs_of_nodes_eq (plug_nodes_congr rest rfl)
    have hrep2' : Rep t2.heap (plug (⟨false, g, true, vg, (.node p false s vp sp)⟩ :: rest)
        (.node u cu ul vu ur)) par := hrep2
    obtain ⟨t3, hw3, hrep3, hroot3, hfr3, e1'', e2'', e3'', e4''⟩ :=
      setColor_shape t2 (⟨false, g, true, vg, (.node p false s vp sp)⟩ :: rest) par
        u cu false ul vu ur hrep2'
        (by rw [show (plug (⟨false, g, true, vg, (.node p false s vp sp)⟩ :: rest)
              (.node u cu ul vu ur)).addrs = (plug rest (.node g true (.node p false s vp sp) vg (.node u cu ul vu ur))).addrs from rfl, hn2]; exact hnd)
    refine ⟨t3, ?_, hrep3, (hroot3.trans hroot2).trans hroot1, ?_, (e1''.trans e1').trans e1,
      (e2''.trans e2').trans e2, (e3''.trans e3').trans e3, (e4''.trans e4').trans e4⟩
    · simp only [RBTree.recolor, hw1, hw2, hw3]
    · intro b hb
      simp only [plug, Frame.fill] at hb
      rw [hfr3 b (by rw [show (plug (⟨false, g, true, vg, (.node p false s vp sp)⟩ :: rest)
              (.node u cu ul vu ur)).addrs = (plug rest (.node g true (.node p false s vp sp) vg (.node u cu ul vu ur))).addrs from rfl, hn2]; exact hb),
        hfr2 b (by rw [show (plug (⟨true, g, true, vg, (.node u cu ul vu ur)⟩ :: rest)
              (.node p cp s vp sp)).addrs = (plug rest (.node g true (.node p cp s vp sp) vg (.node u cu ul vu ur))).addrs from rfl, hn1]; exact hb),
        hfr1 b hb]

theorem nodup_sub {ctx : List (Frame α)} {s : Shape α} (h : (plug ctx s).addrs.Nodup) :
    s.addrs.Nodup :=
  (List.nodup_append.1 (nodup_plug.1 h)).1

theorem Shape.nodup_node_iff (a : Nat) (c : Bool) (l : Shape α) (v : α) (r : Shape α) :
    (Shape.node a c l v r).addrs.Nodup ↔
      l.addrs.Nodup ∧ r.addrs.Nodup ∧ a ∉ l.addrs ∧ a ∉ r.addrs ∧
        ∀ b, b ∈ l.addrs → b ∉ r.addrs := by
  simp only [Shape.addrs, List.nodup_append, List.nodup_cons, List.Disjoint, List.mem_cons]
  constructor
  · rintro ⟨h1, ⟨h2, h3⟩, h4⟩
    exact ⟨h1, h3, fun hm => h4 hm (Or.inl rfl), h2, fun b hb hb' => h4 hb (Or.inr hb')⟩
  · rintro ⟨h1, h2, h3, h4, h5⟩
    refine ⟨h1, ⟨h4, h2⟩, ?_⟩
    intro b hb hb'
    rcases hb' with rfl | hb'
    · exact h3 hb
    · exact h5 b hb hb'

theorem ne_ptr_of_not_mem {s : Shape α} {x : Nat} (h : x ∉ s.addrs) : ¬ (some x = s.ptr) :=
  fun he => h (Shape.ptr_mem he.symm)

theorem Shape.ptr_node (a : Nat) (c : Bool) (l : Shape α) (v : α) (r : Shape α) :
    (Shape.node a c l v r).ptr = some a := rfl

theorem Shape.top_mem (a : Nat) (c : Bool) (l : Shape α) (v : α) (r : Shape α) :
    a ∈ (Shape.node a c l v r).addrs := by simp [Shape.addrs]

theorem body_RR_rot (t : RBTree α) (rest : List (Frame α)) (par : Option Nat)
    (p : Nat) (cp : Bool) (vp : α) (sp : Shape α) (g : Nat) (cg : Bool) (vg : α) (sg : Shape α)
    (x : Nat) (cx : Bool) (A : Shape α) (vx : α) (B : Shape α)
    (hred : sg.isRed = false)
    (hrep : Rep t.heap (plug rest (.node g cg sg vg (.node p cp sp vp (.node x cx A vx B)))) par)
    (hnd : (plug rest (.node g cg sg vg (.node p cp sp vp (.node x cx A vx B)))).addrs.Nodup)
    (hroot : t._root = (plug rest (.node g cg sg vg (.node p cp sp vp (.node x cx A vx B)))).ptr)
    (hmode : rest = [] → par = none) :
    ∃ t', t._balance_body (some x) = some (t', some p) ∧
      Rep t'.heap (plug rest (.node p cg (.node g cp sg vg sp) vp (.node x cx A vx B))) par ∧
      t'._root = (plug rest (.node p cg (.node g cp sg vg sp) vp (.node x cx A vx B))).ptr ∧
      (∀ b, b ∉ (plug rest (.node g cg sg vg (.node p cp sp vp (.node x cx A vx B)))).addrs → t'.heap b = t.heap b) ∧
      t'.fresh = t.fresh ∧ t'._comp = t._comp ∧ t'._end = t._end ∧ t'._size = t._size := by
  have hg := rep_cell hrep
  have hrepP : Rep t.heap (plug (⟨false, g, cg, vg, sg⟩ :: rest) (.node p cp sp vp (.node x cx A vx B))) par := hrep
  have hp := rep_cell hrepP
  have hrepX : Rep t.heap (plug (⟨false, p, cp, vp, sp⟩ :: ⟨false, g, cg, vg, sg⟩ :: rest) (.node x cx A vx B)) par := hrep
  have hx := rep_cell hrepX
  have hU : Rep t.heap sg (some g) := ((rep_plug rest _ par).1 hrep).2.2.1
  have hndG := nodup_sub hnd
  rw [Shape.nodup_node_iff] at hndG
  obtain ⟨-, hndP, hgU, hgP, hUP⟩ := hndG
  have hps : ¬ (some p = sg.ptr) := ne_ptr_of_not_mem
    (fun hm => hUP p hm (Shape.top_mem _ _ _ _ _))
  rw [Shape.nodup_node_iff] at hndP
  obtain ⟨-, hndX, hpS, hpX, hSX⟩ := hndP
  have hxs : ¬ (some x = sp.ptr) := ne_ptr_of_not_mem
    (fun hm => hSX x hm (Shape.top_mem _ _ _ _ _))
  obtain ⟨t1, hr1, hrep1, hroot1, hfr1, e1, e2, e3, e4⟩ :=
    rotateLeft_shape t rest par g cg sg vg p cp sp vp (.node x cx A vx B) hrep hnd hroot hmode
  have hn1 : (plug rest (.node p cp (.node g cg sg vg sp) vp (.node x cx A vx B))).addrs = (plug rest (.node g cg sg vg (.node p cp sp vp (.node x cx A vx B)))).addrs :=
    addrs_of_nodes_eq (plug_nodes_congr rest (by simp [Shape.nodes]))
  have hrep1' : Rep t1.heap (plug (⟨true, p, cp, vp, (.node x cx A vx B)⟩ :: rest) (.node g cg sg vg sp)) par := hrep1
  have hn2 : (plug (⟨true, p, cp, vp, (.node x cx A vx B)⟩ :: rest) (.node g cg sg vg sp)).addrs = (plug rest (.node g cg sg vg (.node p cp sp vp (.node x cx A vx B)))).addrs := hn1
  obtain ⟨t2, hr2, hrep2, hroot2, hfr2, e1', e2', e3', e4'⟩ :=
    swapColor_spec t1 rest par ⟨true, p, cp, vp, (.node x cx A vx B)⟩ g cg sg vg sp hrep1' (by rw [hn2]; exact hnd)
  refine ⟨t2, ?_, hrep2, ?_, ?_, e1'.trans e1, e2'.trans e2, e3'.trans e3, e4'.trans e4⟩
  · simp only [RBTree._balance_body, RBTree.node, Option.some_bind, hx, hp, hg, ctxPtr,
      Shape.ptr_node, if_true, redUncle_spec t sg (some g) hU, hred, hxs, hps, if_false,
      hr1, hr2, Option.map_some']
  · rw [hroot2, hroot1]
    exact ptr_plug_of_ptr rest rfl
  · intro b hb
    rw [hfr2 b (by rw [hn2]; exact hb), hfr1 b hb]

theorem body_RR_recolor (t : RBTree α) (rest : List (Frame α)) (par : Option Nat)
    (p : Nat) (cp : Bool) (vp : α) (sp : Shape α) (g : Nat) (cg : Bool) (vg : α)
    (u : Nat) (ul : Shape α) (vu : α) (ur : Shape α)
    (x : Nat) (cx : Bool) (A : Shape α) (vx : α) (B : Shape α)
    (hrep : Rep t.heap (plug rest (.node g cg (.node u true ul vu ur) vg (.node p cp sp vp (.node x cx A vx B)))) par)
    (hnd : (plug rest (.node g cg (.node u true ul vu ur) vg (.node p cp sp vp (.node x cx A vx B)))).addrs.Nodup) :
    ∃ t', t._balance_body (some x) = some (t', some g) ∧
      Rep t'.heap (plug rest (recolorStep ⟨false, p, cp, vp, sp⟩ ⟨false, g, cg, vg, (.node u true ul vu ur)⟩ (.node x cx A vx B))) par ∧
      t'._root = t._root ∧
      (∀ b, b ∉ (plug rest (.node g cg (.node u true ul vu ur) vg (.node p cp sp vp (.node x cx A vx B)))).addrs → t'.heap b = t.heap b) ∧
      t'.fresh = t.fresh ∧ t'._comp = t._comp ∧ t'._end = t._end ∧ t'._size = t._size := by
  have hg := rep_cell hrep
  have hrepP : Rep t.heap (plug (⟨false, g, cg, vg, (.node u true ul vu ur)⟩ :: rest) (.node p cp sp vp (.node x cx A vx B))) par := hrep
  have hp := rep_cell hrepP
  have hrepX : Rep t.heap (plug (⟨false, p, cp, vp, sp⟩ :: ⟨false, g, cg, vg, (.node u true ul vu ur)⟩ :: rest) (.node x cx A vx B)) par := hrep
  have hx := rep_cell hrepX
  have hU : Rep t.heap (.node u true ul vu ur) (some g) :=
    ((rep_plug rest _ par).1 hrep).2.2.1
  have hndG := nodup_sub hnd
  rw [Shape.nodup_node_iff] at hndG
  obtain ⟨-, hndP, hgU, hgP, hUP⟩ := hndG
  have hps : ¬ (p = u) := fun he => ne_ptr_of_not_mem
    (fun hm => hUP p hm (Shape.top_mem _ _ _ _ _)) (by rw [he]; rfl)
  obtain ⟨t1, hr1, hrep1, hroot1, hfr1, e1, e2, e3, e4⟩ :=
    recolor_spec t rest par ⟨false, p, cp, vp, sp⟩ ⟨false, g, cg, vg, (.node u true ul vu ur)⟩ (.node x cx A vx B) u true ul vu ur rfl hrepX hnd
  have hru : t.redUncle (some u) = some true :=
    redUncle_spec t (.node u true ul vu ur) (some g) hU
  refine ⟨t1, ?_, hrep1, hroot1, hfr1, e1, e2, e3, e4⟩
  simp only [RBTree._balance_body, RBTree.node, Option.some_bind, hx, hp, hg, ctxPtr,
    Shape.ptr_node, if_true, hru, hps, if_false, Option.some.injEq, hr1, Option.map_some']

theorem body_LR_rot (t : RBTree α) (rest : List (Frame α)) (par : Option Nat)
    (p : Nat) (cp : Bool) (vp : α) (sp : Shape α) (g : Nat) (cg : Bool) (vg : α) (sg : Shape α)
    (x : Nat) (cx : Bool) (A : Shape α) (vx : α) (B : Shape α)
    (hred : sg.isRed = false)
    (hrep : Rep t.heap (plug rest (.node g cg (.node p cp sp vp (.node x cx A vx B)) vg sg)) par)
    (hnd : (plug rest (.node g cg (.node p cp sp vp (.node x cx A vx B)) vg sg)).addrs.Nodup)
    (hroot : t._root = (plug rest (.node g cg (.node p cp sp vp (.node x cx A vx B)) vg sg)).ptr)
    (hmode : rest = [] → par = none) :
    ∃ t', t._balance_body (some x) = some (t', some x) ∧
      Rep t'.heap (plug rest (.node x cg (.node p cp sp vp A) vx (.node g cx B vg sg))) par ∧
      t'._root = (plug rest (.node x cg (.node p cp sp vp A) vx (.node g cx B vg sg))).ptr ∧
      (∀ b, b ∉ (plug rest (.node g cg (.node p cp sp vp (.node x cx A vx B)) vg sg)).addrs → t'.heap b = t.heap b) ∧
      t'.fresh = t.fresh ∧ t'._comp = t._comp ∧ t'._end = t._end ∧ t'._size = t._size := by
  have hg := rep_cell hrep
  have hrepP : Rep t.heap (plug (⟨true, g, cg, vg, sg⟩ :: rest) (.node p cp sp vp (.node x cx A vx B))) par := hrep
  have hp := rep_cell hrepP
  have hrepX : Rep t.heap (plug (⟨false, p, cp, vp, sp⟩ :: ⟨true, g, cg, vg, sg⟩ :: rest) (.node x cx A vx B)) par := hrep
  have hx := rep_cell hrepX
  have hU : Rep t.heap sg (some g) := ((rep_plug rest _ par).1 hrep).2.2.2
  have hndG := nodup_sub hnd
  rw [Shape.nodup_node_iff] at hndG
  obtain ⟨hndP, -, hgP, hgU, hPU⟩ := hndG
  have hps : ¬ (some p = sg.ptr) := ne_ptr_of_not_mem
    (hPU p (Shape.top_mem _ _ _ _ _))
  rw [Shape.nodup_node_iff] at hndP
  obtain ⟨-, hndX, hpS, hpX, hSX⟩ := hndP
  have hxs : ¬ (some x = sp.ptr) := ne_ptr_of_not_mem
    (fun hm => hSX x hm (Shape.top_mem _ _ _ _ _))
  obtain ⟨t1, hr1, hrep1, hroot1, hfr1, e1, e2, e3, e4⟩ :=
    rotateLeft_shape t (⟨true, g, cg, vg, sg⟩ :: rest) par p cp sp vp x cx A vx B hrepP hnd hroot (by simp)
  have hn1 : (plug rest (.node g cg (.node x cx (.node p cp sp vp A) vx B) vg sg)).addrs = (plug rest (.node g cg (.node p cp sp vp (.node x cx A vx B)) vg sg)).addrs :=
    addrs_of_nodes_eq (plug_nodes_congr rest (by simp [Shape.nodes]))
  have hrep1 : Rep t1.heap (plug rest (.node g cg (.node x cx (.node p cp sp vp A) vx B) vg sg)) par := hrep1
  have hroot1 : t1._root = (plug rest (.node g cg (.node x cx (.node p cp sp vp A) vx B) vg sg)).ptr := hroot1
  have hrepP1 : Rep t1.heap (plug (⟨true, x, cx, vx, B⟩ :: ⟨true, g, cg, vg, sg⟩ :: rest) (.node p cp sp vp A)) par := hrep1
  have hp1 := rep_cell hrepP1
  obtain ⟨t2, hr2, hrep2, hroot2, hfr2, e1', e2', e3', e4'⟩ :=
    rotateRight_shape t1 rest par g cg x cx (.node p cp sp vp A) vx B vg sg hrep1 (by rw [hn1]; exact hnd) (by rw [hroot1]) hmode
  have hn2 : (plug rest (.node x cx (.node p cp sp vp A) vx (.node g cg B vg sg))).addrs = (plug rest (.node g cg (.node p cp sp vp (.node x cx A vx B)) vg sg)).addrs :=
    addrs_of_nodes_eq (plug_nodes_congr rest (by simp [Shape.nodes]))
  have hrep2' : Rep t2.heap (plug (⟨false, x, cx, vx, (.node p cp sp vp A)⟩ :: rest) (.node g cg B vg sg)) par := hrep2
  have hn3 : (plug (⟨false, x, cx, vx, (.node p cp sp vp A)⟩ :: rest) (.node g cg B vg sg)).addrs = (plug rest (.node g cg (.node p cp sp vp (.node x cx A vx B)) vg sg)).addrs := hn2
  obtain ⟨t3, hr3, hrep3, hroot3, hfr3, e1'', e2'', e3'', e4''⟩ :=
    swapColor_spec t2 rest par ⟨false, x, cx, vx, (.node p cp sp vp A)⟩ g cg B vg sg hrep2' (by rw [hn3]; exact hnd)
  refine ⟨t3, ?_, hrep3, ?_, ?_, (e1''.trans e1').trans e1, (e2''.trans e2').trans e2,
    (e3''.trans e3').trans e3, (e4''.trans e4').trans e4⟩
  · simp only [RBTree._balance_body, RBTree.node, Option.some_bind, hx, hp, hg, ctxPtr,
      Shape.ptr_node, if_true, redUncle_spec t sg (some g) hU, hred, hxs, hps, if_false,
      hr1, hp1, hr2, hr3, Option.map_some']
  · rw [hroot3, hroot2]
    exact ptr_plug_of_ptr rest rfl
  · intro b hb
    rw [hfr3 b (by rw [hn3]; exact hb), hfr2 b (by rw [hn1]; exact hb), hfr1 b hb]

theorem body_LR_recolor (t : RBTree α) (rest : List (Frame α)) (par : Option Nat)
    (p : Nat) (cp : Bool) (vp : α) (sp : Shape α) (g : Nat) (cg : Bool) (vg : α)
    (u : Nat) (ul : Shape α) (vu : α) (ur : Shape α)
    (x : Nat) (cx : Bool) (A : Shape α) (vx : α) (B : Shape α)
    (hrep : Rep t.heap (plug rest (.node g cg (.node p cp sp vp (.node x cx A vx B)) vg (.node u true ul vu ur))) par)
    (hnd : (plug rest (.node g cg (.node p cp sp vp (.node x cx A vx B)) vg (.node u true ul vu ur))).addrs.Nodup) :
    ∃ t', t._balance_body (some x) = some (t', some g) ∧
      Rep t'.heap (plug rest (recolorStep ⟨false, p, cp, vp, sp⟩ ⟨true, g, cg, vg, (.node u true ul vu ur)⟩ (.node x cx A vx B))) par ∧
      t'._root = t._root ∧
      (∀ b, b ∉ (plug rest (.node g cg (.node p cp sp vp (.node x cx A vx B)) vg (.node u true ul vu ur))).addrs → t'.heap b = t.heap b) ∧
      t'.fresh = t.fresh ∧ t'._comp = t._comp ∧ t'._end = t._end ∧ t'._size = t._size := by
  have hg := rep_cell hrep
  have hrepP : Rep t.heap (plug (⟨true, g, cg, vg, (.node u true ul vu ur)⟩ :: rest) (.node p cp sp vp (.node x cx A vx B))) par := hrep
  have hp := rep_cell hrepP
  have hrepX : Rep t.heap (plug (⟨false, p, cp, vp, sp⟩ :: ⟨true, g, cg, vg, (.node u true ul vu ur)⟩ :: rest) (.node x cx A vx B)) par := hrep
  have hx := rep_cell hrepX
  have hU : Rep t.heap (.node u true ul vu ur) (some g) :=
    ((rep_plug rest _ par).1 hrep).2.2.2
  have hndG := nodup_sub hnd
  rw [Shape.nodup_node_iff] at hndG
  obtain ⟨hndP, -, hgP, hgU, hPU⟩ := hndG
  have hps : ¬ (p = u) := fun he => ne_ptr_of_not_mem
    (hPU p (Shape.top_mem _ _ _ _ _)) (by rw [he]; rfl)
  obtain ⟨t1, hr1, hrep1, hroot1, hfr1, e1, e2, e3, e4⟩ :=
    recolor_spec t rest par ⟨false, p, cp, vp, sp⟩ ⟨true, g, cg, vg, (.node u true ul vu ur)⟩ (.node x cx A vx B) u true ul vu ur rfl hrepX hnd
  have hru : t.redUncle (some u) = some true :=
    redUncle_spec t (.node u true ul vu ur) (some g) hU
  refine ⟨t1, ?_, hrep1, hroot1, hfr1, e1, e2, e3, e4⟩
  simp only [RBTree._balance_body, RBTree.node, Option.some_bind, hx, hp, hg, ctxPtr,
    Shape.ptr_node, if_true, hru, hps, if_false, Option.some.injEq, hr1, Option.map_some']

theorem body_RL_rot (t : RBTree α) (rest : List (Frame α)) (par : Option Nat)
    (p : Nat) (cp : Bool) (vp : α) (sp : Shape α) (g : Nat) (cg : Bool) (vg : α) (sg : Shape α)
    (x : Nat) (cx : Bool) (A : Shape α) (vx : α) (B : Shape α)
    (hred : sg.isRed = false)
    (hrep : Rep t.heap (plug rest (.node g cg sg vg (.node p cp (.node x cx A vx B) vp sp))) par)
    (hnd : (plug rest (.node g cg sg vg (.node p cp (.node x cx A vx B) vp sp))).addrs.Nodup)
    (hroot : t._root = (plug rest (.node g cg sg vg (.node p cp (.node x cx A vx B) vp sp))).ptr)
    (hmode : rest = [] → par = none) :
    ∃ t', t._balance_body (some x) = some (t', some x) ∧
      Rep t'.heap (plug rest (.node x cg (.node g cx sg vg A) vx (.node p cp B vp sp))) par ∧
      t'._root = (plug rest (.node x cg (.node g cx sg vg A) vx (.node p cp B vp sp))).ptr ∧
      (∀ b, b ∉ (plug rest (.node g cg sg vg (.node p cp (.node x cx A vx B) vp sp))).addrs → t'.heap b = t.heap b) ∧
      t'.fresh = t.fresh ∧ t'._comp = t._comp ∧ t'._end = t._end ∧ t'._size = t._size := by
  have hg := rep_cell hrep
  have hrepP : Rep t.heap (plug (⟨false, g, cg, vg, sg⟩ :: rest) (.node p cp (.node x cx A vx B) vp sp)) par := hrep
  have hp := rep_cell hrepP
  have hrepX : Rep t.heap (plug (⟨true, p, cp, vp, sp⟩ :: ⟨false, g, cg, vg, sg⟩ :: rest) (.node x cx A vx B)) par := hrep
  have hx := rep_cell hrepX
  have hU : Rep t.heap sg (some g) := ((rep_plug rest _ par).1 hrep).2.2.1
  have hndG := nodup_sub hnd
  rw [Shape.nodup_node_iff] at hndG
  obtain ⟨-, hndP, hgU, hgP, hUP⟩ := hndG
  have hps : ¬ (some p = sg.ptr) := ne_ptr_of_not_mem
    (fun hm => hUP p hm (Shape.top_mem _ _ _ _ _))
  rw [Shape.nodup_node_iff] at hndP
  obtain ⟨hndX, -, hpX, hpS, hXS⟩ := hndP
  have hxs : ¬ (some x = sp.ptr) := ne_ptr_of_not_mem
    (hXS x (Shape.top_mem _ _ _ _ _))
  obtain ⟨t1, hr1, hrep1, hroot1, hfr1, e1, e2, e3, e4⟩ :=
    rotateRight_shape t (⟨false, g, cg, vg, sg⟩ :: rest) par p cp x cx A vx B vp sp hrepP hnd hroot (by simp)
  have hn1 : (plug rest (.node g cg sg vg (.node x cx A vx (.node p cp B vp sp)))).addrs = (plug rest (.node g cg sg vg (.node p cp (.node x cx A vx B) vp sp))).addrs :=
    addrs_of_nodes_eq (plug_nodes_congr rest (by simp [Shape.nodes]))
  have hrep1 : Rep t1.heap (plug rest (.node g cg sg vg (.node x cx A vx (.node p cp B vp sp)))) par := hrep1
  have hroot1 : t1._root = (plug rest (.node g cg sg vg (.node x cx A vx (.node p cp B vp sp)))).ptr := hroot1
  have hrepP1 : Rep t1.heap (plug (⟨false, x, cx, vx, A⟩ :: ⟨false, g, cg, vg, sg⟩ :: rest) (.node p cp B vp sp)) par := hrep1
  have hp1 := rep_cell hrepP1
  obtain ⟨t2, hr2, hrep2, hroot2, hfr2, e1', e2', e3', e4'⟩ :=
    rotateLeft_shape t1 rest par g cg sg vg x cx A vx (.node p cp B vp sp) hrep1 (by rw [hn1]; exact hnd) (by rw [hroot1]) hmode
  have hn2 : (plug rest (.node x cx (.node g cg sg vg A) vx (.node p cp B vp sp))).addrs = (plug rest (.node g cg sg vg (.node p cp (.node x cx A vx B) vp sp))).addrs :=
    addrs_of_nodes_eq (plug_nodes_congr rest (by simp [Shape.nodes]))
  have hrep2' : Rep t2.heap (plug (⟨true, x, cx, vx, (.node p cp B vp sp)⟩ :: rest) (.node g cg sg vg A)) par := hrep2
  have hn3 : (plug (⟨true, x, cx, vx, (.node p cp B vp sp)⟩ :: rest) (.node g cg sg vg A)).addrs = (plug rest (.node g cg sg vg (.node p cp (.node x cx A vx B) vp sp))).addrs := hn2
  obtain ⟨t3, hr3, hrep3, hroot3, hfr3, e1'', e2'', e3'', e4''⟩ :=
    swapColor_spec t2 rest par ⟨true, x, cx, vx, (.node p cp B vp sp)⟩ g cg sg vg A hrep2' (by rw [hn3]; exact hnd)
  refine ⟨t3, ?_, hrep3, ?_, ?_, (e1''.trans e1').trans e1, (e2''.trans e2').trans e2,
    (e3''.trans e3').trans e3, (e4''.trans e4').trans e4⟩
  · simp only [RBTree._balance_body, RBTree.node, Option.some_bind, hx, hp, hg, ctxPtr,
      Shape.ptr_node, if_true, redUncle_spec t sg (some g) hU, hred, hxs, hps, if_false,
      hr1, hp1, hr2, hr3, Option.map_some']
  · rw [hroot3, hroot2]
    exact ptr_plug_of_ptr rest rfl
  · intro b hb
    rw [hfr3 b (by rw [hn3]; exact hb), hfr2 b (by rw [hn1]; exact hb), hfr1 b hb]

theorem body_RL_recolor (t : RBTree α) (rest : List (Frame α)) (par : Option Nat)
    (p : Nat) (cp : Bool) (vp : α) (sp : Shape α) (g : Nat) (cg : Bool) (vg : α)
    (u : Nat) (ul : Shape α) (vu : α) (ur : Shape α)
    (x : Nat) (cx : Bool) (A : Shape α) (vx : α) (B : Shape α)
    (hrep : Rep t.heap (plug rest (.node g cg (.node u true ul vu ur) vg (.node p cp (.node x cx A vx B) vp sp))) par)
    (hnd : (plug rest (.node g cg (.node u true ul vu ur) vg (.node p cp (.node x cx A vx B) vp sp))).addrs.Nodup) :
    ∃ t', t._balance_body (some x) = some (t', some g) ∧
      Rep t'.heap (plug rest (recolorStep ⟨true, p, cp, vp, sp⟩ ⟨false, g, cg, vg, (.node u true ul vu ur)⟩ (.node x cx A vx B))) par ∧
      t'._root = t._root ∧
      (∀ b, b ∉ (plug rest (.node g cg (.node u true ul vu ur) vg (.node p cp (.node x cx A vx B) vp sp))).addrs → t'.heap b = t.heap b) ∧
      t'.fresh = t.fresh ∧ t'._comp = t._comp ∧ t'._end = t._end ∧ t'._size = t._size := by
  have hg := rep_cell hrep
  have hrepP : Rep t.heap (plug (⟨false, g, cg, vg, (.node u true ul vu ur)⟩ :: rest) (.node p cp (.node x cx A vx B) vp sp)) par := hrep
  have hp := rep_cell hrepP
  have hrepX : Rep t.heap (plug (⟨true, p, cp, vp, sp⟩ :: ⟨false, g, cg, vg, (.node u true ul vu ur)⟩ :: rest) (.node x cx A vx B)) par := hrep
  have hx := rep_cell hrepX
  have hU : Rep t.heap (.node u true ul vu ur) (some g) :=
    ((rep_plug rest _ par).1 hrep).2.2.1
  have hndG := nodup_sub hnd
  rw [Shape.nodup_node_iff] at hndG
  obtain ⟨-, hndP, hgU, hgP, hUP⟩ := hndG
  have hps : ¬ (p = u) := fun he => ne_ptr_of_not_mem
    (fun hm => hUP p hm (Shape.top_mem _ _ _ _ _)) (by rw [he]; rfl)
  obtain ⟨t1, hr1, hrep1, hroot1, hfr1, e1, e2, e3, e4⟩ :=
    recolor_spec t rest par ⟨true, p, cp, vp, sp⟩ ⟨false, g, cg, vg, (.node u true ul vu ur)⟩ (.node x cx A vx B) u true ul vu ur rfl hrepX hnd
  have hru : t.redUncle (some u) = some true :=
    redUncle_spec t (.node u true ul vu ur) (some g) hU
  refine ⟨t1, ?_, hrep1, hroot1, hfr1, e1, e2, e3, e4⟩
  simp only [RBTree._balance_body, RBTree.node, Option.some_bind, hx, hp, hg, ctxPtr,
    Shape.ptr_node, if_true, hru, hps, if_false, Option.some.injEq, hr1, Option.map_some']

theorem body_LL_rot (t : RBTree α) (rest : List (Frame α)) (par : Option Nat)
    (p : Nat) (cp : Bool) (vp : α) (sp : Shape α) (g : Nat) (cg : Bool) (vg : α) (sg : Shape α)
    (x : Nat) (cx : Bool) (A : Shape α) (vx : α) (B : Shape α)
    (hred : sg.isRed = false)
    (hrep : Rep t.heap (plug rest (.node g cg (.node p cp (.node x cx A vx B) vp sp) vg sg)) par)
    (hnd : (plug rest (.node g cg (.node p cp (.node x cx A vx B) vp sp) vg sg)).addrs.Nodup)
    (hroot : t._root = (plug rest (.node g cg (.node p cp (.node x cx A vx B) vp sp) vg sg)).ptr)
    (hmode : rest = [] → par = none) :
    ∃ t', t._balance_body (some x) = some (t', some p) ∧
      Rep t'.heap (plug rest (.node p cg (.node x cx A vx B) vp (.node g cp sp vg sg))) par ∧
      t'._root = (plug rest (.node p cg (.node x cx A vx B) vp (.node g cp sp vg sg))).ptr ∧
      (∀ b, b ∉ (plug rest (.node g cg (.node p cp (.node x cx A vx B) vp sp) vg sg)).addrs → t'.heap b = t.heap b) ∧
      t'.fresh = t.fresh ∧ t'._comp = t._comp ∧ t'._end = t._end ∧ t'._size = t._size := by
  have hg := rep_cell hrep
  have hrepP : Rep t.heap (plug (⟨true, g, cg, vg, sg⟩ :: rest) (.node p cp (.node x cx A vx B) vp sp)) par := hrep
  have hp := rep_cell hrepP
  have hrepX : Rep t.heap (plug (⟨true, p, cp, vp, sp⟩ :: ⟨true, g, cg, vg, sg⟩ :: rest) (.node x cx A vx B)) par := hrep
  have hx := rep_cell hrepX
  have hU : Rep t.heap sg (some g) := ((rep_plug rest _ par).1 hrep).2.2.2
  have hndG := nodup_sub hnd
  rw [Shape.nodup_node_iff] at hndG
  obtain ⟨hndP, -, hgP, hgU, hPU⟩ := hndG
  have hps : ¬ (some p = sg.ptr) := ne_ptr_of_not_mem
    (hPU p (Shape.top_mem _ _ _ _ _))
  rw [Shape.nodup_node_iff] at hndP
  obtain ⟨hndX, -, hpX, hpS, hXS⟩ := hndP
  have hxs : ¬ (some x = sp.ptr) := ne_ptr_of_not_mem
    (hXS x (Shape.top_mem _ _ _ _ _))
  obtain ⟨t1, hr1, hrep1, hroot1, hfr1, e1, e2, e3, e4⟩ :=
    rotateRight_shape t rest par g cg p cp (.node x cx A vx B) vp sp vg sg hrep hnd hroot hmode
  have hn1 : (plug rest (.node p cp (.node x cx A vx B) vp (.node g cg sp vg sg))).addrs = (plug rest (.node g cg (.node p cp (.node x cx A vx B) vp sp) vg sg)).addrs :=
    addrs_of_nodes_eq (plug_nodes_congr rest (by simp [Shape.nodes]))
  have hrep1' : Rep t1.heap (plug (⟨false, p, cp, vp, (.node x cx A vx B)⟩ :: rest) (.node g cg sp vg sg)) par := hrep1
  have hn2 : (plug (⟨false, p, cp, vp, (.node x cx A vx B)⟩ :: rest) (.node g cg sp vg sg)).addrs = (plug rest (.node g cg (.node p cp (.node x cx A vx B) vp sp) vg sg)).addrs := hn1
  obtain ⟨t2, hr2, hrep2, hroot2, hfr2, e1', e2', e3', e4'⟩ :=
    swapColor_spec t1 rest par ⟨false, p, cp, vp, (.node x cx A vx B)⟩ g cg sp vg sg hrep1' (by rw [hn2]; exact hnd)
  refine ⟨t2, ?_, hrep2, ?_, ?_, e1'.trans e1, e2'.trans e2, e3'.trans e3, e4'.trans e4⟩
  · simp only [RBTree._balance_body, RBTree.node, Option.some_bind, hx, hp, hg, ctxPtr,
      Shape.ptr_node, if_true, redUncle_spec t sg (some g) hU, hred, hxs, hps, if_false,
      hr1, hr2, Option.map_some']
  · rw [hroot2, hroot1]
    exact ptr_plug_of_ptr rest rfl
  · intro b hb
    rw [hfr2 b (by rw [hn2]; exact hb), hfr1 b hb]

theorem body_LL_recolor (t : RBTree α) (rest : List (Frame α)) (par : Option Nat)
    (p : Nat) (cp : Bool) (vp : α) (sp : Shape α) (g : Nat) (cg : Bool) (vg : α)
    (u : Nat) (ul : Shape α) (vu : α) (ur : Shape α)
    (x : Nat) (cx : Bool) (A : Shape α) (vx : α) (B : Shape α)
    (hrep : Rep t.heap (plug rest (.node g cg (.node p cp (.node x cx A vx B) vp sp) vg (.node u true ul vu ur))) par)
    (hnd : (plug rest (.node g cg (.node p cp (.node x cx A vx B) vp sp) vg (.node u true ul vu ur))).addrs.Nodup) :
    ∃ t', t._balance_body (some x) = some (t', some g) ∧
      Rep t'.heap (plug rest (recolorStep ⟨true, p, cp, vp, sp⟩ ⟨true, g, cg, vg, (.node u true ul vu ur)⟩ (.node x cx A vx B))) par ∧
      t'._root = t._root ∧
      (∀ b, b ∉ (plug rest (.node g cg (.node p cp (.node x cx A vx B) vp sp) vg (.node u true ul vu ur))).addrs → t'.heap b = t.heap b) ∧
      t'.fresh = t.fresh ∧ t'._comp = t._comp ∧ t'._end = t._end ∧ t'._size = t._size := by
  have hg := rep_cell hrep
  have hrepP : Rep t.heap (plug (⟨true, g, cg, vg, (.node u true ul vu ur)⟩ :: rest) (.node p cp (.node x cx A vx B) vp sp)) par := hrep
  have hp := rep_cell hrepP
  have hrepX : Rep t.heap (plug (⟨true, p, cp, vp, sp⟩ :: ⟨true, g, cg, vg, (.node u true ul vu ur)⟩ :: rest) (.node x cx A vx B)) par := hrep
  have hx := rep_cell hrepX
  have hU : Rep t.heap (.node u true ul vu ur) (some g) :=
    ((rep_plug rest _ par).1 hrep).2.2.2
  have hndG := nodup_sub hnd
  rw [Shape.nodup_node_iff] at hndG
  obtain ⟨hndP, -, hgP, hgU, hPU⟩ := hndG
  have hps : ¬ (p = u) := fun he => ne_ptr_of_not_mem
    (hPU p (Shape.top_mem _ _ _ _ _)) (by rw [he]; rfl)
  obtain ⟨t1, hr1, hrep1, hroot1, hfr1, e1, e2, e3, e4⟩ :=
    recolor_spec t rest par ⟨true, p, cp, vp, sp⟩ ⟨true, g, cg, vg, (.node u true ul vu ur)⟩ (.node x cx A vx B) u true ul vu ur rfl hrepX hnd
  have hru : t.redUncle (some u) = some true :=
    redUncle_spec t (.node u true ul vu ur) (some g) hU
  refine ⟨t1, ?_, hrep1, hroot1, hfr1, e1, e2, e3, e4⟩
  simp only [RBTree._balance_body, RBTree.node, Option.some_bind, hx, hp, hg, ctxPtr,
    Shape.ptr_node, if_true, hru, hps, if_false, Option.some.injEq, hr1, Option.map_some']

theorem balStep_ptr_ne (f1 f2 : Frame α) (x : Nat) (cx : Bool) (A : Shape α) (vx : α)
    (B : Shape α) :
    ∃ x' cx' A' vx' B', balStep f1 f2 (.node x cx A vx B) = .node x' cx' A' vx' B' := by
  obtain ⟨il1, p, cp, vp, sp⟩ := f1
  obtain ⟨il2, g, cg, vg, sg⟩ := f2
  unfold balStep
  split
  · cases il1 <;> cases il2 <;> exact ⟨_, _, _, _, _, rfl⟩
  · cases il1 <;> cases il2 <;> exact ⟨_, _, _, _, _, rfl⟩

theorem balStep_nodes (f1 f2 : Frame α) (x : Nat) (cx : Bool) (A : Shape α) (vx : α)
    (B : Shape α) :
    (balStep f1 f2 (.node x cx A vx B)).nodes = (f2.fill (f1.fill (.node x cx A vx B))).nodes := by
  obtain ⟨il1, p, cp, vp, sp⟩ := f1
  obtain ⟨il2, g, cg, vg, sg⟩ := f2
  unfold balStep
  split
  · cases il1 <;> cases il2 <;>
      simp [recolorStep, Frame.fill, Shape.nodes, Shape.nodes_setColor]
  · cases il1 <;> cases il2 <;> simp [rotStep, Frame.fill, Shape.nodes]

theorem balance_body_spec (t : RBTree α) (rest : List (Frame α)) (par : Option Nat)
    (f1 f2 : Frame α) (x : Nat) (cx : Bool) (A : Shape α) (vx : α) (B : Shape α)
    (hrep : Rep t.heap (plug (f1 :: f2 :: rest) (.node x cx A vx B)) par)
    (hnd : (plug (f1 :: f2 :: rest) (.node x cx A vx B)).addrs.Nodup)
    (hroot : t._root = (plug (f1 :: f2 :: rest) (.node x cx A vx B)).ptr)
    (hmode : rest = [] → par = none) :
    ∃ t', t._balance_body (some x) = some (t', (balStep f1 f2 (.node x cx A vx B)).ptr) ∧
      Rep t'.heap (plug rest (balStep f1 f2 (.node x cx A vx B))) par ∧
      t'._root = (plug rest (balStep f1 f2 (.node x cx A vx B))).ptr ∧
      (∀ b, b ∉ (plug (f1 :: f2 :: rest) (.node x cx A vx B)).addrs → t'.heap b = t.heap b) ∧
      t'.fresh = t.fresh ∧ t'._comp = t._comp ∧ t'._end = t._end ∧ t'._size = t._size := by
  obtain ⟨il1, p, cp, vp, sp⟩ := f1
  obtain ⟨il2, g, cg, vg, sg⟩ := f2
  by_cases hred : sg.isRed = true
  · cases sg with
    | nil => simp [Shape.isRed] at hred
    | node u cu ul vu ur =>
      simp only [Shape.isRed] at hred
      subst hred
      have hbs : ∀ il1 il2, balStep ⟨il1, p, cp, vp, sp⟩ ⟨il2, g, cg, vg, .node u true ul vu ur⟩
          (.node x cx A vx B) = recolorStep ⟨il1, p, cp, vp, sp⟩
            ⟨il2, g, cg, vg, .node u true ul vu ur⟩ (.node x cx A vx B) := by
        intro a b; simp [balStep, Shape.isRed]
      rw [hbs]
      have key : ∀ t' : RBTree α, t'._root = t._root →
          t'._root = (plug rest (recolorStep ⟨il1, p, cp, vp, sp⟩
            ⟨il2, g, cg, vg, .node u true ul vu ur⟩ (.node x cx A vx B))).ptr := by
        intro t' h
        rw [h, hroot]
        exact ptr_plug_of_ptr rest
          (s := Frame.fill ⟨il2, g, cg, vg, .node u true ul vu ur⟩
            (Frame.fill ⟨il1, p, cp, vp, sp⟩ (.node x cx A vx B)))
          (by cases il1 <;> cases il2 <;> rfl)
      have hptr : (recolorStep ⟨il1, p, cp, vp, sp⟩
            ⟨il2, g, cg, vg, .node u true ul vu ur⟩ (.node x cx A vx B)).ptr = some g := by
        cases il1 <;> cases il2 <;> rfl
      rw [hptr]
      cases il1 <;> cases il2
      · obtain ⟨t', h1, h2, h3, h4⟩ := body_RR_recolor t rest par p cp vp sp g cg vg u ul vu ur
          x cx A vx B hrep hnd
        exact ⟨t', h1, h2, key t' h3, h4⟩
      · obtain ⟨t', h1, h2, h3, h4⟩ := body_LR_recolor t rest par p cp vp sp g cg vg u ul vu ur
          x cx A vx B hrep hnd
        exact ⟨t', h1, h2, key t' h3, h4⟩
      · obtain ⟨t', h1, h2, h3, h4⟩ := body_RL_recolor t rest par p cp vp sp g cg vg u ul vu ur
          x cx A vx B hrep hnd
        exact ⟨t', h1, h2, key t' h3, h4⟩
      · obtain ⟨t', h1, h2, h3, h4⟩ := body_LL_recolor t rest par p cp vp sp g cg vg u ul vu ur
          x cx A vx B hrep hnd
        exact ⟨t', h1, h2, key t' h3, h4⟩
  · have hred' : sg.isRed = false := by simpa using hred
    have hbs : ∀ il1 il2, balStep ⟨il1, p, cp, vp, sp⟩ ⟨il2, g, cg, vg, sg⟩
        (.node x cx A vx B) = rotStep ⟨il1, p, cp, vp, sp⟩ ⟨il2, g, cg, vg, sg⟩
          (.node x cx A vx B) := by
      intro a b; simp [balStep, hred']
    rw [hbs]
    cases il1 <;> cases il2
    · exact body_RR_rot t rest par p cp vp sp g cg vg sg x cx A vx B hred' hrep hnd hroot hmode
    · exact body_LR_rot t rest par p cp vp sp g cg vg sg x cx A vx B hred' hrep hnd hroot hmode
    · exact body_RL_rot t rest par p cp vp sp g cg vg sg x cx A vx B hred' hrep hnd hroot hmode
    · exact body_LL_rot t rest par p cp vp sp g cg vg sg x cx A vx B hred' hrep hnd hroot hmode

theorem fixup_nodes : ∀ (n : Nat) (ctx : List (Frame α)), ctx.length ≤ n →
    ∀ (x : Nat) (cx : Bool) (A : Shape α) (vx : α) (B : Shape α),
      (fixup ctx (.node x cx A vx B)).nodes = (plug ctx (.node x cx A vx B)).nodes := by
  intro n
  induction n with
  | zero =>
    intro ctx hl x cx A vx B
    cases ctx with
    | nil => rfl
    | cons f fs => simp at hl
  | succ n ih =>
    intro ctx hl x cx A vx B
    match ctx, hl with
    | [], _ => rfl
    | [f1], _ => rfl
    | f1 :: f2 :: rest, hl =>
      simp only [fixup]
      split
      · obtain ⟨x', cx', A', vx', B', he⟩ := balStep_ptr_ne f1 f2 x cx A vx B
        have hn := balStep_nodes f1 f2 x cx A vx B
        rw [he] at hn ⊢
        rw [ih rest (by simp at hl; omega) x' cx' A' vx' B']
        exact plug_nodes_congr rest hn
      · rfl

theorem rootBlack_tail {f1 f2 : Frame α} {rest : List (Frame α)}
    (h : rootBlack (f1 :: f2 :: rest)) : rootBlack rest := by
  intro f hf
  apply h f
  cases rest with
  | nil => simp at hf
  | cons g gs => simpa [List.getLast?_cons_cons] using hf

theorem root_ne_of_ctx {f : Frame α} {fs : List (Frame α)} {s : Shape α} {x : Nat}
    (hnd : (plug (f :: fs) s).addrs.Nodup) (hx : x ∈ s.addrs) :
    ¬ (some x = (plug (f :: fs) s).ptr) := by
  induction fs generalizing f s x with
  | nil =>
    simp only [plug, Frame.fill_ptr, Option.some.injEq]
    rintro rfl
    have := nodup_plug.1 hnd
    have hd := (List.nodup_append.1 this).2.2
    exact hd hx (by simp [ctxAddrs])
  | cons g gs ih =>
    have : (plug (g :: gs) (f.fill s)).addrs.Nodup := hnd
    apply ih this
    rw [(f.fill_addrs s).mem_iff]
    simp [hx]

theorem balance_cond_root (t : RBTree α) (x : Nat) (h : t._root = some x) :
    t._balance_cond (some x) = some false := by
  simp [RBTree._balance_cond, h]

theorem balance_cond_inner (t : RBTree α) (f : Frame α) (fs : List (Frame α))
    (x : Nat) (cx : Bool) (A : Shape α) (vx : α) (B : Shape α) (par : Option Nat)
    (hrep : Rep t.heap (plug (f :: fs) (.node x cx A vx B)) par)
    (hnd : (plug (f :: fs) (.node x cx A vx B)).addrs.Nodup)
    (hroot : t._root = (plug (f :: fs) (.node x cx A vx B)).ptr) :
    t._balance_cond (some x) = some (cx && f.c) := by
  have hx := rep_cell hrep
  have hne : ¬ (some x = t._root) := by
    rw [hroot]
    exact root_ne_of_ctx hnd (Shape.top_mem _ _ _ _ _)
  have hf : t.heap f.a = some (f.cell (some x) (ctxPtr fs par)) :=
    ((rep_plug (f :: fs) _ par).1 hrep).1.1
  have hfc : (f.cell (some x) (ctxPtr fs par)).color = f.c := by
    obtain ⟨il, a, c, v, sib⟩ := f
    cases il <;> rfl
  simp only [RBTree._balance_cond, hne, if_false, RBTree.node, Option.some_bind, hx, ctxPtr]
  cases cx
  · simp
  · simp [hf, hfc]

theorem balance_loop_spec : ∀ (n : Nat) (ctx : List (Frame α)), ctx.length ≤ n →
    ∀ (t : RBTree α) (x : Nat) (cx : Bool) (A : Shape α) (vx : α) (B : Shape α) (fuel : Nat),
      Rep t.heap (plug ctx (.node x cx A vx B)) none →
      (plug ctx (.node x cx A vx B)).addrs.Nodup →
      t._root = (plug ctx (.node x cx A vx B)).ptr →
      rootBlack ctx → ctx.length < fuel →
      ∃ t', RBTree._balance_loop fuel t (some x) = some t' ∧
        Rep t'.heap (fixup ctx (.node x cx A vx B)) none ∧
        t'._root = (fixup ctx (.node x cx A vx B)).ptr ∧
        (∀ b, b ∉ (plug ctx (.node x cx A vx B)).addrs → t'.heap b = t.heap b) ∧
        t'.fresh = t.fresh ∧ t'._comp = t._comp ∧ t'._end = t._end ∧ t'._size = t._size := by
  intro n
  induction n with
  | zero =>
    intro ctx hl t x cx A vx B fuel hrep hnd hroot hrb hfuel
    cases ctx with
    | cons f fs => simp at hl
    | nil =>
      cases fuel with
      | zero => simp at hfuel
      | succ fuel =>
        refine ⟨t, ?_, hrep, hroot, fun _ _ => rfl, rfl, rfl, rfl, rfl⟩
        simp only [RBTree._balance_loop, balance_cond_root t x hroot]
  | succ n ih =>
    intro ctx hl t x cx A vx B fuel hrep hnd hroot hrb hfuel
    cases fuel with
    | zero => simp at hfuel
    | succ fuel =>
      match ctx, hl, hrep, hnd, hroot, hrb, hfuel with
      | [], _, hrep, _, hroot, _, _ =>
        refine ⟨t, ?_, hrep, hroot, fun _ _ => rfl, rfl, rfl, rfl, rfl⟩
        simp only [RBTree._balance_loop, balance_cond_root t x hroot]
      | [f1], _, hrep, hnd, hroot, hrb, _ =>
        have hc := balance_cond_inner t f1 [] x cx A vx B none hrep hnd hroot
        have hf1 : f1.c = false := hrb f1 rfl
        rw [hf1, Bool.and_false] at hc
        refine ⟨t, ?_, hrep, hroot, fun _ _ => rfl, rfl, rfl, rfl, rfl⟩
        simp only [RBTree._balance_loop, hc]
      | f1 :: f2 :: rest, hl, hrep, hnd, hroot, hrb, hfuel =>
        have hc := balance_cond_inner t f1 (f2 :: rest) x cx A vx B none hrep hnd hroot
        by_cases hgo : (cx && f1.c) = true
        · rw [hgo] at hc
          obtain ⟨t1, hb, hrep1, hroot1, hfr1, e1, e2, e3, e4⟩ :=
            balance_body_spec t rest none f1 f2 x cx A vx B hrep hnd hroot (fun _ => rfl)
          obtain ⟨x', cx', A', vx', B', he⟩ := balStep_ptr_ne f1 f2 x cx A vx B
          have hn : (plug rest (balStep f1 f2 (.node x cx A vx B))).addrs =
              (plug (f1 :: f2 :: rest) (.node x cx A vx B)).addrs :=
            addrs_of_nodes_eq (plug_nodes_congr rest (balStep_nodes f1 f2 x cx A vx B))
          rw [he] at hb hrep1 hroot1 hn
          obtain ⟨t2, hl2, hrep2, hroot2, hfr2, e1', e2', e3', e4'⟩ :=
            ih rest (by simp at hl; omega) t1 x' cx' A' vx' B' fuel hrep1
              (by rw [hn]; exact hnd) hroot1 (rootBlack_tail hrb) (by simp at hfuel; omega)
          refine ⟨t2, ?_, ?_, ?_, ?_, e1'.trans e1, e2'.trans e2, e3'.trans e3, e4'.trans e4⟩
          · simp only [RBTree._balance_loop, hc, hb, Shape.ptr_node, hl2]
          · simp only [fixup, Shape.isRed, hgo, if_true, he]
            exact hrep2
          · simp only [fixup, Shape.isRed, hgo, if_true, he]
            exact hroot2
          · intro b hb'
            rw [hfr2 b (by rw [hn]; exact hb'), hfr1 b hb']
        · have hgo' : (cx && f1.c) = false := by simpa using hgo
          rw [hgo'] at hc
          refine ⟨t, ?_, ?_, ?_, fun _ _ => rfl, rfl, rfl, rfl, rfl⟩
          · simp only [RBTree._balance_loop, hc]
          · simp only [fixup, Shape.isRed, hgo']
            exact hrep
          · simp only [fixup, Shape.isRed, hgo']
            exact hroot

theorem placeSorted_right (comp : α → α → Bool) (v v0 : α) (l r : List α)
    (hl : ∀ x ∈ l, comp x v = true) (h0 : comp v0 v = true) :
    placeSorted comp v (l ++ v0 :: r) = l ++ v0 :: placeSorted comp v r := by
  unfold placeSorted
  rw [List.takeWhile_append_of_pos hl, List.dropWhile_append_of_pos hl]
  simp [List.takeWhile_cons, List.dropWhile_cons, h0]

theorem takeWhile_stop (p : α → Bool) (x : α) (l r : List α) (hx : p x = false) :
    (l ++ x :: r).takeWhile p = l.takeWhile p ∧
      (l ++ x :: r).dropWhile p = l.dropWhile p ++ x :: r := by
  induction l with
  | nil => simp [List.takeWhile_cons, List.dropWhile_cons, hx]
  | cons a l ih =>
    by_cases ha : p a = true
    · simp [List.takeWhile_cons, List.dropWhile_cons, ha, ih.1, ih.2]
    · simp [List.takeWhile_cons, List.dropWhile_cons, ha]

theorem placeSorted_left (comp : α → α → Bool) (v v0 : α) (l r : List α)
    (h0 : comp v0 v = false) :
    placeSorted comp v (l ++ v0 :: r) = placeSorted comp v l ++ v0 :: r := by
  unfold placeSorted
  obtain ⟨h1, h2⟩ := takeWhile_stop (fun x => comp x v) v0 l r h0
  rw [h1, h2]
  simp

theorem plug_append (c1 c2 : List (Frame α)) (s : Shape α) :
    plug (c1 ++ c2) s = plug c2 (plug c1 s) := by
  induction c1 generalizing s with
  | nil => rfl
  | cons f fs ih => exact ih (f.fill s)

theorem ctxPtr_append_single (c1 : List (Frame α)) (f : Frame α) (y : Option Nat) :
    ctxPtr (c1 ++ [f]) y = ctxPtr c1 (some f.a) := by
  cases c1 <;> rfl

/-- Leaf created by `insert`. -/
theorem bst_insert_loop_spec (t : RBTree α) (hsw : StrictWeak t._comp) (nw : Nat) (v : α)
    (nn : RBTreeNode α) (hnw : t.heap nw = some nn) (hnv : nn.value = some v) :
    ∀ (s : Shape α) (par : Option Nat) (fuel : Nat) (y : Option Nat),
      Rep t.heap s par → s.BST t._comp →
      (∀ e ∈ s.toList, equiv t._comp e v = false) → s.height < fuel →
      ∃ ctx : List (Frame α), plug ctx .nil = s ∧
        t._bst_insert_loop (some nw) fuel s.ptr y = some (Sum.inr (ctxPtr ctx y)) ∧
        (∀ f fs, ctx = f :: fs → f.isLeft = !t._comp f.v v) ∧
        ∀ leaf : Shape α, (plug ctx leaf).toList =
          s.toList.takeWhile (fun x => t._comp x v) ++ leaf.toList ++
            s.toList.dropWhile (fun x => t._comp x v) := by
  intro s
  induction s with
  | nil =>
    intro par fuel y _ _ _ hf
    cases fuel with
    | zero => simp [Shape.height] at hf
    | succ fuel =>
      refine ⟨[], rfl, by simp [RBTree._bst_insert_loop, Shape.ptr, ctxPtr], ?_, ?_⟩
      · intro f fs h; cases h
      · intro leaf; simp [plug, Shape.toList]
  | node a c l v0 r ihl ihr =>
    intro par fuel y hrep hbst hne hf
    obtain ⟨h1, h2, h3⟩ := hrep
    obtain ⟨b1, b2, b3, b4⟩ := hbst
    cases fuel with
    | zero => simp at hf
    | succ fuel =>
      simp only [Shape.height] at hf
      rw [Shape.ptr_node]
      simp only [RBTree._bst_insert_loop, h1, RBTree.node, Option.some_bind, hnw, hnv]
      have hne0 : equiv t._comp v0 v = false := hne v0 (by simp [Shape.toList])
      by_cases hc1 : t._comp v0 v = true
      · obtain ⟨ctx, hp, hrun, hdir, hlist⟩ := ihr (some a) fuel (some a) h3 b4
          (fun e he => hne e (by simp [Shape.toList, he])) (by omega)
        refine ⟨ctx ++ [⟨false, a, c, v0, l⟩], ?_, ?_, ?_, ?_⟩
        · rw [plug_append, hp]; rfl
        · rw [if_pos hc1, hrun, ctxPtr_append_single]
        · intro f fs hctx
          cases ctx with
          | nil =>
            simp only [List.nil_append, List.cons.injEq] at hctx
            rw [← hctx.1]
            simp [hc1]
          | cons f' fs' =>
            simp only [List.cons_append, List.cons.injEq] at hctx
            rw [← hctx.1]
            exact hdir f' fs' rfl
        · intro leaf
          rw [plug_append]
          simp only [plug, Frame.fill, Shape.toList, hlist leaf]
          have hl : ∀ x ∈ l.toList, t._comp x v = true :=
            fun x hx => hsw.trans _ _ _ (b1 x hx) hc1
          rw [List.takeWhile_append_of_pos hl, List.dropWhile_append_of_pos hl]
          simp [List.takeWhile_cons, List.dropWhile_cons, hc1]
      · have hc1' : t._comp v0 v = false := by simpa using hc1
        have hc2 : t._comp v v0 = true := by
          simp only [equiv, hc1', Bool.not_false, Bool.true_and, Bool.not_eq_false'] at hne0
          exact hne0
        obtain ⟨ctx, hp, hrun, hdir, hlist⟩ := ihl (some a) fuel (some a) h2 b3
          (fun e he => hne e (by simp [Shape.toList, he])) (by omega)
        refine ⟨ctx ++ [⟨true, a, c, v0, r⟩], ?_, ?_, ?_, ?_⟩
        · rw [plug_append, hp]; rfl
        · rw [if_neg hc1, if_pos hc2, hrun, ctxPtr_append_single]
        · intro f fs hctx
          cases ctx with
          | nil =>
            simp only [List.nil_append, List.cons.injEq] at hctx
            rw [← hctx.1]
            simp [hc1']
          | cons f' fs' =>
            simp only [List.cons_append, List.cons.injEq] at hctx
            rw [← hctx.1]
            exact hdir f' fs' rfl
        · intro leaf
          rw [plug_append]
          simp only [plug, Frame.fill, Shape.toList, hlist leaf]
          obtain ⟨e1, e2⟩ := takeWhile_stop (fun x => t._comp x v) v0 l.toList r.toList hc1'
          rw [e1, e2]
          simp

theorem ctx_ne_nil_of_plug {ctx : List (Frame α)} {a : Nat} {c : Bool} {l : Shape α} {v : α}
    {r : Shape α} (h : plug ctx .nil = .node a c l v r) : ∃ f fs, ctx = f :: fs := by
  cases ctx with
  | nil => cases h
  | cons f fs => exact ⟨f, fs, rfl⟩

theorem Frame.cell_value (f : Frame α) (p q : Option Nat) : (f.cell p q).value = some f.v := by
  obtain ⟨il, a, c, v, sib⟩ := f
  cases il <;> rfl

theorem Frame.cell_set (f : Frame α) (p p' q : Option Nat) :
    (match f.isLeft with
     | true => { f.cell p q with left := p' }
     | false => { f.cell p q with right := p' }) = f.cell p' q := by
  obtain ⟨il, a, c, v, sib⟩ := f
  cases il <;> rfl

theorem ctxPtr_cons (f : Frame α) (fs : List (Frame α)) (par : Option Nat) :
    ctxPtr (f :: fs) par = some f.a := rfl

theorem bst_insert_spec (t : RBTree α) (hsw : StrictWeak t._comp) (T : Shape α) (nw : Nat)
    (v : α)
    (hroot : t._root = T.ptr) (hrep : Rep t.heap T none) (hnd : T.addrs.Nodup)
    (hnw : t.heap nw = some ⟨some v, none, none, none, true⟩)
    (hfresh : nw ∉ T.addrs) (hbst : T.BST t._comp)
    (hne : ∀ e ∈ T.toList, equiv t._comp e v = false) (hfuel : T.height < t.fuel) :
    ∃ (ctx : List (Frame α)) (t2 : RBTree α), plug ctx .nil = T ∧
      t._bst_insert (some nw) = some (t2, some nw, true) ∧
      Rep t2.heap (plug ctx (.node nw true .nil v .nil)) none ∧
      t2._root = (plug ctx (.node nw true .nil v .nil)).ptr ∧
      (∀ b, b ≠ nw → b ∉ T.addrs → t2.heap b = t.heap b) ∧
      t2.fresh = t.fresh ∧ t2._comp = t._comp ∧ t2._end = t._end ∧ t2._size = t._size ∧
      (plug ctx (.node nw true .nil v .nil)).toList = placeSorted t._comp v T.toList := by
  cases T with
  | nil =>
    refine ⟨[], { t with _root := some nw }, rfl, ?_, ?_, rfl, fun _ _ _ => rfl, rfl, rfl, rfl,
      rfl, ?_⟩
    · simp only [RBTree._bst_insert, hroot, Shape.ptr]
    · exact ⟨hnw, trivial, trivial⟩
    · simp [plug, Shape.toList, placeSorted]
  | node a c l v0 r =>
    obtain ⟨ctx, hp, hrun, hdir, hlist⟩ :=
      bst_insert_loop_spec t hsw nw v _ hnw rfl (.node a c l v0 r) none t.fuel none hrep hbst
        hne hfuel
    obtain ⟨f, fs, hctx⟩ := ctx_ne_nil_of_plug hp
    subst hctx
    have hrepc : Rep t.heap (plug (f :: fs) .nil) none := by rw [hp]; exact hrep
    obtain ⟨hc, -⟩ := (rep_plug (f :: fs) .nil none).1 hrepc
    have hf : t.heap f.a = some (f.cell none (ctxPtr fs none)) := hc.1
    have hndc : (plug (f :: fs) (Shape.nil : Shape α)).addrs.Nodup := by rw [hp]; exact hnd
    have hndC : (ctxAddrs (f :: fs)).Nodup := by
      have := nodup_plug.1 hndc
      simpa [Shape.addrs] using this
    have hmemC : ∀ b, b ∈ ctxAddrs (f :: fs) ↔ b ∈ (Shape.node a c l v0 r).addrs := by
      intro b
      rw [← hp, mem_addrs_plug]
      simp [Shape.addrs]
    have hfa : f.a ≠ nw := by
      rintro rfl
      exact hfresh ((hmemC _).1 (by simp [ctxAddrs]))
    have hfa' : nw ≠ f.a := fun h => hfa h.symm
    have hdirf := hdir f fs rfl
    refine ⟨f :: fs, ⟨store (store t.heap nw (some ⟨some v, none, none, some f.a, true⟩)) f.a
      (some (f.cell (some nw) (ctxPtr fs none))), t.fresh, t._comp, t._root, t._end, t._size⟩,
      hp, ?_, ?_, ?_, ?_, rfl, rfl, rfl, rfl, ?_⟩
    · simp only [RBTree._bst_insert, hroot, Shape.ptr_node]
      rw [show (some a : Option Nat) = (Shape.node a c l v0 r).ptr from rfl, hrun]
      obtain ⟨il, fa, fc, fv, fsib⟩ := f
      simp only at hdirf hfa hf
      by_cases hcv : t._comp fv v = true
      · have hil : il = false := by rw [hdirf, hcv]; rfl
        subst hil
        simp only [ctxPtr_cons, RBTree.write, hnw, RBTree.node, Option.some_bind, store_same,
          store_other _ _ hfa, hf, Frame.cell, hcv, if_true, Option.map_some']
        rw [hroot]
      · have hil : il = true := by
          rw [hdirf]
          simpa using hcv
        subst hil
        have hcv' : t._comp fv v = false := by simpa using hcv
        simp only [ctxPtr_cons, RBTree.write, hnw, RBTree.node, Option.some_bind, store_same,
          store_other _ _ hfa, hf, Frame.cell, hcv', if_false, Option.map_some',
          Bool.false_eq_true]
        rw [hroot]
    · rw [rep_plug]
      constructor
      · apply hc.move_ctx hndC
        · intro f' fs' he
          cases he
          exact store_same _ _ _
        · intro b hb hne'
          have hb1 : b ≠ f.a := fun h => hne' (by simp [ctxPtr, h])
          have hb2 : b ≠ nw := by
            rintro rfl
            exact hfresh ((hmemC _).1 hb)
          show store _ _ _ b = _
          rw [store_other _ _ hb1, store_other _ _ hb2]
      · refine ⟨?_, trivial, trivial⟩
        show store _ _ _ nw = _
        rw [store_other _ _ hfa', store_same]
        rfl
    · show t._root = _
      rw [hroot, ← hp]
      exact ptr_plug_cons f fs _ _
    · intro b hb1 hb2
      have hb3 : b ≠ f.a := by
        rintro rfl
        exact hb2 ((hmemC _).1 (by simp [ctxAddrs]))
      show store _ _ _ b = _
      rw [store_other _ _ hb3, store_other _ _ hb1]
    · rw [hlist]
      simp [placeSorted, Shape.toList]

theorem Shape.node_of_nodes_ne {s : Shape α} (h : s.nodes ≠ []) :
    ∃ a c l v r, s = .node a c l v r := by
  cases s with
  | nil => exact absurd rfl h
  | node a c l v r => exact ⟨a, c, l, v, r, rfl⟩

theorem plug_nodes_ne (ctx : List (Frame α)) (x : Nat) (cx : Bool) (A : Shape α) (vx : α)
    (B : Shape α) : (plug ctx (.node x cx A vx B)).nodes ≠ [] := by
  intro h
  have : x ∈ (plug ctx (.node x cx A vx B)).addrs :=
    mem_addrs_plug.2 (Or.inl (Shape.top_mem _ _ _ _ _))
  rw [Shape.addrs_eq_map, h] at this
  simp at this

theorem length_le_count_plug (ctx : List (Frame α)) (s : Shape α) :
    ctx.length ≤ (plug ctx s).count := by
  rw [Shape.count_eq_length, (addrs_plug ctx s).length_eq, List.length_append]
  have : ctx.length ≤ (ctxAddrs ctx).length := by
    induction ctx with
    | nil => simp
    | cons f fs ih => simp [ctxAddrs]; omega
  omega

theorem isRed_plug {ctx : List (Frame α)} {f : Frame α} (s : Shape α)
    (h : ctx.getLast? = some f) : (plug ctx s).isRed = f.c := by
  induction ctx generalizing s with
  | nil => simp at h
  | cons g gs ih =>
    cases gs with
    | nil =>
      simp only [List.getLast?_singleton, Option.some.injEq] at h
      subst h
      obtain ⟨il, a, c, v, sib⟩ := g
      cases il <;> rfl
    | cons g' gs' =>
      rw [List.getLast?_cons_cons] at h
      exact ih (g.fill s) h

theorem rootBlack_of_plug {ctx : List (Frame α)} {s : Shape α} (h : (plug ctx s).isRed = false) :
    rootBlack ctx := by
  intro f hf
  rw [← isRed_plug s hf]
  exact h

theorem balance_spec (t : RBTree α) (ctx : List (Frame α)) (x : Nat) (cx : Bool)
    (A : Shape α) (vx : α) (B : Shape α)
    (hrep : Rep t.heap (plug ctx (.node x cx A vx B)) none)
    (hnd : (plug ctx (.node x cx A vx B)).addrs.Nodup)
    (hroot : t._root = (plug ctx (.node x cx A vx B)).ptr)
    (hrb : rootBlack ctx) (hfuel : ctx.length < t.fuel) :
    ∃ t', t._balance (some x) = some t' ∧
      Rep t'.heap ((fixup ctx (.node x cx A vx B)).setColor false) none ∧
      t'._root = ((fixup ctx (.node x cx A vx B)).setColor false).ptr ∧
      (∀ b, b ∉ (plug ctx (.node x cx A vx B)).addrs → t'.heap b = t.heap b) ∧
      t'.fresh = t.fresh ∧ t'._comp = t._comp ∧ t'._end = t._end ∧ t'._size = t._size := by
  obtain ⟨t1, hl, hrep1, hroot1, hfr1, e1, e2, e3, e4⟩ :=
    balance_loop_spec ctx.length ctx (le_refl _) t x cx A vx B t.fuel hrep hnd hroot hrb hfuel
  have hn := fixup_nodes ctx.length ctx (le_refl _) x cx A vx B
  obtain ⟨a, c, l, v, r, hF⟩ := Shape.node_of_nodes_ne (by
    rw [hn]; exact plug_nodes_ne ctx x cx A vx B)
  rw [hF] at hrep1 hroot1 hn ⊢
  have hnd1 : (plug [] (Shape.node a c l v r)).addrs.Nodup := by
    show (Shape.node a c l v r).addrs.Nodup
    rw [addrs_of_nodes_eq hn]
    exact hnd
  obtain ⟨t2, hw, hrep2, hroot2, hfr2, e1', e2', e3', e4'⟩ :=
    setColor_shape t1 [] none a c false l v r hrep1 hnd1
  refine ⟨t2, ?_, hrep2, ?_, ?_, e1'.trans e1, e2'.trans e2, e3'.trans e3, e4'.trans e4⟩
  · simp only [RBTree._balance, hl, hroot1, Shape.ptr_node, hw]
  · rw [hroot2, hroot1]; rfl
  · intro b hb
    rw [hfr2 b (by
      show b ∉ (Shape.node a c l v r).addrs
      rw [addrs_of_nodes_eq hn]; exact hb), hfr1 b hb]

theorem attach_spec (t : RBTree α) (a : Nat) (c : Bool) (l : Shape α) (v : α) (r : Shape α)
    (par l0 : Option Nat)
    (hrep : Rep t.heap (.node a c l v r) par) (hnd : (Shape.node a c l v r).addrs.Nodup)
    (hroot : t._root = some a) (hend : t._end ∉ (Shape.node a c l v r).addrs)
    (hs : t.heap t._end = some ⟨none, l0, none, none, true⟩) :
    ∃ t', t.attach = some t' ∧ Rep t'.heap (.node a c l v r) (some t._end) ∧
      t'.heap t._end = some ⟨none, some a, none, none, true⟩ ∧
      t'._root = some a ∧
      (∀ b, b ∉ (Shape.node a c l v r).addrs → b ≠ t._end → t'.heap b = t.heap b) ∧
      t'.fresh = t.fresh ∧ t'._comp = t._comp ∧ t'._end = t._end ∧ t'._size = t._size := by
  have hae : a ≠ t._end := fun h => hend (h ▸ Shape.top_mem _ _ _ _ _)
  have hea : t._end ≠ a := fun h => hae h.symm
  refine ⟨⟨store (store t.heap a (some ⟨some v, l.ptr, r.ptr, some t._end, c⟩)) t._end
    (some ⟨none, some a, none, none, true⟩), t.fresh, t._comp, t._root, t._end, t._size⟩,
    ?_, ?_, ?_, hroot, ?_, rfl, rfl, rfl, rfl⟩
  · simp only [RBTree.attach, hroot, RBTree.write, hrep.1, store_other _ _ hea, hs]
  · apply hrep.move hnd
    · intro a' n ha' hn
      simp only [Shape.ptr_node, Option.some.injEq] at ha'
      subst ha'
      rw [hrep.1] at hn
      cases hn
      show store _ _ _ a = _
      rw [store_other _ _ hae, store_same]
    · intro b hb hne
      have h1 : b ≠ t._end := fun h => hend (h ▸ hb)
      have h2 : b ≠ a := fun h => hne (by rw [h]; rfl)
      show store _ _ _ b = _
      rw [store_other _ _ h1, store_other _ _ h2]
  · exact store_same _ _ _
  · intro b hb hne
    have h2 : b ≠ a := fun h => hb (h ▸ Shape.top_mem _ _ _ _ _)
    show store _ _ _ b = _
    rw [store_other _ _ hne, store_other _ _ h2]

theorem shapeAt_of_rep (t : RBTree α) :
    ∀ (s : Shape α) (par : Option Nat) (fuel : Nat), Rep t.heap s par → s.height < fuel →
      t.shapeAt fuel s.ptr = some s := by
  intro s
  induction s with
  | nil =>
    intro par fuel _ hf
    cases fuel with
    | zero => simp at hf
    | succ fuel => rfl
  | node a c l v r ihl ihr =>
    intro par fuel hrep hf
    cases fuel with
    | zero => simp at hf
    | succ fuel =>
      simp only [Shape.height] at hf
      rw [Shape.ptr_node]
      simp only [RBTree.shapeAt, hrep.1, ihl (some a) fuel hrep.2.1 (by omega),
        ihr (some a) fuel hrep.2.2 (by omega)]

theorem WF.shape_eq {t : RBTree α} {s : Shape α} (w : WF t s) : t.shape = some s := by
  unfold RBTree.shape
  rw [w.root]
  exact shapeAt_of_rep t s _ _ w.rep w.height_lt_fuel

theorem WF.inorder_eq {t : RBTree α} {s : Shape α} (w : WF t s) :
    t.inorder = some s.toList := by
  simp [RBTree.inorder, w.shape_eq]

theorem setColor_nodes_plug (F : Shape α) (c : Bool) : (F.setColor c).nodes = F.nodes :=
  Shape.nodes_setColor c F

theorem insert_new_master (t : RBTree α) (T : Shape α) (v : α) (hwf : WF t T)
    (hsw : StrictWeak t._comp) (hbst : T.BST t._comp) (hblack : T.isRed = false)
    (hne : ∀ e ∈ T.toList, equiv t._comp e v = false) :
    ∃ (ctx : List (Frame α)) (t' : RBTree α), plug ctx .nil = T ∧
      t.insert v = some (t', some t.fresh, true) ∧
      WF t' ((fixup ctx (.node t.fresh true .nil v .nil)).setColor false) ∧
      (plug ctx (.node t.fresh true .nil v .nil)).toList = placeSorted t._comp v T.toList ∧
      t'._comp = t._comp ∧ t'._size = t._size + 1 ∧ t'._end = t._end ∧
      t'.fresh = t.fresh + 1 ∧
      (∀ b, b ∉ T.addrs → b ≠ t.fresh → b ≠ t._end → t'.heap b = t.heap b) := by
  have hnwT : t.fresh ∉ T.addrs := fun h => absurd (hwf.addr_lt h) (lt_irrefl _)
  have hnwe : t.fresh ≠ t._end := fun h => absurd hwf.end_lt (by rw [← h]; exact lt_irrefl _)
  obtain ⟨l0, hsent, -⟩ := hwf.sentinel
  -- state after `_create_node` and the reset of the root's parent link
  have step1 : ∃ t1 : RBTree α,
      (if (t._create_node v).1._root.isSome then
        (t._create_node v).1.write (t._create_node v).1._root (fun c => { c with parent := none })
       else some (t._create_node v).1) = some t1 ∧
      Rep t1.heap T none ∧ t1._root = T.ptr ∧
      t1.heap t.fresh = some ⟨some v, none, none, none, true⟩ ∧
      (∀ b, b ∉ T.addrs → b ≠ t.fresh → t1.heap b = t.heap b) ∧
      t1.fresh = t.fresh + 1 ∧ t1._comp = t._comp ∧ t1._end = t._end ∧ t1._size = t._size := by
    cases T with
    | nil =>
      refine ⟨(t._create_node v).1, ?_, trivial, hwf.root, store_same _ _ _, ?_, rfl, rfl, rfl,
        rfl⟩
      · simp [RBTree._create_node, hwf.root, Shape.ptr]
      · intro b _ hb
        exact store_other _ _ hb
    | node a c l v0 r =>
      have ha : t.heap a = _ := hwf.rep.1
      have han : a ≠ t.fresh := fun h => hnwT (h ▸ Shape.top_mem _ _ _ _ _)
      have hna : t.fresh ≠ a := fun h => han h.symm
      refine ⟨⟨store (store t.heap t.fresh (some (RBTreeNode.new (some v)))) a
        (some ⟨some v0, l.ptr, r.ptr, none, c⟩), t.fresh + 1, t._comp, t._root, t._end,
        t._size⟩, ?_, ?_, hwf.root, ?_, ?_, rfl, rfl, rfl, rfl⟩
      · simp only [RBTree._create_node, hwf.root, Shape.ptr_node, Option.isSome_some, if_true,
          RBTree.write, store_other _ _ han, ha]
      · apply hwf.rep.move hwf.nodup
        · intro a' n ha' hn
          simp only [Shape.ptr_node, Option.some.injEq] at ha'
          subst ha'
          rw [ha] at hn
          cases hn
          exact store_same _ _ _
        · intro b hb hne'
          have h1 : b ≠ a := fun h => hne' (by rw [h]; rfl)
          have h2 : b ≠ t.fresh := fun h => hnwT (h ▸ hb)
          show store _ _ _ b = _
          rw [store_other _ _ h1, store_other _ _ h2]
      · show store _ _ _ _ = _
        rw [store_other _ _ hna, store_same]
        rfl
      · intro b hb hb'
        have h1 : b ≠ a := fun h => hb (h ▸ Shape.top_mem _ _ _ _ _)
        show store _ _ _ b = _
        rw [store_other _ _ h1, store_other _ _ hb']
  obtain ⟨t1, hs1, hrep1, hroot1, hnw1, hfr1, f1, c1, e1, s1⟩ := step1
  have hfuel1 : T.height < t1.fuel := by
    have := hwf.height_lt_fuel
    unfold RBTree.fuel at this ⊢
    omega
  obtain ⟨ctx, t2, hp, hbi, hrep2, hroot2, hfr2, f2, c2, e2, s2, hlist⟩ :=
    bst_insert_spec t1 (c1 ▸ hsw) T t.fresh v hroot1 hrep1 hwf.nodup hnw1 hnwT (c1 ▸ hbst)
      (c1 ▸ hne) hfuel1
  have hmem : ∀ b, b ∈ (plug ctx (.node t.fresh true .nil v .nil)).addrs ↔
      (b = t.fresh ∨ b ∈ T.addrs) := by
    intro b
    rw [mem_addrs_plug, ← hp, mem_addrs_plug]
    simp [Shape.addrs]
  have hnd2 : (plug ctx (.node t.fresh true .nil v .nil)).addrs.Nodup := by
    rw [nodup_plug]
    have h1 : (ctxAddrs ctx).Nodup := by
      have := hwf.nodup
      rw [← hp, nodup_plug] at this
      simpa [Shape.addrs] using this
    have h2 : t.fresh ∉ ctxAddrs ctx := by
      intro h
      apply hnwT
      rw [← hp, mem_addrs_plug]
      exact Or.inr h
    simpa [Shape.addrs] using And.intro h2 h1
  have hrb : rootBlack ctx := rootBlack_of_plug (s := .nil) (by rw [hp]; exact hblack)
  have hlen : ctx.length < t2.fuel := by
    have h1 := length_le_count_plug ctx (Shape.nil : Shape α)
    rw [hp] at h1
    have h2 := hwf.count_lt
    unfold RBTree.fuel
    omega
  obtain ⟨t3, hbal, hrep3, hroot3, hfr3, f3, c3, e3, s3⟩ :=
    balance_spec t2 ctx t.fresh true .nil v .nil hrep2 hnd2 hroot2 hrb hlen
  have hn3 : ((fixup ctx (.node t.fresh true .nil v .nil)).setColor false).nodes =
      (plug ctx (.node t.fresh true .nil v .nil)).nodes := by
    rw [Shape.nodes_setColor]
    exact fixup_nodes ctx.length ctx (le_refl _) _ _ _ _ _
  obtain ⟨a, c, l, v', r, hF⟩ := Shape.node_of_nodes_ne (by
    rw [hn3]; exact plug_nodes_ne ctx _ _ _ _ _)
  have ha3 := addrs_of_nodes_eq hn3
  rw [hF] at hrep3 hroot3 ha3
  have hend2 : t._end ∉ (plug ctx (.node t.fresh true .nil v .nil)).addrs := by
    rw [hmem]
    rintro (h | h)
    · exact hnwe h.symm
    · exact hwf.end_notin h
  have hend3 : t3._end ∉ (Shape.node a c l v' r).addrs := by
    rw [e3, e2, e1, ha3]
    exact hend2
  have hs3 : t3.heap t3._end = some ⟨none, l0, none, none, true⟩ := by
    rw [e3, e2, e1, hfr3 _ hend2,
      hfr2 _ (fun h => hnwe h.symm) hwf.end_notin, hfr1 _ hwf.end_notin (fun h => hnwe h.symm)]
    exact hsent
  obtain ⟨t4, hat, hrep4, hs4, hroot4, hfr4, f4, c4, e4, s4⟩ :=
    attach_spec t3 a c l v' r none l0 hrep3 (by rw [ha3]; exact hnd2) hroot3 hend3 hs3
  refine ⟨ctx, { t4 with _size := t4._size + 1 }, hp, ?_, ?_, ?_, ?_, ?_, ?_, ?_, ?_⟩
  · simp only [RBTree.insert]
    rw [hs1]
    have h2 : (t._create_node v).2 = some t.fresh := rfl
    simp only [h2, hbi, hbal, hat, Option.map_some']
  · rw [hF]
    refine ⟨hroot4, ?_, by rw [ha3]; exact hnd2, ?_, ?_, ?_⟩
    · show Rep t4.heap _ (some t4._end)
      rw [e4]; exact hrep4
    · show t4._end ∉ _
      rw [e4]; exact hend3
    · refine ⟨some a, ?_, fun _ => rfl⟩
      show t4.heap t4._end = _
      rw [e4]; exact hs4
    · intro b hb
      show t4.heap b = none
      have hb' : t.fresh + 1 ≤ b := by
        have : t4.fresh = t.fresh + 1 := f4.trans (f3.trans (f2.trans f1))
        rw [← this]; exact hb
      have hbT : b ∉ T.addrs := fun h => absurd (hwf.addr_lt h) (by omega)
      have hbn : b ≠ t.fresh := by omega
      have hbe : b ≠ t._end := fun h => absurd hwf.end_lt (by rw [← h]; omega)
      have hb2 : b ∉ (plug ctx (.node t.fresh true .nil v .nil)).addrs := by
        rw [hmem]; rintro (h | h)
        · exact hbn h
        · exact hbT h
      rw [hfr4 b (by rw [ha3]; exact hb2) (by rw [e3, e2, e1]; exact hbe), hfr3 b hb2,
        hfr2 b hbn hbT, hfr1 b hbT hbn]
      exact hwf.bound b (by omega)
  · exact hlist.trans (by rw [c1])
  · exact c4.trans (c3.trans (c2.trans c1))
  · show t4._size + 1 = _
    rw [s4, s3, s2, s1]
  · exact e4.trans (e3.trans (e2.trans e1))
  · exact f4.trans (f3.trans (f2.trans f1))
  · intro b hbT hbn hbe
    have hb2 : b ∉ (plug ctx (.node t.fresh true .nil v .nil)).addrs := by
      rw [hmem]; rintro (h | h)
      · exact hbn h
      · exact hbT h
    show t4.heap b = _
    rw [hfr4 b (by rw [ha3]; exact hb2) (by rw [e3, e2, e1]; exact hbe), hfr3 b hb2,
      hfr2 b hbn hbT, hfr1 b hbT hbn]

theorem bh_node_iff (a : Nat) (c : Bool) (l : Shape α) (v : α) (r : Shape α) (m : Nat) :
    (Shape.node a c l v r).blackHeight = some m ↔
      ∃ n, l.blackHeight = some n ∧ r.blackHeight = some n ∧ m = (if c then n else n + 1) := by
  simp only [Shape.blackHeight]
  cases hl : l.blackHeight with
  | none => simp
  | some n =>
    cases hr : r.blackHeight with
    | none => simp
    | some k =>
      by_cases hnk : n = k
      · subst hnk
        simp [eq_comm]
      · simp [hnk]
        intro h
        exact absurd h.symm hnk

theorem nrr_node_iff (a : Nat) (c : Bool) (l : Shape α) (v : α) (r : Shape α) :
    (Shape.node a c l v r).noRedRed = true ↔
      (c = true → l.isRed = false ∧ r.isRed = false) ∧ l.noRedRed = true ∧
        r.noRedRed = true := by
  simp only [Shape.noRedRed]
  cases c <;> simp [and_assoc]

theorem Frame.fill_isRed (f : Frame α) (s : Shape α) : (f.fill s).isRed = f.c := by
  obtain ⟨il, a, c, v, sib⟩ := f
  cases il <;> rfl

theorem fill_bh_iff (f : Frame α) (s : Shape α) (m : Nat) :
    (f.fill s).blackHeight = some m ↔
      ∃ n, s.blackHeight = some n ∧ f.sib.blackHeight = some n ∧
        m = (if f.c then n else n + 1) := by
  obtain ⟨il, a, c, v, sib⟩ := f
  cases il
  · simp only [Frame.fill, bh_node_iff]
    constructor
    · rintro ⟨n, h1, h2, h3⟩; exact ⟨n, h2, h1, h3⟩
    · rintro ⟨n, h1, h2, h3⟩; exact ⟨n, h2, h1, h3⟩
  · simp only [Frame.fill, bh_node_iff]

theorem fill_nrr_iff (f : Frame α) (s : Shape α) :
    (f.fill s).noRedRed = true ↔
      (f.c = true → s.isRed = false ∧ f.sib.isRed = false) ∧ s.noRedRed = true ∧
        f.sib.noRedRed = true := by
  obtain ⟨il, a, c, v, sib⟩ := f
  cases il
  · simp only [Frame.fill, nrr_node_iff]
    constructor
    · rintro ⟨h1, h2, h3⟩; exact ⟨fun h => ⟨(h1 h).2, (h1 h).1⟩, h3, h2⟩
    · rintro ⟨h1, h2, h3⟩; exact ⟨fun h => ⟨(h1 h).2, (h1 h).1⟩, h3, h2⟩
  · simp only [Frame.fill, nrr_node_iff]

/-- A valid tree around a hole yields a fitting path. -/
theorem hole_of_valid : ∀ (ctx : List (Frame α)) (s : Shape α) (m : Nat),
    (plug ctx s).noRedRed = true → (plug ctx s).blackHeight = some m →
    ∃ n, s.blackHeight = some n ∧ s.noRedRed = true ∧ Hole ctx n ∧
      (s.isRed = true → ∀ f fs, ctx = f :: fs → f.c = false) := by
  intro ctx
  induction ctx with
  | nil =>
    intro s m h1 h2
    exact ⟨m, h2, h1, trivial, fun _ f fs h => by cases h⟩
  | cons f fs ih =>
    intro s m h1 h2
    obtain ⟨n', hb, hn, hh, hr⟩ := ih (f.fill s) m h1 h2
    obtain ⟨n, hs, hsib, hn'⟩ := (fill_bh_iff f s n').1 hb
    obtain ⟨hc, hsn, hsibn⟩ := (fill_nrr_iff f s).1 hn
    refine ⟨n, hs, hsn, ⟨hsibn, hsib, ?_, ?_⟩, ?_⟩
    · intro hfc
      refine ⟨(hc hfc).2, ?_⟩
      intro g gs hg
      exact hr (by rw [Frame.fill_isRed]; exact hfc) g gs hg
    · rw [← hn']; exact hh
    · intro hsr f' fs' he
      cases he
      by_contra hfc
      have hfc' : f.c = true := by simpa using hfc
      rw [(hc hfc').1] at hsr
      cases hsr

/-- A balanced subtree put into a fitting path gives a balanced tree. -/
theorem valid_of_hole : ∀ (ctx : List (Frame α)) (s : Shape α) (n : Nat),
    Hole ctx n → s.blackHeight = some n → s.noRedRed = true →
    (s.isRed = true → ∀ f fs, ctx = f :: fs → f.c = false) →
    (plug ctx s).noRedRed = true ∧ ∃ m, (plug ctx s).blackHeight = some m := by
  intro ctx
  induction ctx with
  | nil =>
    intro s n _ h2 h3 _
    exact ⟨h3, n, h2⟩
  | cons f fs ih =>
    intro s n hh h2 h3 h4
    obtain ⟨hsibn, hsib, hred, hrest⟩ := hh
    apply ih (f.fill s) (if f.c then n else n + 1) hrest
    · rw [fill_bh_iff]; exact ⟨n, h2, hsib, rfl⟩
    · rw [fill_nrr_iff]
      refine ⟨?_, h3, hsibn⟩
      intro hfc
      refine ⟨?_, (hred hfc).1⟩
      by_contra hsr
      have hsr' : s.isRed = true := by simpa using hsr
      rw [h4 hsr' f fs rfl] at hfc
      cases hfc
    · intro hfr g gs hg
      rw [Frame.fill_isRed] at hfr
      exact (hred hfr).2 g gs hg

theorem Shape.isRed_node (a : Nat) (c : Bool) (l : Shape α) (v : α) (r : Shape α) :
    (Shape.node a c l v r).isRed = c := rfl

theorem Shape.isRed_iff {s : Shape α} (h : s.isRed = true) :
    ∃ x A vx B, s = .node x true A vx B := by
  cases s with
  | nil => cases h
  | node x c A vx B =>
    simp only [Shape.isRed] at h
    subst h
    exact ⟨x, A, vx, B, rfl⟩

theorem Shape.setColor_false_valid {s : Shape α} (h1 : s.noRedRed = true)
    {m : Nat} (h2 : s.blackHeight = some m) :
    (s.setColor false).noRedRed = true ∧ ∃ k, (s.setColor false).blackHeight = some k := by
  cases s with
  | nil => exact ⟨h1, m, h2⟩
  | node a c l v r =>
    rw [nrr_node_iff] at h1
    rw [bh_node_iff] at h2
    obtain ⟨n, hl, hr, -⟩ := h2
    refine ⟨?_, n + 1, ?_⟩
    · simp only [Shape.setColor]
      rw [nrr_node_iff]
      exact ⟨fun h => (by cases h), h1.2.1, h1.2.2⟩
    · simp only [Shape.setColor]
      rw [bh_node_iff]
      exact ⟨n, hl, hr, rfl⟩

theorem balStep_valid (f1 f2 : Frame α) (x : Nat) (A : Shape α) (vx : α) (B : Shape α) (n : Nat)
    (hs1 : (Shape.node x true A vx B).noRedRed = true)
    (hs2 : (Shape.node x true A vx B).blackHeight = some n)
    (h1c : f1.c = true) (h1n : f1.sib.noRedRed = true) (h1b : f1.sib.blackHeight = some n)
    (h1r : f1.sib.isRed = false)
    (h2c : f2.c = false) (h2n : f2.sib.noRedRed = true) (h2b : f2.sib.blackHeight = some n) :
    (balStep f1 f2 (.node x true A vx B)).noRedRed = true ∧
      (balStep f1 f2 (.node x true A vx B)).blackHeight = some (n + 1) := by
  obtain ⟨il1, p, cp, vp, sp⟩ := f1
  obtain ⟨il2, g, cg, vg, sg⟩ := f2
  simp only at h1c h1n h1b h1r h2c h2n h2b
  subst h1c h2c
  rw [nrr_node_iff] at hs1
  rw [bh_node_iff] at hs2
  obtain ⟨hAB, hA, hB⟩ := hs1
  obtain ⟨hAr, hBr⟩ := hAB rfl
  obtain ⟨k, hAb, hBb, hk⟩ := hs2
  simp only [if_true] at hk
  subst hk
  unfold balStep
  by_cases hu : sg.isRed = true
  · obtain ⟨u, ul, vu, ur, rfl⟩ := Shape.isRed_iff hu
    rw [nrr_node_iff] at h2n
    rw [bh_node_iff] at h2b
    obtain ⟨-, hul, hur⟩ := h2n
    obtain ⟨k, hulb, hurb, hk⟩ := h2b
    simp only [if_true] at hk
    subst hk
    simp only [Shape.isRed_node, if_true]
    cases il1 <;> cases il2 <;>
      simp [recolorStep, Frame.fill, Shape.setColor, nrr_node_iff, bh_node_iff,
        Shape.isRed_node, hA, hB, hAb, hBb, h1n, h1b, hul, hur, hulb, hurb, hAr, hBr]
  · have hu' : sg.isRed = false := by simpa using hu
    simp only [hu', Bool.false_eq_true, if_false]
    cases il1 <;> cases il2 <;>
      simp [rotStep, nrr_node_iff, bh_node_iff, Shape.isRed_node, hA, hB, hAb, hBb, h1n, h1b,
        h1r, h2n, h2b, hu', hAr, hBr]

theorem fixup_valid : ∀ (k : Nat) (ctx : List (Frame α)), ctx.length ≤ k →
    ∀ (s : Shape α) (n : Nat), Hole ctx n → s.blackHeight = some n → s.noRedRed = true →
      rootBlack ctx →
      (fixup ctx s).noRedRed = true ∧ ∃ m, (fixup ctx s).blackHeight = some m := by
  intro k
  induction k with
  | zero =>
    intro ctx hl s n _ h2 h3 _
    cases ctx with
    | nil => exact ⟨h3, n, h2⟩
    | cons f fs => simp at hl
  | succ k ih =>
    intro ctx hl s n hh h2 h3 hrb
    match ctx, hl, hh, hrb with
    | [], _, _, _ => exact ⟨h3, n, h2⟩
    | [f1], _, hh, hrb =>
      exact valid_of_hole [f1] s n hh h2 h3 (fun _ f fs he => by
        cases he; exact hrb _ rfl)
    | f1 :: f2 :: rest, hl, hh, hrb =>
      simp only [fixup]
      by_cases hgo : (s.isRed && f1.c) = true
      · rw [if_pos hgo]
        simp only [Bool.and_eq_true] at hgo
        obtain ⟨hsr, h1c⟩ := hgo
        obtain ⟨x, A, vx, B, rfl⟩ := Shape.isRed_iff hsr
        obtain ⟨h1n, h1b, h1red, hrest⟩ := hh
        obtain ⟨h1r, h2c⟩ := h1red h1c
        have h2c' : f2.c = false := h2c f2 rest rfl
        rw [h1c] at hrest
        simp only [if_true] at hrest
        obtain ⟨h2n, h2b, -, hrest2⟩ := hrest
        rw [h2c'] at hrest2
        simp only [Bool.false_eq_true, if_false] at hrest2
        obtain ⟨hv1, hv2⟩ := balStep_valid f1 f2 x A vx B n h3 h2 h1c h1n h1b h1r h2c' h2n h2b
        exact ih rest (by simp at hl; omega) _ (n + 1) hrest2 hv2 hv1 (rootBlack_tail hrb)
      · rw [if_neg hgo]
        apply valid_of_hole _ s n hh h2 h3
        intro hsr f fs he
        cases he
        simpa [hsr] using hgo

theorem insert_fix_isRB (ctx : List (Frame α)) (x : Nat) (v : α)
    (h : (plug ctx (.nil : Shape α)).isRB = true) :
    ((fixup ctx (.node x true .nil v .nil)).setColor false).isRB = true := by
  simp only [Shape.isRB, Bool.and_eq_true, Bool.not_eq_true', Option.isSome_iff_exists] at h
  obtain ⟨⟨hb, hn⟩, m, hm⟩ := h
  obtain ⟨n, hs, -, hh, -⟩ := hole_of_valid ctx .nil m hn hm
  have hn0 : n = 0 := by
    simp only [Shape.blackHeight, Option.some.injEq] at hs
    exact hs.symm
  subst hn0
  obtain ⟨h1, m', h2⟩ := fixup_valid ctx.length ctx (le_refl _) (.node x true .nil v .nil) 0 hh
    (by simp [Shape.blackHeight]) (by simp [Shape.noRedRed, Shape.isRed])
    (rootBlack_of_plug hb)
  obtain ⟨h3, k, h4⟩ := Shape.setColor_false_valid h1 h2
  simp only [Shape.isRB, Bool.and_eq_true, Bool.not_eq_true', Option.isSome_iff_exists]
  refine ⟨⟨?_, h3⟩, k, h4⟩
  cases fixup ctx (.node x true .nil v .nil) <;> rfl

theorem bst_insert_loop_found (t : RBTree α) (hsw : StrictWeak t._comp) (nw : Nat) (v : α)
    (nn : RBTreeNode α) (hnw : t.heap nw = some nn) (hnv : nn.value = some v) :
    ∀ (s : Shape α) (par : Option Nat) (fuel : Nat) (y : Option Nat) (a : Nat) (e : α),
      Rep t.heap s par → s.BST t._comp → (a, e) ∈ s.nodes → equiv t._comp e v = true →
      s.height < fuel →
      t._bst_insert_loop (some nw) fuel s.ptr y = some (Sum.inl (some a)) := by
  intro s
  induction s with
  | nil =>
    intro par fuel y a e _ _ hm
    simp [Shape.nodes] at hm
  | node a0 c l v0 r ihl ihr =>
    intro par fuel y a e hrep hbst hm he hf
    obtain ⟨h1, h2, h3⟩ := hrep
    have hbst' := hbst
    obtain ⟨b1, b2, b3, b4⟩ := hbst
    cases fuel with
    | zero => simp at hf
    | succ fuel =>
      simp only [Shape.height] at hf
      rw [Shape.ptr_node]
      simp only [RBTree._bst_insert_loop, h1, RBTree.node, Option.some_bind, hnw, hnv]
      simp only [Shape.nodes, List.mem_append, List.mem_cons] at hm
      by_cases hc1 : t._comp v0 v = true
      · rw [if_pos hc1]
        rcases hm with hm | hm | hm
        · have := hsw.trans _ _ _ (b1 e (Shape.mem_toList_of_mem_nodes hm)) hc1
          rw [equiv_false_of_lt this] at he; cases he
        · cases hm
          rw [equiv_false_of_lt hc1] at he; cases he
        · exact ihr (some a0) fuel (some a0) a e h3 b4 hm he (by omega)
      · rw [if_neg hc1]
        by_cases hc2 : t._comp v v0 = true
        · rw [if_pos hc2]
          rcases hm with hm | hm | hm
          · exact ihl (some a0) fuel (some a0) a e h2 b3 hm he (by omega)
          · cases hm
            rw [equiv_false_of_gt hc2] at he; cases he
          · have := hsw.trans _ _ _ hc2 (b2 e (Shape.mem_toList_of_mem_nodes hm))
            rw [equiv_false_of_gt this] at he; cases he
        · rw [if_neg hc2]
          have he0 : equiv t._comp v0 v = true := by simp [equiv, hc1, hc2]
          have hmem0 : (a0, v0) ∈ (Shape.node a0 c l v0 r).nodes := by simp [Shape.nodes]
          have hmem : (a, e) ∈ (Shape.node a0 c l v0 r).nodes := by
            simp only [Shape.nodes, List.mem_append, List.mem_cons]; exact hm
          have := Shape.BST.equiv_unique hsw hbst' hmem0 hmem he0 he
          cases this
          rfl

theorem insert_existing_master (t : RBTree α) (T : Shape α) (v : α) (hwf : WF t T)
    (hsw : StrictWeak t._comp) (hbst : T.BST t._comp) (a : Nat) (e : α)
    (hm : (a, e) ∈ T.nodes) (he : equiv t._comp e v = true) :
    ∃ t', t.insert v = some (t', some a, false) ∧ t'.heap = t.heap ∧ t'._root = t._root ∧
      t'._end = t._end ∧ t'._size = t._size ∧ t'._comp = t._comp ∧
      t'.fresh = t.fresh + 1 := by
  have hnwT : t.fresh ∉ T.addrs := fun h => absurd (hwf.addr_lt h) (lt_irrefl _)
  have hnwe : t.fresh ≠ t._end := fun h => absurd hwf.end_lt (by rw [← h]; exact lt_irrefl _)
  have henw : t._end ≠ t.fresh := fun h => hnwe h.symm
  obtain ⟨l0, hsent, hl0⟩ := hwf.sentinel
  cases T with
  | nil => simp [Shape.nodes] at hm
  | node r c l v0 rr =>
    have hr : t.heap r = _ := hwf.rep.1
    have hrn : r ≠ t.fresh := fun h => hnwT (h ▸ Shape.top_mem _ _ _ _ _)
    have hnr : t.fresh ≠ r := fun h => hrn h.symm
    have hre : r ≠ t._end := fun h => hwf.end_notin (h ▸ Shape.top_mem _ _ _ _ _)
    have her : t._end ≠ r := fun h => hre h.symm
    have hl0' : l0 = some r := hl0 (by simp [Shape.ptr])
    subst hl0'
    -- the state in which `_bst_insert` runs
    obtain ⟨t1, ht1⟩ : ∃ t1 : RBTree α, t1 =
        ⟨store (store t.heap t.fresh (some (RBTreeNode.new (some v)))) r
          (some ⟨some v0, l.ptr, rr.ptr, none, c⟩), t.fresh + 1, t._comp, some r, t._end,
          t._size⟩ := ⟨_, rfl⟩
    have hh1 : t1.heap = store (store t.heap t.fresh (some (RBTreeNode.new (some v)))) r
        (some ⟨some v0, l.ptr, rr.ptr, none, c⟩) := by rw [ht1]
    have hroot1 : t1._root = some r := by rw [ht1]
    have hend1 : t1._end = t._end := by rw [ht1]
    have hcomp1 : t1._comp = t._comp := by rw [ht1]
    have hfresh1 : t1.fresh = t.fresh + 1 := by rw [ht1]
    have hs1 : (if (t._create_node v).1._root.isSome then
        (t._create_node v).1.write (t._create_node v).1._root (fun c => { c with parent := none })
       else some (t._create_node v).1) = some t1 := by
      simp only [RBTree._create_node, hwf.root, Shape.ptr_node, Option.isSome_some, if_true,
        RBTree.write, store_other _ _ hrn, hr, ht1]
    have hrep1 : Rep t1.heap (.node r c l v0 rr) none := by
      rw [hh1]
      apply hwf.rep.move hwf.nodup
      · intro a' n ha' hn
        simp only [Shape.ptr_node, Option.some.injEq] at ha'
        subst ha'
        rw [hr] at hn
        cases hn
        exact store_same _ _ _
      · intro b hb hne'
        have h1 : b ≠ r := fun h => hne' (by rw [h]; rfl)
        have h2 : b ≠ t.fresh := fun h => hnwT (h ▸ hb)
        rw [store_other _ _ h1, store_other _ _ h2]
    have hnw1 : t1.heap t.fresh = some (RBTreeNode.new (some v)) := by
      rw [hh1, store_other _ _ hnr, store_same]
    have hfuel1 : (Shape.node r c l v0 rr).height < t1.fuel := by
      have := hwf.height_lt_fuel
      unfold RBTree.fuel at this ⊢
      omega
    have hloop := bst_insert_loop_found t1 (hcomp1 ▸ hsw) t.fresh v _ hnw1 rfl
      (.node r c l v0 rr) none t1.fuel none a e hrep1 (hcomp1 ▸ hbst) hm (hcomp1 ▸ he) hfuel1
    have hrun : t1._bst_insert (some t.fresh) = some (t1, some a, false) := by
      simp only [RBTree._bst_insert, hroot1]
      rw [show (some r : Option Nat) = (Shape.node r c l v0 rr).ptr from rfl, hloop]
    have hs3 : t1._clear_node (some t.fresh) =
        some ⟨store t1.heap t.fresh none, t1.fresh, t1._comp, t1._root, t1._end, t1._size⟩ := by
      simp only [RBTree._clear_node, RBTree.node, Option.some_bind, hnw1]
    have hr3 : store t1.heap t.fresh none r = some ⟨some v0, l.ptr, rr.ptr, none, c⟩ := by
      rw [store_other _ _ hrn, hh1, store_same]
    have he3 : store (store t1.heap t.fresh none) r
        (some ⟨some v0, l.ptr, rr.ptr, some t._end, c⟩) t._end =
        some ⟨none, some r, none, none, true⟩ := by
      rw [store_other _ _ her, store_other _ _ henw, hh1, store_other _ _ her,
        store_other _ _ henw, hsent]
    have hs4 : RBTree.attach ⟨store t1.heap t.fresh none, t1.fresh, t1._comp, t1._root, t1._end,
        t1._size⟩ = some ⟨store (store (store t1.heap t.fresh none) r
          (some ⟨some v0, l.ptr, rr.ptr, some t._end, c⟩)) t._end
          (some ⟨none, some r, none, none, true⟩), t1.fresh, t1._comp, t1._root, t1._end,
          t1._size⟩ := by
      simp only [RBTree.attach, hroot1, RBTree.write, hr3, hend1, he3]
    have hheap : store (store (store t1.heap t.fresh none) r
        (some ⟨some v0, l.ptr, rr.ptr, some t._end, c⟩)) t._end
        (some ⟨none, some r, none, none, true⟩) = t.heap := by
      funext b
      by_cases hbe : b = t._end
      · subst hbe; rw [store_same, hsent]
      · rw [store_other _ _ hbe]
        by_cases hbr : b = r
        · subst hbr; rw [store_same, hr]
        · rw [store_other _ _ hbr]
          by_cases hbn : b = t.fresh
          · subst hbn; rw [store_same, hwf.bound _ (le_refl _)]
          · rw [store_other _ _ hbn, hh1, store_other _ _ hbr, store_other _ _ hbn]
    refine ⟨⟨t.heap, t.fresh + 1, t._comp, t._root, t._end, t._size⟩, ?_, rfl, rfl, rfl, rfl,
      rfl, rfl⟩
    simp only [RBTree.insert]
    rw [hs1]
    have h2 : (t._create_node v).2 = some t.fresh := rfl
    simp only [h2, hrun, hs3, hs4, Option.map_some', hheap]
    rw [ht1, hwf.root]
    rfl

theorem strictWeak_natLess : StrictWeak natLess := by
  refine ⟨?_, ?_, ?_⟩
  · intro a; simp [natLess]
  · intro a b c h1 h2
    simp only [natLess, decide_eq_true_eq] at h1 h2 ⊢
    omega
  · intro a b c h1 h2
    simp only [equiv, natLess, Bool.and_eq_true, Bool.not_eq_true', decide_eq_false_iff_not]
      at h1 h2 ⊢
    omega

theorem wf_empty (comp : α → α → Bool) : WF (RBTree.empty comp) .nil := by
  refine ⟨rfl, trivial, List.nodup_nil, by simp [Shape.addrs], ⟨none, ?_, ?_⟩, ?_⟩
  · simp [RBTree.empty, store, RBTreeNode.new]
  · intro h; exact absurd rfl h
  · intro a ha
    have : a ≠ 0 := by
      simp only [RBTree.empty] at ha
      omega
    simp [RBTree.empty, store, this]

theorem wf_example : WF exampleTree exampleShape := by
  refine ⟨rfl, ⟨rfl, trivial, trivial⟩, by simp [exampleShape, Shape.addrs],
    by simp [exampleShape, Shape.addrs, exampleTree], ⟨some 1, rfl, fun _ => rfl⟩, ?_⟩
  intro a ha
  have h0 : a ≠ 0 := by simp only [exampleTree] at ha; omega
  have h1 : a ≠ 1 := by simp only [exampleTree] at ha; omega
  simp [exampleTree, store, h0, h1]

theorem Shape.mem_nodes_of_mem_toList {s : Shape α} {e : α} (h : e ∈ s.toList) :
    ∃ a, (a, e) ∈ s.nodes := by
  rw [Shape.toList_eq_map] at h
  obtain ⟨p, hp, rfl⟩ := List.mem_map.1 h
  exact ⟨p.1, hp⟩

theorem fixup_toList (ctx : List (Frame α)) (x : Nat) (v : α) :
    ((fixup ctx (.node x true .nil v .nil)).setColor false).nodes =
      (plug ctx (.node x true .nil v .nil)).nodes := by
  rw [Shape.nodes_setColor]
  exact fixup_nodes ctx.length ctx (le_refl _) _ _ _ _ _

theorem Frame.mem_nodes_fill (f : Frame α) {s : Shape α} {p : Nat × α} (hp : p ∈ s.nodes) :
    p ∈ (f.fill s).nodes := by
  obtain ⟨il, a, c, w, sib⟩ := f
  cases il
  · simp only [Frame.fill, Shape.nodes, List.mem_append, List.mem_cons]
    exact Or.inr (Or.inr hp)
  · simp only [Frame.fill, Shape.nodes, List.mem_append, List.mem_cons]
    exact Or.inl hp

theorem mem_nodes_plug (ctx : List (Frame α)) {s : Shape α} {p : Nat × α} (hp : p ∈ s.nodes) :
    p ∈ (plug ctx s).nodes := by
  induction ctx generalizing s with
  | nil => exact hp
  | cons f fs ih => exact ih (f.mem_nodes_fill hp)

theorem new_node_mem (ctx : List (Frame α)) (x : Nat) (v : α) :
    (x, v) ∈ (plug ctx (.node x true .nil v .nil)).nodes :=
  mem_nodes_plug ctx (by simp [Shape.nodes])

theorem bst_example : exampleShape.BST natLess :=
  ⟨by simp [Shape.toList], by simp [Shape.toList], trivial, trivial⟩

/-- C1: on a tree with consistent links, BST ordering and a black root, `insert` of a
value not equivalent to any stored element returns `(cursor, true)`, the cursor
dereferences to the value, the links are consistent again, the in-order sequence is the
old one with the value placed at its sorted position, and `size()` has grown by one. -/
theorem insert_new_value (t : RBTree α) (T : Shape α) (v : α) (hwf : WF t T)
    (hsw : StrictWeak t._comp) (hbst : T.BST t._comp) (hblack : T.isRed = false)
    (hnew : ∀ e ∈ T.toList, equiv t._comp e v = false) :
    ∃ (t' : RBTree α) (c : Nat) (T' : Shape α),
      t.insert v = some (t', some c, true) ∧ t'.deref (some c) = some v ∧ WF t' T' ∧
      T'.toList = placeSorted t._comp v T.toList ∧
      t'.inorder = some (placeSorted t._comp v T.toList) ∧
      t'.size = t.size + 1 := by
  obtain ⟨ctx, t', hp, hins, hwf', hlist, -, hsize, -, -, -⟩ :=
    insert_new_master t T v hwf hsw hbst hblack hnew
  have hn := fixup_toList ctx t.fresh v
  have hl : ((fixup ctx (.node t.fresh true .nil v .nil)).setColor false).toList =
      placeSorted t._comp v T.toList := (toList_of_nodes_eq hn).trans hlist
  refine ⟨t', t.fresh, _, hins, ?_, hwf', hl, ?_, hsize⟩
  · obtain ⟨n, h1, h2⟩ := hwf'.rep.node_of_mem (a := t.fresh) (e := v)
      (by rw [hn]; exact new_node_mem ctx t.fresh v)
    simp [RBTree.deref, RBTree.node, h1, h2]
  · rw [hwf'.inorder_eq, hl]

theorem insert_new_value_witness :
    ∃ (t' : RBTree Nat) (c : Nat) (T' : Shape Nat),
      exampleTree.insert 3 = some (t', some c, true) ∧ t'.deref (some c) = some 3 ∧ WF t' T' ∧
      T'.toList = placeSorted exampleTree._comp 3 exampleShape.toList ∧
      t'.inorder = some (placeSorted exampleTree._comp 3 exampleShape.toList) ∧
      t'.size = exampleTree.size + 1 :=
  insert_new_value exampleTree exampleShape 3 wf_example strictWeak_natLess bst_example rfl
    (by decide)

/-- C3: on a tree with consistent links and BST ordering, `insert` of a value equivalent
to a stored element `e` returns `(cursor to e, false)`; `size()` is unchanged, `e` is not
overwritten, and every cell of the heap (links, colours, values, the sentinel), `_root`,
`_end` and the comparator are the same as before the call. -/
theorem insert_existing_value (t : RBTree α) (T : Shape α) (v : α) (hwf : WF t T)
    (hsw : StrictWeak t._comp) (hbst : T.BST t._comp) (a : Nat) (e : α)
    (hm : (a, e) ∈ T.nodes) (he : equiv t._comp e v = true) :
    ∃ t', t.insert v = some (t', some a, false) ∧ t'.size = t.size ∧
      t'.deref (some a) = some e ∧ t'.heap = t.heap ∧ t'._root = t._root ∧
      t'._end = t._end ∧ t'._comp = t._comp := by
  obtain ⟨t', hins, hh, hr, hend, hs, hc, -⟩ :=
    insert_existing_master t T v hwf hsw hbst a e hm he
  refine ⟨t', hins, hs, ?_, hh, hr, hend, hc⟩
  obtain ⟨n, h1, h2⟩ := hwf.rep.node_of_mem hm
  simp [RBTree.deref, RBTree.node, hh, h1, h2]

theorem insert_existing_value_witness :
    ∃ t', exampleTree.insert 5 = some (t', some 1, false) ∧ t'.size = exampleTree.size ∧
      t'.deref (some 1) = some 5 ∧ t'.heap = exampleTree.heap ∧
      t'._root = exampleTree._root ∧ t'._end = exampleTree._end ∧
      t'._comp = exampleTree._comp :=
  insert_existing_value exampleTree exampleShape 5 wf_example strictWeak_natLess bst_example
    1 5 (by simp [exampleShape, Shape.nodes]) (by decide)

theorem wf_of_same_heap {t t' : RBTree α} {T : Shape α} (hwf : WF t T)
    (hh : t'.heap = t.heap) (hr : t'._root = t._root) (he : t'._end = t._end)
    (hf : t.fresh ≤ t'.fresh) : WF t' T := by
  refine ⟨hr.trans hwf.root, ?_, hwf.nodup, ?_, ?_, ?_⟩
  · rw [hh, he]; exact hwf.rep
  · rw [he]; exact hwf.end_notin
  · rw [hh, he]; exact hwf.sentinel
  · intro a ha
    rw [hh]
    exact hwf.bound a (le_trans hf ha)

/-- C6: on a tree with consistent links that satisfies the BST ordering and the colour
invariants (black root, no red node with a red child, equal black height on all paths),
`insert` of any value returns and leaves a tree with consistent links that satisfies the
colour invariants again. -/
theorem insert_preserves_colour_invariants (t : RBTree α) (T : Shape α) (v : α)
    (hwf : WF t T) (hsw : StrictWeak t._comp) (hbst : T.BST t._comp)
    (hrb : T.isRB = true) :
    ∃ (t' : RBTree α) (c : Option Nat) (b : Bool) (T' : Shape α),
      t.insert v = some (t', c, b) ∧ WF t' T' ∧ T'.isRB = true := by
  by_cases hex : ∃ e ∈ T.toList, equiv t._comp e v = true
  · obtain ⟨e, hmem, he⟩ := hex
    obtain ⟨a, hm⟩ := Shape.mem_nodes_of_mem_toList hmem
    obtain ⟨t', hins, hh, hr, hend, -, -, hf⟩ :=
      insert_existing_master t T v hwf hsw hbst a e hm he
    exact ⟨t', some a, false, T, hins, wf_of_same_heap hwf hh hr hend (by omega), hrb⟩
  · have hnew : ∀ e ∈ T.toList, equiv t._comp e v = false := by
      intro e he
      by_contra h
      exact hex ⟨e, he, by simpa using h⟩
    have hblack : T.isRed = false := by
      simp only [Shape.isRB, Bool.and_eq_true, Bool.not_eq_true'] at hrb
      exact hrb.1.1
    obtain ⟨ctx, t', hp, hins, hwf', -⟩ := insert_new_master t T v hwf hsw hbst hblack hnew
    exact ⟨t', some t.fresh, true, _, hins, hwf',
      insert_fix_isRB ctx t.fresh v (by rw [hp]; exact hrb)⟩

theorem insert_preserves_colour_invariants_witness :
    ∃ (t' : RBTree Nat) (c : Option Nat) (b : Bool) (T' : Shape Nat),
      exampleTree.insert 7 = some (t', c, b) ∧ WF t' T' ∧ T'.isRB = true :=
  insert_preserves_colour_invariants exampleTree exampleShape 7 wf_example strictWeak_natLess
    bst_example (by decide)

/-- C9: on a tree with consistent links and BST ordering, `find(v)` returns the cursor
of the stored element equivalent to `v`, which is the only such element, when there is
one, and the `end()` cursor otherwise; `count(v)` is `1` in the first case and `0` in the
second. -/
theorem find_returns_equivalent_or_end (t : RBTree α) (T : Shape α) (v : α) (hwf : WF t T)
    (hsw : StrictWeak t._comp) (hbst : T.BST t._comp) :
    ∃ c, t.find v = some c ∧
      ((c = t.end_ ∧ (∀ e ∈ T.toList, equiv t._comp e v = false) ∧ t.count v = some 0) ∨
       (∃ a e, c = some a ∧ (a, e) ∈ T.nodes ∧ equiv t._comp e v = true ∧
          t.deref c = some e ∧
          (∀ a' e', (a', e') ∈ T.nodes → equiv t._comp e' v = true → a' = a ∧ e' = e) ∧
          t.count v = some 1)) :=
  find_count_general t T v hwf hsw hbst

theorem find_returns_equivalent_or_end_witness :
    ∃ c, exampleTree.find 5 = some c ∧
      ((c = exampleTree.end_ ∧
          (∀ e ∈ exampleShape.toList, equiv exampleTree._comp e 5 = false) ∧
          exampleTree.count 5 = some 0) ∨
       (∃ a e, c = some a ∧ (a, e) ∈ exampleShape.nodes ∧
          equiv exampleTree._comp e 5 = true ∧ exampleTree.deref c = some e ∧
          (∀ a' e', (a', e') ∈ exampleShape.nodes → equiv exampleTree._comp e' 5 = true →
            a' = a ∧ e' = e) ∧
          exampleTree.count 5 = some 1)) :=
  find_returns_equivalent_or_end exampleTree exampleShape 5 wf_example strictWeak_natLess
    bst_example

/-- C10: on a tree with consistent links and BST ordering, `lower_bound(v)` returns the
cursor of the first element of the in-order sequence that is not less than `v`, or
`end()` when every stored element is less than `v`; that element is the smallest stored
element not less than `v`. -/
theorem lower_bound_first_not_less (t : RBTree α) (T : Shape α) (v : α) (hwf : WF t T)
    (hsw : StrictWeak t._comp) (hbst : T.BST t._comp) :
    t.lower_bound v = some (T.firstWhere (fun e => !t._comp e v) t.end_) ∧
      ((∀ e ∈ T.toList, t._comp e v = true) → t.lower_bound v = some t.end_) ∧
      (∀ a e, T.firstWhere (fun e => !t._comp e v) t.end_ = some a → (a, e) ∈ T.nodes →
        t._comp e v = false ∧
        ∀ e' ∈ T.toList, t._comp e' v = false → t._comp e' e = false) := by
  have hlb : t.lower_bound v = some (T.firstWhere (fun e => !t._comp e v) t.end_) := by
    unfold RBTree.lower_bound
    rw [hwf.root]
    exact bst_lower_bound_spec t hsw v T _ _ hwf.rep hbst hwf.end_notin hwf.height_lt_fuel
  refine ⟨hlb, ?_, ?_⟩
  · intro hall
    rw [hlb]
    simp only [Shape.firstWhere]
    rw [Shape.find_nodes_none_of_all (p := fun e => !t._comp e v)
      (by intro x hx; simp [hall x hx])]
  · intro a e hfw hm
    simp only [Shape.firstWhere] at hfw
    cases hf : T.nodes.find? (fun n => !t._comp n.2 v) with
    | none =>
      rw [hf] at hfw
      simp only [RBTree.end_, Option.some.injEq] at hfw
      exact absurd (hfw ▸ Shape.mem_addrs_of_mem_nodes hm) hwf.end_notin
    | some n =>
      rw [hf] at hfw
      simp only [Option.some.injEq] at hfw
      have hnm : n ∈ T.nodes := List.mem_of_find?_eq_some hf
      obtain ⟨hnp, l1, l2, hsplit, hbefore⟩ := List.find?_eq_some.1 hf
      -- the node found is the node `a`
      have hna : n = (a, e) := by
        have hnd := hwf.nodup
        rw [Shape.addrs_eq_map] at hnd
        exact List.inj_on_of_nodup_map hnd hnm hm hfw
      subst hna
      refine ⟨by simpa using hnp, ?_⟩
      intro e' he' hlt
      obtain ⟨a', hm'⟩ := Shape.mem_nodes_of_mem_toList he'
      have hpw := Shape.BST.pairwise hsw hbst
      rw [hsplit] at hm' hpw
      rcases List.mem_append.1 hm' with h1 | h1
      · have := hbefore (a', e') h1
        simp only [Bool.not_not] at this
        rw [this] at hlt; cases hlt
      · rcases List.mem_cons.1 h1 with h2 | h2
        · cases h2; exact hsw.irrefl _
        · have := (List.pairwise_cons.1 (List.pairwise_append.1 hpw).2.1).1 _ h2
          exact hsw.asymm this

theorem lower_bound_first_not_less_witness :
    exampleTree.lower_bound 4 =
        some (exampleShape.firstWhere (fun e => !exampleTree._comp e 4) exampleTree.end_) ∧
      ((∀ e ∈ exampleShape.toList, exampleTree._comp e 4 = true) →
        exampleTree.lower_bound 4 = some exampleTree.end_) ∧
      (∀ a e, exampleShape.firstWhere (fun e => !exampleTree._comp e 4) exampleTree.end_ =
          some a → (a, e) ∈ exampleShape.nodes →
        exampleTree._comp e 4 = false ∧
        ∀ e' ∈ exampleShape.toList, exampleTree._comp e' 4 = false →
          exampleTree._comp e' e = false) :=
  lower_bound_first_not_less exampleTree exampleShape 4 wf_example strictWeak_natLess
    bst_example

set_option maxRecDepth 100000 in
/-- C2 (failing input): after inserting 1, 7, 0, 5, 4, 6 into an empty tree (a valid
red-black tree holding 0, 1, 4, 5, 6, 7), `erase(find(7))` leaves the sequence 0, 1, 4:
the elements 5 and 6 are gone as well, `find(5)` and `find(6)` return `end()`, and
`size()` is 5. -/
theorem erase_drops_other_elements :
    (RBTree.build [1, 7, 0, 5, 4, 6] []).bind RBTree.observe =
        some ([0, 1, 4, 5, 6, 7], [0, 1, 4, 5, 6, 7], 6, 4, true) ∧
      (RBTree.build [1, 7, 0, 5, 4, 6] [7]).bind RBTree.observe =
        some ([0, 1, 4], [0, 1, 4], 5, 2, true) ∧
      (RBTree.build [1, 7, 0, 5, 4, 6] [7]).bind
          (fun t => (t.find 5).bind (fun c5 => (t.find 6).map (fun c6 => (c5, c6, t.end_)))) =
        some (some 0, some 0, some 0) :=
  ⟨by decide, by decide, by decide⟩

set_option maxRecDepth 100000 in
/-- C4 (failing input): after inserting 1, 7, 0, 5, 4, 6 and `erase(find(7))`, `size()`
is 5 while the traversal from `begin()` to `end()` visits 3 elements and 3 nodes are
reachable from the root. -/
theorem size_exceeds_visited_count :
    (RBTree.build [1, 7, 0, 5, 4, 6] [7]).bind
        (fun t => t.toList.bind (fun w => t.shape.map (fun s => (t.size, w.length, s.count)))) =
      some (5, 3, 3) := by
  decide

set_option maxRecDepth 100000 in
/-- C7 (failing input): the tree built by inserting 1, 2, 3, 4 satisfies the colour
invariants; after `erase(find(1))` it holds 2, 3, 4 and violates them (the black height
of the root's left side is smaller than that of its right side). -/
theorem erase_breaks_colour_invariants :
    (RBTree.build [1, 2, 3, 4] []).bind RBTree.observe =
        some ([1, 2, 3, 4], [1, 2, 3, 4], 4, 3, true) ∧
      (RBTree.build [1, 2, 3, 4] [1]).bind RBTree.observe =
        some ([2, 3, 4], [2, 3, 4], 3, 3, false) ∧
      (RBTree.build [1, 2, 3, 4] [1]).bind
          (fun t => t.shape.map (fun s => (s.isRed, s.noRedRed, s.blackHeight))) =
        some (false, true, none) :=
  ⟨by decide, by decide, by decide⟩

set_option maxRecDepth 100000 in
/-- C8 (failing input): inserting 0, ..., 13 and then erasing 0, 2, 1, 4, 6, 5, 8, 10
leaves the six elements 3, 7, 9, 11, 12, 13 in a tree of height 6, and
`2 ^ 6 > (6 + 1) ^ 2`. -/
theorem erase_breaks_height_bound :
    (RBTree.build (List.range 14) [0, 2, 1, 4, 6, 5, 8, 10]).bind RBTree.observe =
        some ([3, 7, 9, 11, 12, 13], [3, 7, 9, 11, 12, 13], 6, 6, false) ∧
      ¬ (2 ^ 6 ≤ (6 + 1) ^ 2) :=
  ⟨by decide, by decide⟩

theorem plug_node_ptr (ctx : List (Frame α)) : ∀ (x : Nat) (cx : Bool) (A : Shape α) (vx : α)
    (B : Shape α), ∃ a, (plug ctx (.node x cx A vx B)).ptr = some a := by
  induction ctx with
  | nil => intro x cx A vx B; exact ⟨x, rfl⟩
  | cons f fs ih =>
    intro x cx A vx B
    obtain ⟨il, a, c, v, s⟩ := f
    cases il
    · exact ih a c s v _
    · exact ih a c _ v s

theorem Shape.ptr_nil : (Shape.nil : Shape α).ptr = none := rfl

theorem plug_nodes_split (ctx : List (Frame α)) :
    ∃ pre post, ∀ s : Shape α, (plug ctx s).nodes = pre ++ s.nodes ++ post := by
  induction ctx with
  | nil => exact ⟨[], [], fun s => by simp [plug]⟩
  | cons f fs ih =>
    obtain ⟨pre, post, h⟩ := ih
    obtain ⟨il, a, c, v, sib⟩ := f
    cases il
    · refine ⟨pre ++ sib.nodes ++ [(a, v)], post, fun s => ?_⟩
      show (plug fs (.node a c sib v s)).nodes = _
      rw [h]
      simp [Shape.nodes]
    · refine ⟨pre, (a, v) :: sib.nodes ++ post, fun s => ?_⟩
      show (plug fs (.node a c s v sib)).nodes = _
      rw [h]
      simp [Shape.nodes]

theorem nodes_sublist_plug (ctx : List (Frame α)) (s : Shape α) :
    s.nodes.Sublist (plug ctx s).nodes := by
  obtain ⟨pre, post, hsp⟩ := plug_nodes_split ctx
  rw [hsp]
  exact ((List.sublist_append_right _ _).trans (List.sublist_append_left _ _))

theorem addrs_sublist_of_nodes {s s' : Shape α} (h : s.nodes.Sublist s'.nodes) :
    s.addrs.Sublist s'.addrs := by
  rw [Shape.addrs_eq_map, Shape.addrs_eq_map]
  exact h.map _

theorem height_le_of_addrs_sublist {s s' : Shape α} (h : s.addrs.Sublist s'.addrs) :
    s.height ≤ s'.count := by
  have h1 := s.height_le_count
  have h2 := h.length_le
  rw [← Shape.count_eq_length, ← Shape.count_eq_length] at h2
  omega

theorem plug_of_mem : ∀ (T : Shape α) (a : Nat), a ∈ T.addrs →
    ∃ (ctx : List (Frame α)) (c : Bool) (l : Shape α) (v : α) (r : Shape α),
      T = plug ctx (.node a c l v r) := by
  intro T
  induction T with
  | nil => intro a ha; simp [Shape.addrs] at ha
  | node b cb l v r ihl ihr =>
    intro a ha
    simp only [Shape.addrs, List.mem_append, List.mem_cons] at ha
    rcases ha with h | h | h
    · obtain ⟨ctx, c, l', v', r', hl⟩ := ihl a h
      refine ⟨ctx ++ [⟨true, b, cb, v, r⟩], c, l', v', r', ?_⟩
      rw [plug_append, ← hl]; rfl
    · subst h
      exact ⟨[], cb, l, v, r, rfl⟩
    · obtain ⟨ctx, c, l', v', r', hr⟩ := ihr a h
      refine ⟨ctx ++ [⟨false, b, cb, v, l⟩], c, l', v', r', ?_⟩
      rw [plug_append, ← hr]; rfl

theorem Shape.BST.pairwise_toList {comp : α → α → Bool} (hsw : StrictWeak comp) {s : Shape α}
    (h : s.BST comp) : s.toList.Pairwise (fun x y => comp x y = true) := by
  rw [Shape.toList_eq_map, List.pairwise_map]
  exact Shape.BST.pairwise hsw h

theorem Shape.bst_of_pairwise {comp : α → α → Bool} :
    ∀ {s : Shape α}, s.toList.Pairwise (fun x y => comp x y = true) → s.BST comp := by
  intro s
  induction s with
  | nil => intro _; trivial
  | node a c l v r ihl ihr =>
    intro h
    simp only [Shape.toList, List.pairwise_append, List.pairwise_cons, List.mem_cons] at h
    obtain ⟨hl, ⟨hv, hr⟩, hlr⟩ := h
    exact ⟨fun x hx => hlr x hx v (Or.inl rfl), hv, ihl hl, ihr hr⟩

theorem dropWhile_head_false (p : α → Bool) : ∀ (l : List α) (d : α) (ds : List α),
    l.dropWhile p = d :: ds → p d = false := by
  intro l
  induction l with
  | nil => intro d ds h; cases h
  | cons a l ih =>
    intro d ds h
    by_cases ha : p a = true
    · rw [List.dropWhile_cons, if_pos ha] at h
      exact ih d ds h
    · rw [List.dropWhile_cons, if_neg ha] at h
      cases h
      simpa using ha

theorem pairwise_placeSorted {comp : α → α → Bool} (hsw : StrictWeak comp) (v : α) (l : List α)
    (hp : l.Pairwise (fun x y => comp x y = true)) (hne : ∀ e ∈ l, equiv comp e v = false) :
    (placeSorted comp v l).Pairwise (fun x y => comp x y = true) := by
  unfold placeSorted
  have hsplit := List.takeWhile_append_dropWhile (fun x => comp x v) l
  have hp' := hp
  rw [← hsplit, List.pairwise_append] at hp'
  obtain ⟨h1, h2, -⟩ := hp'
  have hdrop : ∀ y ∈ l.dropWhile (fun x => comp x v), comp v y = true := by
    intro y hy
    cases hd : l.dropWhile (fun x => comp x v) with
    | nil => rw [hd] at hy; cases hy
    | cons d ds =>
      have hdv : comp d v = false := dropWhile_head_false (fun x => comp x v) l d ds hd
      have hdl : d ∈ l := by
        rw [← hsplit, hd]
        simp
      have hvd : comp v d = true := by
        have := hne d hdl
        simpa [equiv, hdv] using this
      rw [hd] at hy h2
      rcases List.mem_cons.1 hy with rfl | hy
      · exact hvd
      · exact hsw.trans _ _ _ hvd ((List.pairwise_cons.1 h2).1 y hy)
  rw [List.pairwise_append]
  refine ⟨h1, List.pairwise_cons.2 ⟨hdrop, h2⟩, ?_⟩
  intro x hx y hy
  have hxv : comp x v = true := List.mem_takeWhile_imp (p := fun x => comp x v) hx
  rcases List.mem_cons.1 hy with rfl | hy
  · exact hxv
  · exact hsw.trans _ _ _ hxv (hdrop y hy)

theorem Shape.isRed_setColor_false (s : Shape α) : (s.setColor false).isRed = false := by
  cases s <;> rfl

set_option maxRecDepth 100000 in
/-- C15 (failing input): `b` holds 1, 2, 3 and `a` is an empty tree in the same memory.
After `a = b`, `a.size()` is 3 and the links below `a._root` picture 1, 2, 3, but the
root of `a` has a `NULL` parent link, so the third `operator++` from `a.begin()` yields
`NULL` instead of `a.end()` and the traversal from `a.begin()` to `a.end()` dereferences
`NULL`; the traversal of `b` still visits 1, 2, 3. -/
theorem assign_breaks_traversal :
    (RBTree.build [2, 1, 3] []).bind (fun b =>
        ((RBTree.emptyIn b natLess).assign b).map (fun a =>
          (a.size, a.inorder, (b.inMemoryOf a).toList))) =
      some (3, some [1, 2, 3], some [1, 2, 3]) ∧
    (RBTree.build [2, 1, 3] []).bind (fun b =>
        ((RBTree.emptyIn b natLess).assign b).map (fun a =>
          (a.toList, a.begin_.bind (a.advance 3), a.end_))) =
      some (none, some none, some 4) :=
  ⟨by decide, by decide⟩

set_option maxRecDepth 100000 in
/-- C17 (failing input): `b` holds 1, 2, 3 and `a` is an empty tree in the same memory.
After `a = b` the root of `a` is the node at address 5, its parent link is `NULL` and
`left` of the sentinel of `a` is `NULL`.  After `clear()` on a tree holding 1, 2, 3, and
after `erase` of the only element of a tree, `_root` is `NULL` while `left` of the
sentinel still holds the address of the freed former root. -/
theorem assign_leaves_root_detached :
    (RBTree.build [2, 1, 3] []).bind (fun b =>
        ((RBTree.emptyIn b natLess).assign b).map (fun a =>
          (a._root, a._end, (a.node a._root).map (fun n => n.parent),
            (a.node (some a._end)).map (fun n => n.left)))) =
      some (some 5, 4, some none, some none) ∧
    (RBTree.build [2, 1, 3] []).bind (fun b =>
        b.clear.map (fun a =>
          (a._root, (a.node (some a._end)).map (fun n => n.left), (a.heap 1).isSome))) =
      some (none, some (some 1), false) ∧
    (RBTree.build [2] [2]).map (fun a =>
          (a._root, (a.node (some a._end)).map (fun n => n.left), (a.heap 1).isSome)) =
      some (none, some (some 1), false) :=
  ⟨by decide, by decide, by decide⟩

set_option maxRecDepth 100000 in
/-- C18 (failing input): insert 1, 7, 0, 5, 4, 6, then erase 7, 0 and 4, each through
`find`.  The tree then holds the single element 1 with `size()` 3, and `find(1)` returns
a cursor that is not `end()`.  In `erase` of that cursor `_bst_erase` sets `_root` to
`NULL` and returns `_end`; as `_size` is not 1, the statement `_root->parent = _end`
follows the `NULL` root: the call does not return. -/
theorem erase_last_visible_fails :
    (RBTree.build [1, 7, 0, 5, 4, 6] [7, 0, 4]).bind RBTree.observe =
        some ([1], [1], 3, 1, true) ∧
      (RBTree.build [1, 7, 0, 5, 4, 6] [7, 0, 4]).bind (fun t =>
          (t.find 1).map (fun c => (c, t.end_, (t.erase c).isSome))) =
        some (some 1, some 0, false) ∧
      (RBTree.build [1, 7, 0, 5, 4, 6] [7, 0, 4]).bind (fun t =>
          (RBTree._bst_erase t.fuel t (some 1)).map (fun r =>
            (r.1._root, r.2, r.1._size, r.1.attach.isSome))) =
        some (none, some 0, 3, false) :=
  ⟨by decide, by decide, by decide⟩

set_option maxRecDepth 100000 in
/-- C19 (failing input): insert 1, 7, 0, 5, 4, 6; `find(5)` returns the node at address 4.
After `erase(find(7))` that node still holds 5 but is no longer part of the tree, whose
nodes are at addresses 3, 1, 5 and hold 0, 1, 4; `find(5)` returns `end()`.  Second input:
insert 2, 1, 3 (nodes at addresses 1, 2, 3); after `erase(find(2))` the node of the
cursor to 1 (address 2) is freed and the node of the erased cursor (address 1) holds 1. -/
theorem erase_invalidates_other_cursor :
    (RBTree.build [1, 7, 0, 5, 4, 6] []).bind (fun t =>
          (t.find 5).map (fun c => (c, t.deref c))) = some (some 4, some 5) ∧
      (RBTree.build [1, 7, 0, 5, 4, 6] [7]).bind (fun t =>
          t.shape.bind (fun s => (t.find 5).map (fun c =>
            (t.deref (some 4), s.nodes, c, t.end_)))) =
        some (some 5, [(3, 0), (1, 1), (5, 4)], some 0, some 0) ∧
      (RBTree.build [2, 1, 3] []).bind (fun t =>
          (t.find 2).bind (fun c2 => (t.find 1).map (fun c1 => (c2, c1)))) =
        some (some 1, some 2) ∧
      (RBTree.build [2, 1, 3] [2]).bind (fun t =>
          t.shape.map (fun s => (t.deref (some 2), t.deref (some 1), s.nodes))) =
        some (none, some 1, [(1, 1), (3, 3)]) :=
  ⟨by decide, by decide, by decide, by decide⟩

theorem mem_nodes_plug_of_nil {ctx : List (Frame α)} {s : Shape α} {p : Nat × α}
    (h : p ∈ (plug ctx .nil).nodes) : p ∈ (plug ctx s).nodes := by
  obtain ⟨pre, post, hsp⟩ := plug_nodes_split ctx
  rw [hsp] at h ⊢
  simp only [Shape.nodes, List.append_nil, List.mem_append] at h ⊢
  rcases h with h | h
  · exact Or.inl (Or.inl h)
  · exact Or.inr h

theorem deref_of_mem {t : RBTree α} {T : Shape α} (hwf : WF t T) {c : Nat} {y : α}
    (h : (c, y) ∈ T.nodes) : t.deref (some c) = some y := by
  obtain ⟨n, h1, h2⟩ := hwf.rep.node_of_mem h
  simp [RBTree.deref, RBTree.node, h1, h2]

/-- C20: on a tree with consistent links, BST ordering and a black root, `insert` of any
value returns and leaves a tree with consistent links in which every node of the former
tree is still a node and holds the value it held: every cursor `c` to a stored element
`y` still designates a node of the tree and still dereferences to `y`. -/
theorem insert_keeps_cursors (t : RBTree α) (T : Shape α) (v : α) (hwf : WF t T)
    (hsw : StrictWeak t._comp) (hbst : T.BST t._comp) (hblack : T.isRed = false) :
    ∃ (t' : RBTree α) (r : Option Nat) (b : Bool) (T' : Shape α),
      t.insert v = some (t', r, b) ∧ WF t' T' ∧
      ∀ c y, (c, y) ∈ T.nodes → (c, y) ∈ T'.nodes ∧ t'.deref (some c) = some y := by
  by_cases hex : ∃ e ∈ T.toList, equiv t._comp e v = true
  · obtain ⟨e, hmem, he⟩ := hex
    obtain ⟨a, hm⟩ := Shape.mem_nodes_of_mem_toList hmem
    obtain ⟨t', hins, hh, hr, hend, -, -, hf⟩ :=
      insert_existing_master t T v hwf hsw hbst a e hm he
    have hwf' : WF t' T := wf_of_same_heap hwf hh hr hend (by omega)
    exact ⟨t', some a, false, T, hins, hwf', fun c y h => ⟨h, deref_of_mem hwf' h⟩⟩
  · have hnew : ∀ e ∈ T.toList, equiv t._comp e v = false := by
      intro e he
      by_contra h
      exact hex ⟨e, he, by simpa using h⟩
    obtain ⟨ctx, t', hp, hins, hwf', -⟩ := insert_new_master t T v hwf hsw hbst hblack hnew
    refine ⟨t', some t.fresh, true, _, hins, hwf', fun c y h => ?_⟩
    have hm : (c, y) ∈ ((fixup ctx (.node t.fresh true .nil v .nil)).setColor false).nodes := by
      rw [fixup_toList ctx t.fresh v]
      rw [← hp] at h
      exact mem_nodes_plug_of_nil h
    exact ⟨hm, deref_of_mem hwf' hm⟩

theorem insert_keeps_cursors_witness :
    ∃ (t' : RBTree Nat) (r : Option Nat) (b : Bool) (T' : Shape Nat),
      exampleTree.insert 3 = some (t', r, b) ∧ WF t' T' ∧
      ∀ c y, (c, y) ∈ exampleShape.nodes → (c, y) ∈ T'.nodes ∧ t'.deref (some c) = some y :=
  insert_keeps_cursors exampleTree exampleShape 3 wf_example strictWeak_natLess bst_example rfl

theorem bst_upper_bound_spec (t : RBTree α) (hsw : StrictWeak t._comp) (val : α) :
    ∀ (s : Shape α) (par : Option Nat) (fuel : Nat), Rep t.heap s par → s.BST t._comp →
      t._end ∉ s.addrs → s.height < fuel →
      t._bst_upper_bound val fuel s.ptr =
        some (s.firstWhere (fun e => t._comp val e) (some t._end)) := by
  intro s
  induction s with
  | nil =>
    intro par fuel _ _ _ hf
    cases fuel with
    | zero => simp [Shape.height] at hf
    | succ fuel => simp [RBTree._bst_upper_bound, Shape.ptr, Shape.firstWhere, Shape.nodes]
  | node a c l v r ihl ihr =>
    intro par fuel hrep hbst hend hf
    obtain ⟨h1, h2, h3⟩ := hrep
    obtain ⟨b1, b2, b3, b4⟩ := hbst
    simp only [Shape.addrs, List.mem_append, List.mem_cons, not_or] at hend
    obtain ⟨e1, e2, e3⟩ := hend
    cases fuel with
    | zero => simp at hf
    | succ fuel =>
      simp only [Shape.height] at hf
      rw [show (Shape.node a c l v r).ptr = some a from rfl]
      simp only [RBTree._bst_upper_bound, h1]
      by_cases hc1 : t._comp val v = true
      · simp only [hc1, Bool.not_true, Bool.false_eq_true, if_false]
        rw [ihl (some a) fuel h2 b3 e1 (by omega)]
        simp only [Shape.firstWhere, Shape.nodes, List.find?_append]
        cases hfl : l.nodes.find? (fun n => t._comp val n.2) with
        | none => simp [hc1]
        | some n =>
          have hn : n.1 ≠ t._end := by
            intro heq
            apply e1
            rw [← heq]
            exact Shape.mem_addrs_of_mem_nodes (e := n.2) (List.mem_of_find?_eq_some hfl)
          simp [hn]
      · have hc1' : t._comp val v = false := by simpa using hc1
        simp only [hc1', Bool.not_false, if_true]
        rw [ihr (some a) fuel h3 b4 e3 (by omega)]
        have hl : l.nodes.find? (fun n => t._comp val n.2) = none :=
          Shape.find_nodes_none_of_all (p := fun e => t._comp val e) (by
            intro x hx
            show t._comp val x = false
            cases hvx : t._comp val x with
            | false => rfl
            | true =>
              have := hsw.trans _ _ _ hvx (b1 x hx)
              rw [hc1'] at this
              cases this)
        simp [Shape.firstWhere, Shape.nodes, List.find?_append, hl, hc1']

/-- C11: on a tree with consistent links and BST ordering, `upper_bound(v)` returns the
cursor of the first element of the in-order sequence that is greater than `v`, or `end()`
when no stored element is greater than `v`; that element is the smallest stored element
greater than `v`. -/
theorem upper_bound_first_greater (t : RBTree α) (T : Shape α) (v : α) (hwf : WF t T)
    (hsw : StrictWeak t._comp) (hbst : T.BST t._comp) :
    t.upper_bound v = some (T.firstWhere (fun e => t._comp v e) t.end_) ∧
      ((∀ e ∈ T.toList, t._comp v e = false) → t.upper_bound v = some t.end_) ∧
      (∀ a e, T.firstWhere (fun e => t._comp v e) t.end_ = some a → (a, e) ∈ T.nodes →
        t._comp v e = true ∧
        ∀ e' ∈ T.toList, t._comp v e' = true → t._comp e' e = false) := by
  have hub : t.upper_bound v = some (T.firstWhere (fun e => t._comp v e) t.end_) := by
    unfold RBTree.upper_bound
    rw [hwf.root]
    exact bst_upper_bound_spec t hsw v T _ _ hwf.rep hbst hwf.end_notin hwf.height_lt_fuel
  refine ⟨hub, ?_, ?_⟩
  · intro hall
    rw [hub]
    simp only [Shape.firstWhere]
    rw [Shape.find_nodes_none_of_all (p := fun e => t._comp v e) hall]
  · intro a e hfw hm
    simp only [Shape.firstWhere] at hfw
    cases hf : T.nodes.find? (fun n => t._comp v n.2) with
    | none =>
      rw [hf] at hfw
      simp only [RBTree.end_, Option.some.injEq] at hfw
      exact absurd (hfw ▸ Shape.mem_addrs_of_mem_nodes hm) hwf.end_notin
    | some n =>
      rw [hf] at hfw
      simp only [Option.some.injEq] at hfw
      have hnm : n ∈ T.nodes := List.mem_of_find?_eq_some hf
      obtain ⟨hnp, l1, l2, hsplit, hbefore⟩ := List.find?_eq_some.1 hf
      have hna : n = (a, e) := by
        have hnd := hwf.nodup
        rw [Shape.addrs_eq_map] at hnd
        exact List.inj_on_of_nodup_map hnd hnm hm hfw
      subst hna
      refine ⟨by simpa using hnp, ?_⟩
      intro e' he' hgt
      obtain ⟨a', hm'⟩ := Shape.mem_nodes_of_mem_toList he'
      have hpw := Shape.BST.pairwise hsw hbst
      rw [hsplit] at hm' hpw
      rcases List.mem_append.1 hm' with h1 | h1
      · have := hbefore (a', e') h1
        simp only [Bool.not_eq_true'] at this
        rw [this] at hgt; cases hgt
      · rcases List.mem_cons.1 h1 with h2 | h2
        · cases h2; exact hsw.irrefl _
        · have := (List.pairwise_cons.1 (List.pairwise_append.1 hpw).2.1).1 _ h2
          exact hsw.asymm this

theorem upper_bound_first_greater_witness :
    exampleTree.upper_bound 4 =
        some (exampleShape.firstWhere (fun e => exampleTree._comp 4 e) exampleTree.end_) ∧
      ((∀ e ∈ exampleShape.toList, exampleTree._comp 4 e = false) →
        exampleTree.upper_bound 4 = some exampleTree.end_) ∧
      (∀ a e, exampleShape.firstWhere (fun e => exampleTree._comp 4 e) exampleTree.end_ =
          some a → (a, e) ∈ exampleShape.nodes →
        exampleTree._comp 4 e = true ∧
        ∀ e' ∈ exampleShape.toList, exampleTree._comp 4 e' = true →
          exampleTree._comp e' e = false) :=
  upper_bound_first_greater exampleTree exampleShape 4 wf_example strictWeak_natLess
    bst_example

theorem plug_nodes_eq (ctx : List (Frame α)) : ∀ s : Shape α,
    (plug ctx s).nodes = ctxBefore ctx ++ s.nodes ++ ctxAfter ctx := by
  induction ctx with
  | nil => intro s; simp [plug, ctxBefore, ctxAfter]
  | cons f fs ih =>
    intro s
    obtain ⟨il, a, c, v, sib⟩ := f
    cases il
    · show (plug fs (.node a c sib v s)).nodes = _
      rw [ih]
      simp [Shape.nodes, ctxBefore, ctxAfter]
    · show (plug fs (.node a c s v sib)).nodes = _
      rw [ih]
      simp [Shape.nodes, ctxBefore, ctxAfter]

theorem cursorHead_append (e : Nat) (l1 l2 : List (Nat × α)) (h : l1 ≠ []) :
    cursorHead e (l1 ++ l2) = cursorHead e l1 := by
  cases l1 with
  | nil => exact absurd rfl h
  | cons n ns => rfl

theorem cursorLast_append (l1 l2 : List (Nat × α)) (h : l2 ≠ []) :
    cursorLast (l1 ++ l2) = cursorLast l2 := by
  unfold cursorLast
  rw [List.getLast?_append_of_ne_nil _ h]

theorem cursorLast_singleton (n : Nat × α) : cursorLast [n] = some n.1 := rfl

theorem Shape.nodes_ne_nil (a : Nat) (c : Bool) (l : Shape α) (v : α) (r : Shape α) :
    (Shape.node a c l v r).nodes ≠ [] := by
  simp [Shape.nodes]

/-- Unique position of an address in a list of nodes with pairwise distinct addresses. -/
theorem split_unique : ∀ (l1 l1' l2 l2' : List (Nat × α)) (x y : Nat × α),
    l1 ++ x :: l2 = l1' ++ y :: l2' → x.1 = y.1 → ((l1 ++ x :: l2).map Prod.fst).Nodup →
    l1 = l1' ∧ x = y ∧ l2 = l2' := by
  intro l1
  induction l1 with
  | nil =>
    intro l1' l2 l2' x y h hxy hnd
    cases l1' with
    | nil =>
      simp only [List.nil_append, List.cons.injEq] at h
      exact ⟨rfl, h.1, h.2⟩
    | cons z zs =>
      simp only [List.nil_append, List.cons_append, List.cons.injEq] at h
      obtain ⟨h1, h2⟩ := h
      exfalso
      simp only [List.nil_append, List.map_cons, List.nodup_cons] at hnd
      apply hnd.1
      rw [h2, hxy]
      simp
  | cons w ws ih =>
    intro l1' l2 l2' x y h hxy hnd
    cases l1' with
    | nil =>
      simp only [List.nil_append, List.cons_append, List.cons.injEq] at h
      obtain ⟨h1, h2⟩ := h
      exfalso
      simp only [List.cons_append, List.map_cons, List.nodup_cons] at hnd
      apply hnd.1
      rw [h1, ← hxy]
      simp
    | cons z zs =>
      simp only [List.cons_append, List.cons.injEq] at h
      obtain ⟨h1, h2⟩ := h
      simp only [List.cons_append, List.map_cons, List.nodup_cons] at hnd
      obtain ⟨e1, e2, e3⟩ := ih zs l2 l2' x y h2 hxy hnd.2
      exact ⟨by rw [h1, e1], e2, e3⟩

theorem incr_down_spec (t : RBTree α) (e : Nat) :
    ∀ (s : Shape α) (par : Option Nat) (fuel : Nat), s ≠ .nil → Rep t.heap s par →
      s.height < fuel → t.incr_down fuel s.ptr = some (cursorHead e s.nodes) := by
  intro s
  induction s with
  | nil => intro par fuel h; exact absurd rfl h
  | node a c l v r ihl _ =>
    intro par fuel _ hrep hfuel
    cases fuel with
    | zero => simp at hfuel
    | succ fuel =>
      have ha := hrep.1
      cases l with
      | nil =>
        rw [Shape.ptr_nil] at ha
        simp only [Shape.ptr_node, RBTree.incr_down, RBTree.node, Option.some_bind, ha,
          Option.isSome_none, Bool.false_eq_true, if_false]
        rfl
      | node la lc ll lv lr =>
        have h := ihl (some a) fuel (by simp) hrep.2.1 (by
          simp only [Shape.height] at hfuel ⊢; omega)
        rw [Shape.ptr_node] at ha h
        simp only [Shape.ptr_node, RBTree.incr_down, RBTree.node, Option.some_bind, ha,
          Option.isSome_some, if_true, h]
        rw [show (Shape.node a c (Shape.node la lc ll lv lr) v r).nodes =
          (Shape.node la lc ll lv lr).nodes ++ (a, v) :: r.nodes from rfl,
          cursorHead_append e _ _ (Shape.nodes_ne_nil la lc ll lv lr)]

theorem find_leftmost_spec (t : RBTree α) (e : Nat) :
    ∀ (s : Shape α) (par : Option Nat) (fuel : Nat), s ≠ .nil → Rep t.heap s par →
      s.height < fuel → t._find_leftmost_node fuel s.ptr = some (cursorHead e s.nodes) := by
  intro s
  induction s with
  | nil => intro par fuel h; exact absurd rfl h
  | node a c l v r ihl _ =>
    intro par fuel _ hrep hfuel
    cases fuel with
    | zero => simp at hfuel
    | succ fuel =>
      have ha := hrep.1
      cases l with
      | nil =>
        rw [Shape.ptr_nil] at ha
        simp only [Shape.ptr_node, RBTree._find_leftmost_node, ha]
        rfl
      | node la lc ll lv lr =>
        have h := ihl (some a) fuel (by simp) hrep.2.1 (by
          simp only [Shape.height] at hfuel ⊢; omega)
        rw [Shape.ptr_node] at ha h
        simp only [Shape.ptr_node, RBTree._find_leftmost_node, ha, h]
        rw [show (Shape.node a c (Shape.node la lc ll lv lr) v r).nodes =
          (Shape.node la lc ll lv lr).nodes ++ (a, v) :: r.nodes from rfl,
          cursorHead_append e _ _ (Shape.nodes_ne_nil la lc ll lv lr)]

/-- The climb of `operator++` from a node without right child: it stops below the first
ancestor reached from the left, or at the root when there is none. -/
theorem incr_up_spec (t : RBTree α) (e : Nat) (l0 : Option Nat)
    (hs : t.heap e = some ⟨none, l0, none, none, true⟩) :
    ∀ (ctx : List (Frame α)) (x : Nat) (c : Bool) (l : Shape α) (v : α) (r : Shape α)
      (fuel : Nat),
      Rep t.heap (plug ctx (.node x c l v r)) (some e) →
      (plug ctx (.node x c l v r)).addrs.Nodup → ctx.length < fuel →
      ∃ top nt, t.incr_up fuel (some x) (ctxPtr ctx (some e)) = some top ∧
        t.node top = some nt ∧ nt.parent = cursorHead e (ctxAfter ctx) := by
  intro ctx
  induction ctx with
  | nil =>
    intro x c l v r fuel hrep _ hfuel
    cases fuel with
    | zero => simp at hfuel
    | succ fuel =>
      have hcell : t.node (some x) = some ⟨some v, l.ptr, r.ptr, some e, c⟩ := hrep.1
      have hrun : t.incr_up (fuel + 1) (some x) (ctxPtr ([] : List (Frame α)) (some e)) =
          some (some x) := by
        simp only [ctxPtr, RBTree.incr_up, hs, reduceCtorEq, if_false]
      exact ⟨some x, _, hrun, hcell, rfl⟩
  | cons f fs ih =>
    intro x c l v r fuel hrep hnd hfuel
    cases fuel with
    | zero => simp at hfuel
    | succ fuel =>
      have hx := rep_cell hrep
      obtain ⟨hc, -⟩ := (rep_plug (f :: fs) _ (some e)).1 hrep
      have hf := hc.top_cell
      obtain ⟨il, p, cp, vp, sp⟩ := f
      rw [Shape.ptr_node] at hf
      cases il
      · -- the path came from the right: go on climbing
        simp only [Frame.cell] at hf
        obtain ⟨top, nt, h1, h2, h3⟩ := ih p cp sp vp (.node x c l v r) fuel hrep hnd
          (by simp at hfuel ⊢; omega)
        refine ⟨top, nt, ?_, h2, h3⟩
        simp only [ctxPtr_cons, RBTree.incr_up, hf, if_true, h1]
      · -- the path came from the left: stop
        simp only [Frame.cell] at hf
        have hndF : (Shape.node p cp (.node x c l v r) vp sp).addrs.Nodup :=
          @nodup_sub _ fs _ hnd
        rw [Shape.nodup_node_iff] at hndF
        obtain ⟨-, -, -, -, hXS⟩ := hndF
        have hxs : ¬ (some x = sp.ptr) := ne_ptr_of_not_mem (hXS x (Shape.top_mem _ _ _ _ _))
        have hcell : t.node (some x) = some ⟨some v, l.ptr, r.ptr, some p, c⟩ := hx
        have hrun : t.incr_up (fuel + 1) (some x)
            (ctxPtr (⟨true, p, cp, vp, sp⟩ :: fs) (some e)) = some (some x) := by
          simp only [ctxPtr_cons, RBTree.incr_up, hf, hxs, if_false]
        exact ⟨some x, _, hrun, hcell, rfl⟩

theorem WF.sub_height_lt {t : RBTree α} {ctx : List (Frame α)} {s s' : Shape α}
    (hwf : WF t (plug ctx s)) (h : s'.addrs.Sublist s.addrs) : s'.height < t.fuel := by
  have h1 : s'.addrs.Sublist (plug ctx s).addrs :=
    h.trans (addrs_sublist_of_nodes (nodes_sublist_plug ctx s))
  have h2 := height_le_of_addrs_sublist h1
  have h3 := hwf.count_lt
  unfold RBTree.fuel
  omega

/-- Value of `operator++` on a node of the tree: the top of the next node in order, the
sentinel after the last node. -/
theorem incr_spec (t : RBTree α) (ctx : List (Frame α)) (a : Nat) (c : Bool) (l : Shape α)
    (v : α) (r : Shape α) (hwf : WF t (plug ctx (.node a c l v r))) :
    t.incr (some a) = some (cursorHead t._end (r.nodes ++ ctxAfter ctx)) := by
  have ha : t.node (some a) = some ⟨some v, l.ptr, r.ptr, ctxPtr ctx (some t._end), c⟩ :=
    rep_cell hwf.rep
  obtain ⟨l0, hs, -⟩ := hwf.sentinel
  cases r with
  | nil =>
    obtain ⟨top, nt, h1, h2, h3⟩ := incr_up_spec t t._end l0 hs ctx a c l v .nil t.fuel hwf.rep
      hwf.nodup (by
        have h1 := length_le_count_plug ctx (Shape.node a c l v .nil)
        have h3 := hwf.count_lt
        unfold RBTree.fuel
        omega)
    simp only [RBTree.incr, ha, Shape.ptr_nil, Option.isSome_none, Bool.false_eq_true,
      if_false, h1, h2, h3, Shape.nodes, List.nil_append]
  | node ra rc rl rv rr =>
    have hR : Rep t.heap (.node ra rc rl rv rr) (some a) :=
      ((rep_plug ctx _ _).1 hwf.rep).2.2.2
    have hd := incr_down_spec t t._end (.node ra rc rl rv rr) (some a) t.fuel (by simp) hR
      (hwf.sub_height_lt (by simp [Shape.addrs]))
    simp only [RBTree.incr, ha, Shape.ptr_node, Option.isSome_some, if_true]
    rw [Shape.ptr_node] at hd
    rw [hd, cursorHead_append _ _ _ (Shape.nodes_ne_nil ra rc rl rv rr)]

/-- Value of `operator++` on the node at a given position of the in-order listing. -/
theorem incr_at (t : RBTree α) (T : Shape α) (hwf : WF t T) (pre rest : List (Nat × α))
    (a : Nat) (v : α) (hn : T.nodes = pre ++ (a, v) :: rest) :
    t.incr (some a) = some (cursorHead t._end rest) := by
  have ha : a ∈ T.addrs := by
    rw [Shape.addrs_eq_map, hn]
    simp
  obtain ⟨ctx, c, l, v', r, hT⟩ := plug_of_mem T a ha
  subst hT
  have hsp := plug_nodes_eq ctx (Shape.node a c l v' r)
  have hnd := hwf.nodup
  rw [Shape.addrs_eq_map, hn] at hnd
  have heq : pre ++ (a, v) :: rest =
      (ctxBefore ctx ++ l.nodes) ++ (a, v') :: (r.nodes ++ ctxAfter ctx) := by
    rw [← hn, hsp]
    simp [Shape.nodes]
  obtain ⟨-, -, h3⟩ := split_unique _ _ _ _ _ _ heq rfl hnd
  rw [h3]
  exact incr_spec t ctx a c l v' r hwf

theorem Shape.count_eq_nodes_length (s : Shape α) : s.count = s.nodes.length := by
  rw [Shape.count_eq_length, Shape.addrs_eq_map, List.length_map]

theorem WF.ne_end {t : RBTree α} {T : Shape α} (hwf : WF t T) {a : Nat} (ha : a ∈ T.addrs) :
    ¬ (some a = t.end_) := by
  intro h
  simp only [RBTree.end_, Option.some.injEq] at h
  exact hwf.end_notin (h ▸ ha)

theorem walk_spec (t : RBTree α) (T : Shape α) (hwf : WF t T) :
    ∀ (rest pre : List (Nat × α)) (a : Nat) (v : α) (fuel : Nat),
      T.nodes = pre ++ (a, v) :: rest → rest.length + 1 < fuel →
      t.walk fuel (some a) = some (v :: rest.map Prod.snd) := by
  intro rest
  induction rest with
  | nil =>
    intro pre a v fuel hn hfuel
    have hm : (a, v) ∈ T.nodes := by rw [hn]; simp
    have hne : ¬ (some a = some t._end) := hwf.ne_end (Shape.mem_addrs_of_mem_nodes hm)
    obtain ⟨k, rfl⟩ : ∃ k, fuel = k + 2 := ⟨fuel - 2, by simp at hfuel; omega⟩
    simp only [RBTree.walk, RBTree.end_, hne, if_false, deref_of_mem hwf hm,
      incr_at t T hwf pre [] a v hn, cursorHead, if_true, Option.map_some', List.map_nil]
  | cons n rest ih =>
    intro pre a v fuel hn hfuel
    have hm : (a, v) ∈ T.nodes := by rw [hn]; simp
    have hne : ¬ (some a = some t._end) := hwf.ne_end (Shape.mem_addrs_of_mem_nodes hm)
    obtain ⟨k, rfl⟩ : ∃ k, fuel = k + 1 := ⟨fuel - 1, by simp at hfuel; omega⟩
    obtain ⟨b, w⟩ := n
    have hrec := ih (pre ++ [(a, v)]) b w k (by rw [hn]; simp) (by simp at hfuel ⊢; omega)
    simp only [RBTree.walk, RBTree.end_, hne, if_false, deref_of_mem hwf hm,
      incr_at t T hwf pre ((b, w) :: rest) a v hn, cursorHead, hrec, Option.map_some',
      List.map_cons]

theorem begin_spec (t : RBTree α) (T : Shape α) (hwf : WF t T) :
    t.begin_ = some (cursorHead t._end T.nodes) := by
  cases T with
  | nil =>
    have hr : t._root = none := hwf.root
    simp only [RBTree.begin_, hr, Shape.nodes, cursorHead, RBTree.end_]
  | node a c l v r =>
    have hr : t._root = some a := hwf.root
    have := find_leftmost_spec t t._end (.node a c l v r) _ t.fuel (by simp) hwf.rep
      hwf.height_lt_fuel
    rw [Shape.ptr_node] at this
    simp only [RBTree.begin_, hr, this]

theorem toList_spec (t : RBTree α) (T : Shape α) (hwf : WF t T) :
    t.toList = some T.toList := by
  have hb := begin_spec t T hwf
  have hcount := hwf.count_lt
  rw [Shape.count_eq_nodes_length] at hcount
  simp only [RBTree.toList, hb]
  rw [Shape.toList_eq_map]
  cases hn : T.nodes with
  | nil =>
    simp only [cursorHead, List.map_nil]
    show t.walk (t.fresh + 1) (some t._end) = some []
    simp [RBTree.walk, RBTree.end_]
  | cons n rest =>
    obtain ⟨a, v⟩ := n
    rw [hn] at hcount
    simp only [cursorHead, List.map_cons]
    exact walk_spec t T hwf rest [] a v t.fuel (by rw [hn]; rfl) (by
      unfold RBTree.fuel
      simp at hcount ⊢
      omega)

theorem cursorAt_lt (e : Nat) (l : List (Nat × α)) (k : Nat) (hk : k < l.length) :
    ∃ n, l.get? k = some n ∧ l = l.take k ++ n :: l.drop (k + 1) ∧
      cursorAt e l k = some n.1 ∧ cursorAt e l (k + 1) = cursorHead e (l.drop (k + 1)) := by
  refine ⟨l[k], ?_, ?_, ?_, rfl⟩
  · simp [List.get?_eq_getElem?, List.getElem?_eq_getElem hk]
  · rw [← List.drop_eq_getElem_cons hk, List.take_append_drop]
  · unfold cursorAt
    rw [List.drop_eq_getElem_cons hk]
    rfl

theorem advance_spec (t : RBTree α) (T : Shape α) (hwf : WF t T) :
    ∀ (k j : Nat), j + k ≤ T.nodes.length →
      t.advance k (cursorAt t._end T.nodes j) = some (cursorAt t._end T.nodes (j + k)) := by
  intro k
  induction k with
  | zero => intro j _; rfl
  | succ k ih =>
    intro j hj
    obtain ⟨n, -, hsplit, hc, hc'⟩ := cursorAt_lt t._end T.nodes j (by omega)
    obtain ⟨a, v⟩ := n
    have hi := incr_at t T hwf _ _ a v hsplit
    rw [← hc'] at hi
    simp only at hc
    simp only [RBTree.advance, hc, hi]
    rw [ih (j + 1) (by omega)]
    congr 2
    omega

/-- C13: on a tree with consistent links whose root is attached to the sentinel, the
traversal from `begin()` to `end()` with `operator++` visits exactly the recursive
in-order listing of the tree: `begin()` is the first node in order (the sentinel for an
empty tree), `k` increments lead to the `k`-th node in order, which is not `end()` and
dereferences to the `k`-th value, and after as many increments as there are nodes the
cursor is `end()`. -/
theorem traversal_is_inorder (t : RBTree α) (T : Shape α) (hwf : WF t T) :
    t.toList = some T.toList ∧ t.inorder = some T.toList ∧
      t.begin_ = some (cursorAt t._end T.nodes 0) ∧
      (∀ k, k ≤ T.count →
        t.advance k (cursorAt t._end T.nodes 0) = some (cursorAt t._end T.nodes k)) ∧
      (∀ k, k < T.count → ∃ n, T.nodes.get? k = some n ∧
        cursorAt t._end T.nodes k = some n.1 ∧ some n.1 ≠ t.end_ ∧
        t.deref (some n.1) = some n.2) ∧
      cursorAt t._end T.nodes T.count = t.end_ := by
  refine ⟨toList_spec t T hwf, hwf.inorder_eq, begin_spec t T hwf, ?_, ?_, ?_⟩
  · intro k hk
    rw [Shape.count_eq_nodes_length] at hk
    have := advance_spec t T hwf k 0 (by omega)
    rw [Nat.zero_add] at this
    exact this
  · intro k hk
    rw [Shape.count_eq_nodes_length] at hk
    obtain ⟨n, h1, h2, h3, -⟩ := cursorAt_lt t._end T.nodes k hk
    have hm : n ∈ T.nodes := by
      rw [h2]; simp
    refine ⟨n, h1, h3, hwf.ne_end (Shape.mem_addrs_of_mem_nodes (e := n.2) hm),
      deref_of_mem hwf hm⟩
  · rw [Shape.count_eq_nodes_length]
    simp [cursorAt, cursorHead, RBTree.end_]

theorem traversal_is_inorder_witness :
    exampleTree.toList = some exampleShape.toList ∧
      exampleTree.inorder = some exampleShape.toList ∧
      exampleTree.begin_ = some (cursorAt exampleTree._end exampleShape.nodes 0) ∧
      (∀ k, k ≤ exampleShape.count →
        exampleTree.advance k (cursorAt exampleTree._end exampleShape.nodes 0) =
          some (cursorAt exampleTree._end exampleShape.nodes k)) ∧
      (∀ k, k < exampleShape.count → ∃ n, exampleShape.nodes.get? k = some n ∧
        cursorAt exampleTree._end exampleShape.nodes k = some n.1 ∧
        some n.1 ≠ exampleTree.end_ ∧ exampleTree.deref (some n.1) = some n.2) ∧
      cursorAt exampleTree._end exampleShape.nodes exampleShape.count = exampleTree.end_ :=
  traversal_is_inorder exampleTree exampleShape wf_example

theorem decr_down_spec (t : RBTree α) :
    ∀ (s : Shape α) (par : Option Nat) (fuel : Nat), s ≠ .nil → Rep t.heap s par →
      s.height < fuel → t.decr_down fuel s.ptr = some (cursorLast s.nodes) := by
  intro s
  induction s with
  | nil => intro par fuel h; exact absurd rfl h
  | node a c l v r _ ihr =>
    intro par fuel _ hrep hfuel
    cases fuel with
    | zero => simp at hfuel
    | succ fuel =>
      have ha := hrep.1
      cases r with
      | nil =>
        rw [Shape.ptr_nil] at ha
        simp only [Shape.ptr_node, RBTree.decr_down, RBTree.node, Option.some_bind, ha,
          Option.isSome_none, Bool.false_eq_true, if_false]
        rw [show (Shape.node a c l v .nil).nodes = l.nodes ++ [(a, v)] from rfl,
          cursorLast_append _ _ (by simp)]
        rfl
      | node ra rc rl rv rr =>
        have h := ihr (some a) fuel (by simp) hrep.2.2 (by
          simp only [Shape.height] at hfuel ⊢; omega)
        rw [Shape.ptr_node] at ha h
        simp only [Shape.ptr_node, RBTree.decr_down, RBTree.node, Option.some_bind, ha,
          Option.isSome_some, if_true, h]
        rw [show (Shape.node a c l v (Shape.node ra rc rl rv rr)).nodes =
          (l.nodes ++ [(a, v)]) ++ (Shape.node ra rc rl rv rr).nodes by simp [Shape.nodes],
          cursorLast_append _ _ (Shape.nodes_ne_nil ra rc rl rv rr)]

/-- The climb of `operator--` from a node without left child: it stops below the first
ancestor reached from the right; when there is none it passes the root and the sentinel. -/
theorem decr_up_spec (t : RBTree α) (e : Nat) :
    ∀ (ctx : List (Frame α)) (x : Nat) (c : Bool) (l : Shape α) (v : α) (r : Shape α)
      (fuel : Nat),
      t.heap e = some ⟨none, (plug ctx (.node x c l v r)).ptr, none, none, true⟩ →
      Rep t.heap (plug ctx (.node x c l v r)) (some e) →
      (plug ctx (.node x c l v r)).addrs.Nodup → ctx.length + 1 < fuel →
      ∃ top nt, t.decr_up fuel (some x) (ctxPtr ctx (some e)) = some top ∧
        t.node top = some nt ∧ nt.parent = cursorLast (ctxBefore ctx) := by
  intro ctx
  induction ctx with
  | nil =>
    intro x c l v r fuel hs hrep _ hfuel
    obtain ⟨k, rfl⟩ : ∃ k, fuel = k + 2 := ⟨fuel - 2, by simp at hfuel; omega⟩
    have hs' : t.heap e = some ⟨none, some x, none, none, true⟩ := hs
    have hcell : t.node (some e) = some ⟨none, some x, none, none, true⟩ := hs'
    have hrun : t.decr_up (k + 2) (some x) (ctxPtr ([] : List (Frame α)) (some e)) =
        some (some e) := by
      simp only [ctxPtr, RBTree.decr_up, hs', if_true]
    exact ⟨some e, _, hrun, hcell, rfl⟩
  | cons f fs ih =>
    intro x c l v r fuel hs hrep hnd hfuel
    cases fuel with
    | zero => simp at hfuel
    | succ fuel =>
      have hx := rep_cell hrep
      obtain ⟨hc, -⟩ := (rep_plug (f :: fs) _ (some e)).1 hrep
      have hf := hc.top_cell
      obtain ⟨il, p, cp, vp, sp⟩ := f
      rw [Shape.ptr_node] at hf
      cases il
      · -- the path came from the right: stop
        simp only [Frame.cell] at hf
        have hndF : (Shape.node p cp sp vp (.node x c l v r)).addrs.Nodup :=
          @nodup_sub _ fs _ hnd
        rw [Shape.nodup_node_iff] at hndF
        obtain ⟨-, -, -, -, hSX⟩ := hndF
        have hxs : ¬ (some x = sp.ptr) :=
          ne_ptr_of_not_mem (fun hm => hSX x hm (Shape.top_mem _ _ _ _ _))
        have hcell : t.node (some x) = some ⟨some v, l.ptr, r.ptr, some p, c⟩ := hx
        have hrun : t.decr_up (fuel + 1) (some x)
            (ctxPtr (⟨false, p, cp, vp, sp⟩ :: fs) (some e)) = some (some x) := by
          simp only [ctxPtr_cons, RBTree.decr_up, hf, hxs, if_false]
        refine ⟨some x, _, hrun, hcell, ?_⟩
        show some p = cursorLast (ctxBefore fs ++ (sp.nodes ++ [(p, vp)]))
        rw [cursorLast_append _ _ (by simp), cursorLast_append _ _ (by simp)]
        rfl
      · -- the path came from the left: go on climbing
        simp only [Frame.cell] at hf
        obtain ⟨top, nt, h1, h2, h3⟩ := ih p cp (.node x c l v r) vp sp fuel hs hrep hnd
          (by simp at hfuel ⊢; omega)
        refine ⟨top, nt, ?_, h2, h3⟩
        simp only [ctxPtr_cons, RBTree.decr_up, hf, if_true, h1]

/-- Value of `operator--` on a node of the tree: the previous node in order, `NULL` before
the first node. -/
theorem decr_spec (t : RBTree α) (ctx : List (Frame α)) (a : Nat) (c : Bool) (l : Shape α)
    (v : α) (r : Shape α) (hwf : WF t (plug ctx (.node a c l v r))) :
    t.decr (some a) = some (cursorLast (ctxBefore ctx ++ l.nodes)) := by
  have ha : t.node (some a) = some ⟨some v, l.ptr, r.ptr, ctxPtr ctx (some t._end), c⟩ :=
    rep_cell hwf.rep
  obtain ⟨l0, hs, hl0⟩ := hwf.sentinel
  obtain ⟨a0, ha0⟩ := plug_node_ptr ctx a c l v r
  have hl0' := hl0 (by rw [ha0]; simp)
  subst hl0'
  cases l with
  | nil =>
    obtain ⟨top, nt, h1, h2, h3⟩ := decr_up_spec t t._end ctx a c .nil v r t.fuel hs hwf.rep
      hwf.nodup (by
        have h1 := length_le_count_plug ctx (Shape.node a c .nil v r)
        have h3 := hwf.count_lt
        unfold RBTree.fuel
        omega)
    simp only [RBTree.decr, ha, Shape.ptr_nil, Option.isSome_none, Bool.false_eq_true,
      if_false, h1, h2, h3, Shape.nodes, List.append_nil]
  | node la lc ll lv lr =>
    have hL : Rep t.heap (.node la lc ll lv lr) (some a) :=
      ((rep_plug ctx _ _).1 hwf.rep).2.2.1
    have hd := decr_down_spec t (.node la lc ll lv lr) (some a) t.fuel (by simp) hL
      (hwf.sub_height_lt (by simp [Shape.addrs]))
    simp only [RBTree.decr, ha, Shape.ptr_node, Option.isSome_some, if_true]
    rw [Shape.ptr_node] at hd
    rw [hd, cursorLast_append _ _ (Shape.nodes_ne_nil la lc ll lv lr)]

/-- Value of `operator--` on the node at a given position of the in-order listing. -/
theorem decr_at (t : RBTree α) (T : Shape α) (hwf : WF t T) (pre rest : List (Nat × α))
    (a : Nat) (v : α) (hn : T.nodes = pre ++ (a, v) :: rest) :
    t.decr (some a) = some (cursorLast pre) := by
  have ha : a ∈ T.addrs := by
    rw [Shape.addrs_eq_map, hn]
    simp
  obtain ⟨ctx, c, l, v', r, hT⟩ := plug_of_mem T a ha
  subst hT
  have hsp := plug_nodes_eq ctx (Shape.node a c l v' r)
  have hnd := hwf.nodup
  rw [Shape.addrs_eq_map, hn] at hnd
  have heq : pre ++ (a, v) :: rest =
      (ctxBefore ctx ++ l.nodes) ++ (a, v') :: (r.nodes ++ ctxAfter ctx) := by
    rw [← hn, hsp]
    simp [Shape.nodes]
  obtain ⟨h1, -, -⟩ := split_unique _ _ _ _ _ _ heq rfl hnd
  rw [h1]
  exact decr_spec t ctx a c l v' r hwf

/-- Value of `operator--` on `end()` of a non-empty tree: the last node in order. -/
theorem decr_end (t : RBTree α) (a : Nat) (c : Bool) (l : Shape α) (v : α) (r : Shape α)
    (hwf : WF t (.node a c l v r)) :
    t.decr (some t._end) = some (cursorLast (Shape.node a c l v r).nodes) := by
  obtain ⟨l0, hs, hl0⟩ := hwf.sentinel
  have hl0' := hl0 (by simp [Shape.ptr])
  subst hl0'
  have hcell : t.node (some t._end) =
      some ⟨none, (Shape.node a c l v r).ptr, none, none, true⟩ := hs
  have hd := decr_down_spec t (.node a c l v r) _ t.fuel (by simp) hwf.rep hwf.height_lt_fuel
  simp only [RBTree.decr, hcell, Shape.ptr_node, Option.isSome_some, if_true]
  rw [Shape.ptr_node] at hd
  exact hd

/-- C14: on a tree with consistent links whose root is attached to the sentinel, for every
cursor `a` to a node of the tree, `operator++` returns a cursor `s` (the next node in
order, or `end()` after the last node) and `operator--` applied to `s` returns `a`. -/
theorem decr_after_incr (t : RBTree α) (T : Shape α) (hwf : WF t T) (a : Nat)
    (ha : a ∈ T.addrs) :
    ∃ s, t.incr (some a) = some s ∧ t.decr s = some (some a) := by
  rw [Shape.addrs_eq_map] at ha
  obtain ⟨n, hn, hna⟩ := List.mem_map.1 ha
  obtain ⟨a', v⟩ := n
  simp only at hna
  subst hna
  obtain ⟨pre, rest, hsplit⟩ := List.append_of_mem hn
  refine ⟨_, incr_at t T hwf pre rest a' v hsplit, ?_⟩
  cases rest with
  | nil =>
    cases T with
    | nil => simp [Shape.nodes] at hn
    | node b cb l w r =>
      show t.decr (some t._end) = _
      rw [decr_end t b cb l w r hwf, hsplit, cursorLast_append _ _ (by simp)]
      rfl
  | cons m rest =>
    obtain ⟨b, w⟩ := m
    show t.decr (some b) = _
    rw [decr_at t T hwf (pre ++ [(a', v)]) rest b w (by rw [hsplit]; simp),
      cursorLast_append _ _ (by simp)]
    rfl

theorem decr_after_incr_witness :
    (1 : Nat) ∈ exampleShape.addrs ∧
      ∃ s, exampleTree.incr (some 1) = some s ∧ exampleTree.decr s = some (some 1) :=
  ⟨by simp [exampleShape, Shape.addrs],
    decr_after_incr exampleTree exampleShape wf_example 1 (by simp [exampleShape, Shape.addrs])⟩

theorem StrictWeak.lt_of_lt_equiv {comp : α → α → Bool} (hsw : StrictWeak comp) {x e v : α}
    (h1 : comp x e = true) (h2 : equiv comp e v = true) : comp x v = true := by
  cases hxv : comp x v with
  | true => rfl
  | false =>
    exfalso
    cases hvx : comp v x with
    | true =>
      have := hsw.trans _ _ _ hvx h1
      simp [equiv, this] at h2
    | false =>
      have hxe : equiv comp x v = true := by simp [equiv, hxv, hvx]
      have := hsw.equiv_trans _ _ _ hxe (equiv_symm h2)
      rw [equiv_false_of_lt h1] at this
      cases this

theorem StrictWeak.lt_of_equiv_lt {comp : α → α → Bool} (hsw : StrictWeak comp) {v e b : α}
    (h1 : equiv comp e v = true) (h2 : comp e b = true) : comp v b = true := by
  cases hvb : comp v b with
  | true => rfl
  | false =>
    exfalso
    cases hbv : comp b v with
    | true =>
      have := hsw.trans _ _ _ h2 hbv
      simp [equiv, this] at h1
    | false =>
      have hvb' : equiv comp v b = true := by simp [equiv, hvb, hbv]
      have := hsw.equiv_trans _ _ _ h1 hvb'
      rw [equiv_false_of_lt h2] at this
      cases this

theorem find_congr_mem {β : Type} (p q : β → Bool) : ∀ (l : List β),
    (∀ x ∈ l, p x = q x) → l.find? p = l.find? q := by
  intro l
  induction l with
  | nil => intro _; rfl
  | cons x xs ih =>
    intro h
    have hx := h x (by simp)
    have hxs := ih (fun y hy => h y (by simp [hy]))
    simp only [List.find?_cons, hx, hxs]

/-- C12: on a tree with consistent links and BST ordering, `equal_range(v)` returns the
pair of `lower_bound(v)` and `upper_bound(v)`.  When no stored element is equivalent to
`v` the two cursors are equal; when the element at node `a` is equivalent to `v` the first
cursor is `a`, the second cursor is the one `operator++` yields from `a` (the next node
in order or `end()`), and the two differ. -/
theorem equal_range_spans_at_most_one (t : RBTree α) (T : Shape α) (v : α) (hwf : WF t T)
    (hsw : StrictWeak t._comp) (hbst : T.BST t._comp) :
    ∃ lb ub, t.lower_bound v = some lb ∧ t.upper_bound v = some ub ∧
      t.equal_range v = some (lb, ub) ∧
      ((∀ e ∈ T.toList, equiv t._comp e v = false) → lb = ub) ∧
      (∀ a e, (a, e) ∈ T.nodes → equiv t._comp e v = true →
        lb = some a ∧ t.incr (some a) = some ub ∧ ub ≠ lb) := by
  have hlb : t.lower_bound v = some (T.firstWhere (fun e => !t._comp e v) t.end_) := by
    unfold RBTree.lower_bound
    rw [hwf.root]
    exact bst_lower_bound_spec t hsw v T _ _ hwf.rep hbst hwf.end_notin hwf.height_lt_fuel
  have hub : t.upper_bound v = some (T.firstWhere (fun e => t._comp v e) t.end_) := by
    unfold RBTree.upper_bound
    rw [hwf.root]
    exact bst_upper_bound_spec t hsw v T _ _ hwf.rep hbst hwf.end_notin hwf.height_lt_fuel
  refine ⟨_, _, hlb, hub, by simp only [RBTree.equal_range, hlb, hub], ?_, ?_⟩
  · intro habs
    simp only [Shape.firstWhere]
    rw [find_congr_mem (fun n : Nat × α => !t._comp n.2 v) (fun n => t._comp v n.2) T.nodes]
    intro n hn
    have hne := habs n.2 (Shape.mem_toList_of_mem_nodes (a := n.1) hn)
    show (!t._comp n.2 v) = t._comp v n.2
    cases h1 : t._comp n.2 v with
    | true => simp [hsw.asymm h1]
    | false => simpa [equiv, h1] using hne
  · intro a e hm heq
    obtain ⟨pre, rest, hsplit⟩ := List.append_of_mem hm
    have hpw := Shape.BST.pairwise hsw hbst
    rw [hsplit] at hpw
    obtain ⟨-, hpw2, hpre⟩ := List.pairwise_append.1 hpw
    have hprelt : ∀ n ∈ pre, t._comp n.2 v = true := fun n hn =>
      hsw.lt_of_lt_equiv (hpre n hn (a, e) (by simp)) heq
    have hev : t._comp e v = false ∧ t._comp v e = false := by
      simpa [equiv] using heq
    have hrestgt : ∀ n ∈ rest, t._comp v n.2 = true := fun n hn =>
      hsw.lt_of_equiv_lt heq ((List.pairwise_cons.1 hpw2).1 n hn)
    have hl : T.firstWhere (fun e => !t._comp e v) t.end_ = some a := by
      have : T.nodes.find? (fun n => !t._comp n.2 v) = some (a, e) := by
        rw [List.find?_eq_some]
        refine ⟨by simp [hev.1], pre, rest, hsplit, ?_⟩
        intro n hn
        simp [hprelt n hn]
      simp only [Shape.firstWhere, this]
    have hu : T.firstWhere (fun e => t._comp v e) t.end_ = cursorHead t._end rest := by
      have hnone : pre.find? (fun n => t._comp v n.2) = none := by
        rw [List.find?_eq_none]
        intro n hn
        simp [hsw.asymm (hprelt n hn)]
      simp only [Shape.firstWhere, hsplit, List.find?_append, hnone, Option.none_or,
        List.find?_cons, hev.2]
      cases rest with
      | nil => rfl
      | cons m rest => simp [hrestgt m (by simp), cursorHead]
    refine ⟨hl, ?_, ?_⟩
    · rw [hu]
      exact incr_at t T hwf pre rest a e hsplit
    · rw [hu, hl]
      have hnd := hwf.nodup
      rw [Shape.addrs_eq_map, hsplit] at hnd
      cases rest with
      | nil =>
        intro h
        exact hwf.ne_end (Shape.mem_addrs_of_mem_nodes hm) h.symm
      | cons m rest =>
        intro h
        simp only [cursorHead, Option.some.injEq] at h
        simp only [List.map_append, List.map_cons, List.nodup_append, List.nodup_cons,
          List.mem_cons, not_or] at hnd
        exact hnd.2.1.1.1 h.symm

theorem equal_range_spans_at_most_one_witness :
    ∃ lb ub, exampleTree.lower_bound 5 = some lb ∧ exampleTree.upper_bound 5 = some ub ∧
      exampleTree.equal_range 5 = some (lb, ub) ∧
      ((∀ e ∈ exampleShape.toList, equiv exampleTree._comp e 5 = false) → lb = ub) ∧
      (∀ a e, (a, e) ∈ exampleShape.nodes → equiv exampleTree._comp e 5 = true →
        lb = some a ∧ exampleTree.incr (some a) = some ub ∧ ub ≠ lb) :=
  equal_range_spans_at_most_one exampleTree exampleShape 5 wf_example strictWeak_natLess
    bst_example

theorem store_store (h : Nat → Option (RBTreeNode α)) (a : Nat) (x y : Option (RBTreeNode α)) :
    store (store h a x) a y = store h a y := by
  funext b
  simp only [store]
  split <;> rfl

theorem bst_clone_spec : ∀ (s : Shape α) (fuel : Nat) (t : RBTree α) (par0 parent : Option Nat),
    Rep t.heap s par0 → (∀ a ∈ s.addrs, a < t.fresh) → s.height < fuel →
    ∃ h' s', RBTree._bst_clone fuel t s.ptr parent =
        some (⟨h', t.fresh + s.count, t._comp, t._root, t._end, t._size⟩, s'.ptr) ∧
      Rep h' s' parent ∧ s'.strip = s.strip ∧
      (∀ a ∈ s'.addrs, t.fresh ≤ a ∧ a < t.fresh + s.count) ∧ s'.addrs.Nodup ∧
      (∀ b, (b < t.fresh ∨ t.fresh + s.count ≤ b) → h' b = t.heap b) := by
  intro s
  induction s with
  | nil =>
    intro fuel t par0 parent _ _ hf
    obtain ⟨f, rfl⟩ : ∃ f, fuel = f + 1 := ⟨fuel - 1, by omega⟩
    exact ⟨t.heap, .nil, rfl, trivial, rfl, by simp [Shape.addrs], by simp [Shape.addrs],
      fun _ _ => rfl⟩
  | node a c l v r ihl ihr =>
    intro fuel t par0 parent hrep hlt hf
    obtain ⟨f, rfl⟩ : ∃ f, fuel = f + 1 := ⟨fuel - 1, by omega⟩
    obtain ⟨h1, h2, h3⟩ := hrep
    have hfa : a ≠ t.fresh := Nat.ne_of_lt (hlt a (Shape.top_mem _ _ _ _ _))
    have hltl : ∀ b ∈ l.addrs, b < t.fresh := fun b hb => hlt b (by simp [Shape.addrs, hb])
    have hltr : ∀ b ∈ r.addrs, b < t.fresh := fun b hb => hlt b (by simp [Shape.addrs, hb])
    have hhl : l.height < f := by simp only [Shape.height] at hf; omega
    have hhr : r.height < f := by simp only [Shape.height] at hf; omega
    obtain ⟨hl', l', el, repl, stl, rngl, ndl, agl⟩ := ihl f
      ⟨store t.heap t.fresh (some ⟨some v, none, none, parent, c⟩), t.fresh + 1, t._comp,
        t._root, t._end, t._size⟩ (some a) (some t.fresh)
      (h2.frame (fun b hb => store_other _ _ (Nat.ne_of_lt (hltl b hb))))
      (fun b hb => Nat.lt_succ_of_lt (hltl b hb)) hhl
    have hl'n : hl' t.fresh = some ⟨some v, none, none, parent, c⟩ := by
      rw [agl t.fresh (Or.inl (Nat.lt_succ_self _))]
      exact store_same _ _ _
    have hl'a : ∀ b, b < t.fresh → hl' b = t.heap b := by
      intro b hb
      rw [agl b (Or.inl (Nat.lt_succ_of_lt hb))]
      exact store_other _ _ (Nat.ne_of_lt hb)
    obtain ⟨hr', r', er, repr, str, rngr, ndr, agr⟩ := ihr f
      ⟨store hl' t.fresh (some ⟨some v, l'.ptr, none, parent, c⟩), t.fresh + 1 + l.count,
        t._comp, t._root, t._end, t._size⟩ (some a) (some t.fresh)
      (h3.frame (fun b hb => by
        show store _ _ _ b = _
        rw [store_other _ _ (Nat.ne_of_lt (hltr b hb))]
        exact hl'a b (hltr b hb)))
      (fun b hb => by have := hltr b hb; show b < t.fresh + 1 + l.count; omega) hhr
    have hr'n : hr' t.fresh = some ⟨some v, l'.ptr, none, parent, c⟩ := by
      rw [agr t.fresh (Or.inl (by show t.fresh < t.fresh + 1 + l.count; omega))]
      exact store_same _ _ _
    have hfr : t.fresh + (Shape.node a c l v r).count = t.fresh + 1 + l.count + r.count := by
      simp only [Shape.count]; omega
    refine ⟨store hr' t.fresh (some ⟨some v, l'.ptr, r'.ptr, parent, c⟩),
      .node t.fresh c l' v r', ?_, ⟨store_same _ _ _, ?_, ?_⟩, ?_, ?_, ?_, ?_⟩
    · rw [hfr]
      simp only [RBTree._bst_clone, Shape.ptr_node, h1, RBTree._create_node, RBTree.write,
        store_same, store_store, store_other _ _ hfa, RBTreeNode.new, el, hl'n, hl'a a
        (hlt a (Shape.top_mem _ _ _ _ _)), er, hr'n]
    · apply Rep.frame repl
      intro b hb
      have hb1 := rngl b hb
      have hb2 : t.fresh + 1 ≤ b ∧ b < t.fresh + 1 + l.count := hb1
      rw [store_other _ _ (by omega), agr b (Or.inl (by show b < t.fresh + 1 + l.count; omega))]
      exact store_other _ _ (by omega)
    · apply Rep.frame repr
      intro b hb
      have hb1 := rngr b hb
      have hb2 : t.fresh + 1 + l.count ≤ b ∧ b < t.fresh + 1 + l.count + r.count := hb1
      exact store_other _ _ (by omega)
    · simp only [Shape.strip, stl, str]
    · intro b hb
      simp only [Shape.addrs, List.mem_append, List.mem_cons] at hb
      simp only [Shape.count]
      rcases hb with hb | hb | hb
      · have hb2 : t.fresh + 1 ≤ b ∧ b < t.fresh + 1 + l.count := rngl b hb
        omega
      · omega
      · have hb2 : t.fresh + 1 + l.count ≤ b ∧ b < t.fresh + 1 + l.count + r.count := rngr b hb
        omega
    · simp only [Shape.addrs]
      rw [List.nodup_append]
      refine ⟨ndl, List.nodup_cons.2 ⟨?_, ndr⟩, ?_⟩
      · intro hb
        have hb2 : t.fresh + 1 + l.count ≤ t.fresh ∧ _ := rngr _ hb
        omega
      · intro b hb1 hb2
        have h4 : t.fresh + 1 ≤ b ∧ b < t.fresh + 1 + l.count := rngl b hb1
        rcases List.mem_cons.1 hb2 with rfl | hb2
        · omega
        · have h5 : t.fresh + 1 + l.count ≤ b ∧ _ := rngr b hb2
          omega
    · intro b hb
      simp only [Shape.count] at hb
      rw [store_other _ _ (by omega)]
      have e1 : hr' b = store hl' t.fresh (some ⟨some v, l'.ptr, none, parent, c⟩) b :=
        agr b (by
          show b < t.fresh + 1 + l.count ∨ t.fresh + 1 + l.count + r.count ≤ b
          omega)
      rw [e1, store_other _ _ (by omega)]
      have e2 : hl' b = store t.heap t.fresh (some ⟨some v, none, none, parent, c⟩) b :=
        agl b (by
          show b < t.fresh + 1 ∨ t.fresh + 1 + l.count ≤ b
          omega)
      rw [e2, store_other _ _ (by omega)]

theorem Shape.toList_strip (s : Shape α) : s.strip.toList = s.toList := by
  induction s with
  | nil => rfl
  | node a c l v r ihl ihr => simp only [Shape.strip, Shape.toList, ihl, ihr]

theorem Shape.toList_of_strip {s s' : Shape α} (h : s'.strip = s.strip) :
    s'.toList = s.toList := by
  rw [← Shape.toList_strip s', h, Shape.toList_strip]

theorem Shape.count_strip (s : Shape α) : s.strip.count = s.count := by
  induction s with
  | nil => rfl
  | node a c l v r ihl ihr => simp only [Shape.strip, Shape.count, ihl, ihr]

theorem copy_spec (src : RBTree α) (T : Shape α) (hwf : WF src T) :
    ∃ t' T', src.copy = some t' ∧ WF t' T' ∧ T'.strip = T.strip ∧ t'._size = src._size ∧
      t'._comp = src._comp ∧ t'._end = src.fresh + T.count ∧
      t'.fresh = src.fresh + T.count + 1 ∧
      (∀ a ∈ T'.addrs, src.fresh ≤ a) ∧ (∀ b, b < src.fresh → t'.heap b = src.heap b) := by
  obtain ⟨h', T', e, rep', st, rng, nd, ag⟩ := bst_clone_spec T src.fuel
    ⟨src.heap, src.fresh, src._comp, none, src._end, src._size⟩ (some src._end) none hwf.rep
    (fun a ha => hwf.addr_lt ha) hwf.height_lt_fuel
  have e' : RBTree._bst_clone src.fuel ⟨src.heap, src.fresh, src._comp, none, src._end,
      src._size⟩ T.ptr none =
      some (⟨h', src.fresh + T.count, src._comp, none, src._end, src._size⟩, T'.ptr) := e
  have ag' : ∀ b, (b < src.fresh ∨ src.fresh + T.count ≤ b) → h' b = src.heap b := ag
  have rng' : ∀ a ∈ T'.addrs, src.fresh ≤ a ∧ a < src.fresh + T.count := rng
  have hend : src.fresh + T.count ∉ T'.addrs := fun hm => by
    have := (rng' _ hm).2
    omega
  cases T' with
  | nil =>
    refine ⟨⟨store h' (src.fresh + T.count) (some (RBTreeNode.new none)),
      src.fresh + T.count + 1, src._comp, none, src.fresh + T.count, src._size⟩, .nil, ?_,
      ⟨rfl, trivial, List.nodup_nil, hend, ⟨none, store_same _ _ _, fun h => absurd rfl h⟩, ?_⟩,
      st, rfl, rfl, rfl, rfl, fun a ha => (rng' a ha).1, ?_⟩
    · simp only [RBTree.copy, hwf.root, e', Shape.ptr_nil, Option.isSome_none, Bool.false_eq_true,
        if_false]
    · intro b hb
      have hb' : src.fresh + T.count + 1 ≤ b := hb
      show store _ _ _ b = none
      rw [store_other _ _ (by omega), ag' b (Or.inr (by omega))]
      exact hwf.bound b (by omega)
    · intro b hb
      show store _ _ _ b = _
      rw [store_other _ _ (by omega), ag' b (Or.inl hb)]
  | node a' c' l' v' r' =>
    obtain ⟨t', eat, rep2, hsent, hroot', hag, hfresh, hcomp, hend', hsize⟩ := attach_spec
      ⟨store h' (src.fresh + T.count) (some (RBTreeNode.new none)),
        src.fresh + T.count + 1, src._comp, some a', src.fresh + T.count, src._size⟩
      a' c' l' v' r' none none
      (rep'.frame (fun b hb => store_other _ _ (fun h => hend (h ▸ hb)))) nd rfl hend
      (store_same _ _ _)
    have hend2 : t'._end = src.fresh + T.count := hend'
    have hfresh2 : t'.fresh = src.fresh + T.count + 1 := hfresh
    have hag2 : ∀ b, b ∉ (Shape.node a' c' l' v' r').addrs → b ≠ src.fresh + T.count →
        t'.heap b = store h' (src.fresh + T.count) (some (RBTreeNode.new none)) b := hag
    refine ⟨t', .node a' c' l' v' r', ?_,
      ⟨hroot', ?_, nd, ?_, ⟨some a', ?_, fun _ => rfl⟩, ?_⟩,
      st, hsize, hcomp, hend2, hfresh2, fun a ha => (rng' a ha).1, ?_⟩
    · simp only [RBTree.copy, hwf.root, e', Shape.ptr_node, Option.isSome_some, if_true]
      exact eat
    · rw [hend2]; exact rep2
    · rw [hend2]; exact hend
    · rw [hend2]; exact hsent
    · intro b hb
      rw [hfresh2] at hb
      rw [hag2 b (fun hm => by have := (rng' b hm).2; omega) (by omega),
        store_other _ _ (by omega), ag' b (Or.inr (by omega))]
      exact hwf.bound b (by omega)
    · intro b hb
      rw [hag2 b (fun hm => by have := (rng' b hm).1; omega) (by omega),
        store_other _ _ (by omega), ag' b (Or.inl hb)]

/-- C16: the copy constructor applied to a tree `src` with consistent links returns a tree
whose picture has the same layout, colours and values as the picture of `src`, the same
size and comparator, its root attached to a sentinel of its own, and whose traversal from
`begin()` to `end()` yields the same sequence as the traversal of `src`; it shares no node
with `src`, and `src` keeps its picture in the extended memory. -/
theorem copy_is_deep_clone (src : RBTree α) (T : Shape α) (hwf : WF src T) :
    ∃ t' T', src.copy = some t' ∧ WF t' T' ∧ t'.shape = some T' ∧ src.shape = some T ∧
      T'.strip = T.strip ∧ t'.size = src.size ∧
      (∀ a, t'._root = some a →
        (t'.heap a).map RBTreeNode.parent = some (some t'._end) ∧
        (t'.heap t'._end).map RBTreeNode.left = some (some a)) ∧
      t'.toList = src.toList ∧ t'.toList = some T.toList ∧
      t'._end ≠ src._end ∧ t'._end ∉ T.addrs ∧ (∀ a ∈ T'.addrs, a ∉ T.addrs ∧ a ≠ src._end) ∧
      WF (src.inMemoryOf t') T := by
  obtain ⟨t', T', e, hwf', st, hsize, -, hend, hfresh, hge, hag⟩ := copy_spec src T hwf
  have hel := hwf.end_lt
  refine ⟨t', T', e, hwf', hwf'.shape_eq, hwf.shape_eq, st, hsize, ?_, ?_, ?_, ?_, ?_, ?_, ?_⟩
  · intro a ha
    cases T' with
    | nil =>
      rw [hwf'.root] at ha
      cases ha
    | node a' c' l' v' r' =>
      rw [hwf'.root] at ha
      cases ha
      obtain ⟨l0, hl0, hl1⟩ := hwf'.sentinel
      rw [hwf'.rep.1, hl0, hl1 (by rw [Shape.ptr_node]; exact Option.some_ne_none _)]
      exact ⟨rfl, rfl⟩
  · rw [toList_spec t' T' hwf', toList_spec src T hwf, Shape.toList_of_strip st]
  · rw [toList_spec t' T' hwf', Shape.toList_of_strip st]
  · omega
  · intro hm
    have := hwf.addr_lt hm
    omega
  · intro a ha
    have := hge a ha
    exact ⟨fun hm => by have := hwf.addr_lt hm; omega, by omega⟩
  · refine ⟨hwf.root, hwf.rep.frame (fun b hb => hag b (hwf.addr_lt hb)), hwf.nodup,
      hwf.end_notin, ?_, hwf'.bound⟩
    obtain ⟨l0, hl0, hl1⟩ := hwf.sentinel
    exact ⟨l0, (hag _ hel).trans hl0, hl1⟩

theorem copy_is_deep_clone_witness :
    ∃ t' T', exampleTree.copy = some t' ∧ WF t' T' ∧ t'.shape = some T' ∧
      exampleTree.shape = some exampleShape ∧
      T'.strip = exampleShape.strip ∧ t'.size = exampleTree.size ∧
      (∀ a, t'._root = some a →
        (t'.heap a).map RBTreeNode.parent = some (some t'._end) ∧
        (t'.heap t'._end).map RBTreeNode.left = some (some a)) ∧
      t'.toList = exampleTree.toList ∧ t'.toList = some exampleShape.toList ∧
      t'._end ≠ exampleTree._end ∧ t'._end ∉ exampleShape.addrs ∧
      (∀ a ∈ T'.addrs, a ∉ exampleShape.addrs ∧ a ≠ exampleTree._end) ∧
      WF (exampleTree.inMemoryOf t') exampleShape :=
  copy_is_deep_clone exampleTree exampleShape wf_example

theorem placeSorted_length (comp : α → α → Bool) (v : α) (l : List α) :
    (placeSorted comp v l).length = l.length + 1 := by
  unfold placeSorted
  have h := congrArg List.length (List.takeWhile_append_dropWhile (fun x => comp x v) l)
  simp only [List.length_append, List.length_cons] at h ⊢
  omega

theorem placeSorted_perm (comp : α → α → Bool) (v : α) (l : List α) :
    (placeSorted comp v l).Perm (v :: l) := by
  unfold placeSorted
  have h := List.takeWhile_append_dropWhile (fun x => comp x v) l
  calc l.takeWhile (fun x => comp x v) ++ v :: l.dropWhile (fun x => comp x v)
      |>.Perm (v :: (l.takeWhile (fun x => comp x v) ++ l.dropWhile (fun x => comp x v))) :=
        List.perm_middle
    _ = v :: l := by rw [h]

/-- Effect of `insert` on a tree with consistent links, BST ordering and a black root, in
terms of the in-order sequence. -/
theorem insert_step (t : RBTree α) (T : Shape α) (v : α) (hwf : WF t T)
    (hsw : StrictWeak t._comp) (hbst : T.BST t._comp) (hblack : T.isRed = false) :
    ∃ (t' : RBTree α) (c : Option Nat) (b : Bool) (T' : Shape α),
      t.insert v = some (t', c, b) ∧ WF t' T' ∧ T'.BST t._comp ∧ T'.isRed = false ∧
      t'._comp = t._comp ∧ t'._end = t._end ∧
      T'.toList = sortedInsert t._comp T.toList v ∧
      b = !(T.toList.any (fun e => equiv t._comp e v)) ∧
      (t._size = T.toList.length → t'._size = T'.toList.length) ∧
      t'.deref c = (T'.toList.find? (fun e => equiv t._comp e v)) := by
  by_cases hex : ∃ e ∈ T.toList, equiv t._comp e v = true
  · have hany : T.toList.any (fun e => equiv t._comp e v) = true := by
      rw [List.any_eq_true]
      exact hex
    obtain ⟨e, hmem, he⟩ := hex
    obtain ⟨a, hm⟩ := Shape.mem_nodes_of_mem_toList hmem
    obtain ⟨t', hins, hh, hr, hend, hsz, hc, hf⟩ :=
      insert_existing_master t T v hwf hsw hbst a e hm he
    have hwf' : WF t' T := wf_of_same_heap hwf hh hr hend (by omega)
    refine ⟨t', some a, false, T, hins, hwf', hbst, hblack, hc, hend, ?_, ?_, ?_, ?_⟩
    · simp only [sortedInsert, hany, if_true]
    · simp only [hany, Bool.not_true]
    · intro h; rw [hsz]; exact h
    · rw [deref_of_mem hwf' hm]
      symm
      rw [List.find?_eq_some]
      obtain ⟨as, bs, hsplit⟩ := List.append_of_mem hmem
      refine ⟨he, as, bs, hsplit, ?_⟩
      intro x hx
      have hpw := Shape.BST.pairwise_toList hsw hbst
      rw [hsplit, List.pairwise_append] at hpw
      have hxe : t._comp x e = true := hpw.2.2 x hx e (by simp)
      have hxv : t._comp x v = true := hsw.lt_of_lt_equiv hxe he
      simp [equiv_false_of_lt hxv]
  · have hnew : ∀ e ∈ T.toList, equiv t._comp e v = false := by
      intro e he
      by_contra h
      exact hex ⟨e, he, by simpa using h⟩
    have hany : T.toList.any (fun e => equiv t._comp e v) = false := by
      rw [List.any_eq_false]
      intro x hx
      simp [hnew x hx]
    obtain ⟨ctx, t', hp, hins, hwf', hlist, hc, hsz, hend, hfr, -⟩ :=
      insert_new_master t T v hwf hsw hbst hblack hnew
    have hl : ((fixup ctx (.node t.fresh true .nil v .nil)).setColor false).toList =
        placeSorted t._comp v T.toList := by
      rw [toList_of_nodes_eq (fixup_toList ctx t.fresh v), hlist]
    have hpw' : (placeSorted t._comp v T.toList).Pairwise (fun x y => t._comp x y = true) :=
      pairwise_placeSorted hsw v _ (Shape.BST.pairwise_toList hsw hbst) hnew
    have hmemn : (t.fresh, v) ∈
        ((fixup ctx (.node t.fresh true .nil v .nil)).setColor false).nodes := by
      rw [fixup_toList]
      exact new_node_mem ctx t.fresh v
    refine ⟨t', some t.fresh, true, _, hins, hwf', ?_, Shape.isRed_setColor_false _, hc, hend,
      ?_, ?_, ?_, ?_⟩
    · apply Shape.bst_of_pairwise
      rw [hl]
      exact hpw'
    · simp only [sortedInsert, hany, Bool.false_eq_true, if_false]
      exact hl
    · simp only [hany, Bool.not_false]
    · intro h
      rw [hsz, hl, placeSorted_length, h]
    · rw [deref_of_mem hwf' hmemn, hl]
      symm
      rw [List.find?_eq_some]
      have hvv : equiv t._comp v v = true := by simp [equiv, hsw.irrefl]
      refine ⟨hvv, _, _, rfl, ?_⟩
      intro x hx
      have hxv : t._comp x v = true := List.mem_takeWhile_imp (p := fun x => t._comp x v) hx
      simp [equiv_false_of_lt hxv]

/-- Effect of `insert(first, last)` over the values `l` on a tree with consistent links, BST
ordering, a black root and `_size` equal to the number of nodes. -/
theorem insert_range_spec (comp : α → α → Bool) (hsw : StrictWeak comp) :
    ∀ (l : List α) (t : RBTree α) (T : Shape α), WF t T → t._comp = comp → T.BST comp →
      T.isRed = false → t._size = T.toList.length →
      ∃ (t' : RBTree α) (T' : Shape α), t.insert_range l = some t' ∧ WF t' T' ∧
        t'._comp = comp ∧ T'.BST comp ∧ T'.isRed = false ∧ t'._size = T'.toList.length ∧
        T'.toList = l.foldl (sortedInsert comp) T.toList ∧ t'._end = t._end := by
  intro l
  induction l with
  | nil =>
    intro t T hwf hc hbst hblack hsz
    exact ⟨t, T, rfl, hwf, hc, hbst, hblack, hsz, rfl, rfl⟩
  | cons v l ih =>
    intro t T hwf hc hbst hblack hsz
    subst hc
    obtain ⟨t1, c, b, T1, hins, hwf1, hbst1, hblack1, hc1, hend1, hl1, -, hsz1, -⟩ :=
      insert_step t T v hwf hsw hbst hblack
    obtain ⟨t', T', hrun, hwf', hc', hbst', hblack', hsz', hl', hend'⟩ :=
      ih t1 T1 hwf1 hc1 hbst1 hblack1 (hsz1 hsz)
    refine ⟨t', T', ?_, hwf', hc', hbst', hblack', hsz', ?_, hend'.trans hend1⟩
    · simp only [RBTree.insert_range, hins, hrun]
    · rw [hl', hl1, List.foldl_cons]

theorem any_perm {β : Type} (p : β → Bool) {l₁ l₂ : List β} (h : l₁.Perm l₂) :
    l₁.any p = l₂.any p := by
  rw [Bool.eq_iff_iff, List.any_eq_true, List.any_eq_true]
  constructor
  · rintro ⟨x, hx, hp⟩; exact ⟨x, h.mem_iff.1 hx, hp⟩
  · rintro ⟨x, hx, hp⟩; exact ⟨x, h.mem_iff.2 hx, hp⟩

theorem sortedInsert_fold (comp : α → α → Bool) (hsw : StrictWeak comp) :
    ∀ (l racc kacc : List α), racc.Pairwise (fun x y => comp x y = true) → racc.Perm kacc →
      (l.foldl (sortedInsert comp) racc).Pairwise (fun x y => comp x y = true) ∧
      (l.foldl (sortedInsert comp) racc).Perm
        (l.foldl (fun acc x => if acc.any (fun e => equiv comp e x) then acc else acc ++ [x])
          kacc) := by
  intro l
  induction l with
  | nil => intro racc kacc hp hperm; exact ⟨hp, hperm⟩
  | cons x l ih =>
    intro racc kacc hp hperm
    simp only [List.foldl_cons]
    have hany := any_perm (fun e => equiv comp e x) hperm
    cases hr : racc.any (fun e => equiv comp e x) with
    | true =>
      rw [hr] at hany
      simp only [sortedInsert, hr, ← hany, if_true]
      exact ih racc kacc hp hperm
    | false =>
      rw [hr] at hany
      simp only [sortedInsert, hr, ← hany, Bool.false_eq_true, if_false]
      apply ih
      · apply pairwise_placeSorted hsw x racc hp
        intro e he
        have := List.any_eq_false.1 hr e he
        simpa using this
      · refine (placeSorted_perm comp x racc).trans ?_
        refine List.Perm.trans ?_ (@List.perm_append_comm _ [x] kacc)
        exact List.Perm.cons x hperm

/-- C23: for a comparator that is a strict weak ordering and every list `l` of values,
`insert(first, last)` over `l` on an empty tree returns; the recursive in-order listing of
the result and the sequence visited from `begin()` to `end()` are the same sequence `R`,
which is strictly increasing under the comparator and is a rearrangement of the members of
`l` that have no equivalent member earlier in `l`; `size()` is the number of those
members. -/
theorem insert_range_sorted_distinct (comp : α → α → Bool) (hsw : StrictWeak comp)
    (l : List α) :
    ∃ (t : RBTree α) (R : List α), (RBTree.empty comp).insert_range l = some t ∧
      t.inorder = some R ∧ t.toList = some R ∧
      R.Pairwise (fun x y => comp x y = true) ∧ R.Perm (keepFirst comp l) ∧
      t.size = (keepFirst comp l).length := by
  obtain ⟨t, T, hrun, hwf, -, -, -, hsz, hl, -⟩ :=
    insert_range_spec comp hsw l (RBTree.empty comp) .nil (wf_empty comp) rfl trivial rfl rfl
  have hl' : T.toList = l.foldl (sortedInsert comp) [] := hl
  obtain ⟨hp, hperm⟩ := sortedInsert_fold comp hsw l [] [] List.Pairwise.nil (List.Perm.refl _)
  refine ⟨t, T.toList, hrun, hwf.inorder_eq, toList_spec t T hwf, ?_, ?_, ?_⟩
  · rw [hl']; exact hp
  · rw [hl']; exact hperm
  · show t._size = _
    rw [hsz, hl']
    exact hperm.length_eq

theorem insert_range_sorted_distinct_witness :
    ∃ (t : RBTree Nat) (R : List Nat),
      (RBTree.empty natLess).insert_range [42, 5, 5, 16, 8, 42] = some t ∧
      t.inorder = some R ∧ t.toList = some R ∧
      R.Pairwise (fun x y => natLess x y = true) ∧
      R.Perm (keepFirst natLess [42, 5, 5, 16, 8, 42]) ∧
      t.size = (keepFirst natLess [42, 5, 5, 16, 8, 42]).length :=
  insert_range_sorted_distinct natLess strictWeak_natLess [42, 5, 5, 16, 8, 42]

theorem bst_clear_spec : ∀ (s : Shape α) (fuel : Nat) (t : RBTree α) (par : Option Nat),
    Rep t.heap s par → s.addrs.Nodup → s.height < fuel →
    ∃ h', RBTree._bst_clear fuel t s.ptr =
        some ⟨h', t.fresh, t._comp, t._root, t._end, t._size⟩ ∧
      (∀ a ∈ s.addrs, h' a = none) ∧ (∀ b, b ∉ s.addrs → h' b = t.heap b) := by
  intro s
  induction s with
  | nil =>
    intro fuel t par _ _ hf
    obtain ⟨f, rfl⟩ : ∃ f, fuel = f + 1 := ⟨fuel - 1, by omega⟩
    exact ⟨t.heap, rfl, by simp [Shape.addrs], fun _ _ => rfl⟩
  | node a c l v r ihl ihr =>
    intro fuel t par hrep hnd hf
    obtain ⟨f, rfl⟩ : ∃ f, fuel = f + 1 := ⟨fuel - 1, by omega⟩
    obtain ⟨h1, h2, h3⟩ := hrep
    rw [Shape.nodup_node_iff] at hnd
    obtain ⟨ndl, ndr, hal, har, hlr⟩ := hnd
    have hhl : l.height < f := by simp only [Shape.height] at hf; omega
    have hhr : r.height < f := by simp only [Shape.height] at hf; omega
    obtain ⟨hl', el, zl, agl⟩ := ihl f t (some a) h2 ndl hhl
    have hla : hl' a = some ⟨some v, l.ptr, r.ptr, par, c⟩ := (agl a hal).trans h1
    obtain ⟨hr', er, zr, agr⟩ := ihr f ⟨hl', t.fresh, t._comp, t._root, t._end, t._size⟩ (some a)
      (h3.frame (fun b hb => agl b (fun hbl => hlr b hbl hb))) ndr hhr
    have hra : hr' a = some ⟨some v, l.ptr, r.ptr, par, c⟩ := (agr a har).trans hla
    have er' : RBTree._bst_clear f ⟨hl', t.fresh, t._comp, t._root, t._end, t._size⟩ r.ptr =
        some ⟨hr', t.fresh, t._comp, t._root, t._end, t._size⟩ := er
    refine ⟨store hr' a none, ?_, ?_, ?_⟩
    · simp only [RBTree._bst_clear, Shape.ptr_node, h1, el, hla, er', RBTree._clear_node,
        RBTree.node, Option.some_bind, hra]
    · intro b hb
      simp only [Shape.addrs, List.mem_append, List.mem_cons] at hb
      by_cases hba : b = a
      · rw [hba]; exact store_same _ _ _
      · rw [store_other _ _ hba]
        rcases hb with hb | hb | hb
        · rw [agr b (fun hbr => hlr b hb hbr)]
          exact zl b hb
        · exact absurd hb hba
        · exact zr b hb
    · intro b hb
      simp only [Shape.addrs, List.mem_append, List.mem_cons, not_or] at hb
      rw [store_other _ _ hb.2.1, agr b hb.2.2]
      exact agl b hb.1

/-- Effect of `clear()` on a tree with consistent links: the call returns, every node is
released, the sentinel is kept and the result is an empty tree with consistent links. -/
theorem clear_spec (t : RBTree α) (T : Shape α) (hwf : WF t T) :
    ∃ t1, t.clear = some t1 ∧ WF t1 .nil ∧ t1._size = 0 ∧ t1._root = none ∧
      t1._comp = t._comp ∧ t1._end = t._end ∧ t1.fresh = t.fresh ∧
      (∀ a ∈ T.addrs, t1.heap a = none) ∧ (∀ b, b ∉ T.addrs → t1.heap b = t.heap b) := by
  obtain ⟨h', e, z, ag⟩ := bst_clear_spec T t.fuel t (some t._end) hwf.rep hwf.nodup
    hwf.height_lt_fuel
  refine ⟨⟨h', t.fresh, t._comp, none, t._end, 0⟩, ?_, ⟨rfl, trivial, List.nodup_nil,
    by simp [Shape.addrs], ?_, ?_⟩, rfl, rfl, rfl, rfl, rfl, z, ag⟩
  · simp only [RBTree.clear, hwf.root, e]
  · obtain ⟨l0, hl0, -⟩ := hwf.sentinel
    exact ⟨l0, (ag _ hwf.end_notin).trans hl0, fun h => absurd rfl h⟩
  · intro a ha
    by_cases hm : a ∈ T.addrs
    · exact z a hm
    · exact (ag a hm).trans (hwf.bound a ha)

/-- C27: on a tree with consistent links and a strict weak comparator, `clear()` returns;
afterwards `size()` is 0, `empty()` is true and `begin()` is `end()`; and for every list
`l` of values, `insert(first, last)` over `l` returns on the cleared tree and on a freshly
constructed tree with the same comparator, with the same recursive in-order listing, the
same sequence visited from `begin()` to `end()` and the same `size()`. -/
theorem clear_then_reusable (t : RBTree α) (T : Shape α) (hwf : WF t T)
    (hsw : StrictWeak t._comp) :
    ∃ t1, t.clear = some t1 ∧ t1.size = 0 ∧ t1.empty_ = true ∧ t1.begin_ = some t1.end_ ∧
      ∀ l : List α, ∃ (t2 t3 : RBTree α) (R : List α),
        t1.insert_range l = some t2 ∧ (RBTree.empty t._comp).insert_range l = some t3 ∧
        t2.inorder = some R ∧ t3.inorder = some R ∧ t2.toList = some R ∧ t3.toList = some R ∧
        t2.size = t3.size := by
  obtain ⟨t1, hc, hwf1, hsz, hroot, hcomp, -⟩ := clear_spec t T hwf
  refine ⟨t1, hc, hsz, ?_, ?_, ?_⟩
  · simp only [RBTree.empty_, hroot, Option.isSome_none, Bool.not_false]
  · simp only [RBTree.begin_, hroot]
  · intro l
    obtain ⟨t2, T2, hrun2, hwf2, -, -, -, hsz2, hl2, -⟩ :=
      insert_range_spec t._comp hsw l t1 .nil hwf1 hcomp trivial rfl (by rw [hsz]; rfl)
    obtain ⟨t3, T3, hrun3, hwf3, -, -, -, hsz3, hl3, -⟩ :=
      insert_range_spec t._comp hsw l (RBTree.empty t._comp) .nil (wf_empty _) rfl trivial rfl
        rfl
    have h23 : T3.toList = T2.toList := hl3.trans hl2.symm
    refine ⟨t2, t3, T2.toList, hrun2, hrun3, hwf2.inorder_eq, ?_, toList_spec t2 T2 hwf2, ?_, ?_⟩
    · rw [hwf3.inorder_eq, h23]
    · rw [toList_spec t3 T3 hwf3, h23]
    · show t2._size = t3._size
      rw [hsz2, hsz3, h23]

theorem clear_then_reusable_witness :
    ∃ t1, exampleTree.clear = some t1 ∧ t1.size = 0 ∧ t1.empty_ = true ∧
      t1.begin_ = some t1.end_ ∧
      ∀ l : List Nat, ∃ (t2 t3 : RBTree Nat) (R : List Nat),
        t1.insert_range l = some t2 ∧
        (RBTree.empty exampleTree._comp).insert_range l = some t3 ∧
        t2.inorder = some R ∧ t3.inorder = some R ∧ t2.toList = some R ∧ t3.toList = some R ∧
        t2.size = t3.size :=
  clear_then_reusable exampleTree exampleShape wf_example strictWeak_natLess

/-- Effect of `erase(val)` when no stored element is equivalent to `val`: the call returns 0
and the state is the one before the call. -/
theorem erase_val_absent (t : RBTree α) (T : Shape α) (v : α) (hwf : WF t T)
    (hsw : StrictWeak t._comp) (hbst : T.BST t._comp)
    (habs : ∀ e ∈ T.toList, equiv t._comp e v = false) : t.erase_val v = some (t, 0) := by
  obtain ⟨c, hc, h⟩ := bst_find_spec t hsw v T _ t.fuel hwf.rep hbst hwf.height_lt_fuel
  have hfind : t.find v = some c := by
    unfold RBTree.find
    rw [hwf.root]
    exact hc
  rcases h with ⟨rfl, -⟩ | ⟨a, e, -, hm, he⟩
  · simp only [RBTree.erase_val, hfind, RBTree.end_, if_true]
  · rw [habs e (Shape.mem_toList_of_mem_nodes hm)] at he
    cases he

set_option maxRecDepth 100000 in
/-- C21 (failing input): insert 1, 7, 0, 5, 4, 6 (the tree holds 0, 1, 4, 5, 6, 7).
`erase(7)` returns 1 and leaves a tree that holds 0, 1, 4 with `size()` 5: the elements 5
and 6 are removed as well.  After the further calls `erase(0)` and `erase(4)` the tree holds
the single element 1 with `size()` 3, `find(1)` is not `end()`, and `erase(1)` does not
return. -/
theorem erase_value_drops_other_elements :
    (RBTree.build [1, 7, 0, 5, 4, 6] []).bind RBTree.observe =
        some ([0, 1, 4, 5, 6, 7], [0, 1, 4, 5, 6, 7], 6, 4, true) ∧
      (RBTree.build [1, 7, 0, 5, 4, 6] []).bind (fun t =>
          (t.erase_val 7).bind (fun r => r.1.observe.map (fun o => (o.1, o.2.1, o.2.2.1, r.2)))) =
        some ([0, 1, 4], [0, 1, 4], 5, 1) ∧
      (RBTree.build [1, 7, 0, 5, 4, 6] [7, 0, 4]).bind (fun t =>
          t.observe.bind (fun o => (t.find 1).map (fun c =>
            (o.1, o.2.2.1, c, t.end_, (t.erase_val 1).isSome)))) =
        some ([1], 3, some 1, some 0, false) :=
  ⟨by decide, by decide, by decide⟩

set_option maxRecDepth 100000 in
/-- C22 (failing input): insert 1, 7, 0, 5, 4, 6; `first = find(7)` (the node at address 2)
and `last = end()`, reached from `first` by one `operator++`.  `erase(first, last)` returns a
tree that holds 0, 1, 4 with `size()` 5, while the sequence before without the interval is
0, 1, 4, 5, 6. -/
theorem erase_range_drops_other_elements :
    (RBTree.build [1, 7, 0, 5, 4, 6] []).bind (fun t =>
        (t.find 7).bind (fun c => (t.advance 1 c).map (fun d => (t.toList, c, d, t.end_)))) =
      some (some [0, 1, 4, 5, 6, 7], some 2, some 0, some 0) ∧
    (RBTree.build [1, 7, 0, 5, 4, 6] []).bind (fun t =>
        (t.find 7).bind (fun c => (t.erase_range c t.end_).bind (fun t1 =>
          t1.observe.map (fun o => (o.1, o.2.1, o.2.2.1))))) =
      some ([0, 1, 4], [0, 1, 4], 5) :=
  ⟨by decide, by decide⟩

set_option maxRecDepth 100000 in
/-- C24 (failing input): `set::upper_bound` is `_tree.lower_bound` for every set and value.
On the set holding 1, 2, 3, `upper_bound(2)` returns the cursor to the element 2, while the
second member of `equal_range(2)` and `upper_bound(2)` of the tree are the cursor to 3. -/
theorem set_upper_bound_is_lower_bound :
    (∀ (s : set_ Nat) (v : Nat), s.upper_bound v = s._tree.lower_bound v) ∧
    (RBTree.build [1, 2, 3] []).bind (fun t =>
        ((set_.mk t).upper_bound 2).bind (fun u => ((set_.mk t).equal_range 2).bind (fun p =>
          (t.upper_bound 2).map (fun w => (u, t.deref u, p.2, t.deref p.2, w))))) =
      some (some 2, some 2, some 3, some 3, some 3) :=
  ⟨fun _ _ => rfl, by decide⟩

/-- C28: for two tree objects `a` and `b` that live in the same memory, after `a.swap(b)`
the object `a` has the root, sentinel, comparator, size and traversal `b` had and `b` has
those `a` had; the memory (every node's value, colour and links) is the one before the call,
and a second `swap` restores both objects. -/
theorem swap_exchanges (a b : RBTree α) (hh : a.heap = b.heap) (hf : a.fresh = b.fresh) :
    ((a.swap b).1._root = b._root ∧ (a.swap b).1._end = b._end ∧
        (a.swap b).1._comp = b._comp ∧ (a.swap b).1.size = b.size ∧
        (a.swap b).1.toList = b.toList ∧ (a.swap b).1.inorder = b.inorder) ∧
      ((a.swap b).2._root = a._root ∧ (a.swap b).2._end = a._end ∧
        (a.swap b).2._comp = a._comp ∧ (a.swap b).2.size = a.size ∧
        (a.swap b).2.toList = a.toList ∧ (a.swap b).2.inorder = a.inorder) ∧
      (a.swap b).1.heap = a.heap ∧ (a.swap b).2.heap = b.heap ∧
      (a.swap b).1.swap (a.swap b).2 = (a, b) := by
  have h1 : (a.swap b).1 = b := by
    obtain ⟨ha, fa, ca, ra, ea, sa⟩ := a
    obtain ⟨hb, fb, cb, rb, eb, sb⟩ := b
    simp only at hh hf
    subst hh hf
    rfl
  have h2 : (a.swap b).2 = a := by
    obtain ⟨ha, fa, ca, ra, ea, sa⟩ := a
    obtain ⟨hb, fb, cb, rb, eb, sb⟩ := b
    simp only at hh hf
    subst hh hf
    rfl
  refine ⟨⟨rfl, rfl, rfl, rfl, ?_, ?_⟩, ⟨rfl, rfl, rfl, rfl, ?_, ?_⟩, rfl, rfl, rfl⟩
  · rw [h1]
  · rw [h1]
  · rw [h2]
  · rw [h2]

theorem swap_exchanges_witness :
    twoTreesA.heap = twoTreesB.heap ∧ twoTreesA.fresh = twoTreesB.fresh ∧
    (((twoTreesA.swap twoTreesB).1._root = twoTreesB._root ∧
        (twoTreesA.swap twoTreesB).1._end = twoTreesB._end ∧
        (twoTreesA.swap twoTreesB).1._comp = twoTreesB._comp ∧
        (twoTreesA.swap twoTreesB).1.size = twoTreesB.size ∧
        (twoTreesA.swap twoTreesB).1.toList = twoTreesB.toList ∧
        (twoTreesA.swap twoTreesB).1.inorder = twoTreesB.inorder) ∧
      ((twoTreesA.swap twoTreesB).2._root = twoTreesA._root ∧
        (twoTreesA.swap twoTreesB).2._end = twoTreesA._end ∧
        (twoTreesA.swap twoTreesB).2._comp = twoTreesA._comp ∧
        (twoTreesA.swap twoTreesB).2.size = twoTreesA.size ∧
        (twoTreesA.swap twoTreesB).2.toList = twoTreesA.toList ∧
        (twoTreesA.swap twoTreesB).2.inorder = twoTreesA.inorder) ∧
      (twoTreesA.swap twoTreesB).1.heap = twoTreesA.heap ∧
      (twoTreesA.swap twoTreesB).2.heap = twoTreesB.heap ∧
      (twoTreesA.swap twoTreesB).1.swap (twoTreesA.swap twoTreesB).2 =
        (twoTreesA, twoTreesB)) :=
  ⟨rfl, rfl, swap_exchanges twoTreesA twoTreesB rfl rfl⟩

theorem equiv_value_compare {K V : Type} (kc : K → K → Bool) (x y : K × V) :
    equiv (map.value_compare kc) x y = equiv kc x.1 y.1 := rfl

theorem strictWeak_value_compare {K V : Type} {kc : K → K → Bool} (h : StrictWeak kc) :
    StrictWeak (map.value_compare kc : K × V → K × V → Bool) :=
  ⟨fun a => h.irrefl a.1, fun a b c => h.trans a.1 b.1 c.1,
    fun a b c => h.equiv_trans a.1 b.1 c.1⟩

theorem wf_exampleMap : WF exampleMap._tree exampleMapShape := by
  refine ⟨rfl, ⟨rfl, trivial, trivial⟩, by simp [exampleMapShape, Shape.addrs],
    by simp [exampleMapShape, Shape.addrs, exampleMap], ⟨some 1, rfl, fun _ => rfl⟩, ?_⟩
  intro a ha
  have h0 : a ≠ 0 := by simp only [exampleMap] at ha; omega
  have h1 : a ≠ 1 := by simp only [exampleMap] at ha; omega
  simp [exampleMap, store, h0, h1]

theorem bst_exampleMap : exampleMapShape.BST exampleMap._tree._comp := by
  simp [exampleMapShape, Shape.BST, Shape.toList]

theorem bst_find_congr (t : RBTree α) (val val' : α)
    (h1 : ∀ x, t._comp val x = t._comp val' x) (h2 : ∀ x, t._comp x val = t._comp x val') :
    ∀ (fuel : Nat) (p : Option Nat), t._bst_find val fuel p = t._bst_find val' fuel p := by
  intro fuel
  induction fuel with
  | zero => intro p; rfl
  | succ f ih =>
    intro p
    cases p with
    | none => rfl
    | some a =>
      simp only [RBTree._bst_find]
      cases t.heap a with
      | none => rfl
      | some n =>
        obtain ⟨nv, nl, nr, np, nc⟩ := n
        cases nv with
        | none => rfl
        | some v => simp only [h1, h2, ih]

theorem bst_lower_bound_congr (t : RBTree α) (val val' : α)
    (h2 : ∀ x, t._comp x val = t._comp x val') :
    ∀ (fuel : Nat) (p : Option Nat),
      t._bst_lower_bound val fuel p = t._bst_lower_bound val' fuel p := by
  intro fuel
  induction fuel with
  | zero => intro p; rfl
  | succ f ih =>
    intro p
    cases p with
    | none => rfl
    | some a =>
      simp only [RBTree._bst_lower_bound]
      cases t.heap a with
      | none => rfl
      | some n =>
        obtain ⟨nv, nl, nr, np, nc⟩ := n
        cases nv with
        | none => rfl
        | some v => simp only [h2, ih]

theorem bst_upper_bound_congr (t : RBTree α) (val val' : α)
    (h1 : ∀ x, t._comp val x = t._comp val' x) :
    ∀ (fuel : Nat) (p : Option Nat),
      t._bst_upper_bound val fuel p = t._bst_upper_bound val' fuel p := by
  intro fuel
  induction fuel with
  | zero => intro p; rfl
  | succ f ih =>
    intro p
    cases p with
    | none => rfl
    | some a =>
      simp only [RBTree._bst_upper_bound]
      cases t.heap a with
      | none => rfl
      | some n =>
        obtain ⟨nv, nl, nr, np, nc⟩ := n
        cases nv with
        | none => rfl
        | some v => simp only [h1, ih]

theorem find_of_mem (t : RBTree α) (T : Shape α) (v : α) (hwf : WF t T)
    (hsw : StrictWeak t._comp) (hbst : T.BST t._comp) (a : Nat) (e : α)
    (hm : (a, e) ∈ T.nodes) (he : equiv t._comp e v = true) : t.find v = some (some a) := by
  obtain ⟨c, hc, h⟩ := bst_find_spec t hsw v T _ t.fuel hwf.rep hbst hwf.height_lt_fuel
  have hfind : t.find v = some c := by
    unfold RBTree.find
    rw [hwf.root]
    exact hc
  rw [hfind]
  rcases h with ⟨-, habs⟩ | ⟨a', e', rfl, hm', he'⟩
  · rw [habs e (Shape.mem_toList_of_mem_nodes hm)] at he
    cases he
  · have hnodes := Shape.BST.pairwise hsw hbst
    have heq : equiv t._comp e' e = true := hsw.equiv_trans _ _ _ he' (equiv_symm he)
    have : (a', e') = (a, e) := by
      by_contra hpq'
      rcases List.Pairwise.forall_of_forall_of_flip (R := fun p q : Nat × α =>
          p ≠ q → t._comp p.2 q.2 = true ∨ t._comp q.2 p.2 = true)
          (fun x _ h => absurd rfl h)
          (hnodes.imp (fun h _ => Or.inl h))
          (hnodes.imp (fun h _ => Or.inr h)) hm' hm hpq' with h | h
      · rw [equiv_false_of_lt h] at heq; cases heq
      · rw [equiv_false_of_gt h] at heq; cases heq
    rw [(Prod.mk.inj this).1]

/-- C25: on a map whose tree has consistent links, BST ordering and a black root, for a key
comparison that is a strict weak ordering.  If the pair `p` stored at node `a` has a key
equivalent to `k`, `m[k]` returns a reference into node `a` that designates the mapped
value of `p`, and the memory, root, sentinel and size are the ones before the call.  If no
stored pair has a key equivalent to `k`, `m[k]` returns a reference into a new node that
holds the pair of `k` and the default mapped value, placed at its sorted position in the
sequence; the size grows by one. -/
theorem subscript_get_or_insert {K V : Type} [Inhabited V] (m : map K V) (T : Shape (K × V))
    (kc : K → K → Bool) (k : K) (hc : m._tree._comp = map.value_compare kc)
    (hsw : StrictWeak kc) (hwf : WF m._tree T) (hbst : T.BST m._tree._comp)
    (hblack : T.isRed = false) :
    (∀ a p, (a, p) ∈ T.nodes → equiv kc p.1 k = true →
      ∃ m', m.subscript k = some (m', some a, p.2) ∧ m'._tree.heap = m._tree.heap ∧
        m'._tree._root = m._tree._root ∧ m'._tree._end = m._tree._end ∧ WF m'._tree T ∧
        m'._tree.size = m._tree.size) ∧
    ((∀ p ∈ T.toList, equiv kc p.1 k = false) →
      ∃ m' T' a, m.subscript k = some (m', some a, default) ∧ WF m'._tree T' ∧
        a ∉ T.addrs ∧ (a, (k, default)) ∈ T'.nodes ∧
        T'.toList = placeSorted m._tree._comp (k, default) T.toList ∧
        m'._tree.size = m._tree.size + 1 ∧ m'._tree.deref (some a) = some (k, default)) := by
  have hsw' : StrictWeak m._tree._comp := by rw [hc]; exact strictWeak_value_compare hsw
  constructor
  · intro a p hm he
    have he' : equiv m._tree._comp p (k, default) = true := by rw [hc]; exact he
    obtain ⟨t', hins, hh, hr, hend, hsz, -, hf⟩ :=
      insert_existing_master m._tree T (k, default) hwf hsw' hbst a p hm he'
    have hwf' : WF t' T := wf_of_same_heap hwf hh hr hend (by omega)
    refine ⟨⟨t'⟩, ?_, hh, hr, hend, hwf', hsz⟩
    simp only [map.subscript, map.insert, hins, deref_of_mem hwf' hm]
  · intro hnew
    have hnew' : ∀ e ∈ T.toList, equiv m._tree._comp e (k, default) = false := by
      intro e he; rw [hc]; exact hnew e he
    obtain ⟨ctx, t', hp, hins, hwf', hlist, -, hsz, -, -, -⟩ :=
      insert_new_master m._tree T (k, default) hwf hsw' hbst hblack hnew'
    have hmemn : (m._tree.fresh, ((k, default) : K × V)) ∈
        ((fixup ctx (.node m._tree.fresh true .nil (k, default) .nil)).setColor false).nodes := by
      rw [fixup_toList]
      exact new_node_mem ctx m._tree.fresh (k, default)
    refine ⟨⟨t'⟩, _, m._tree.fresh, ?_, hwf', ?_, hmemn, ?_, hsz, deref_of_mem hwf' hmemn⟩
    · simp only [map.subscript, map.insert, hins, deref_of_mem hwf' hmemn]
    · intro h
      exact absurd (hwf.addr_lt h) (lt_irrefl _)
    · rw [toList_of_nodes_eq (fixup_toList ctx m._tree.fresh (k, default)), hlist]

theorem subscript_get_or_insert_witness :
    (∀ a p, (a, p) ∈ exampleMapShape.nodes → equiv natLess p.1 5 = true →
      ∃ m', exampleMap.subscript 5 = some (m', some a, p.2) ∧
        m'._tree.heap = exampleMap._tree.heap ∧
        m'._tree._root = exampleMap._tree._root ∧ m'._tree._end = exampleMap._tree._end ∧
        WF m'._tree exampleMapShape ∧ m'._tree.size = exampleMap._tree.size) ∧
    ((∀ p ∈ exampleMapShape.toList, equiv natLess p.1 5 = false) →
      ∃ m' T' a, exampleMap.subscript 5 = some (m', some a, default) ∧ WF m'._tree T' ∧
        a ∉ exampleMapShape.addrs ∧ (a, (5, default)) ∈ T'.nodes ∧
        T'.toList = placeSorted exampleMap._tree._comp (5, default) exampleMapShape.toList ∧
        m'._tree.size = exampleMap._tree.size + 1 ∧
        m'._tree.deref (some a) = some (5, default)) :=
  subscript_get_or_insert exampleMap exampleMapShape natLess 5 rfl strictWeak_natLess
    wf_exampleMap bst_exampleMap rfl

/-- C26: `value_compare` compares the keys of its arguments, so on a map whose tree holds
that comparator the results of `find(k)`, `count(k)`, `lower_bound(k)`, `upper_bound(k)` and
`erase(k)`, computed from the pair of `k` and the default mapped value, are those the tree
gives for the pair of `k` and any other mapped value `w`; and when the tree has consistent
links and BST ordering and the key comparison is a strict weak ordering, `find(k)` returns
the cursor to the stored pair whose key is equivalent to `k`, whatever its mapped value. -/
theorem map_queries_depend_on_key_only {K V : Type} [Inhabited V] (m : map K V)
    (kc : K → K → Bool) (hc : m._tree._comp = map.value_compare kc) (k : K) (w : V) :
    (∀ x y : K × V, map.value_compare kc x y = kc x.1 y.1) ∧
    m.find k = m._tree.find (k, w) ∧ m.count k = m._tree.count (k, w) ∧
    m.lower_bound k = m._tree.lower_bound (k, w) ∧
    m.upper_bound k = m._tree.upper_bound (k, w) ∧
    m.erase k = (m._tree.erase_val (k, w)).map (fun r => (map.mk r.1, r.2)) ∧
    (∀ T, WF m._tree T → T.BST m._tree._comp → StrictWeak kc →
      ∀ a p, (a, p) ∈ T.nodes → equiv kc p.1 k = true →
        m.find k = some (some a) ∧ m._tree.deref (some a) = some p) := by
  have h1 : ∀ x, m._tree._comp (k, default) x = m._tree._comp (k, w) x := by
    intro x; rw [hc]; rfl
  have h2 : ∀ x, m._tree._comp x (k, default) = m._tree._comp x (k, w) := by
    intro x; rw [hc]; rfl
  have hfind : m._tree.find (k, default) = m._tree.find (k, w) :=
    bst_find_congr m._tree _ _ h1 h2 _ _
  refine ⟨fun _ _ => rfl, hfind, ?_, ?_, ?_, ?_, ?_⟩
  · simp only [map.count, RBTree.count, hfind]
  · exact bst_lower_bound_congr m._tree _ _ h2 _ _
  · exact bst_upper_bound_congr m._tree _ _ h1 _ _
  · simp only [map.erase, RBTree.erase_val, hfind]
    cases m._tree.find (k, w) with
    | none => rfl
    | some it =>
      by_cases hit : it = m._tree.end_
      · simp only [hit, if_true, Option.map_some']
      · simp only [hit, if_false]
        cases m._tree.erase it with
        | none => rfl
        | some t1 => rfl
  · intro T hwf hbst hsw a p hm he
    have hsw' : StrictWeak m._tree._comp := by rw [hc]; exact strictWeak_value_compare hsw
    have he' : equiv m._tree._comp p (k, default) = true := by rw [hc]; exact he
    exact ⟨find_of_mem m._tree T (k, default) hwf hsw' hbst a p hm he', deref_of_mem hwf hm⟩

theorem map_queries_depend_on_key_only_witness :
    exampleMap._tree._comp = map.value_compare natLess ∧
    ((∀ x y : Nat × Nat, map.value_compare natLess x y = natLess x.1 y.1) ∧
    exampleMap.find 5 = exampleMap._tree.find (5, 7) ∧
    exampleMap.count 5 = exampleMap._tree.count (5, 7) ∧
    exampleMap.lower_bound 5 = exampleMap._tree.lower_bound (5, 7) ∧
    exampleMap.upper_bound 5 = exampleMap._tree.upper_bound (5, 7) ∧
    exampleMap.erase 5 = (exampleMap._tree.erase_val (5, 7)).map (fun r => (map.mk r.1, r.2)) ∧
    (∀ T, WF exampleMap._tree T → T.BST exampleMap._tree._comp → StrictWeak natLess →
      ∀ a p, (a, p) ∈ T.nodes → equiv natLess p.1 5 = true →
        exampleMap.find 5 = some (some a) ∧ exampleMap._tree.deref (some a) = some p)) :=
  ⟨rfl, map_queries_depend_on_key_only exampleMap natLess rfl 5 7⟩

/-- Value of `operator--` on the cursor that follows node `a` in order (the next node, or
`end()` after the last node): the cursor to `a`. -/
theorem decr_after (t : RBTree α) (T : Shape α) (hwf : WF t T) (pre rest : List (Nat × α))
    (a : Nat) (v : α) (hn : T.nodes = pre ++ (a, v) :: rest) :
    t.decr (cursorHead t._end rest) = some (some a) := by
  have hlast : cursorLast (pre ++ [(a, v)]) = some a := by
    rw [cursorLast_append _ _ (by simp)]
    rfl
  cases rest with
  | nil =>
    cases T with
    | nil => simp [Shape.nodes] at hn
    | node b c l w r =>
      have := decr_end t b c l w r hwf
      rw [hn] at this
      rw [← hlast]
      exact this
  | cons n rest =>
    obtain ⟨b, w⟩ := n
    have := decr_at t T hwf (pre ++ [(a, v)]) rest b w (by rw [hn]; simp)
    rw [hlast] at this
    exact this

theorem cursorHead_ne_begin (t : RBTree α) (T : Shape α) (hwf : WF t T)
    (pre rest : List (Nat × α)) (a : Nat) (v : α) (hn : T.nodes = pre ++ (a, v) :: rest) :
    cursorHead t._end rest ≠ cursorHead t._end T.nodes := by
  have hnd := hwf.nodup
  rw [Shape.addrs_eq_map, hn] at hnd
  have hfirst : ∃ n, cursorHead t._end T.nodes = some n ∧ n ∈ (pre ++ [(a, v)]).map Prod.fst := by
    rw [hn]
    cases pre with
    | nil => exact ⟨a, rfl, by simp⟩
    | cons p pre => exact ⟨p.1, rfl, by simp⟩
  obtain ⟨n, hn1, hn2⟩ := hfirst
  rw [hn1]
  cases rest with
  | nil =>
    intro h
    simp only [cursorHead, Option.some.injEq] at h
    apply hwf.end_notin
    rw [Shape.addrs_eq_map, hn, h]
    simpa using hn2
  | cons m rest =>
    intro h
    simp only [cursorHead, Option.some.injEq] at h
    have hsplit : (pre ++ (a, v) :: m :: rest).map Prod.fst =
        (pre ++ [(a, v)]).map Prod.fst ++ (m :: rest).map Prod.fst := by simp
    rw [hsplit, List.nodup_append] at hnd
    exact hnd.2.2 hn2 (by rw [← h]; simp)

theorem rwalk_spec (t : RBTree α) (T : Shape α) (hwf : WF t T) :
    ∀ (pre rest : List (Nat × α)) (fuel : Nat), T.nodes = pre ++ rest → pre.length < fuel →
      t.rwalk fuel (cursorHead t._end rest) = some (pre.map Prod.snd).reverse := by
  intro pre
  induction pre using List.reverseRecOn with
  | nil =>
    intro rest fuel hn hf
    obtain ⟨f, rfl⟩ : ∃ f, fuel = f + 1 := ⟨fuel - 1, by simp at hf; omega⟩
    simp only [List.nil_append] at hn
    simp only [RBTree.rwalk, RBTree.rend, begin_spec t T hwf, hn, if_true, List.map_nil,
      List.reverse_nil]
  | append_singleton pre n ih =>
    intro rest fuel hn hf
    obtain ⟨a, v⟩ := n
    obtain ⟨f, rfl⟩ : ∃ f, fuel = f + 1 := ⟨fuel - 1, by simp at hf; omega⟩
    have hn' : T.nodes = pre ++ (a, v) :: rest := by rw [hn]; simp
    have hne := cursorHead_ne_begin t T hwf pre rest a v hn'
    have hd := decr_after t T hwf pre rest a v hn'
    have hm : (a, v) ∈ T.nodes := by rw [hn']; simp
    have hrec := ih ((a, v) :: rest) f hn' (by simp at hf; omega)
    simp only [cursorHead] at hrec
    simp only [RBTree.rwalk, RBTree.rend, begin_spec t T hwf, hne, if_false, RBTree.rderef,
      RBTree.rincr, hd, deref_of_mem hwf hm, hrec, Option.map_some', List.map_append,
      List.map_cons, List.map_nil, List.reverse_append, List.reverse_cons, List.reverse_nil,
      List.nil_append, List.singleton_append]

/-- C29: on a tree with consistent links whose root is attached to the sentinel, the
traversal of a reverse cursor from `rbegin()` to `rend()` returns and visits the reverse of
the sequence visited from `begin()` to `end()`; the reverse cursor whose base follows node
`a` in order dereferences to the value of `a`, and its increment moves the base to `a`. -/
theorem reverse_traversal_is_reversed (t : RBTree α) (T : Shape α) (hwf : WF t T) :
    t.rtoList = some T.toList.reverse ∧ t.toList = some T.toList ∧
      t.rtoList = t.toList.map List.reverse ∧
      (∀ pre rest a v, T.nodes = pre ++ (a, v) :: rest →
        t.rderef (cursorHead t._end rest) = some v ∧
        t.rincr (cursorHead t._end rest) = some (some a)) := by
  have h1 : t.rtoList = some T.toList.reverse := by
    have := rwalk_spec t T hwf T.nodes [] t.fuel (by simp) (by
      have := hwf.count_lt
      rw [Shape.count_eq_nodes_length] at this
      unfold RBTree.fuel
      omega)
    rw [Shape.toList_eq_map]
    exact this
  have h2 := toList_spec t T hwf
  refine ⟨h1, h2, by rw [h1, h2]; rfl, ?_⟩
  intro pre rest a v hn
  have hd := decr_after t T hwf pre rest a v hn
  have hm : (a, v) ∈ T.nodes := by rw [hn]; simp
  exact ⟨by simp only [RBTree.rderef, hd, deref_of_mem hwf hm], hd⟩

theorem reverse_traversal_is_reversed_witness :
    exampleTree.rtoList = some exampleShape.toList.reverse ∧
      exampleTree.toList = some exampleShape.toList ∧
      exampleTree.rtoList = exampleTree.toList.map List.reverse ∧
      (∀ pre rest a v, exampleShape.nodes = pre ++ (a, v) :: rest →
        exampleTree.rderef (cursorHead exampleTree._end rest) = some v ∧
        exampleTree.rincr (cursorHead exampleTree._end rest) = some (some a)) :=
  reverse_traversal_is_reversed exampleTree exampleShape wf_example

theorem lstore_same (h : Nat → Option (ListNode α)) (a : Nat) (c : Option (ListNode α)) :
    lstore h a c a = c := by simp [lstore]

theorem lstore_other (h : Nat → Option (ListNode α)) (c : Option (ListNode α)) {a b : Nat}
    (hne : b ≠ a) : lstore h a c b = h b := by simp [lstore, hne]

theorem ListMem.write_some (m : ListMem α) (a : Nat) (f : ListNode α → ListNode α)
    (n : ListNode α) (h : m.heap a = some n) :
    m.write (some a) f = some ⟨lstore m.heap a (some (f n)), m.fresh⟩ := by
  simp only [ListMem.write, h]

theorem headAddr_cons (q : Nat) (n : Nat × α) (xs : List (Nat × α)) :
    headAddr q (n :: xs) = n.1 := rfl

theorem headAddr_nil (q : Nat) : headAddr q ([] : List (Nat × α)) = q := rfl

theorem lastAddr_cons (p : Nat) (n : Nat × α) (xs : List (Nat × α)) :
    lastAddr p (n :: xs) = lastAddr n.1 xs := rfl

theorem lastAddr_nil (p : Nat) : lastAddr p ([] : List (Nat × α)) = p := rfl

theorem headAddr_append (q : Nat) (xs ys : List (Nat × α)) :
    headAddr q (xs ++ ys) = headAddr (headAddr q ys) xs := by
  cases xs <;> rfl

theorem lastAddr_append (xs ys : List (Nat × α)) : ∀ (p : Nat),
    lastAddr p (xs ++ ys) = lastAddr (lastAddr p xs) ys := by
  induction xs with
  | nil => intro p; rfl
  | cons n xs ih => intro p; exact ih n.1

theorem headAddr_of_ne_nil (q q' : Nat) {xs : List (Nat × α)} (h : xs ≠ []) :
    headAddr q xs = headAddr q' xs := by
  cases xs with
  | nil => exact absurd rfl h
  | cons n xs => rfl

theorem lastAddr_of_ne_nil {xs : List (Nat × α)} (h : xs ≠ []) : ∀ (p p' : Nat),
    lastAddr p xs = lastAddr p' xs := by
  cases xs with
  | nil => exact absurd rfl h
  | cons n xs => intro p p'; rfl

theorem headAddr_mem (q : Nat) {xs : List (Nat × α)} (h : xs ≠ []) :
    headAddr q xs ∈ xs.map Prod.fst := by
  cases xs with
  | nil => exact absurd rfl h
  | cons n xs => simp [headAddr]

theorem lastAddr_mem {xs : List (Nat × α)} (h : xs ≠ []) : ∀ (p : Nat),
    lastAddr p xs ∈ xs.map Prod.fst := by
  induction xs with
  | nil => exact absurd rfl h
  | cons n xs ih =>
    intro p
    cases xs with
    | nil => simp [lastAddr]
    | cons k xs =>
      have := ih (by simp) n.1
      simp only [lastAddr, List.map_cons, List.mem_cons] at this ⊢
      exact Or.inr this

theorem Chain.keep {h h' : Nat → Option (ListNode α)} : ∀ {xs : List (Nat × α)} {p q : Nat},
    Chain h p xs q → (∀ a ∈ xs.map Prod.fst, h' a = h a) → Chain h' p xs q := by
  intro xs
  induction xs with
  | nil => intro p q _ _; trivial
  | cons n xs ih =>
    intro p q hc hag
    exact ⟨(hag n.1 (by simp)).trans hc.1, ih hc.2 (fun a ha => hag a (by simp [ha]))⟩

theorem chain_append {h : Nat → Option (ListNode α)} : ∀ (xs ys : List (Nat × α)) (p q : Nat),
    Chain h p (xs ++ ys) q ↔ Chain h p xs (headAddr q ys) ∧ Chain h (lastAddr p xs) ys q := by
  intro xs
  induction xs with
  | nil => intro ys p q; simp [Chain, lastAddr]
  | cons n xs ih =>
    intro ys p q
    show (h n.1 = some ⟨n.2, some (headAddr q (xs ++ ys)), some p⟩ ∧
        Chain h n.1 (xs ++ ys) q) ↔
      (h n.1 = some ⟨n.2, some (headAddr (headAddr q ys) xs), some p⟩ ∧
        Chain h n.1 xs (headAddr q ys)) ∧ Chain h (lastAddr n.1 xs) ys q
    rw [ih ys n.1 q, headAddr_append, and_assoc]

/-- Cell of a node of a run, by its position. -/
theorem Chain.cellAt {h : Nat → Option (ListNode α)} (pre post : List (Nat × α)) (a : Nat) (v : α)
    (p q : Nat) (hc : Chain h p (pre ++ (a, v) :: post) q) :
    h a = some ⟨v, some (headAddr q post), some (lastAddr p pre)⟩ := by
  rw [chain_append] at hc
  exact hc.2.1

theorem Chain.allocated {h : Nat → Option (ListNode α)} {xs : List (Nat × α)} {p q : Nat}
    (hc : Chain h p xs q) {a : Nat} (ha : a ∈ xs.map Prod.fst) : ∃ n, h a = some n := by
  obtain ⟨n, hn, rfl⟩ := List.mem_map.1 ha
  obtain ⟨pre, post, rfl⟩ := List.append_of_mem hn
  exact ⟨_, Chain.cellAt pre post n.1 n.2 p q hc⟩

/-- New links at the two ends of a run: the first node's `prev` becomes `p'` and the last
node's `next` becomes `q'`. -/
theorem Chain.relink {h h' : Nat → Option (ListNode α)} : ∀ (xs : List (Nat × α))
    (p q p' q' : Nat), xs ≠ [] → (xs.map Prod.fst).Nodup → Chain h p xs q →
    (∀ b ∈ xs.map Prod.fst, h' b = (h b).map (fun c =>
      ⟨c.value, if b = lastAddr p xs then some q' else c.next,
        if b = headAddr q xs then some p' else c.prev⟩)) →
    Chain h' p' xs q' := by
  intro xs
  induction xs with
  | nil => intro p q p' q' hne; exact absurd rfl hne
  | cons n xs ih =>
    intro p q p' q' _ hnd hc hpt
    obtain ⟨hc1, hc2⟩ := hc
    simp only [List.map_cons, List.nodup_cons] at hnd
    obtain ⟨hn, hnd⟩ := hnd
    cases xs with
    | nil =>
      refine ⟨?_, trivial⟩
      have := hpt n.1 (by simp)
      rw [hc1] at this
      simpa [lastAddr, headAddr] using this
    | cons k xs =>
      have hk : k.1 ≠ n.1 := fun hkn => hn (by rw [← hkn]; simp)
      have hlast : lastAddr n.1 (k :: xs) ∈ (k :: xs).map Prod.fst := lastAddr_mem (by simp) _
      have hnl : n.1 ≠ lastAddr k.1 xs := fun heq => hn (by rw [heq]; exact hlast)
      refine ⟨?_, ?_⟩
      · have := hpt n.1 (by simp)
        rw [hc1] at this
        simp only [lastAddr_cons] at this
        simpa [headAddr, hnl] using this
      · apply ih n.1 q n.1 q' (by simp) hnd hc2
        intro b hb
        have hbn : b ≠ n.1 := fun heq => hn (heq ▸ hb)
        rw [hpt b (List.mem_cons_of_mem _ hb)]
        obtain ⟨c, hcb⟩ := hc2.allocated hb
        rw [hcb]
        simp only [Option.map_some', lastAddr, headAddr, hbn, if_false]
        by_cases hbk : b = k.1
        · subst hbk
          have hk1 := hc2.1
          rw [hcb] at hk1
          cases hk1
          simp
        · simp [hbk]

/-- The ring of a list object, cut between the nodes `done` and the nodes `rest`. -/
theorem ring_iff (h : Nat → Option (ListNode α)) (e : Nat) (d : α)
    (done rest : List (Nat × α)) :
    (h e = some ⟨d, some (headAddr e (done ++ rest)), some (lastAddr e (done ++ rest))⟩ ∧
        Chain h e (done ++ rest) e) ↔
      Chain h (lastAddr e done) (rest ++ (e, d) :: done) (headAddr e rest) := by
  rw [chain_append, chain_append]
  simp only [Chain, headAddr_append, lastAddr_append, headAddr_cons]
  constructor
  · rintro ⟨h1, h2, h3⟩
    exact ⟨h3, h1, h2⟩
  · rintro ⟨h3, h1, h2⟩
    exact ⟨h1, h2, h3⟩

theorem IsList.below_fresh {m : ListMem α} {e : Nat} {xs : List (Nat × α)} (hl : IsList m e xs)
    (hb : m.Bounded) {a : Nat} (ha : a ∈ e :: xs.map Prod.fst) : a < m.fresh := by
  by_contra hlt
  have hnone := hb a (by omega)
  rcases List.mem_cons.1 ha with rfl | ha
  · obtain ⟨d, hd⟩ := hl.sentinel
    rw [hnone] at hd; cases hd
  · obtain ⟨n, hn⟩ := hl.chain.allocated ha
    rw [hnone] at hn; cases hn

theorem IsList.length_lt {m : ListMem α} {e : Nat} {xs : List (Nat × α)} (hl : IsList m e xs)
    (hb : m.Bounded) : xs.length < m.fresh := by
  have := length_le_of_nodup_lt hl.nodup (n := m.fresh) (fun a ha => hl.below_fresh hb ha)
  simpa using this

theorem IsList.unchanged {m m' : ListMem α} {e : Nat} {xs : List (Nat × α)} (hl : IsList m e xs)
    (hag : ∀ a ∈ e :: xs.map Prod.fst, m'.heap a = m.heap a) : IsList m' e xs := by
  obtain ⟨d, hd⟩ := hl.sentinel
  exact ⟨⟨d, (hag e (by simp)).trans hd⟩,
    hl.chain.keep (fun a ha => hag a (List.mem_cons_of_mem _ ha)), hl.nodup⟩

/-- Cells after `_insertNodeBefore(node1, y)`, where `pv` is the node before `node1`. -/
theorem insertNodeBefore_spec (m : ListMem α) (node1 y pv : Nat) (n1 npv ny : ListNode α)
    (h1 : m.heap node1 = some n1) (hpv : n1.prev = some pv) (h2 : m.heap pv = some npv)
    (hy : m.heap y = some ny) (hy1 : y ≠ node1) (hy2 : y ≠ pv) :
    ∃ m', list._insertNodeBefore m (some node1) (some y) = some m' ∧ m'.fresh = m.fresh ∧
      ∀ b, m'.heap b = if b = y then some ⟨ny.value, some node1, some pv⟩
        else (m.heap b).map (fun c => ⟨c.value, if b = pv then some y else c.next,
          if b = node1 then some y else c.prev⟩) := by
  have hy1' : node1 ≠ y := fun h => hy1 h.symm
  have hy2' : pv ≠ y := fun h => hy2 h.symm
  by_cases hal : pv = node1
  · subst hal
    rw [h1] at h2
    cases h2
    simp only [list._insertNodeBefore, ListMem.node, h1, hpv, ListMem.write, lstore_same,
      lstore_other _ _ hy2, lstore_other _ _ hy2', hy]
    refine ⟨_, rfl, rfl, ?_⟩
    intro b
    by_cases hby : b = y
    · subst hby
      simp [lstore, hy2]
    · by_cases hbp : b = pv
      · subst hbp
        simp [lstore, hby, h1]
      · simp [lstore, hby, hbp]
  · have hal' : node1 ≠ pv := fun h => hal h.symm
    simp only [list._insertNodeBefore, ListMem.node, h1, hpv, ListMem.write, h2, lstore_same,
      lstore_other _ _ hy2, lstore_other _ _ hy1', lstore_other _ _ hal', hy]
    refine ⟨_, rfl, rfl, ?_⟩
    intro b
    by_cases hby : b = y
    · subst hby
      simp [lstore, hy2, hy1]
    · by_cases hbp : b = pv
      · subst hbp
        simp [lstore, hby, h2, hal]
      · by_cases hbn : b = node1
        · subst hbn
          simp [lstore, hby, hbp, h1]
        · simp [lstore, hby, hbp, hbn]

/-- Cells after `splice(position, src, first, last)` when `position` is the sentinel `e2` of
an empty list, `last` is the sentinel `e` of the source, `first` is the node `a`, `pl` is the
node before `a` and `ml` is the last node of the source. -/
theorem splice_spec (m : ListMem α) (e2 e a pl ml : Nat) (n2 ne na npl nml : ListNode α)
    (h2 : m.heap e2 = some n2) (h2p : n2.prev = some e2)
    (he : m.heap e = some ne) (hep : ne.prev = some ml)
    (ha : m.heap a = some na) (hap : na.prev = some pl)
    (hpl : m.heap pl = some npl) (hml : m.heap ml = some nml)
    (d1 : e2 ≠ pl) (d2 : e2 ≠ e) (d3 : e2 ≠ a) (d4 : e2 ≠ ml)
    (d5 : e ≠ pl) (d6 : e ≠ a) (d7 : e ≠ ml) (d8 : pl ≠ a) (d9 : pl ≠ ml) :
    ∃ m', list.splice m (some e2) (some a) (some e) = some m' ∧ m'.fresh = m.fresh ∧
      ∀ b, m'.heap b = if b = e2 then some ⟨n2.value, some a, some ml⟩
        else (m.heap b).map (fun c =>
          ⟨c.value, if b = pl then some e else if b = ml then some e2 else c.next,
            if b = e then some pl else if b = a then some e2 else c.prev⟩) := by
  have d1' := d1.symm
  have d2' := d2.symm
  have d3' := d3.symm
  have d4' := d4.symm
  have d5' := d5.symm
  have d6' := d6.symm
  have d7' := d7.symm
  have d8' := d8.symm
  have d9' := d9.symm
  by_cases hal : a = ml
  · subst hal
    rw [ha] at hml
    cases hml
    simp only [list.splice, ListMem.node, ha, h2, he, hap, h2p, hep, ListMem.write, hpl,
      lstore_same, lstore_other _ _ d1, lstore_other _ _ d2, lstore_other _ _ d3,
      lstore_other _ _ d5, lstore_other _ _ d6, lstore_other _ _ d8,
      lstore_other _ _ d1', lstore_other _ _ d2', lstore_other _ _ d3',
      lstore_other _ _ d5', lstore_other _ _ d6', lstore_other _ _ d8']
    refine ⟨_, rfl, rfl, ?_⟩
    intro b
    by_cases hb2 : b = e2
    · subst hb2
      simp [lstore, d1, d2, d3]
    · by_cases hbe : b = e
      · subst hbe
        simp [lstore, hb2, d5, d6, he]
      · by_cases hba : b = a
        · subst hba
          simp [lstore, hb2, hbe, d8', ha]
        · by_cases hbp : b = pl
          · subst hbp
            simp [lstore, hb2, hbe, hba, hpl]
          · simp [lstore, hb2, hbe, hba, hbp]
  · have hal' : ml ≠ a := fun h => hal h.symm
    simp only [list.splice, ListMem.node, ha, h2, he, hap, h2p, hep, ListMem.write, hpl, hml,
      lstore_same, lstore_other _ _ d1, lstore_other _ _ d2, lstore_other _ _ d3,
      lstore_other _ _ d4, lstore_other _ _ d5, lstore_other _ _ d6, lstore_other _ _ d7,
      lstore_other _ _ d8, lstore_other _ _ d9,
      lstore_other _ _ d1', lstore_other _ _ d2', lstore_other _ _ d3', lstore_other _ _ d4',
      lstore_other _ _ d5', lstore_other _ _ d6', lstore_other _ _ d7', lstore_other _ _ d8',
      lstore_other _ _ d9', lstore_other _ _ hal, lstore_other _ _ hal']
    refine ⟨_, rfl, rfl, ?_⟩
    intro b
    by_cases hb2 : b = e2
    · subst hb2
      simp [lstore, d1, d2, d3, d4]
    · by_cases hbe : b = e
      · subst hbe
        simp [lstore, hb2, d5, d6, d7, he]
      · by_cases hba : b = a
        · subst hba
          simp [lstore, hb2, hbe, d8', hal, ha]
        · by_cases hbp : b = pl
          · subst hbp
            simp [lstore, hb2, hbe, hba, d9, hpl]
          · by_cases hbm : b = ml
            · subst hbm
              simp [lstore, hb2, hbe, hba, hbp, hml]
            · simp [lstore, hb2, hbe, hba, hbp, hbm]

theorem ListNode.eta_map (o : Option (ListNode α)) :
    o.map (fun c => (⟨c.value, c.next, c.prev⟩ : ListNode α)) = o := by
  cases o <;> rfl

theorem IsList.begin_eq {m : ListMem α} {e : Nat} {xs : List (Nat × α)} (hl : IsList m e xs) :
    list.begin_ m e = some (some (headAddr e xs)) := by
  obtain ⟨d, hd⟩ := hl.sentinel
  simp only [list.begin_, hd]

theorem IsList.incr_end {m : ListMem α} {e : Nat} {xs : List (Nat × α)} (hl : IsList m e xs) :
    list.incr m (some e) = some (some (headAddr e xs)) := by
  obtain ⟨d, hd⟩ := hl.sentinel
  simp only [list.incr, ListMem.node, hd]

theorem IsList.nodeCell {m : ListMem α} {e : Nat} {xs : List (Nat × α)} (hl : IsList m e xs)
    (pre post : List (Nat × α)) (a : Nat) (v : α) (hx : xs = pre ++ (a, v) :: post) :
    m.heap a = some ⟨v, some (headAddr e post), some (lastAddr e pre)⟩ := by
  have := hl.chain
  rw [hx] at this
  exact Chain.cellAt pre post a v e e this

theorem IsList.incr_node {m : ListMem α} {e : Nat} {xs : List (Nat × α)} (hl : IsList m e xs)
    (pre post : List (Nat × α)) (a : Nat) (v : α) (hx : xs = pre ++ (a, v) :: post) :
    list.incr m (some a) = some (some (headAddr e post)) := by
  simp only [list.incr, ListMem.node, hl.nodeCell pre post a v hx]

theorem drop_split (xs : List (Nat × α)) (i : Nat) (hi : i < xs.length) :
    ∃ n, xs = xs.take i ++ n :: xs.drop (i + 1) ∧ xs.drop i = n :: xs.drop (i + 1) :=
  ⟨xs[i], by rw [← List.drop_eq_getElem_cons hi, List.take_append_drop],
    List.drop_eq_getElem_cons hi⟩

theorem IsList.incr_pos {m : ListMem α} {e : Nat} {xs : List (Nat × α)} (hl : IsList m e xs)
    (i : Nat) (hi : i < xs.length) :
    list.incr m (some (headAddr e (xs.drop i))) = some (some (headAddr e (xs.drop (i + 1)))) := by
  obtain ⟨n, h1, h2⟩ := drop_split xs i hi
  obtain ⟨a, v⟩ := n
  rw [h2, headAddr_cons]
  exact hl.incr_node _ _ a v h1

theorem IsList.pos_ne_end {m : ListMem α} {e : Nat} {xs : List (Nat × α)} (hl : IsList m e xs)
    (i : Nat) (hi : i < xs.length) : headAddr e (xs.drop i) ≠ e := by
  obtain ⟨n, h1, h2⟩ := drop_split xs i hi
  rw [h2, headAddr_cons]
  intro h
  have hnd := hl.nodup
  rw [List.nodup_cons] at hnd
  apply hnd.1
  rw [← h, h1]
  simp

theorem pos_end (e : Nat) (xs : List (Nat × α)) (i : Nat) (hi : xs.length ≤ i) :
    headAddr e (xs.drop i) = e := by
  rw [List.drop_eq_nil_of_le hi]
  rfl

theorem IsList.incr_pos' {m : ListMem α} {e : Nat} {xs : List (Nat × α)} (hl : IsList m e xs)
    (i k : Nat) (hi : i < xs.length) (hk : k = i + 1) :
    list.incr m (some (headAddr e (xs.drop i))) = some (some (headAddr e (xs.drop k))) := by
  subst hk
  exact hl.incr_pos i hi

theorem split_loop_spec {m : ListMem α} {e : Nat} {xs : List (Nat × α)} (hl : IsList m e xs) :
    ∀ (fuel j i : Nat), i = 2 * j → i < xs.length → xs.length < i + 2 * fuel →
      list._split_loop m e fuel (some (headAddr e (xs.drop i)))
        (some (headAddr e (xs.drop j))) (some (headAddr e (xs.drop (i + 1))))
        (some (if i + 2 ≤ xs.length then headAddr e (xs.drop (i + 2))
          else headAddr e xs)) =
      some (some (headAddr e (xs.drop ((xs.length + 1) / 2 - 1)))) := by
  intro fuel
  induction fuel with
  | zero => intro j i _ h1 h2; omega
  | succ f ih =>
    intro j i hij h1 h2
    by_cases hc : i + 2 < xs.length
    · have c1 : headAddr e (xs.drop (i + 1)) ≠ e := hl.pos_ne_end _ (by omega)
      have c2 : headAddr e (xs.drop (i + 2)) ≠ e := hl.pos_ne_end _ (by omega)
      have i1 := hl.incr_pos' i (i + 1) (by omega) rfl
      have i2 := hl.incr_pos' (i + 1) (i + 2) (by omega) rfl
      have i3 := hl.incr_pos' (i + 2) (i + 2 + 1) (by omega) rfl
      have i4 : list.incr m (some (headAddr e (xs.drop (i + 2 + 1)))) =
          some (some (if i + 2 + 2 ≤ xs.length then
            headAddr e (xs.drop (i + 2 + 2)) else headAddr e xs)) := by
        by_cases hc4 : i + 3 < xs.length
        · rw [hl.incr_pos' (i + 2 + 1) (i + 2 + 2) (by omega) rfl, if_pos (by omega)]
        · rw [pos_end e xs (i + 2 + 1) (by omega), hl.incr_end, if_neg (by omega)]
      have i5 := hl.incr_pos' j (j + 1) (by omega) rfl
      have hrec := ih (j + 1) (i + 2) (by omega) (by omega) (by omega)
      simp only [list._split_loop, list.end_, ne_eq, Option.some.injEq, c1, c2,
        not_false_eq_true, and_self, if_true, i1, i2, i3, i4, i5, if_pos (le_of_lt hc)]
      exact hrec
    · by_cases hc1 : i + 1 = xs.length
      · have c1 : headAddr e (xs.drop (i + 1)) = e := pos_end e xs _ (by omega)
        have hk : (xs.length + 1) / 2 - 1 = j := by omega
        simp only [list._split_loop, list.end_, ne_eq, c1, not_true_eq_false, false_and,
          if_false, hk]
      · have hn : i + 2 = xs.length := by omega
        have c2 : headAddr e (xs.drop (i + 2)) = e := pos_end e xs _ (by omega)
        have hk : (xs.length + 1) / 2 - 1 = j := by omega
        simp only [list._split_loop, list.end_, ne_eq, if_pos (le_of_eq hn), c2,
          not_true_eq_false, and_false, if_false, hk]

theorem nodup_append_disjoint {l1 l2 : List Nat} (h : (l1 ++ l2).Nodup) {a : Nat}
    (h1 : a ∈ l1) (h2 : a ∈ l2) : False :=
  (List.nodup_append.1 h).2.2 h1 h2

/-- Effect of `_split` on a list of at least two nodes: the first half, one node longer when
the length is odd, stays in the list and the second half goes to a new list object whose
sentinel is the first free cell; no other cell changes. -/
theorem split_spec [Inhabited α] {m : ListMem α} {e : Nat} {xs : List (Nat × α)}
    (hl : IsList m e xs) (hb : m.Bounded) (hn : 2 ≤ xs.length) :
    ∃ m1, list._split m e = some (m1, m.fresh) ∧ m1.fresh = m.fresh + 1 ∧
      IsList m1 e (xs.take ((xs.length + 1) / 2)) ∧
      IsList m1 m.fresh (xs.drop ((xs.length + 1) / 2)) ∧ m1.Bounded ∧
      (∀ b, b ∉ e :: xs.map Prod.fst → b ≠ m.fresh → m1.heap b = m.heap b) := by
  have hk1 : (xs.length + 1) / 2 < xs.length := by omega
  have hk0 : 1 ≤ (xs.length + 1) / 2 := by omega
  obtain ⟨n, hsplit, hdrop⟩ := drop_split xs ((xs.length + 1) / 2) hk1
  obtain ⟨a, va⟩ := n
  generalize hk : (xs.length + 1) / 2 = k at *
  have hpre : xs.take k ≠ [] := by
    intro h
    have := congrArg List.length h
    rw [List.length_take, List.length_nil] at this
    omega
  have hmid : xs.drop k ≠ [] := by rw [hdrop]; simp
  have hx : xs = xs.take k ++ xs.drop k := (List.take_append_drop k xs).symm
  have hnd := hl.nodup
  rw [List.nodup_cons] at hnd
  obtain ⟨hend, hnd⟩ := hnd
  have hnd' : (xs.take k ++ xs.drop k).map Prod.fst |>.Nodup := by rw [← hx]; exact hnd
  rw [List.map_append] at hnd'
  have hsub1 : ∀ b, b ∈ (xs.take k).map Prod.fst → b ∈ xs.map Prod.fst := fun b hb' =>
    (List.map_subset _ (List.take_subset k xs)) hb'
  have hsub2 : ∀ b, b ∈ (xs.drop k).map Prod.fst → b ∈ xs.map Prod.fst := fun b hb' =>
    (List.map_subset _ (List.drop_subset k xs)) hb'
  -- the cells involved
  obtain ⟨d, hd⟩ := hl.sentinel
  have hpl_mem : lastAddr e (xs.take k) ∈ (xs.take k).map Prod.fst := lastAddr_mem hpre e
  have hml_eq : lastAddr e xs = lastAddr (lastAddr e (xs.take k)) (xs.drop k) := by
    conv_lhs => rw [hx]
    exact lastAddr_append _ _ _
  have hml_mem : lastAddr e xs ∈ (xs.drop k).map Prod.fst := by
    rw [hml_eq]; exact lastAddr_mem hmid _
  have ha_mem : a ∈ (xs.drop k).map Prod.fst := by rw [hdrop]; simp
  have hacell := hl.nodeCell _ _ a va hsplit
  obtain ⟨npl, hpl⟩ := hl.chain.allocated (hsub1 _ hpl_mem)
  obtain ⟨nml, hml⟩ := hl.chain.allocated (hsub2 _ hml_mem)
  have hlt : ∀ b, b ∈ e :: xs.map Prod.fst → b ≠ m.fresh := fun b hb' h => by
    have := hl.below_fresh hb hb'
    omega
  have f_e : e ≠ m.fresh := hlt e (by simp)
  have f_a : a ≠ m.fresh := hlt a (List.mem_cons_of_mem _ (hsub2 _ ha_mem))
  have f_pl : lastAddr e (xs.take k) ≠ m.fresh :=
    hlt _ (List.mem_cons_of_mem _ (hsub1 _ hpl_mem))
  have f_ml : lastAddr e xs ≠ m.fresh := hlt _ (List.mem_cons_of_mem _ (hsub2 _ hml_mem))
  have e_pl : e ≠ lastAddr e (xs.take k) := fun h => hend (h ▸ hsub1 _ hpl_mem)
  have e_a : e ≠ a := fun h => hend (h ▸ hsub2 _ ha_mem)
  have e_ml : e ≠ lastAddr e xs := fun h => hend (by rw [← h] at hml_mem; exact hsub2 _ hml_mem)
  have pl_a : lastAddr e (xs.take k) ≠ a := fun h =>
    nodup_append_disjoint hnd' hpl_mem (h ▸ ha_mem)
  have pl_ml : lastAddr e (xs.take k) ≠ lastAddr e xs := fun h =>
    nodup_append_disjoint hnd' hpl_mem (h ▸ hml_mem)
  obtain ⟨m2, hsp, hfr, hpt⟩ := splice_spec
    (⟨lstore m.heap m.fresh (some ⟨default, some m.fresh, some m.fresh⟩), m.fresh + 1⟩ :
      ListMem α)
    m.fresh e a (lastAddr e (xs.take k)) (lastAddr e xs)
    ⟨default, some m.fresh, some m.fresh⟩ _ _ npl nml
    (lstore_same _ _ _) rfl
    ((lstore_other _ _ f_e).trans hd) rfl
    ((lstore_other _ _ f_a).trans hacell) rfl
    ((lstore_other _ _ f_pl).trans hpl) ((lstore_other _ _ f_ml).trans hml)
    f_pl.symm f_e.symm f_a.symm f_ml.symm e_pl e_a e_ml pl_a pl_ml
  have hpt' : ∀ b, b ≠ m.fresh → m2.heap b = (m.heap b).map (fun c =>
      ⟨c.value, if b = lastAddr e (xs.take k) then some e
          else if b = lastAddr e xs then some m.fresh else c.next,
        if b = e then some (lastAddr e (xs.take k))
          else if b = a then some m.fresh else c.prev⟩) := by
    intro b hbf
    rw [hpt b, if_neg hbf]
    show Option.map _ (lstore _ _ _ b) = _
    rw [lstore_other _ _ hbf]
  -- the run of the program
  have hloop := split_loop_spec hl m.fuel 0 0 rfl (by omega) (by
    have := hl.length_lt hb
    unfold ListMem.fuel
    omega)
  simp only [List.drop_zero, Nat.zero_add, if_pos hn, hk] at hloop
  have i1 := hl.incr_pos' 0 1 (by omega) rfl
  simp only [List.drop_zero] at i1
  have i2 := hl.incr_pos' 1 2 (by omega) rfl
  have i3 := hl.incr_pos' (k - 1) k (by omega) (by omega)
  rw [hdrop, headAddr_cons] at i3
  -- the ring of the list, cut before the second half
  have hring := (ring_iff m.heap e d (xs.take k) (xs.drop k)).1 (by
    rw [← hx]; exact ⟨hd, hl.chain⟩)
  rw [chain_append] at hring
  obtain ⟨hcm, hcp⟩ := hring
  rw [headAddr_cons] at hcm
  have hha : headAddr e (xs.drop k) = a := by rw [hdrop]; rfl
  rw [hha, ← hml_eq] at hcp
  have hfr' : m2.fresh = m.fresh + 1 := hfr
  refine ⟨m2, ?_, hfr', ?_, ?_, ?_, ?_⟩
  · simp only [list._split, hl.begin_eq, i1, i2, hloop, i3, list._createEndNode, list.end_,
      hsp]
  · -- the first half
    have hR : Chain m2.heap (lastAddr e (xs.take k)) ((e, d) :: xs.take k) e := by
      apply Chain.relink ((e, d) :: xs.take k) (lastAddr e xs) a _ _ (by simp)
        (by
          simp only [List.map_cons, List.nodup_cons]
          exact ⟨fun h => hend (hsub1 _ h), (List.nodup_append.1 hnd').1⟩) hcp
      intro b hb'
      have hbx : b ∈ e :: xs.map Prod.fst := by
        simp only [List.map_cons, List.mem_cons] at hb' ⊢
        rcases hb' with h | h
        · exact Or.inl h
        · exact Or.inr (hsub1 _ h)
      have hb1 : b ∈ e :: (xs.take k).map Prod.fst := hb'
      have hbml : b ≠ lastAddr e xs := by
        intro h
        rcases List.mem_cons.1 hb1 with h' | h'
        · exact e_ml (h' ▸ h)
        · exact nodup_append_disjoint hnd' h' (h ▸ hml_mem)
      have hba : b ≠ a := by
        intro h
        rcases List.mem_cons.1 hb1 with h' | h'
        · exact e_a (h' ▸ h)
        · exact nodup_append_disjoint hnd' h' (h ▸ ha_mem)
      rw [hpt' b (hlt b hbx)]
      simp only [lastAddr_cons, headAddr_cons, hbml, hba, if_false]
    have := (ring_iff m2.heap e d (xs.take k) []).2 (by
      simpa only [List.nil_append, headAddr_nil] using hR)
    rw [List.append_nil] at this
    exact ⟨⟨d, this.1⟩, this.2, by
      simp only [List.nodup_cons]
      exact ⟨fun h => hend (hsub1 _ h), (List.nodup_append.1 hnd').1⟩⟩
  · -- the second half
    have hC : Chain m2.heap m.fresh (xs.drop k) m.fresh := by
      apply Chain.relink (xs.drop k) (lastAddr e (xs.take k)) e _ _ hmid
        (List.nodup_append.1 hnd').2.1 hcm
      intro b hb'
      have hbx : b ∈ e :: xs.map Prod.fst := List.mem_cons_of_mem _ (hsub2 _ hb')
      have hbe : b ≠ e := fun h => hend (h ▸ hsub2 _ hb')
      have hbpl : b ≠ lastAddr e (xs.take k) := fun h =>
        nodup_append_disjoint hnd' (h ▸ hpl_mem) hb'
      rw [hpt' b (hlt b hbx)]
      simp only [hbe, hbpl, if_false, hha, ← hml_eq]
    refine ⟨⟨default, ?_⟩, hC, ?_⟩
    · have h1 : headAddr m.fresh (xs.drop k) = a := by rw [hdrop]; rfl
      have h2 : lastAddr m.fresh (xs.drop k) = lastAddr e xs := by
        rw [hml_eq]; exact lastAddr_of_ne_nil hmid _ _
      rw [hpt m.fresh, if_pos rfl, h1, h2]
    · simp only [List.nodup_cons]
      exact ⟨fun h => hlt _ (List.mem_cons_of_mem _ (hsub2 _ h)) rfl,
        (List.nodup_append.1 hnd').2.1⟩
  · intro b hb'
    have hb2 : m.fresh + 1 ≤ b := by rw [hfr] at hb'; exact hb'
    rw [hpt' b (by omega), hb b (by omega)]
    rfl
  · intro b hb' hbf
    rw [hpt' b hbf]
    have h1 : b ≠ e := fun h => hb' (by rw [h]; simp)
    have h2 : b ≠ a := fun h => hb' (by rw [h]; exact List.mem_cons_of_mem _ (hsub2 _ ha_mem))
    have h3 : b ≠ lastAddr e (xs.take k) := fun h =>
      hb' (by rw [h]; exact List.mem_cons_of_mem _ (hsub1 _ hpl_mem))
    have h4 : b ≠ lastAddr e xs := fun h =>
      hb' (by rw [h]; exact List.mem_cons_of_mem _ (hsub2 _ hml_mem))
    simp only [h1, h2, h3, h4, if_false]
    exact ListNode.eta_map _

/-- Effect of `_insertNodeBefore(node1, y)` on a list object, `node1` being the cursor that
follows the nodes `done` (the first node of `rest1`, or `end()`), for a linked cell `y`
outside the list: `y` enters the list between `done` and `rest1`. -/
theorem insert_before_list {m : ListMem α} {e : Nat} (done rest1 : List (Nat × α))
    (hl : IsList m e (done ++ rest1)) (y : Nat) (ny : ListNode α) (hy : m.heap y = some ny)
    (hym : y ∉ e :: (done ++ rest1).map Prod.fst) :
    ∃ m1, list._insertNodeBefore m (some (headAddr e rest1)) (some y) = some m1 ∧
      m1.fresh = m.fresh ∧ IsList m1 e (done ++ (y, ny.value) :: rest1) ∧
      (∀ b, b ∉ e :: (done ++ rest1).map Prod.fst → b ≠ y → m1.heap b = m.heap b) := by
  obtain ⟨d, hd⟩ := hl.sentinel
  have hring := (ring_iff m.heap e d done rest1).1 ⟨hd, hl.chain⟩
  have hRmem : ∀ b, b ∈ (rest1 ++ (e, d) :: done).map Prod.fst ↔
      b ∈ e :: (done ++ rest1).map Prod.fst := by
    intro b
    simp only [List.map_append, List.map_cons, List.mem_append, List.mem_cons]
    tauto
  have hRnd : ((rest1 ++ (e, d) :: done).map Prod.fst).Nodup := by
    have hp : ((rest1 ++ (e, d) :: done).map Prod.fst).Perm (e :: (done ++ rest1).map Prod.fst) := by
      simp only [List.map_append, List.map_cons]
      exact (List.perm_middle).trans (List.Perm.cons _ List.perm_append_comm)
    exact hp.nodup_iff.2 hl.nodup
  have hRne : rest1 ++ (e, d) :: done ≠ [] := by simp
  have hhead : headAddr (headAddr e rest1) (rest1 ++ (e, d) :: done) = headAddr e rest1 := by
    rw [headAddr_append, headAddr_cons]
  have hlast : lastAddr (lastAddr e done) (rest1 ++ (e, d) :: done) = lastAddr e done := by
    rw [lastAddr_append, lastAddr_cons]
  have hn1mem : headAddr e rest1 ∈ (rest1 ++ (e, d) :: done).map Prod.fst := by
    rw [← hhead]; exact headAddr_mem _ hRne
  have hpvmem : lastAddr e done ∈ (rest1 ++ (e, d) :: done).map Prod.fst := by
    rw [← hlast]; exact lastAddr_mem hRne _
  -- the cell of `node1`
  obtain ⟨n1, hn1, hn1p⟩ : ∃ n1, m.heap (headAddr e rest1) = some n1 ∧
      n1.prev = some (lastAddr e done) := by
    cases hR : rest1 ++ (e, d) :: done with
    | nil => exact absurd hR hRne
    | cons r0 R' =>
      rw [hR] at hring hhead
      rw [headAddr_cons] at hhead
      rw [← hhead]
      exact ⟨_, hring.1, rfl⟩
  obtain ⟨npv, hnpv⟩ := hring.allocated hpvmem
  have hy1 : y ≠ headAddr e rest1 := fun h => hym ((hRmem _).1 (h ▸ hn1mem))
  have hy2 : y ≠ lastAddr e done := fun h => hym ((hRmem _).1 (h ▸ hpvmem))
  obtain ⟨m1, hrun, hfr, hpt⟩ := insertNodeBefore_spec m (headAddr e rest1) y (lastAddr e done)
    n1 npv ny hn1 hn1p hnpv hy hy1 hy2
  refine ⟨m1, hrun, hfr, ?_, ?_⟩
  · have hC : Chain m1.heap y (rest1 ++ (e, d) :: done) y := by
      apply Chain.relink _ (lastAddr e done) (headAddr e rest1) y y hRne hRnd hring
      intro b hb
      have hby : b ≠ y := fun h => hym ((hRmem _).1 (h ▸ hb))
      rw [hpt b, if_neg hby, hhead, hlast]
    have hnew := (ring_iff m1.heap e d done ((y, ny.value) :: rest1)).2 (by
      rw [headAddr_cons]
      show Chain m1.heap (lastAddr e done) ((y, ny.value) :: (rest1 ++ (e, d) :: done)) y
      refine ⟨?_, hC⟩
      rw [hpt y, if_pos rfl, headAddr_of_ne_nil y (headAddr e rest1) hRne, hhead])
    refine ⟨⟨d, hnew.1⟩, hnew.2, ?_⟩
    have hp : (e :: (done ++ (y, ny.value) :: rest1).map Prod.fst).Perm
        (y :: e :: (done ++ rest1).map Prod.fst) := by
      simp only [List.map_append, List.map_cons]
      exact (List.Perm.cons _ List.perm_middle).trans (List.Perm.swap _ _ _)
    exact hp.nodup_iff.2 (List.nodup_cons.2 ⟨hym, hl.nodup⟩)
  · intro b hb hby
    have hbR : b ∉ (rest1 ++ (e, d) :: done).map Prod.fst := fun h => hb ((hRmem b).1 h)
    have h1 : b ≠ headAddr e rest1 := fun h => hbR (h ▸ hn1mem)
    have h2 : b ≠ lastAddr e done := fun h => hbR (h ▸ hpvmem)
    rw [hpt b, if_neg hby]
    simp only [h1, h2, if_false]
    exact ListNode.eta_map _

theorem merge_loop_spec (comp : α → α → Bool) (e e2 : Nat) :
    ∀ (fuel : Nat) (rest1 rest2 done : List (Nat × α)) (m : ListMem α) (p2 : Nat),
      IsList m e (done ++ rest1) → Chain m.heap p2 rest2 e2 →
      (e2 :: e :: (done ++ rest1 ++ rest2).map Prod.fst).Nodup →
      rest1.length + rest2.length < fuel →
      ∃ m', list.merge_loop comp e e2 fuel m (some (headAddr e rest1))
            (some (headAddr e2 rest2)) = some m' ∧
        m'.fresh = m.fresh ∧
        IsList m' e (done ++ List.merge rest1 rest2 (notAfter comp)) ∧
        (∀ b, b ∉ e :: (done ++ rest1 ++ rest2).map Prod.fst → m'.heap b = m.heap b) := by
  intro fuel
  induction fuel with
  | zero => intro rest1 rest2 done m p2 _ _ _ hf; omega
  | succ f ih =>
    intro rest1 rest2 done m p2 hl hc2 hnd hf
    cases rest2 with
    | nil =>
      refine ⟨m, ?_, rfl, ?_, fun _ _ => rfl⟩
      · simp only [list.merge_loop, headAddr_nil, list.end_, if_true]
      · rw [List.merge_right]; exact hl
    | cons n2 r2 =>
      obtain ⟨y, vy⟩ := n2
      obtain ⟨hcy, hcr⟩ := hc2
      simp only at hcy
      -- facts on addresses
      have hnd0 := hnd
      have hL : (done ++ rest1 ++ (y, vy) :: r2).map Prod.fst =
          (done ++ rest1).map Prod.fst ++ y :: r2.map Prod.fst := by
        simp only [List.map_append, List.map_cons]
      rw [hL] at hnd
      obtain ⟨h_e2, hrest⟩ := List.nodup_cons.1 hnd
      obtain ⟨h_e, hLnd⟩ := List.nodup_cons.1 hrest
      obtain ⟨hA, hyB, hdisj⟩ := List.nodup_append.1 hLnd
      obtain ⟨hyB1, hB⟩ := List.nodup_cons.1 hyB
      have hye2 : y ≠ e2 := fun h => h_e2 (by rw [← h]; simp)
      have hye : y ≠ e := fun h => h_e (by rw [← h]; simp)
      have hym : y ∉ e :: (done ++ rest1).map Prod.fst := by
        intro h
        rcases List.mem_cons.1 h with h | h
        · exact hye h
        · exact hdisj h (by simp)
      have hr2 : ∀ b, b ∈ r2.map Prod.fst → b ∉ e :: (done ++ rest1).map Prod.fst ∧ b ≠ y := by
        intro b hb
        refine ⟨fun h => ?_, fun h => hyB1 (h ▸ hb)⟩
        rcases List.mem_cons.1 h with h | h
        · exact h_e (by rw [← h]; simp [hb])
        · exact hdisj h (by simp [hb])
      have hne2 : ¬ (some y = some e2) := by
        simp only [Option.some.injEq]; exact hye2
      -- the insertion step
      have hins : ∀ (hcond : True),
          ∃ m1, list._insertNodeBefore m (some (headAddr e rest1)) (some y) = some m1 ∧
            ∃ m', list.merge_loop comp e e2 f m1 (some (headAddr e rest1))
                (some (headAddr e2 r2)) = some m' ∧
              m'.fresh = m.fresh ∧
              IsList m' e (done ++ (y, vy) :: List.merge rest1 r2 (notAfter comp)) ∧
              (∀ b, b ∉ e :: (done ++ rest1 ++ (y, vy) :: r2).map Prod.fst →
                m'.heap b = m.heap b) := by
        intro _
        obtain ⟨m1, hrun, hfr, hl1, hfm⟩ := insert_before_list done rest1 hl y _ hcy hym
        have hl1' : IsList m1 e ((done ++ [(y, vy)]) ++ rest1) := by
          simpa using hl1
        have hc1 : Chain m1.heap y r2 e2 :=
          hcr.keep (fun b hb => hfm b (hr2 b hb).1 (hr2 b hb).2)
        have hnd1 : (e2 :: e :: ((done ++ [(y, vy)]) ++ rest1 ++ r2).map Prod.fst).Nodup := by
          refine (List.Perm.nodup_iff ?_).2 hnd0
          refine List.Perm.cons _ (List.Perm.cons _ ?_)
          simp only [List.map_append, List.map_cons, List.map_nil, List.append_assoc,
            List.singleton_append]
          refine List.Perm.append_left _ ?_
          exact List.perm_middle.symm
        obtain ⟨m', hrun', hfr', hl', hfm'⟩ := ih rest1 r2 (done ++ [(y, vy)]) m1 y hl1' hc1 hnd1
          (by simp only [List.length_cons] at hf; omega)
        refine ⟨m1, hrun, m', hrun', hfr'.trans hfr, by simpa using hl', ?_⟩
        intro b hb
        have hb1 : b ∉ e :: ((done ++ [(y, vy)]) ++ rest1 ++ r2).map Prod.fst := by
          intro h
          apply hb
          simp only [List.map_append, List.map_cons, List.map_nil, List.mem_cons,
            List.mem_append, List.mem_singleton, List.not_mem_nil, or_false] at h ⊢
          tauto
        have hb2 : b ∉ e :: (done ++ rest1).map Prod.fst := by
          intro h
          apply hb
          simp only [List.map_append, List.map_cons, List.mem_cons, List.mem_append] at h ⊢
          tauto
        have hb3 : b ≠ y := by
          intro h
          apply hb
          simp [h]
        rw [hfm' b hb1, hfm b hb2 hb3]
      cases rest1 with
      | nil =>
        obtain ⟨d, hd⟩ := hl.sentinel
        obtain ⟨m1, hrun, m', hrun', hfr', hl', hfm'⟩ := hins trivial
        refine ⟨m', ?_, hfr', ?_, hfm'⟩
        · simp only [headAddr_nil, headAddr_cons] at hrun hrun' ⊢
          simp only [list.merge_loop, hne2, if_false, ListMem.node, hd, hcy, list.end_,
            Bool.true_or, if_true, decide_True, hrun, hrun']
        · simpa using hl'
      | cons n1 r1 =>
        obtain ⟨x, vx⟩ := n1
        have hxcell := hl.nodeCell done r1 x vx rfl
        have hxe : ¬ (some x = some e) := by
          simp only [Option.some.injEq]
          intro h
          exact h_e (by rw [← h]; simp)
        by_cases hcomp : comp vy vx = true
        · obtain ⟨m1, hrun, m', hrun', hfr', hl', hfm'⟩ := hins trivial
          refine ⟨m', ?_, hfr', ?_, hfm'⟩
          · simp only [headAddr_cons] at hrun hrun' ⊢
            simp only [list.merge_loop, list.end_, hne2, if_false, ListMem.node, hxcell, hcy,
              hxe, decide_False, Bool.false_or, hcomp, if_true, hrun, hrun']
          · rw [List.cons_merge_cons, if_neg (by simp [notAfter, hcomp])]
            exact hl'
        · have hl1 : IsList m e ((done ++ [(x, vx)]) ++ r1) := by simpa using hl
          have hnd1 : (e2 :: e :: ((done ++ [(x, vx)]) ++ r1 ++ (y, vy) :: r2).map
              Prod.fst).Nodup := by
            simpa using hnd0
          obtain ⟨m', hrun', hfr', hl', hfm'⟩ := ih r1 ((y, vy) :: r2) (done ++ [(x, vx)]) m p2
            hl1 ⟨hcy, hcr⟩ hnd1 (by simp only [List.length_cons] at hf ⊢; omega)
          refine ⟨m', ?_, hfr', ?_, ?_⟩
          · simp only [headAddr_cons] at hrun' ⊢
            simp only [list.merge_loop, list.end_, hne2, if_false, ListMem.node, hxcell, hcy,
              hxe, decide_False, Bool.false_or, hcomp, Bool.false_eq_true, hrun']
          · rw [List.cons_merge_cons, if_pos (by simp [notAfter, hcomp])]
            simpa using hl'
          · intro b hb
            apply hfm'
            simpa using hb

theorem ListMem.bounded_of {m m' : ListMem α} (hb : m.Bounded) (hf : m.fresh ≤ m'.fresh)
    (hag : ∀ b, m.fresh ≤ b → m'.heap b = m.heap b) : m'.Bounded := by
  intro b hb'
  rw [hag b (le_trans hf hb')]
  exact hb b (le_trans hf hb')

/-- Effect of `merge(src, comp)` on two list objects without common cells: the list holds the
merge of the two node sequences, in which a node of `src` goes before a node of the list
only when its value goes before that node's value, and `src` is empty. -/
theorem merge_spec (comp : α → α → Bool) {m : ListMem α} {e e2 : Nat} {xs ys : List (Nat × α)}
    (hl1 : IsList m e xs) (hl2 : IsList m e2 ys)
    (hnd : (e2 :: e :: (xs ++ ys).map Prod.fst).Nodup) (hb : m.Bounded) :
    ∃ m', list.merge comp m e e2 = some m' ∧ m'.fresh = m.fresh ∧
      IsList m' e (List.merge xs ys (notAfter comp)) ∧ IsList m' e2 [] ∧
      (∀ b, b ∉ e2 :: e :: (xs ++ ys).map Prod.fst → m'.heap b = m.heap b) := by
  have hlen : xs.length + ys.length < m.fuel := by
    have h := length_le_of_nodup_lt hnd (n := m.fresh) (by
      intro a ha
      rcases List.mem_cons.1 ha with rfl | ha
      · exact hl2.below_fresh hb (by simp)
      · rcases List.mem_cons.1 ha with rfl | ha
        · exact hl1.below_fresh hb (by simp)
        · rw [List.map_append, List.mem_append] at ha
          rcases ha with ha | ha
          · exact hl1.below_fresh hb (List.mem_cons_of_mem _ ha)
          · exact hl2.below_fresh hb (List.mem_cons_of_mem _ ha))
    simp only [List.length_cons, List.length_map, List.length_append] at h
    unfold ListMem.fuel
    omega
  obtain ⟨m1, hrun, hfr, hl', hfm⟩ := merge_loop_spec comp e e2 m.fuel xs ys [] m e2 hl1
    hl2.chain hnd hlen
  obtain ⟨d2, hd2⟩ := hl2.sentinel
  have he2 : e2 ∉ e :: (xs ++ ys).map Prod.fst := (List.nodup_cons.1 hnd).1
  have h1e2 : m1.heap e2 = _ := (hfm e2 he2).trans hd2
  have hmerge_mem : ∀ a, a ∈ e :: (List.merge xs ys (notAfter comp)).map Prod.fst →
      a ∈ e :: (xs ++ ys).map Prod.fst := by
    intro a ha
    rcases List.mem_cons.1 ha with rfl | ha
    · simp
    · obtain ⟨p, hp, rfl⟩ := List.mem_map.1 ha
      apply List.mem_cons_of_mem
      apply List.mem_map_of_mem
      rw [List.mem_append]
      exact List.mem_merge.1 hp
  refine ⟨⟨lstore (lstore m1.heap e2 (some ⟨d2, some (headAddr e2 ys), some e2⟩)) e2
      (some ⟨d2, some e2, some e2⟩), m1.fresh⟩, ?_, hfr, ?_, ?_, ?_⟩
  · simp only [list.merge, hl1.begin_eq, hl2.begin_eq, hrun, list.end_, ListMem.write, h1e2,
      lstore_same]
  · refine IsList.unchanged (m := m1) hl' ?_
    intro a ha
    have hne : a ≠ e2 := fun h => he2 (h ▸ hmerge_mem a ha)
    show lstore _ _ _ a = _
    rw [lstore_other _ _ hne, lstore_other _ _ hne]
  · exact ⟨⟨d2, lstore_same _ _ _⟩, trivial, by simp⟩
  · intro b hb'
    have hne : b ≠ e2 := fun h => hb' (by rw [h]; simp)
    show lstore _ _ _ b = _
    rw [lstore_other _ _ hne, lstore_other _ _ hne]
    exact hfm b (fun h => hb' (List.mem_cons_of_mem _ h))

/-- Effect of the destructor on an empty list object: its sentinel is released. -/
theorem destroy_spec {m : ListMem α} {e2 : Nat} (hl : IsList m e2 []) :
    ∃ m', list.destroy m e2 = some m' ∧ m'.fresh = m.fresh ∧
      ∀ b, m'.heap b = if b = e2 then none else m.heap b := by
  obtain ⟨d, hd⟩ := hl.sentinel
  simp only [headAddr_nil, lastAddr_nil] at hd
  refine ⟨⟨lstore (lstore (lstore m.heap e2 (some ⟨d, some e2, some e2⟩)) e2
      (some ⟨d, some e2, some e2⟩)) e2 none, m.fresh⟩, ?_, rfl, ?_⟩
  · simp only [list.destroy, list._clear, hd, ListMem.fuel, list._clear_loop, if_true,
      ListMem.write, lstore_same, list._clearNode]
  · intro b
    by_cases hbe : b = e2
    · subst hbe
      simp [lstore]
    · simp [lstore, hbe]

theorem mergeSort_unfold (le : Nat × α → Nat × α → Bool) (a b : Nat × α)
    (xs : List (Nat × α)) :
    List.mergeSort (a :: b :: xs) le =
      List.merge (List.mergeSort ((a :: b :: xs).take ((xs.length + 3) / 2)) le)
        (List.mergeSort ((a :: b :: xs).drop ((xs.length + 3) / 2)) le) le := by
  rw [List.mergeSort]
  simp only [List.splitInTwo_fst, List.splitInTwo_snd, List.length_cons]

theorem mem_addrs_mergeSort (le : Nat × α → Nat × α → Bool) (l : List (Nat × α)) (a : Nat) :
    a ∈ (l.mergeSort le).map Prod.fst ↔ a ∈ l.map Prod.fst := by
  simp only [List.mem_map, List.mem_mergeSort]

/-- Effect of `sort(comp)`: the call returns, the list holds the nodes in the order of the
stable merge sort of the former sequence, and no cell outside the list changes. -/
theorem sort_rec_spec [Inhabited α] (comp : α → α → Bool) :
    ∀ (fuel : Nat) (m : ListMem α) (e : Nat) (xs : List (Nat × α)),
      IsList m e xs → m.Bounded → xs.length < fuel →
      ∃ m', list.sort_rec comp fuel m e = some m' ∧
        IsList m' e (xs.mergeSort (notAfter comp)) ∧ m.fresh ≤ m'.fresh ∧
        (∀ b, b ∉ e :: xs.map Prod.fst → m'.heap b = m.heap b) := by
  intro fuel
  induction fuel with
  | zero => intro m e xs _ _ hf; omega
  | succ f ih =>
    intro m e xs hl hb hf
    cases xs with
    | nil =>
      refine ⟨m, ?_, by rw [List.mergeSort_nil]; exact hl, le_refl _, fun _ _ => rfl⟩
      simp only [list.sort_rec, hl.begin_eq, headAddr_nil, list.end_, if_true]
    | cons n1 xs1 =>
      obtain ⟨a1, v1⟩ := n1
      have hnd := hl.nodup
      have ha1 : ¬ (some a1 = some e) := by
        intro h
        simp only [Option.some.injEq] at h
        exact (List.nodup_cons.1 hnd).1 (by rw [← h]; simp)
      cases xs1 with
      | nil =>
        refine ⟨m, ?_, by rw [List.mergeSort_singleton]; exact hl, le_refl _, fun _ _ => rfl⟩
        have hi := hl.incr_node [] [] a1 v1 rfl
        simp only [list.sort_rec, hl.begin_eq, headAddr_cons, list.end_, ha1, if_false, hi,
          headAddr_nil, if_true]
      | cons n2 rest =>
        obtain ⟨a2, v2⟩ := n2
        have ha2 : ¬ (some a2 = some e) := by
          intro h
          simp only [Option.some.injEq] at h
          exact (List.nodup_cons.1 hnd).1 (by rw [← h]; simp)
        have hi := hl.incr_node [] ((a2, v2) :: rest) a1 v1 rfl
        rw [headAddr_cons] at hi
        obtain ⟨m1, hsp, hfr1, hlp, hlm, hb1, hfm1⟩ := split_spec hl hb
          (by simp only [List.length_cons]; omega)
        have hkeq : (((a1, v1) :: (a2, v2) :: rest).length + 1) / 2 = (rest.length + 3) / 2 := by
          simp only [List.length_cons]
        rw [hkeq] at hlp hlm
        generalize hk : (rest.length + 3) / 2 = k at hlp hlm
        have hxs : ((a1, v1) :: (a2, v2) :: rest) =
            ((a1, v1) :: (a2, v2) :: rest).take k ++ ((a1, v1) :: (a2, v2) :: rest).drop k :=
          (List.take_append_drop k _).symm
        generalize hpre : ((a1, v1) :: (a2, v2) :: rest).take k = pre at hlp hxs
        generalize hmid : ((a1, v1) :: (a2, v2) :: rest).drop k = mid at hlm hxs
        have hlenp : pre.length < f := by
          rw [← hpre, List.length_take]
          simp only [List.length_cons] at hf ⊢
          omega
        have hlenm : mid.length < f := by
          rw [← hmid, List.length_drop]
          simp only [List.length_cons] at hf ⊢
          omega
        -- addresses
        have hnd2 : (e :: (pre ++ mid).map Prod.fst).Nodup := by rw [← hxs]; exact hnd
        rw [List.map_append] at hnd2
        obtain ⟨hend, hnd3⟩ := List.nodup_cons.1 hnd2
        obtain ⟨-, -, hdisj⟩ := List.nodup_append.1 hnd3
        have hfresh : ∀ b, b ∈ e :: (pre ++ mid).map Prod.fst → b ≠ m.fresh := by
          intro b hb' h
          rw [← hxs] at hb'
          have := hl.below_fresh hb hb'
          omega
        have hmem_p : ∀ b, b ∈ e :: pre.map Prod.fst → b ∈ e :: (pre ++ mid).map Prod.fst := by
          intro b hb'
          simp only [List.map_append, List.mem_cons, List.mem_append] at hb' ⊢
          tauto
        have hmem_m : ∀ b, b ∈ mid.map Prod.fst → b ∈ e :: (pre ++ mid).map Prod.fst := by
          intro b hb'
          simp only [List.map_append, List.mem_cons, List.mem_append] at hb' ⊢
          tauto
        have hpm : ∀ b, b ∈ m.fresh :: mid.map Prod.fst → b ∉ e :: pre.map Prod.fst := by
          intro b hb' hbp
          rcases List.mem_cons.1 hb' with rfl | hb'
          · exact hfresh _ (hmem_p _ hbp) rfl
          · rcases List.mem_cons.1 hbp with rfl | hbp
            · exact hend (by rw [List.mem_append]; exact Or.inr hb')
            · exact hdisj hbp hb'
        -- the first half is sorted
        obtain ⟨m2, hs2, hl2, hfr2, hfm2⟩ := ih m1 e pre hlp hb1 hlenp
        have hb2 : m2.Bounded := ListMem.bounded_of hb1 hfr2 (fun b hb' => hfm2 b (fun h => by
          have := hlp.below_fresh hb1 h
          omega))
        have hlm2 : IsList m2 m.fresh mid := hlm.unchanged (fun b hb' => hfm2 b (hpm b hb'))
        -- the second half is sorted
        obtain ⟨m3, hs3, hl3, hfr3, hfm3⟩ := ih m2 m.fresh mid hlm2 hb2 hlenm
        have hb3 : m3.Bounded := ListMem.bounded_of hb2 hfr3 (fun b hb' => hfm3 b (fun h => by
          have := hlm2.below_fresh hb2 h
          omega))
        have hl23 : IsList m3 e (pre.mergeSort (notAfter comp)) := hl2.unchanged (fun b hb' => by
          apply hfm3
          intro h
          refine hpm b h ?_
          rcases List.mem_cons.1 hb' with rfl | hb'
          · simp
          · exact List.mem_cons_of_mem _ ((mem_addrs_mergeSort _ _ _).1 hb'))
        -- the two halves are merged
        have hnd4 : (m.fresh :: e :: (pre.mergeSort (notAfter comp) ++
            mid.mergeSort (notAfter comp)).map Prod.fst).Nodup := by
          have hp : (m.fresh :: e :: (pre.mergeSort (notAfter comp) ++
              mid.mergeSort (notAfter comp)).map Prod.fst).Perm
              (m.fresh :: e :: (pre ++ mid).map Prod.fst) := by
            refine List.Perm.cons _ (List.Perm.cons _ (List.Perm.map _ ?_))
            exact List.Perm.append (List.mergeSort_perm _ _) (List.mergeSort_perm _ _)
          refine hp.nodup_iff.2 (List.nodup_cons.2 ⟨fun h => hfresh _ h rfl, ?_⟩)
          rw [List.map_append]
          exact hnd2
        obtain ⟨m4, hs4, hfr4, hl4, hl4e, hfm4⟩ := merge_spec comp hl23 hl3 hnd4 hb3
        obtain ⟨m5, hs5, hfr5, hpt5⟩ := destroy_spec hl4e
        have hmem4 : ∀ b, b ∈ m.fresh :: e :: (pre.mergeSort (notAfter comp) ++
            mid.mergeSort (notAfter comp)).map Prod.fst ↔
            b ∈ m.fresh :: e :: (pre ++ mid).map Prod.fst := by
          intro b
          simp only [List.map_append, List.mem_cons, List.mem_append, mem_addrs_mergeSort]
        refine ⟨m5, ?_, ?_, ?_, ?_⟩
        · simp only [list.sort_rec, hl.begin_eq, headAddr_cons, list.end_, ha1, if_false, hi,
            ha2, hsp, hs2, hs3, hs4, hs5]
        · rw [mergeSort_unfold, hk, hpre, hmid]
          refine hl4.unchanged ?_
          intro b hb'
          have hne : b ≠ m.fresh := by
            intro h
            have h1 : b ∈ e :: (pre ++ mid).map Prod.fst := by
              rcases List.mem_cons.1 hb' with rfl | hb'
              · simp
              · obtain ⟨p, hp, rfl⟩ := List.mem_map.1 hb'
                have := List.mem_merge.1 hp
                simp only [List.mem_mergeSort] at this
                apply List.mem_cons_of_mem
                apply List.mem_map_of_mem
                rw [List.mem_append]
                exact this
            exact hfresh b h1 h
          rw [hpt5 b, if_neg hne]
        · omega
        · intro b hb'
          rw [hxs] at hb'
          by_cases hbf : b = m.fresh
          · rw [hpt5 b, if_pos hbf, hbf, hb m.fresh (le_refl _)]
          · have h4 : b ∉ m.fresh :: e :: (pre.mergeSort (notAfter comp) ++
                mid.mergeSort (notAfter comp)).map Prod.fst := by
              rw [hmem4]
              intro h
              rcases List.mem_cons.1 h with h | h
              · exact hbf h
              · exact hb' h
            have h3 : b ∉ m.fresh :: mid.map Prod.fst := by
              intro h
              rcases List.mem_cons.1 h with h | h
              · exact hbf h
              · exact hb' (hmem_m b h)
            have h2 : b ∉ e :: pre.map Prod.fst := fun h => hb' (hmem_p b h)
            rw [hpt5 b, if_neg hbf, hfm4 b h4, hfm3 b h3, hfm2 b h2]
            exact hfm1 b (by rw [hxs]; exact hb') hbf

theorem list_walk_spec {m : ListMem α} {e : Nat} {xs : List (Nat × α)} (hl : IsList m e xs) :
    ∀ (post pre : List (Nat × α)) (fuel : Nat), xs = pre ++ post → post.length < fuel →
      list.walk m e fuel (some (headAddr e post)) = some (post.map Prod.snd) := by
  intro post
  induction post with
  | nil =>
    intro pre fuel _ hf
    obtain ⟨f, rfl⟩ : ∃ f, fuel = f + 1 := ⟨fuel - 1, by omega⟩
    simp only [list.walk, headAddr_nil, list.end_, if_true, List.map_nil]
  | cons n post ih =>
    intro pre fuel hx hf
    obtain ⟨a, v⟩ := n
    obtain ⟨f, rfl⟩ : ∃ f, fuel = f + 1 := ⟨fuel - 1, by omega⟩
    have hne : ¬ (some a = some e) := by
      intro h
      simp only [Option.some.injEq] at h
      exact (List.nodup_cons.1 hl.nodup).1 (by rw [hx, ← h]; simp)
    have hrec := ih (pre ++ [(a, v)]) f (by rw [hx]; simp)
      (by simp only [List.length_cons] at hf; omega)
    simp only [list.walk, headAddr_cons, list.end_, hne, if_false, list.deref, ListMem.node,
      hl.nodeCell pre post a v hx, list.incr, hrec, List.map_cons]

theorem list_toList_spec {m : ListMem α} {e : Nat} {xs : List (Nat × α)} (hl : IsList m e xs)
    (hb : m.Bounded) : list.toList m e = some (xs.map Prod.snd) := by
  have := list_walk_spec hl xs [] m.fuel rfl (by
    have := hl.length_lt hb
    unfold ListMem.fuel
    omega)
  simp only [list.toList, hl.begin_eq, this]

theorem notAfter_total {comp : α → α → Bool} (hsw : StrictWeak comp) (a b : Nat × α) :
    (notAfter comp a b || notAfter comp b a) = true := by
  simp only [notAfter, Bool.or_eq_true, Bool.not_eq_true']
  cases h : comp b.2 a.2 with
  | false => exact Or.inl rfl
  | true => exact Or.inr (hsw.asymm h)

theorem notAfter_trans {comp : α → α → Bool} (hsw : StrictWeak comp) (a b c : Nat × α)
    (h1 : notAfter comp a b = true) (h2 : notAfter comp b c = true) :
    notAfter comp a c = true := by
  simp only [notAfter, Bool.not_eq_true'] at h1 h2 ⊢
  cases hca : comp c.2 a.2 with
  | false => rfl
  | true =>
    exfalso
    cases hab : comp a.2 b.2 with
    | true =>
      have := hsw.trans _ _ _ hca hab
      rw [h2] at this; cases this
    | false =>
      have e1 : equiv comp a.2 b.2 = true := by simp [equiv, hab, h1]
      cases hbc : comp b.2 c.2 with
      | true =>
        have := hsw.trans _ _ _ hbc hca
        rw [h1] at this; cases this
      | false =>
        have e2 : equiv comp b.2 c.2 = true := by simp [equiv, hbc, h2]
        have := hsw.equiv_trans _ _ _ e1 e2
        rw [equiv_false_of_gt hca] at this
        cases this

/-- The stable merge sort keeps, for every class of equivalent values, the nodes of the
class in their former order. -/
theorem mergeSort_filter_class {comp : α → α → Bool} (hsw : StrictWeak comp)
    (xs : List (Nat × α)) (x : α) :
    (xs.mergeSort (notAfter comp)).filter (fun p => equiv comp p.2 x) =
      xs.filter (fun p => equiv comp p.2 x) := by
  have hc : (xs.filter (fun p => equiv comp p.2 x)).Pairwise
      (fun a b => notAfter comp a b = true) := by
    rw [List.pairwise_iff_forall_sublist]
    intro a b hab
    have ha : a ∈ xs.filter (fun p => equiv comp p.2 x) := hab.subset (by simp)
    have hb : b ∈ xs.filter (fun p => equiv comp p.2 x) := hab.subset (by simp)
    have ha' := (List.mem_filter.1 ha).2
    have hb' := (List.mem_filter.1 hb).2
    have heq : equiv comp b.2 a.2 = true := hsw.equiv_trans _ _ _ hb' (equiv_symm ha')
    simp only [equiv, Bool.and_eq_true, Bool.not_eq_true'] at heq
    simp only [notAfter, heq.1, Bool.not_false]
  have hsub := @List.sublist_mergeSort _ (notAfter comp) _ (notAfter_trans hsw)
    (notAfter_total hsw) _ hc (List.filter_sublist xs)
  have hsub' := hsub.filter (fun p => equiv comp p.2 x)
  rw [List.filter_filter] at hsub'
  simp only [Bool.and_self] at hsub'
  have hlen : ((xs.mergeSort (notAfter comp)).filter (fun p => equiv comp p.2 x)).length =
      (xs.filter (fun p => equiv comp p.2 x)).length :=
    ((List.mergeSort_perm xs (notAfter comp)).filter _).length_eq
  exact (hsub'.eq_of_length hlen.symm).symm

theorem isList_example : IsList exampleList 0 [(1, 7), (2, 3)] :=
  ⟨⟨0, rfl⟩, ⟨rfl, rfl, trivial⟩, by decide⟩

theorem bounded_example : exampleList.Bounded := by
  intro a ha
  have h0 : a ≠ 0 := by simp only [exampleList] at ha; omega
  have h1 : a ≠ 1 := by simp only [exampleList] at ha; omega
  have h2 : a ≠ 2 := by simp only [exampleList] at ha; omega
  simp [exampleList, lstore, h0, h1, h2]

/-- C30: for a comparison that is a strict weak ordering and a list object that holds the
nodes `xs`, `sort(comp)` returns; afterwards the list holds the sequence `R` of the same
nodes (each with its value), which is the stable merge sort of `xs`: no node's value goes
before the value of a node that precedes it, `R` is a rearrangement of `xs`, and the nodes
whose values are equivalent to any given value come in `R` in the order they had in `xs`.
The traversal from `begin()` to `end()` visits the values of `R`, and no cell outside the
list is changed. -/
theorem sort_is_stable_sort [Inhabited α] (comp : α → α → Bool) (hsw : StrictWeak comp)
    (m : ListMem α) (e : Nat) (xs : List (Nat × α)) (hl : IsList m e xs) (hb : m.Bounded) :
    ∃ (m' : ListMem α) (R : List (Nat × α)), list.sort comp m e = some m' ∧ IsList m' e R ∧
      list.toList m' e = some (R.map Prod.snd) ∧ R = xs.mergeSort (notAfter comp) ∧
      R.Pairwise (fun p q => comp q.2 p.2 = false) ∧ R.Perm xs ∧
      (∀ x : α, R.filter (fun p => equiv comp p.2 x) = xs.filter (fun p => equiv comp p.2 x)) ∧
      (∀ b, b ∉ e :: xs.map Prod.fst → m'.heap b = m.heap b) := by
  obtain ⟨m', hrun, hl', hfr, hfm⟩ := sort_rec_spec comp m.fuel m e xs hl hb (by
    have := hl.length_lt hb
    unfold ListMem.fuel
    omega)
  have hb' : m'.Bounded := ListMem.bounded_of hb hfr (fun b hb2 => hfm b (fun h => by
    have := hl.below_fresh hb h
    omega))
  refine ⟨m', _, hrun, hl', list_toList_spec hl' hb', rfl, ?_, List.mergeSort_perm _ _,
    mergeSort_filter_class hsw xs, hfm⟩
  have := @List.sorted_mergeSort _ (notAfter comp) (notAfter_trans hsw) (notAfter_total hsw)
    xs
  refine this.imp ?_
  intro a b h
  simpa [notAfter] using h

theorem sort_is_stable_sort_witness :
    ∃ (m' : ListMem Nat) (R : List (Nat × Nat)), list.sort natLess exampleList 0 = some m' ∧
      IsList m' 0 R ∧ list.toList m' 0 = some (R.map Prod.snd) ∧
      R = [(1, 7), (2, 3)].mergeSort (notAfter natLess) ∧
      R.Pairwise (fun p q => natLess q.2 p.2 = false) ∧ R.Perm [(1, 7), (2, 3)] ∧
      (∀ x : Nat, R.filter (fun p => equiv natLess p.2 x) =
        [(1, 7), (2, 3)].filter (fun p => equiv natLess p.2 x)) ∧
      (∀ b, b ∉ 0 :: [(1, 7), (2, 3)].map Prod.fst → m'.heap b = exampleList.heap b) :=
  sort_is_stable_sort natLess strictWeak_natLess exampleList 0 [(1, 7), (2, 3)] isList_example
    bounded_example

/-- Every cursor of a tree other than `begin()` follows some node in order. -/
theorem cursor_follows (t : RBTree α) (T : Shape α) (hwf : WF t T) (hne : T.nodes ≠ [])
    (it : Option Nat) (hit : it = t.end_ ∨ ∃ a ∈ T.addrs, it = some a)
    (hb : t.begin_ ≠ some it) :
    ∃ pre rest a v, T.nodes = pre ++ (a, v) :: rest ∧ it = cursorHead t._end rest := by
  rcases hit with h | ⟨b, hbm, h⟩
  · obtain ⟨pre, n, hn⟩ : ∃ pre n, T.nodes = pre ++ [n] :=
      ⟨T.nodes.dropLast, T.nodes.getLast hne, (List.dropLast_append_getLast hne).symm⟩
    exact ⟨pre, [], n.1, n.2, hn, h⟩
  · rw [Shape.addrs_eq_map, List.mem_map] at hbm
    obtain ⟨⟨b', w⟩, hm, hb'⟩ := hbm
    simp only at hb'
    subst hb'
    obtain ⟨s, r, hsr⟩ := List.append_of_mem hm
    have hs : s ≠ [] := by
      intro hs
      subst hs
      apply hb
      rw [begin_spec t T hwf, hsr, h]
      rfl
    obtain ⟨pre, n, hn⟩ : ∃ pre n, s = pre ++ [n] :=
      ⟨s.dropLast, s.getLast hs, (List.dropLast_append_getLast hs).symm⟩
    refine ⟨pre, (b', w) :: r, n.1, n.2, ?_, h⟩
    rw [hsr, hn]
    simp

/-- C39: on a non-empty tree with consistent links whose root is attached to the sentinel,
for every cursor other than `begin()` (a cursor to a node, or `end()`), `operator--` returns
a cursor whose `operator++` returns the original cursor; `operator--` on `end()` returns the
cursor to the last node in order, which dereferences to the last element of the in-order
sequence, and under a strict weak ordering with the BST property every other element is
ordered before that element. -/
theorem incr_after_decr (t : RBTree α) (T : Shape α) (hwf : WF t T) (hne : T.nodes ≠ [])
    (it : Option Nat) (hit : it = t.end_ ∨ ∃ a ∈ T.addrs, it = some a)
    (hb : t.begin_ ≠ some it) :
    (∃ p, t.decr it = some p ∧ t.incr p = some it) ∧
      t.decr t.end_ = some (cursorLast T.nodes) ∧
      (∃ p y, t.decr t.end_ = some p ∧ t.deref p = some y ∧ T.toList.getLast? = some y ∧
        (StrictWeak t._comp → T.BST t._comp → ∀ x ∈ T.toList.dropLast, t._comp x y = true)) := by
  refine ⟨?_, ?_, ?_⟩
  · obtain ⟨pre, rest, a, v, hn, h⟩ := cursor_follows t T hwf hne it hit hb
    subst h
    exact ⟨some a, decr_after t T hwf pre rest a v hn, incr_at t T hwf pre rest a v hn⟩
  · cases T with
    | nil => simp [Shape.nodes] at hne
    | node b c l w r => exact decr_end t b c l w r hwf
  · obtain ⟨pre, n, hn⟩ : ∃ pre n, T.nodes = pre ++ [n] :=
      ⟨T.nodes.dropLast, T.nodes.getLast hne, (List.dropLast_append_getLast hne).symm⟩
    obtain ⟨a, v⟩ := n
    have hd := decr_after t T hwf pre [] a v hn
    have hm : (a, v) ∈ T.nodes := by rw [hn]; simp
    have hl : T.toList = pre.map Prod.snd ++ [v] := by
      rw [Shape.toList_eq_map, hn]
      simp
    refine ⟨some a, v, hd, deref_of_mem hwf hm, by rw [hl]; simp, ?_⟩
    intro hsw hbst x hx
    have hp := Shape.BST.pairwise_toList hsw hbst
    rw [hl] at hp hx
    rw [List.dropLast_concat] at hx
    rw [List.pairwise_append] at hp
    exact hp.2.2 x hx v (by simp)

theorem incr_after_decr_witness :
    (∃ p, exampleTree.decr exampleTree.end_ = some p ∧
        exampleTree.incr p = some exampleTree.end_) ∧
      exampleTree.decr exampleTree.end_ = some (cursorLast exampleShape.nodes) ∧
      (∃ p y, exampleTree.decr exampleTree.end_ = some p ∧ exampleTree.deref p = some y ∧
        exampleShape.toList.getLast? = some y ∧
        (StrictWeak exampleTree._comp → exampleShape.BST exampleTree._comp →
          ∀ x ∈ exampleShape.toList.dropLast, exampleTree._comp x y = true)) :=
  incr_after_decr exampleTree exampleShape wf_example (by simp [exampleShape, Shape.nodes])
    exampleTree.end_ (Or.inl rfl) (by decide)

/-- In a picture with no red node under a red node and equal black height `n`, the longest
path holds at most `2 * n` nodes under a black top and `2 * n + 1` under a red top. -/
theorem Shape.height_le_blackHeight (s : Shape α) :
    ∀ n, s.noRedRed = true → s.blackHeight = some n →
      s.height ≤ 2 * n + (if s.isRed then 1 else 0) := by
  induction s with
  | nil =>
    intro n _ _
    simp [Shape.height]
  | node a c l v r ihl ihr =>
    intro n hrr hbh
    simp only [Shape.noRedRed, Bool.and_eq_true, Bool.or_eq_true, Bool.not_eq_true'] at hrr
    obtain ⟨⟨hc, hl⟩, hr⟩ := hrr
    simp only [Shape.blackHeight] at hbh
    cases hbl : l.blackHeight with
    | none => simp [hbl] at hbh
    | some nl =>
      cases hbr : r.blackHeight with
      | none => simp [hbl, hbr] at hbh
      | some nr =>
        simp only [hbl, hbr] at hbh
        by_cases hnm : nl = nr
        · subst hnm
          simp only [if_true, Option.some.injEq] at hbh
          have h1 := ihl nl hl hbl
          have h2 := ihr nl hr hbr
          simp only [Shape.height, Shape.isRed]
          cases c with
          | true =>
            simp only [if_true] at hbh ⊢
            subst hbh
            rcases hc with hc | ⟨hcl, hcr⟩
            · exact absurd hc (by decide)
            · simp only [hcl, hcr, Bool.false_eq_true, if_false] at h1 h2
              omega
          | false =>
            simp only [Bool.false_eq_true, if_false] at hbh ⊢
            subst hbh
            have h1' : l.height ≤ 2 * nl + 1 := by
              refine le_trans h1 ?_
              split <;> omega
            have h2' : r.height ≤ 2 * nl + 1 := by
              refine le_trans h2 ?_
              split <;> omega
            omega
        · simp [hnm] at hbh

/-- A picture with equal black height `n` holds at least `2 ^ n - 1` nodes. -/
theorem Shape.two_pow_blackHeight_le (s : Shape α) :
    ∀ n, s.blackHeight = some n → 2 ^ n ≤ s.count + 1 := by
  induction s with
  | nil =>
    intro n hbh
    simp only [Shape.blackHeight, Option.some.injEq] at hbh
    subst hbh
    simp [Shape.count]
  | node a c l v r ihl ihr =>
    intro n hbh
    simp only [Shape.blackHeight] at hbh
    cases hbl : l.blackHeight with
    | none => simp [hbl] at hbh
    | some nl =>
      cases hbr : r.blackHeight with
      | none => simp [hbl, hbr] at hbh
      | some nr =>
        simp only [hbl, hbr] at hbh
        by_cases hnm : nl = nr
        · subst hnm
          simp only [if_true, Option.some.injEq] at hbh
          have h1 := ihl nl hbl
          have h2 := ihr nl hbr
          have hn : n ≤ nl + 1 := by
            rw [← hbh]
            split <;> omega
          have hp : 2 ^ n ≤ 2 ^ (nl + 1) := Nat.pow_le_pow_right (by decide) hn
          rw [Nat.pow_succ] at hp
          simp only [Shape.count]
          omega
        · simp [hnm] at hbh

/-- Height bound of a picture that satisfies the colour invariants. -/
theorem Shape.height_bound (s : Shape α) (h : s.isRB = true) :
    2 ^ s.height ≤ (s.count + 1) ^ 2 := by
  simp only [Shape.isRB, Bool.and_eq_true, Bool.not_eq_true', Option.isSome_iff_exists] at h
  obtain ⟨⟨hblack, hrr⟩, n, hbh⟩ := h
  have h1 := s.height_le_blackHeight n hrr hbh
  simp only [hblack, Bool.false_eq_true, if_false, Nat.add_zero] at h1
  have h2 := s.two_pow_blackHeight_le n hbh
  calc 2 ^ s.height ≤ 2 ^ (2 * n) := Nat.pow_le_pow_right (by decide) h1
    _ = (2 ^ n) ^ 2 := by rw [Nat.mul_comm, Nat.pow_mul]
    _ ≤ (s.count + 1) ^ 2 := Nat.pow_le_pow_left h2 2

/-- Effect of `insert` on a tree with consistent links, BST ordering and the colour
invariants: all three hold again. -/
theorem insert_step_rb (t : RBTree α) (T : Shape α) (v : α) (hwf : WF t T)
    (hsw : StrictWeak t._comp) (hbst : T.BST t._comp) (hrb : T.isRB = true) :
    ∃ (t' : RBTree α) (c : Option Nat) (b : Bool) (T' : Shape α),
      t.insert v = some (t', c, b) ∧ WF t' T' ∧ T'.BST t._comp ∧ T'.isRB = true ∧
      t'._comp = t._comp ∧
      (t._size = T.toList.length → t'._size = T'.toList.length) := by
  have hblack : T.isRed = false := by
    simp only [Shape.isRB, Bool.and_eq_true, Bool.not_eq_true'] at hrb
    exact hrb.1.1
  obtain ⟨t', c, b, T', hins, hwf', hbst', -, hc, -, -, -, hsz, -⟩ :=
    insert_step t T v hwf hsw hbst hblack
  refine ⟨t', c, b, T', hins, hwf', hbst', ?_, hc, hsz⟩
  by_cases hex : ∃ e ∈ T.toList, equiv t._comp e v = true
  · obtain ⟨e, hmem, he⟩ := hex
    obtain ⟨a, hm⟩ := Shape.mem_nodes_of_mem_toList hmem
    obtain ⟨t2, hins2, hh, hr, hend, -, -, hf⟩ :=
      insert_existing_master t T v hwf hsw hbst a e hm he
    rw [hins] at hins2
    simp only [Option.some.injEq, Prod.mk.injEq] at hins2
    obtain ⟨rfl, -⟩ := hins2
    have hwf2 : WF t' T := wf_of_same_heap hwf hh hr hend (by omega)
    have := hwf'.shape_eq.symm.trans hwf2.shape_eq
    simp only [Option.some.injEq] at this
    rw [this]
    exact hrb
  · have hnew : ∀ e ∈ T.toList, equiv t._comp e v = false := by
      intro e he
      by_contra h
      exact hex ⟨e, he, by simpa using h⟩
    obtain ⟨ctx, t2, hp, hins2, hwf2, -⟩ := insert_new_master t T v hwf hsw hbst hblack hnew
    rw [hins] at hins2
    simp only [Option.some.injEq, Prod.mk.injEq] at hins2
    obtain ⟨rfl, -⟩ := hins2
    have := hwf'.shape_eq.symm.trans hwf2.shape_eq
    simp only [Option.some.injEq] at this
    rw [this]
    exact insert_fix_isRB ctx t.fresh v (by rw [hp]; exact hrb)

/-- Effect of a sequence of `insert` calls on a tree with consistent links, BST ordering and
the colour invariants. -/
theorem insert_range_rb (comp : α → α → Bool) (hsw : StrictWeak comp) :
    ∀ (l : List α) (t : RBTree α) (T : Shape α), WF t T → t._comp = comp → T.BST comp →
      T.isRB = true → t._size = T.toList.length →
      ∃ (t' : RBTree α) (T' : Shape α), t.insert_range l = some t' ∧ WF t' T' ∧
        T'.isRB = true ∧ t'._size = T'.toList.length := by
  intro l
  induction l with
  | nil =>
    intro t T hwf _ _ hrb hsz
    exact ⟨t, T, rfl, hwf, hrb, hsz⟩
  | cons v vs ih =>
    intro t T hwf hc hbst hrb hsz
    subst hc
    obtain ⟨t1, c, b, T1, hins, hwf1, hbst1, hrb1, hc1, hsz1⟩ :=
      insert_step_rb t T v hwf hsw hbst hrb
    obtain ⟨t', T', hrun, hwf', hrb', hsz'⟩ := ih t1 T1 hwf1 hc1 hbst1 hrb1 (hsz1 hsz)
    refine ⟨t', T', ?_, hwf', hrb', hsz'⟩
    simp only [RBTree.insert_range, hins]
    exact hrun

/-- C38: for a comparator that is a strict weak ordering and every list `l` of values, the
sequence of `insert` calls over `l` on an empty tree returns and leaves a tree whose picture
read off the heap satisfies the colour invariants (black root, no red node with a red child,
equal black height on all paths), whose `size()` is its number of nodes, and whose height
`h` (nodes on the longest path from the root down) satisfies `2 ^ h ≤ (size() + 1) ^ 2`. -/
theorem insert_only_height_bound (comp : α → α → Bool) (hsw : StrictWeak comp) (l : List α) :
    ∃ (t : RBTree α) (T : Shape α), (RBTree.empty comp).insert_range l = some t ∧
      t.shape = some T ∧ T.isRB = true ∧ t.size = T.count ∧
      2 ^ T.height ≤ (t.size + 1) ^ 2 := by
  obtain ⟨t, T, hrun, hwf, hrb, hsz⟩ :=
    insert_range_rb comp hsw l (RBTree.empty comp) .nil (wf_empty comp) rfl trivial rfl rfl
  have hsize : t.size = T.count := by
    show t._size = _
    rw [hsz, Shape.count_eq_nodes_length, Shape.toList_eq_map, List.length_map]
  refine ⟨t, T, hrun, hwf.shape_eq, hrb, hsize, ?_⟩
  rw [hsize]
  exact T.height_bound hrb

theorem insert_only_height_bound_witness :
    ∃ (t : RBTree Nat) (T : Shape Nat),
      (RBTree.empty natLess).insert_range [1, 2, 3, 4, 5, 6, 7, 8] = some t ∧
      t.shape = some T ∧ T.isRB = true ∧ t.size = T.count ∧
      2 ^ T.height ≤ (t.size + 1) ^ 2 :=
  insert_only_height_bound natLess strictWeak_natLess [1, 2, 3, 4, 5, 6, 7, 8]

set_option maxRecDepth 100000 in
/-- C37 (failing input): on the tree built by inserting 1, 2, 3 (root 2, attached to the
sentinel as `erase` leaves it when it calls `_balance`), `_rotateLeft(_root)` returns with
`_root` still designating the node of 2, from which only 1, 2 are reachable, and
`_rotateRight(_root)` likewise leaves 2, 3 reachable from the unchanged `_root`; when the
root's parent link is cleared first (as `insert` does), both rotations keep the sequence
1, 2, 3 and move `_root` to the node of 3, respectively 1. -/
theorem rotate_attached_root_keeps_stale_root :
    ((RBTree.build [1, 2, 3] []).bind (fun t => (t._rotateLeft t._root).bind (fun t1 =>
        t.inorder.bind (fun before => t1.inorder.map (fun after =>
          (before, t.deref t._root, after, t1.deref t1._root))))) =
        some ([1, 2, 3], some 2, [1, 2], some 2)) ∧
      ((RBTree.build [1, 2, 3] []).bind (fun t => (t._rotateRight t._root).bind (fun t1 =>
        t.inorder.bind (fun before => t1.inorder.map (fun after =>
          (before, t.deref t._root, after, t1.deref t1._root))))) =
        some ([1, 2, 3], some 2, [2, 3], some 2)) ∧
      ((RBTree.build [1, 2, 3] []).bind (fun t0 =>
        (t0.write t0._root (fun c => { c with parent := none })).bind (fun t =>
          (t._rotateLeft t._root).bind (fun t1 =>
            t.inorder.bind (fun before => t1.inorder.map (fun after =>
              (before, t.deref t._root, after, t1.deref t1._root)))))) =
        some ([1, 2, 3], some 2, [1, 2, 3], some 3)) ∧
      ((RBTree.build [1, 2, 3] []).bind (fun t0 =>
        (t0.write t0._root (fun c => { c with parent := none })).bind (fun t =>
          (t._rotateRight t._root).bind (fun t1 =>
            t.inorder.bind (fun before => t1.inorder.map (fun after =>
              (before, t.deref t._root, after, t1.deref t1._root)))))) =
        some ([1, 2, 3], some 2, [1, 2, 3], some 1)) :=
  ⟨by decide, by decide, by decide, by decide⟩

set_option maxRecDepth 100000 in
/-- C32 (failing input): the list `a` holds 7, 3 and `src` is a freshly constructed empty
list; after `a.splice(a.end(), src)` the traversal of `a` visits 7, 3, 0 and `a.size()` is
3 (the sentinel of `src`, which holds `T()`, has become an element of `a`), while `src` is
not empty: `src.empty()` is false and `src.size()` is 3. With a source that holds one
element the same call leaves the target with one element more and the source empty. -/
theorem splice_empty_source_links_sentinel :
    (list.toList (list._createEndNode exampleList).1 0 = some [7, 3] ∧
      list.size (list._createEndNode exampleList).1 0 = some 2 ∧
      list.toList (list._createEndNode exampleList).1 3 = some [] ∧
      list.size (list._createEndNode exampleList).1 3 = some 0 ∧
      list.empty_ (list._createEndNode exampleList).1 3 = some true) ∧
    ((list.splice_all (list._createEndNode exampleList).1 (list.end_ 0) 3).bind
          (fun m => list.toList m 0) = some [7, 3, 0] ∧
      (list.splice_all (list._createEndNode exampleList).1 (list.end_ 0) 3).bind
          (fun m => list.size m 0) = some 3 ∧
      (list.splice_all (list._createEndNode exampleList).1 (list.end_ 0) 3).bind
          (fun m => list.toList m 3) = some [0, 7, 3] ∧
      (list.splice_all (list._createEndNode exampleList).1 (list.end_ 0) 3).bind
          (fun m => list.size m 3) = some 3 ∧
      (list.splice_all (list._createEndNode exampleList).1 (list.end_ 0) 3).bind
          (fun m => list.empty_ m 3) = some false) ∧
    ((list.splice_all twoLists (list.end_ 0) 3).bind (fun m => list.toList m 0) =
        some [3, 7, 5] ∧
      (list.splice_all twoLists (list.end_ 0) 3).bind (fun m => list.size m 0) = some 3 ∧
      (list.splice_all twoLists (list.end_ 0) 3).bind (fun m => list.toList m 3) = some [] ∧
      (list.splice_all twoLists (list.end_ 0) 3).bind (fun m => list.size m 3) = some 0 ∧
      (list.splice_all twoLists (list.end_ 0) 3).bind (fun m => list.empty_ m 3) =
        some true) :=
  ⟨⟨by decide, by decide, by decide, by decide, by decide⟩,
    ⟨by decide, by decide, by decide, by decide, by decide⟩,
    ⟨by decide, by decide, by decide, by decide, by decide⟩⟩

/-- The merge keeps, for every class of equivalent values, the nodes of the first list in
their order, followed by the nodes of the second list in their order. -/
theorem merge_filter_class {comp : α → α → Bool} (hsw : StrictWeak comp) (x : α) :
    ∀ (xs ys : List (Nat × α)), xs.Pairwise (fun p q => comp q.2 p.2 = false) →
      (List.merge xs ys (notAfter comp)).filter (fun p => equiv comp p.2 x) =
        xs.filter (fun p => equiv comp p.2 x) ++ ys.filter (fun p => equiv comp p.2 x) := by
  intro xs
  induction xs with
  | nil =>
    intro ys _
    simp [List.nil_merge]
  | cons a xs ihx =>
    intro ys
    induction ys with
    | nil =>
      intro _
      simp [List.merge_right]
    | cons b ys ihy =>
      intro hs
      rw [List.cons_merge_cons]
      by_cases hab : notAfter comp a b = true
      · rw [if_pos hab]
        have ih := ihx (b :: ys) (List.pairwise_cons.1 hs).2
        simp only [List.filter_cons, ih]
        split <;> simp
      · rw [if_neg hab]
        have ih := ihy hs
        have hba : comp b.2 a.2 = true := by
          simpa [notAfter] using hab
        by_cases hbx : equiv comp b.2 x = true
        · have hbx' : (fun p : Nat × α => equiv comp p.2 x) b = true := hbx
          have hnone : (a :: xs).filter (fun p => equiv comp p.2 x) = [] := by
            rw [List.filter_eq_nil_iff]
            intro p hp hpx
            have hbp : equiv comp b.2 p.2 = true := hsw.equiv_trans _ _ _ hbx (equiv_symm hpx)
            have hpa : comp p.2 a.2 = false := by
              rcases List.mem_cons.1 hp with h | h
              · rw [h]; exact hsw.irrefl _
              · exact (List.pairwise_cons.1 hs).1 p h
            have hlt : comp b.2 p.2 = true := by
              cases hap : comp a.2 p.2 with
              | true => exact hsw.trans _ _ _ hba hap
              | false =>
                have hequiv : equiv comp a.2 p.2 = true := by simp [equiv, hap, hpa]
                exact hsw.lt_of_lt_equiv hba hequiv
            rw [equiv_false_of_lt hlt] at hbp
            cases hbp
          rw [@List.filter_cons_of_pos _ (fun p : Nat × α => equiv comp p.2 x) b _ hbx',
            @List.filter_cons_of_pos _ (fun p : Nat × α => equiv comp p.2 x) b _ hbx', ih, hnone]
          rfl
        · have hbx' : ¬ ((fun p : Nat × α => equiv comp p.2 x) b = true) := hbx
          rw [@List.filter_cons_of_neg _ (fun p : Nat × α => equiv comp p.2 x) b _ hbx',
            @List.filter_cons_of_neg _ (fun p : Nat × α => equiv comp p.2 x) b _ hbx', ih]

/-- The two lists of `twoLists`. -/
theorem isList_twoLists :
    IsList twoLists 0 [(1, 3), (2, 7)] ∧ IsList twoLists 3 [(4, 5)] ∧ twoLists.Bounded := by
  refine ⟨⟨⟨0, rfl⟩, ⟨rfl, rfl, trivial⟩, by decide⟩, ⟨⟨0, rfl⟩, ⟨rfl, trivial⟩, by decide⟩, ?_⟩
  intro a ha
  have h0 : a ≠ 0 := by simp only [twoLists] at ha; omega
  have h1 : a ≠ 1 := by simp only [twoLists] at ha; omega
  have h2 : a ≠ 2 := by simp only [twoLists] at ha; omega
  have h3 : a ≠ 3 := by simp only [twoLists] at ha; omega
  have h4 : a ≠ 4 := by simp only [twoLists] at ha; omega
  simp [twoLists, lstore, h0, h1, h2, h3, h4]

/-- C31: for a comparison that is a strict weak ordering and two list objects in one memory
that share no cell and hold the nodes `xs` and `ys`, each sorted under `comp` (no node's
value goes before the value of an earlier node), `merge(src, comp)` returns; afterwards the
first list holds the sequence `R` of the same nodes, which is sorted under `comp`, is a
rearrangement of `xs` followed by `ys`, and lists, for every class of equivalent values, the
nodes of `xs` in their order before the nodes of `ys` in their order; the second list is
empty; the traversals visit the values of `R` and nothing, and no other cell is changed. -/
theorem merge_is_stable_merge (comp : α → α → Bool) (hsw : StrictWeak comp) (m : ListMem α)
    (e e2 : Nat) (xs ys : List (Nat × α)) (hl1 : IsList m e xs) (hl2 : IsList m e2 ys)
    (hnd : (e2 :: e :: (xs ++ ys).map Prod.fst).Nodup) (hb : m.Bounded)
    (hs1 : xs.Pairwise (fun p q => comp q.2 p.2 = false))
    (hs2 : ys.Pairwise (fun p q => comp q.2 p.2 = false)) :
    ∃ (m' : ListMem α) (R : List (Nat × α)), list.merge comp m e e2 = some m' ∧
      IsList m' e R ∧ IsList m' e2 [] ∧
      list.toList m' e = some (R.map Prod.snd) ∧ list.toList m' e2 = some [] ∧
      R = List.merge xs ys (notAfter comp) ∧
      R.Pairwise (fun p q => comp q.2 p.2 = false) ∧ R.Perm (xs ++ ys) ∧
      (∀ x : α, R.filter (fun p => equiv comp p.2 x) =
        xs.filter (fun p => equiv comp p.2 x) ++ ys.filter (fun p => equiv comp p.2 x)) ∧
      (∀ b, b ∉ e2 :: e :: (xs ++ ys).map Prod.fst → m'.heap b = m.heap b) := by
  obtain ⟨m', hrun, hfr, hl1', hl2', hfm⟩ := merge_spec comp hl1 hl2 hnd hb
  have hb' : m'.Bounded := ListMem.bounded_of hb (le_of_eq hfr.symm) (fun b hb2 => hfm b (fun h => by
    have hlt : b < m.fresh := by
      rcases List.mem_cons.1 h with h | h
      · subst h
        exact hl2.below_fresh hb (List.mem_cons_self _ _)
      · rcases List.mem_cons.1 h with h | h
        · subst h
          exact hl1.below_fresh hb (List.mem_cons_self _ _)
        · rw [List.map_append, List.mem_append] at h
          rcases h with h | h
          · exact hl1.below_fresh hb (List.mem_cons_of_mem _ h)
          · exact hl2.below_fresh hb (List.mem_cons_of_mem _ h)
    omega))
  refine ⟨m', _, hrun, hl1', hl2', list_toList_spec hl1' hb', list_toList_spec hl2' hb', rfl,
    ?_, List.merge_perm_append (notAfter comp), fun x => merge_filter_class hsw x xs ys hs1, hfm⟩
  have h1 : xs.Pairwise (fun p q => notAfter comp p q = true) :=
    hs1.imp (fun h => by simpa [notAfter] using h)
  have h2 : ys.Pairwise (fun p q => notAfter comp p q = true) :=
    hs2.imp (fun h => by simpa [notAfter] using h)
  have := @List.sorted_merge _ (notAfter comp) (notAfter_trans hsw) (notAfter_total hsw)
    xs ys h1 h2
  refine this.imp ?_
  intro a b h
  simpa [notAfter] using h

theorem merge_is_stable_merge_witness :
    ∃ (m' : ListMem Nat) (R : List (Nat × Nat)), list.merge natLess twoLists 0 3 = some m' ∧
      IsList m' 0 R ∧ IsList m' 3 [] ∧
      list.toList m' 0 = some (R.map Prod.snd) ∧ list.toList m' 3 = some [] ∧
      R = List.merge [(1, 3), (2, 7)] [(4, 5)] (notAfter natLess) ∧
      R.Pairwise (fun p q => natLess q.2 p.2 = false) ∧ R.Perm ([(1, 3), (2, 7)] ++ [(4, 5)]) ∧
      (∀ x : Nat, R.filter (fun p => equiv natLess p.2 x) =
        [(1, 3), (2, 7)].filter (fun p => equiv natLess p.2 x) ++
          [(4, 5)].filter (fun p => equiv natLess p.2 x)) ∧
      (∀ b, b ∉ 3 :: 0 :: ([(1, 3), (2, 7)] ++ [(4, 5)]).map Prod.fst →
        m'.heap b = twoLists.heap b) :=
  merge_is_stable_merge natLess strictWeak_natLess twoLists 0 3 [(1, 3), (2, 7)] [(4, 5)]
    isList_twoLists.1 isList_twoLists.2.1 (by decide) isList_twoLists.2.2 (by decide)
    (by decide)

theorem lt_length_of_getElem? {β : Type} {l : List β} {j : Nat} {c : β}
    (h : l[j]? = some c) : j < l.length := by
  by_contra hn
  rw [List.getElem?_eq_none (by omega)] at h
  cases h

theorem vector.index_at (v : vector α) (p : Int) (j : Nat)
    (hp : p = (v._data : Int) + (j : Int)) (hj : j < v.cells.length) : v.index p = some j := by
  subst hp
  unfold vector.index
  rw [if_pos ⟨by omega, by omega⟩]
  simp

theorem vector.deref_at (v : vector α) (p : Int) (j : Nat) (x : α)
    (hp : p = (v._data : Int) + (j : Int)) (hc : v.cells[j]? = some (some x)) :
    v.deref p = some x := by
  simp only [vector.deref, v.index_at p j hp (lt_length_of_getElem? hc), hc]

theorem vector.assign_at (v : vector α) (p : Int) (j : Nat) (x : α)
    (hp : p = (v._data : Int) + (j : Int)) (hj : j < v.cells.length) :
    v.assign p x = some { v with cells := v.cells.set j (some x) } := by
  simp only [vector.assign, v.index_at p j hp hj]

theorem vector.destroy_at (v : vector α) (p : Int) (j : Nat) (x : α)
    (hp : p = (v._data : Int) + (j : Int)) (hc : v.cells[j]? = some (some x)) :
    v.destroy p = some { v with cells := v.cells.set j none } := by
  simp only [vector.destroy, v.index_at p j hp (lt_length_of_getElem? hc), hc]

theorem vector.Holds.cell {v : vector α} {xs : List α} (h : v.Holds xs) {j : Nat}
    (hj : j < xs.length) : v.cells[j]? = some (some xs[j]) := by
  rw [h.elems j hj, List.getElem?_eq_getElem hj]

theorem vector.Holds.subscript_eq {v : vector α} {xs : List α} (h : v.Holds xs) {j : Nat}
    (hj : j < xs.length) : v.subscript j = xs[j]? := by
  rw [List.getElem?_eq_getElem hj]
  exact v.deref_at _ j _ rfl (h.cell hj)

/-- The `for` loop of `_realloc` fills the first cells of the new block with the members of
the sequence. -/
theorem vector.realloc_loop_spec (xs : List α) (N : Nat) :
    ∀ (d i fuel : Nat) (w : vector α) (new : List (Option α)), i + d = xs.length → d < fuel →
      w._size = xs.length → (∀ j, i ≤ j → j < xs.length → w.cells[j]? = some xs[j]?) →
      new.length = N → xs.length ≤ N → (∀ j, j < i → new[j]? = some xs[j]?) →
      ∃ new', vector._realloc_loop fuel w new i = some new' ∧ new'.length = N ∧
        ∀ j, j < xs.length → new'[j]? = some xs[j]? := by
  intro d
  induction d with
  | zero =>
    intro i fuel w new hi hf hsz _ hlen _ hnew
    obtain ⟨f, rfl⟩ : ∃ f, fuel = f + 1 := ⟨fuel - 1, by omega⟩
    have : ¬ (i < w._size) := by omega
    simp only [vector._realloc_loop, this, if_false]
    exact ⟨new, rfl, hlen, fun j hj => hnew j (by omega)⟩
  | succ d ih =>
    intro i fuel w new hi hf hsz hold hlen hN hnew
    obtain ⟨f, rfl⟩ : ∃ f, fuel = f + 1 := ⟨fuel - 1, by omega⟩
    have hlt : i < xs.length := by omega
    have hc : w.cells[i]? = some (some xs[i]) := by
      rw [hold i (le_refl _) hlt, List.getElem?_eq_getElem hlt]
    have h1 : i < w._size := by omega
    have h2 : i < new.length := by omega
    simp only [vector._realloc_loop, h1, if_true, w.deref_at _ i _ rfl hc, h2,
      w.destroy_at _ i _ rfl hc]
    refine ih (i + 1) f { w with cells := w.cells.set i none } (new.set i (some xs[i]))
      (by omega) (by omega) hsz ?_ ?_ hN ?_
    · intro j hj1 hj2
      show (w.cells.set i none)[j]? = _
      rw [List.getElem?_set_ne (by omega)]
      exact hold j (by omega) hj2
    · rw [List.length_set]; exact hlen
    · intro j hj
      by_cases hji : j = i
      · subst hji
        rw [List.getElem?_set_self h2, List.getElem?_eq_getElem hlt]
      · rw [List.getElem?_set_ne (fun h => hji h.symm)]
        exact hnew j (by omega)

/-- Effect of `_realloc(n)` with `n` above the capacity and within `max_size()`. -/
theorem vector.realloc_spec {v : vector α} {xs : List α} (h : v.Holds xs) (n : Nat)
    (hn : v._capacity < n) (hm : n ≤ v._alloc.max_size) :
    ∃ v', v._realloc n = some (v', true) ∧ v'.Holds xs ∧ v'._capacity = n ∧
      v'._alloc.max_size = v._alloc.max_size := by
  obtain ⟨new', hrun, hlen, hel⟩ := vector.realloc_loop_spec xs n xs.length 0 (v._size + 1) v
    (List.replicate n none) (by omega) (by have := h.size; omega) h.size
    (fun j _ hj => h.elems j hj) (List.length_replicate _ _)
    (by have := h.size; have := h.le; omega) (fun j hj => absurd hj (by omega))
  have h1 : ¬ (n ≤ v._capacity) := by omega
  have h2 : ¬ (n > v._alloc.max_size) := by omega
  simp only [vector._realloc, h1, if_false, allocator.allocate, h2, hrun]
  refine ⟨_, rfl, ⟨h.size, hlen, ?_, hel⟩, rfl, rfl⟩
  show v._size ≤ n
  have := h.le
  omega

/-- The `for` loop of `insert(position, val)` moves the cells from index `i` to index
`k - 1` one place up, starting from a block in which those above `k` were moved already. -/
theorem vector.insert_loop_spec (orig : List (Option α)) (D i n : Nat)
    (hcon : ∀ j, j < n → ∃ x, orig[j]? = some (some x)) :
    ∀ (d k fuel : Nat) (w : vector α), k = i + d → k ≤ n → d < fuel → w._data = D →
      n < w.cells.length →
      (∀ j, w.cells[j]? = if k < j ∧ j ≤ n then orig[j - 1]? else orig[j]?) →
      ∃ cs, vector.insert_loop ((D : Int) + (i : Int)) fuel w ((D : Int) + (k : Int) - 1) =
          some { w with cells := cs } ∧ cs.length = w.cells.length ∧
        (∀ j, cs[j]? = if i < j ∧ j ≤ n then orig[j - 1]? else orig[j]?) := by
  intro d
  induction d with
  | zero =>
    intro k fuel w hk _ hf _ _ hinv
    obtain ⟨f, rfl⟩ : ∃ f, fuel = f + 1 := ⟨fuel - 1, by omega⟩
    have hk' : k = i := by omega
    subst hk'
    have hgt : (D : Int) + (k : Int) > (D : Int) + (k : Int) - 1 := by omega
    simp only [vector.insert_loop, hgt, not_true_eq_false, if_false]
    exact ⟨w.cells, rfl, rfl, hinv⟩
  | succ d ih =>
    intro k fuel w hk hkn hf hD hlen hinv
    obtain ⟨f, rfl⟩ : ∃ f, fuel = f + 1 := ⟨fuel - 1, by omega⟩
    have hgt : ¬ ((D : Int) + (i : Int) > (D : Int) + (k : Int) - 1) := by omega
    obtain ⟨x, hx⟩ := hcon (k - 1) (by omega)
    have hc : w.cells[k - 1]? = some (some x) := by
      rw [hinv (k - 1), if_neg (by omega)]
      exact hx
    have hd := w.deref_at ((D : Int) + (k : Int) - 1) (k - 1) x (by rw [hD]; omega) hc
    have ha := w.assign_at ((D : Int) + (k : Int) - 1 + 1) k x (by rw [hD]; omega) (by omega)
    simp only [vector.insert_loop, hgt, not_false_eq_true, if_true, hd, ha]
    have hit : (D : Int) + (k : Int) - 1 - 1 = (D : Int) + ((k - 1 : Nat) : Int) - 1 := by omega
    rw [hit]
    obtain ⟨cs, hrun, hl, hcs⟩ := ih (k - 1) f { w with cells := w.cells.set k (some x) }
      (by omega) (by omega) (by omega) hD (by
        show n < (w.cells.set k (some x)).length
        rw [List.length_set]; exact hlen) (by
        intro j
        show (w.cells.set k (some x))[j]? = _
        by_cases hjk : j = k
        · subst hjk
          rw [List.getElem?_set_self (by omega), if_pos ⟨by omega, hkn⟩]
          exact hx.symm
        · rw [List.getElem?_set_ne (fun h => hjk h.symm), hinv j]
          by_cases hc1 : k < j ∧ j ≤ n
          · rw [if_pos hc1, if_pos ⟨by omega, hc1.2⟩]
          · rw [if_neg hc1, if_neg (by omega)])
    refine ⟨cs, hrun, ?_, hcs⟩
    rw [hl]
    show (w.cells.set k (some x)).length = _
    rw [List.length_set]

theorem getElem?_insert_at (x : α) :
    ∀ (i : Nat) (xs : List α) (j : Nat), i ≤ xs.length →
      (xs.take i ++ x :: xs.drop i)[j]? =
        if j < i then xs[j]? else if j = i then some x else xs[j - 1]? := by
  intro i
  induction i with
  | zero =>
    intro xs j _
    cases j with
    | zero => simp
    | succ j => simp
  | succ i ih =>
    intro xs j hi
    cases xs with
    | nil => simp at hi
    | cons a t =>
      cases j with
      | zero => simp
      | succ j =>
        have := ih t j (by simpa using hi)
        simp only [List.take_succ_cons, List.drop_succ_cons, List.cons_append,
          List.getElem?_cons_succ, this, Nat.add_lt_add_iff_right, Nat.add_right_cancel_iff,
          Nat.add_sub_cancel]
        by_cases h1 : j < i
        · simp [h1]
        · by_cases h2 : j = i
          · simp [h2]
          · simp only [h1, h2, if_false]
            obtain ⟨j', rfl⟩ : ∃ j', j = j' + 1 := ⟨j - 1, by omega⟩
            simp

/-- Effect of `insert(begin() + i, x)` on a vector that holds `xs` and has not reached
`max_size()`, for an argument `x` that is not an element of the vector itself. -/
theorem vector.insert_spec {v : vector α} {xs : List α} (h : v.Holds xs) (i : Nat) (x : α)
    (hi : i ≤ xs.length) (hmax : v._size < v._alloc.max_size)
    (hcap : v._capacity * 2 < sizeMod) :
    ∃ v', v.insert (v.begin_ + (i : Int)) (vector.Ref.outside x) =
        some (v', v'.begin_ + (i : Int)) ∧
      v'.Holds (xs.take i ++ x :: xs.drop i) ∧
      v'._alloc.max_size = v._alloc.max_size ∧
      (v._size + 1 ≤ v._capacity → v'._capacity = v._capacity) := by
  have hsz := h.size
  have hle := h.le
  have hmod : sizeMod = 18446744073709551616 := by decide
  -- the block after the growth step
  have hgrow : ∃ v1 r, (if (v._size + 1) % sizeMod > v._capacity then
        v._realloc (algorithm.max (algorithm.min (v._capacity * 2 % sizeMod) v.max_size) 1)
      else some (v, false)) = some (v1, r) ∧ v1.Holds xs ∧ xs.length < v1._capacity ∧
      v1._alloc.max_size = v._alloc.max_size ∧
      (v._size + 1 ≤ v._capacity → v1._capacity = v._capacity) := by
    have e1 : (v._size + 1) % sizeMod = v._size + 1 := Nat.mod_eq_of_lt (by omega)
    have e2 : v._capacity * 2 % sizeMod = v._capacity * 2 := Nat.mod_eq_of_lt hcap
    rw [e1, e2]
    by_cases hg : v._size + 1 > v._capacity
    · rw [if_pos hg]
      have hN1 : v._capacity <
          algorithm.max (algorithm.min (v._capacity * 2) v.max_size) 1 := by
        unfold algorithm.max algorithm.min vector.max_size
        split <;> split <;> omega
      have hN2 : algorithm.max (algorithm.min (v._capacity * 2) v.max_size) 1 ≤
          v._alloc.max_size := by
        unfold algorithm.max algorithm.min vector.max_size
        split <;> split <;> omega
      obtain ⟨v1, hrun, hh, hc, hm⟩ := vector.realloc_spec h _ hN1 hN2
      exact ⟨v1, true, hrun, hh, by omega, hm, fun hc' => absurd hc' (by omega)⟩
    · rw [if_neg hg]
      exact ⟨v, false, rfl, h, by omega, rfl, fun _ => rfl⟩
  obtain ⟨v1, r, hrun1, h1, hcap1, hm1, hsame⟩ := hgrow
  have hlen1 : xs.length < v1.cells.length := by rw [h1.block]; exact hcap1
  obtain ⟨cs, hloop, hl, hcs⟩ := vector.insert_loop_spec v1.cells v1._data i xs.length
    (fun j hj => ⟨xs[j], h1.cell hj⟩) (xs.length - i) xs.length (v1._size + 1) v1 (by omega)
    (le_refl _) (by have := h1.size; omega) rfl hlen1 (by
      intro j
      rw [if_neg (by omega)])
  have hpos : v1.begin_ + (v.begin_ + (i : Int) - v.begin_) = (v1._data : Int) + (i : Int) := by
    unfold vector.begin_
    omega
  have hend : v1.end_ - 1 = (v1._data : Int) + (xs.length : Int) - 1 := by
    unfold vector.end_
    rw [h1.size]
  have hassign := vector.assign_at { v1 with cells := cs } ((v1._data : Int) + (i : Int)) i x rfl
    (by show i < cs.length; omega)
  have e3 : (v1._size + 1) % sizeMod = xs.length + 1 := by
    rw [h1.size]
    exact Nat.mod_eq_of_lt (by omega)
  refine ⟨{ v1 with cells := cs.set i (some x), _size := xs.length + 1 }, ?_, ?_, hm1, hsame⟩
  · simp only [vector.insert, hrun1, hpos, hend, hloop, vector.read, hassign, e3]
    rfl
  · refine ⟨?_, ?_, ?_, ?_⟩
    · show xs.length + 1 = _
      simp only [List.length_append, List.length_cons, List.length_take, List.length_drop]
      omega
    · show (cs.set i (some x)).length = v1._capacity
      rw [List.length_set, hl, h1.block]
    · show xs.length + 1 ≤ v1._capacity
      omega
    · intro j _
      show (cs.set i (some x))[j]? = _
      rw [getElem?_insert_at x i xs j hi]
      by_cases hji : j = i
      · subst hji
        rw [List.getElem?_set_self (by omega), if_neg (by omega), if_pos rfl]
      · rw [List.getElem?_set_ne (fun h => hji h.symm), hcs j]
        by_cases hlt : j < i
        · rw [if_neg (by omega), if_pos hlt]
          exact h1.elems j (by omega)
        · rw [if_neg hlt, if_neg hji]
          have hj2 : j < xs.length + 1 := by
            have : j < (xs.take i ++ x :: xs.drop i).length := by assumption
            simp only [List.length_append, List.length_cons, List.length_take,
              List.length_drop] at this
            omega
          rw [if_pos ⟨by omega, by omega⟩]
          exact h1.elems (j - 1) (by omega)

theorem holds_exampleVector : exampleVector.Holds [7, 3] := by
  refine ⟨rfl, rfl, by decide, ?_⟩
  intro i hi
  have hi' : i < 2 := hi
  interval_cases i <;> rfl

theorem holds_exampleVectorSpare : exampleVectorSpare.Holds [7, 3] := by
  refine ⟨rfl, rfl, by decide, ?_⟩
  intro i hi
  have hi' : i < 2 := hi
  interval_cases i <;> rfl

set_option maxRecDepth 100000 in
/-- C33 (failing input): the vector `v` holds 7, 3 in a block of four cells, so that
`v[1]` is 3. `v.insert(v.begin(), v[1])` passes the element `v[1]` by reference and reads it
only after the loop has moved 7 into that cell: the vector then holds 7, 7, 3 instead of
3, 7, 3 (size 3, returned iterator `begin()`). The same call with an object 3 that lives
outside the vector leaves 3, 7, 3. On the vector holding 7, 3 in a full block of two cells
the call with `v[1]` does not return a result at all: `_realloc` has destroyed and
deallocated the block the reference points into before it is read. -/
theorem insert_reads_argument_after_shift :
    (exampleVectorSpare.subscript 1 = some 3 ∧
      (exampleVectorSpare.insert exampleVectorSpare.begin_
          (exampleVectorSpare.subscript_ref 1)).map (fun r => r.1.cells) =
        some [some 7, some 7, some 3, none] ∧
      (exampleVectorSpare.insert exampleVectorSpare.begin_
          (exampleVectorSpare.subscript_ref 1)).map (fun r => r.1.size) = some 3 ∧
      (exampleVectorSpare.insert exampleVectorSpare.begin_
          (exampleVectorSpare.subscript_ref 1)).map (fun r => r.2 - r.1.begin_) = some 0 ∧
      (exampleVectorSpare.insert exampleVectorSpare.begin_
          (exampleVectorSpare.subscript_ref 1)).bind (fun r => r.1.subscript 0) = some 7) ∧
    ((exampleVectorSpare.insert exampleVectorSpare.begin_ (vector.Ref.outside 3)).map
          (fun r => r.1.cells) = some [some 3, some 7, some 3, none]) ∧
    (exampleVector.subscript 1 = some 3 ∧
      (exampleVector.insert exampleVector.begin_ (exampleVector.subscript_ref 1)).map
          (fun r => r.1.cells) = none ∧
      (exampleVector.insert exampleVector.begin_ (vector.Ref.outside 3)).map
          (fun r => r.1.cells) = some [some 3, some 7, some 3, none]) :=
  ⟨⟨by decide, by decide, by decide, by decide, by decide⟩, by decide,
    ⟨by decide, by decide, by decide⟩⟩

/-- C34: on a vector that holds the sequence `xs`, `at(n)` throws `out_of_range` exactly
when `n ≥ size()`, and for `n < size()` it returns the member of `xs` at index `n`; `at`
stores nothing, so the vector is the same afterwards in both cases. -/
theorem at_checks_range (v : vector α) (xs : List α) (n : Nat) (h : v.Holds xs) :
    (v.at_ n = Except.error Thrown.out_of_range ↔ n ≥ v.size) ∧
      (n ≥ v.size → v.at_ n = Except.error Thrown.out_of_range) ∧
      (n < v.size → ∃ x, xs[n]? = some x ∧ v.at_ n = Except.ok (some x)) := by
  have hsz : v._size = xs.length := h.size
  refine ⟨?_, ?_, ?_⟩
  · constructor
    · intro he
      by_contra hn
      simp only [vector.at_, vector.size] at he hn
      rw [if_neg hn] at he
      cases he
    · intro hn
      have hn' : n ≥ v._size := hn
      simp only [vector.at_]
      rw [if_pos hn']
  · intro hn
    have hn' : n ≥ v._size := hn
    simp only [vector.at_]
    rw [if_pos hn']
  · intro hn
    have hn' : n < xs.length := by
      rw [← hsz]; exact hn
    refine ⟨xs[n], List.getElem?_eq_getElem hn', ?_⟩
    simp only [vector.at_]
    rw [if_neg (by simp only [vector.size] at hn; omega), h.subscript_eq hn',
      List.getElem?_eq_getElem hn']

theorem at_checks_range_witness :
    (exampleVector.at_ 1 = Except.error Thrown.out_of_range ↔ 1 ≥ exampleVector.size) ∧
      (1 ≥ exampleVector.size → exampleVector.at_ 1 = Except.error Thrown.out_of_range) ∧
      (1 < exampleVector.size →
        ∃ x, [7, 3][1]? = some x ∧ exampleVector.at_ 1 = Except.ok (some x)) :=
  at_checks_range exampleVector [7, 3] 1 holds_exampleVector

/-- Effect of `push_back(x)` for an argument `x` that is not an element of the vector
itself. -/
theorem vector.push_back_spec {v : vector α} {xs : List α} (h : v.Holds xs) (x : α)
    (hmax : v._size < v._alloc.max_size) (hcap : v._capacity * 2 < sizeMod) :
    ∃ v', v.push_back (vector.Ref.outside x) = some v' ∧ v'.Holds (xs ++ [x]) ∧
      v'._alloc.max_size = v._alloc.max_size := by
  obtain ⟨v', hrun, hh, hm, -⟩ := vector.insert_spec h xs.length x (le_refl _) hmax hcap
  have hend : v.end_ = v.begin_ + (xs.length : Int) := by
    unfold vector.end_ vector.begin_
    rw [h.size]
  rw [List.take_length, List.drop_length] at hh
  refine ⟨v', ?_, hh, hm⟩
  simp only [vector.push_back, hend, hrun]

/-- Value of `back()` on a non-empty vector. -/
theorem vector.back_spec {v : vector α} {xs : List α} {x : α} (h : v.Holds (xs ++ [x]))
    (hlt : v._size < sizeMod) : v.back = some x := by
  have hsz : v._size = xs.length + 1 := by
    rw [h.size]; simp
  have e : (v._size + sizeMod - 1) % sizeMod = xs.length := by
    have : v._size + sizeMod - 1 = xs.length + sizeMod := by omega
    rw [this, Nat.add_mod_right]
    exact Nat.mod_eq_of_lt (by omega)
  unfold vector.back
  rw [e, h.subscript_eq (by simp)]
  simp

/-- Effect of `pop_back()` on a non-empty vector. -/
theorem vector.pop_back_spec {v : vector α} {xs : List α} {x : α} (h : v.Holds (xs ++ [x]))
    (hlt : v._size < sizeMod) :
    ∃ v', v.pop_back = some v' ∧ v'.Holds xs ∧ v'._capacity = v._capacity := by
  have hsz : v._size = xs.length + 1 := by
    rw [h.size]; simp
  have e : (v._size + sizeMod - 1) % sizeMod = xs.length := by
    have : v._size + sizeMod - 1 = xs.length + sizeMod := by omega
    rw [this, Nat.add_mod_right]
    exact Nat.mod_eq_of_lt (by omega)
  have hc : v.cells[xs.length]? = some (some x) := by
    rw [h.elems xs.length (by simp)]
    simp
  have hd := v.destroy_at (v.end_ - 1) xs.length x (by
    unfold vector.end_
    rw [hsz]
    push_cast
    omega) hc
  have hstop : ¬ ((⟨v._alloc, v._capacity, v._size, v._data, v.cells.set xs.length none⟩ :
      vector α).end_ - 1 > v.end_ - 1) := by
    unfold vector.end_
    simp
  refine ⟨{ v with cells := v.cells.set xs.length none, _size := xs.length }, ?_, ?_, rfl⟩
  · simp only [vector.pop_back, vector.erase, hd, vector.erase_loop, hstop, if_false, e]
  · refine ⟨rfl, ?_, ?_, ?_⟩
    · show (v.cells.set xs.length none).length = v._capacity
      rw [List.length_set, h.block]
    · show xs.length ≤ v._capacity
      have := h.le
      omega
    · intro j hj
      show (v.cells.set xs.length none)[j]? = _
      rw [List.getElem?_set_ne (by omega), h.elems j (by simp; omega),
        List.getElem?_append_left hj]

/-- Effect of `push(x)` followed by `pop()` for an argument `x` that is not an element of
the stack itself, on a stack that has not reached `max_size()`. -/
theorem stack.push_pop_spec (s : stack α) (xs : List α) (x : α) (h : s.c.Holds xs)
    (hmax : s.size < s.c.max_size) (hcap : s.c.capacity * 2 < sizeMod) :
    ∃ s1, s.push (vector.Ref.outside x) = some s1 ∧ s1.top = some x ∧
      s1.size = s.size + 1 ∧ s1.c.Holds (xs ++ [x]) ∧
      ∃ s2, s1.pop = some s2 ∧ s2.c.Holds xs ∧ s2.size = s.size := by
  obtain ⟨v1, hpush, h1, -⟩ := vector.push_back_spec h x hmax hcap
  have hsz : s.c._size = xs.length := h.size
  have hsz1 : v1._size = xs.length + 1 := by
    rw [h1.size]; simp
  have hlt : v1._size < sizeMod := by
    have := h.le
    have hcap' : s.c._capacity * 2 < sizeMod := hcap
    have hmod : sizeMod = 18446744073709551616 := by decide
    omega
  obtain ⟨v2, hpop, h2, -⟩ := vector.pop_back_spec h1 hlt
  refine ⟨{ c := v1 }, ?_, vector.back_spec h1 hlt, ?_, h1, { c := v2 }, ?_, h2, ?_⟩
  · simp only [stack.push, hpush]
  · show v1._size = s.c._size + 1
    omega
  · simp only [stack.pop, hpop]
  · show v2._size = s.c._size
    rw [h2.size, hsz]

set_option maxRecDepth 100000 in
/-- C36 (failing input): the stack `s` holds 7, 3 (top 3) in a vector whose block of two
cells is full. `s.push(s.top())` passes the top element by reference; `push_back` calls
`insert(end(), val)`, whose `_realloc` destroys the elements and deallocates the block
before `val` is read, so that the call does not return a result (it reads a destroyed
object in released storage), and `top()` is not 3 with `size()` 3 as after `push` of an
object 3 that lives outside the stack. On a vector with spare capacity the same call
does leave 7, 3, 3. -/
theorem push_of_top_reads_released_block :
    ((stack.mk exampleVector).top = some 3 ∧ (stack.mk exampleVector).size = 2 ∧
      ((stack.mk exampleVector).push (stack.mk exampleVector).top_ref).map
          (fun s => s.c.cells) = none) ∧
    (((stack.mk exampleVector).push (vector.Ref.outside 3)).bind (fun s => s.top) = some 3 ∧
      ((stack.mk exampleVector).push (vector.Ref.outside 3)).map (fun s => s.size) =
        some 3 ∧
      ((stack.mk exampleVector).push (vector.Ref.outside 3)).map (fun s => s.c.cells) =
        some [some 7, some 3, some 3, none]) ∧
    (((stack.mk exampleVectorSpare).push (stack.mk exampleVectorSpare).top_ref).bind
          (fun s => s.top) = some 3 ∧
      ((stack.mk exampleVectorSpare).push (stack.mk exampleVectorSpare).top_ref).map
          (fun s => s.c.cells) = some [some 7, some 3, some 3, none]) :=
  ⟨⟨by decide, by decide, by decide⟩, ⟨by decide, by decide, by decide⟩,
    ⟨by decide, by decide⟩⟩

theorem lexSmaller_nil_left (b : List Int) : lexSmaller [] b ↔ b ≠ [] := by
  constructor
  · rintro (⟨c, hc, hb⟩ | ⟨p, x, s, y, t, ha, -, -⟩)
    · rw [hb]; simpa using hc
    · cases p <;> cases ha
  · intro h
    exact Or.inl ⟨b, h, rfl⟩

theorem lexSmaller_nil_right (a : List Int) : ¬ lexSmaller a [] := by
  rintro (⟨c, hc, hb⟩ | ⟨p, x, s, y, t, -, hb, -⟩)
  · cases a with
    | nil => exact hc (by simpa using hb.symm)
    | cons x a => cases hb
  · cases p <;> cases hb

theorem lexSmaller_cons_cons (x y : Int) (a b : List Int) :
    lexSmaller (x :: a) (y :: b) ↔ x < y ∨ (x = y ∧ lexSmaller a b) := by
  constructor
  · rintro (⟨c, hc, hb⟩ | ⟨p, x0, s, y0, t, ha, hb, hlt⟩)
    · simp only [List.cons_append, List.cons.injEq] at hb
      exact Or.inr ⟨hb.1.symm, Or.inl ⟨c, hc, hb.2⟩⟩
    · cases p with
      | nil =>
        simp only [List.nil_append, List.cons.injEq] at ha hb
        left
        rw [ha.1, hb.1]
        exact hlt
      | cons z p =>
        simp only [List.cons_append, List.cons.injEq] at ha hb
        exact Or.inr ⟨ha.1.trans hb.1.symm, Or.inr ⟨p, x0, s, y0, t, ha.2, hb.2, hlt⟩⟩
  · rintro (h | ⟨rfl, ⟨c, hc, hb⟩ | ⟨p, x0, s, y0, t, ha, hb, hlt⟩⟩)
    · exact Or.inr ⟨[], x, a, y, b, rfl, rfl, h⟩
    · exact Or.inl ⟨c, hc, by rw [hb]; rfl⟩
    · exact Or.inr ⟨x :: p, x0, s, y0, t, by rw [ha]; rfl, by rw [hb]; rfl, hlt⟩

/-- Value of `operator<` in terms of the two sequences. -/
theorem lexLtRest_dropCommon :
    ∀ (a b : List Int), lexLtRest (dropCommon a b) = true ↔ lexSmaller a b := by
  intro a
  induction a with
  | nil =>
    intro b
    cases b with
    | nil => simp [dropCommon, lexLtRest, lexSmaller_nil_left]
    | cons y b => simp [dropCommon, lexLtRest, lexSmaller_nil_left]
  | cons x a ih =>
    intro b
    cases b with
    | nil => simp [dropCommon, lexLtRest, lexSmaller_nil_right]
    | cons y b =>
      rw [lexSmaller_cons_cons]
      by_cases hxy : x = y
      · subst hxy
        simp only [dropCommon, if_true, ih b, lt_self_iff_false, true_and, false_or]
      · simp [dropCommon, hxy, lexLtRest]

/-- Value of `operator==` in terms of the two sequences. -/
theorem bothEmpty_dropCommon :
    ∀ (a b : List Int), bothEmpty (dropCommon a b) = true ↔ a = b := by
  intro a
  induction a with
  | nil =>
    intro b
    cases b with
    | nil => simp [dropCommon, bothEmpty]
    | cons y b => simp [dropCommon, bothEmpty]
  | cons x a ih =>
    intro b
    cases b with
    | nil => simp [dropCommon, bothEmpty]
    | cons y b =>
      by_cases hxy : x = y
      · subst hxy
        simp only [dropCommon, if_true, ih b, List.cons.injEq, true_and]
      · simp [dropCommon, hxy, bothEmpty]

/-- Of `a < b`, `a = b`, `b < a` in the lexicographic order exactly one holds. -/
theorem lexSmaller_trichotomy :
    ∀ (a b : List Int), (lexSmaller a b ∧ a ≠ b ∧ ¬ lexSmaller b a) ∨
      (¬ lexSmaller a b ∧ a = b ∧ ¬ lexSmaller b a) ∨
      (¬ lexSmaller a b ∧ a ≠ b ∧ lexSmaller b a) := by
  intro a
  induction a with
  | nil =>
    intro b
    cases b with
    | nil => simp [lexSmaller_nil_left]
    | cons y b => simp [lexSmaller_nil_left, lexSmaller_nil_right]
  | cons x a ih =>
    intro b
    cases b with
    | nil => simp [lexSmaller_nil_left, lexSmaller_nil_right]
    | cons y b =>
      simp only [lexSmaller_cons_cons, List.cons.injEq, ne_eq]
      rcases lt_trichotomy x y with h | h | h
      · left
        exact ⟨Or.inl h, fun e => by omega, fun e => by omega⟩
      · subst h
        rcases ih b with ⟨h1, h2, h3⟩ | ⟨h1, h2, h3⟩ | ⟨h1, h2, h3⟩
        · left
          exact ⟨Or.inr ⟨rfl, h1⟩, fun e => h2 e.2, fun e => by
            rcases e with e | e
            · omega
            · exact h3 e.2⟩
        · right; left
          exact ⟨fun e => by
            rcases e with e | e
            · omega
            · exact h1 e.2, ⟨rfl, h2⟩, fun e => by
            rcases e with e | e
            · omega
            · exact h3 e.2⟩
        · right; right
          exact ⟨fun e => by
            rcases e with e | e
            · omega
            · exact h1 e.2, fun e => h2 e.2, Or.inr ⟨rfl, h3⟩⟩
      · right; right
        exact ⟨fun e => by omega, fun e => by omega, Or.inl h⟩

/-- The three results of `a < b`, `a == b`, `b < a`, given as the values the operators
return: exactly one is true. -/
theorem results_exactly_one (xs ys : List Int) :
    (lexLtRest (dropCommon xs ys) = true ∧ bothEmpty (dropCommon xs ys) = false ∧
        lexLtRest (dropCommon ys xs) = false) ∨
      (lexLtRest (dropCommon xs ys) = false ∧ bothEmpty (dropCommon xs ys) = true ∧
        lexLtRest (dropCommon ys xs) = false) ∨
      (lexLtRest (dropCommon xs ys) = false ∧ bothEmpty (dropCommon xs ys) = false ∧
        lexLtRest (dropCommon ys xs) = true) := by
  have e1 := lexLtRest_dropCommon xs ys
  have e2 := bothEmpty_dropCommon xs ys
  have e3 := lexLtRest_dropCommon ys xs
  have hf : ∀ (b : Bool) (p : Prop), (b = true ↔ p) → (b = false ↔ ¬ p) := by
    intro b p h
    cases b <;> simp_all
  rw [hf _ _ e1, hf _ _ e2, hf _ _ e3, e1, e2, e3]
  exact lexSmaller_trichotomy xs ys

theorem getElem?_length_append {β : Type} (p : List β) (x : β) (t : List β) :
    (p ++ x :: t)[p.length]? = some x := by
  rw [List.getElem?_append_right (le_refl _), Nat.sub_self, List.getElem?_cons_zero]

/-- The `while` loop of the vector operators stops where the common beginning of the two
sequences ends. -/
theorem vector.compare_loop_spec [DecidableEq α] {a b : vector α} {xs ys : List α}
    (ha : a.Holds xs) (hb : b.Holds ys) :
    ∀ (s1 s2 p1 p2 : List α) (fuel : Nat), xs = p1 ++ s1 → ys = p2 ++ s2 → s1.length < fuel →
      ∃ q1 q2, xs = q1 ++ (dropCommon s1 s2).1 ∧ ys = q2 ++ (dropCommon s1 s2).2 ∧
        vector.compare_loop a b fuel ((a._data : Int) + (p1.length : Int))
            ((b._data : Int) + (p2.length : Int)) =
          some ((a._data : Int) + (q1.length : Int), (b._data : Int) + (q2.length : Int)) := by
  intro s1
  induction s1 with
  | nil =>
    intro s2 p1 p2 fuel h1 h2 hf
    obtain ⟨f, rfl⟩ : ∃ f, fuel = f + 1 := ⟨fuel - 1, by omega⟩
    have hd : dropCommon ([] : List α) s2 = ([], s2) := by
      cases s2 <;> rfl
    have hend : (a._data : Int) + (p1.length : Int) = a.end_ := by
      unfold vector.end_
      rw [ha.size, h1]
      simp
    refine ⟨p1, p2, by rw [hd]; exact h1, by rw [hd]; exact h2, ?_⟩
    simp only [vector.compare_loop, hend, ne_eq, not_true_eq_false, false_and, if_false]
  | cons x t ih =>
    intro s2 p1 p2 fuel h1 h2 hf
    obtain ⟨f, rfl⟩ : ∃ f, fuel = f + 1 := ⟨fuel - 1, by omega⟩
    have hne1 : (a._data : Int) + (p1.length : Int) ≠ a.end_ := by
      unfold vector.end_
      rw [ha.size, h1]
      simp only [List.length_append, List.length_cons]
      push_cast
      omega
    cases s2 with
    | nil =>
      have hend : (b._data : Int) + (p2.length : Int) = b.end_ := by
        unfold vector.end_
        rw [hb.size, h2]
        simp
      refine ⟨p1, p2, h1, h2, ?_⟩
      simp only [vector.compare_loop, hend, ne_eq, not_true_eq_false, and_false, if_false]
    | cons y u =>
      have hne2 : (b._data : Int) + (p2.length : Int) ≠ b.end_ := by
        unfold vector.end_
        rw [hb.size, h2]
        simp only [List.length_append, List.length_cons]
        push_cast
        omega
      have hc1 : a.cells[p1.length]? = some (some x) := by
        rw [ha.elems p1.length (by rw [h1]; simp), h1, getElem?_length_append]
      have hc2 : b.cells[p2.length]? = some (some y) := by
        rw [hb.elems p2.length (by rw [h2]; simp), h2, getElem?_length_append]
      have hd1 := a.deref_at _ p1.length x rfl hc1
      have hd2 := b.deref_at _ p2.length y rfl hc2
      by_cases hxy : x = y
      · subst hxy
        obtain ⟨q1, q2, e1, e2, hrun⟩ := ih u (p1 ++ [x]) (p2 ++ [x]) f (by rw [h1]; simp)
          (by rw [h2]; simp) (by simp only [List.length_cons] at hf; omega)
        refine ⟨q1, q2, by simpa [dropCommon] using e1, by simpa [dropCommon] using e2, ?_⟩
        have i1 : (a._data : Int) + (p1.length : Int) + 1 =
            (a._data : Int) + ((p1 ++ [x]).length : Int) := by
          simp only [List.length_append, List.length_singleton]
          push_cast
          omega
        have i2 : (b._data : Int) + (p2.length : Int) + 1 =
            (b._data : Int) + ((p2 ++ [x]).length : Int) := by
          simp only [List.length_append, List.length_singleton]
          push_cast
          omega
        simp only [vector.compare_loop, ne_eq, hne1, hne2, not_false_eq_true, and_self, if_true,
          hd1, hd2, i1, i2, hrun]
      · refine ⟨p1, p2, by simpa [dropCommon, hxy] using h1, by simpa [dropCommon, hxy] using h2,
          ?_⟩
        simp only [vector.compare_loop, ne_eq, hne1, hne2, not_false_eq_true, and_self, if_true,
          hd1, hd2, hxy, if_false]

/-- Value returned by `operator==` of vectors. -/
theorem vector.operator_eq_spec [DecidableEq α] {a b : vector α} {xs ys : List α}
    (ha : a.Holds xs) (hb : b.Holds ys) :
    a.operator_eq b = some (bothEmpty (dropCommon xs ys)) := by
  obtain ⟨q1, q2, e1, e2, hrun⟩ := vector.compare_loop_spec ha hb xs ys [] [] (a._size + 1) rfl
    rfl (by rw [ha.size]; omega)
  have hrun' : vector.compare_loop a b (a._size + 1) a.begin_ b.begin_ =
      some ((a._data : Int) + (q1.length : Int), (b._data : Int) + (q2.length : Int)) := by
    simpa [vector.begin_] using hrun
  have l1 := congrArg List.length e1
  have l2 := congrArg List.length e2
  rw [List.length_append] at l1 l2
  simp only [vector.operator_eq, hrun']
  simp only [vector.end_, ha.size, hb.size]
  generalize dropCommon xs ys = r at e1 e2 l1 l2
  obtain ⟨r1, r2⟩ := r
  have c1 : ((a._data : Int) + (q1.length : Int) = (a._data : Int) + (xs.length : Int)) ↔
      r1 = [] := by
    rw [← List.length_eq_zero]
    have l1' : xs.length = q1.length + r1.length := l1
    omega
  have c2 : ((b._data : Int) + (q2.length : Int) = (b._data : Int) + (ys.length : Int)) ↔
      r2 = [] := by
    rw [← List.length_eq_zero]
    have l2' : ys.length = q2.length + r2.length := l2
    omega
  simp only [c1, c2]
  cases r1 <;> cases r2 <;> simp [bothEmpty]

/-- Value returned by `operator<` of vectors. -/
theorem vector.operator_lt_spec [DecidableEq α] [LT α] [∀ a b : α, Decidable (a < b)]
    {a b : vector α} {xs ys : List α} (ha : a.Holds xs) (hb : b.Holds ys) :
    a.operator_lt b = some (lexLtRest (dropCommon xs ys)) := by
  obtain ⟨q1, q2, e1, e2, hrun⟩ := vector.compare_loop_spec ha hb xs ys [] [] (a._size + 1) rfl
    rfl (by rw [ha.size]; omega)
  have hrun' : vector.compare_loop a b (a._size + 1) a.begin_ b.begin_ =
      some ((a._data : Int) + (q1.length : Int), (b._data : Int) + (q2.length : Int)) := by
    simpa [vector.begin_] using hrun
  have l1 := congrArg List.length e1
  have l2 := congrArg List.length e2
  rw [List.length_append] at l1 l2
  simp only [vector.operator_lt, hrun']
  simp only [vector.end_, ha.size, hb.size]
  generalize dropCommon xs ys = r at e1 e2 l1 l2
  obtain ⟨r1, r2⟩ := r
  have c1 : ((a._data : Int) + (q1.length : Int) = (a._data : Int) + (xs.length : Int)) ↔
      r1 = [] := by
    rw [← List.length_eq_zero]
    have l1' : xs.length = q1.length + r1.length := l1
    omega
  have c2 : ((b._data : Int) + (q2.length : Int) = (b._data : Int) + (ys.length : Int)) ↔
      r2 = [] := by
    rw [← List.length_eq_zero]
    have l2' : ys.length = q2.length + r2.length := l2
    omega
  simp only [ne_eq, c1, c2]
  cases r1 with
  | nil => cases r2 <;> simp [lexLtRest]
  | cons x s =>
    cases r2 with
    | nil => simp [lexLtRest]
    | cons y t =>
      have e1' : xs = q1 ++ x :: s := e1
      have e2' : ys = q2 ++ y :: t := e2
      have hc1 : a.cells[q1.length]? = some (some x) := by
        rw [ha.elems q1.length (by rw [e1']; simp), e1', getElem?_length_append]
      have hc2 : b.cells[q2.length]? = some (some y) := by
        rw [hb.elems q2.length (by rw [e2']; simp), e2', getElem?_length_append]
      simp [lexLtRest, a.deref_at _ q1.length x rfl hc1, b.deref_at _ q2.length y rfl hc2]

theorem IsList.node_ne_end {m : ListMem α} {e : Nat} {xs : List (Nat × α)} (hl : IsList m e xs)
    {pre post : List (Nat × α)} {a : Nat} {v : α} (hx : xs = pre ++ (a, v) :: post) :
    ¬ (some a = some e) := by
  intro h
  simp only [Option.some.injEq] at h
  exact (List.nodup_cons.1 hl.nodup).1 (by rw [hx, ← h]; simp)

theorem IsList.deref_node {m : ListMem α} {e : Nat} {xs : List (Nat × α)} (hl : IsList m e xs)
    {pre post : List (Nat × α)} {a : Nat} {v : α} (hx : xs = pre ++ (a, v) :: post) :
    list.deref m (some a) = some v := by
  simp only [list.deref, ListMem.node, hl.nodeCell pre post a v hx]

/-- The `while` loop of the list operators stops where the common beginning of the two
sequences of values ends. -/
theorem list_compare_loop_spec [DecidableEq α] {m : ListMem α} {e1 e2 : Nat}
    {xs ys : List (Nat × α)} (hl1 : IsList m e1 xs) (hl2 : IsList m e2 ys) :
    ∀ (s1 s2 p1 p2 : List (Nat × α)) (fuel : Nat), xs = p1 ++ s1 → ys = p2 ++ s2 →
      s1.length < fuel →
      ∃ q1 r1 q2 r2, xs = q1 ++ r1 ∧ ys = q2 ++ r2 ∧
        dropCommon (s1.map Prod.snd) (s2.map Prod.snd) = (r1.map Prod.snd, r2.map Prod.snd) ∧
        list.compare_loop m e1 e2 fuel (some (headAddr e1 s1)) (some (headAddr e2 s2)) =
          some (some (headAddr e1 r1), some (headAddr e2 r2)) := by
  intro s1
  induction s1 with
  | nil =>
    intro s2 p1 p2 fuel h1 h2 hf
    obtain ⟨f, rfl⟩ : ∃ f, fuel = f + 1 := ⟨fuel - 1, by omega⟩
    refine ⟨p1, [], p2, s2, h1, h2, by cases s2 <;> rfl, ?_⟩
    simp only [list.compare_loop, headAddr_nil, list.end_, ne_eq, not_true_eq_false, false_and,
      if_false]
  | cons n t ih =>
    intro s2 p1 p2 fuel h1 h2 hf
    obtain ⟨a1, x⟩ := n
    obtain ⟨f, rfl⟩ : ∃ f, fuel = f + 1 := ⟨fuel - 1, by omega⟩
    have hne1 := hl1.node_ne_end h1
    cases s2 with
    | nil =>
      refine ⟨p1, (a1, x) :: t, p2, [], h1, h2, rfl, ?_⟩
      simp only [list.compare_loop, headAddr_nil, list.end_, ne_eq, not_true_eq_false,
        and_false, if_false]
    | cons n2 u =>
      obtain ⟨a2, y⟩ := n2
      have hne2 := hl2.node_ne_end h2
      by_cases hxy : x = y
      · subst hxy
        obtain ⟨q1, r1, q2, r2, e1', e2', hd, hrun⟩ := ih u (p1 ++ [(a1, x)]) (p2 ++ [(a2, x)]) f
          (by rw [h1]; simp) (by rw [h2]; simp) (by simp only [List.length_cons] at hf; omega)
        refine ⟨q1, r1, q2, r2, e1', e2', by simpa [dropCommon] using hd, ?_⟩
        simp only [list.compare_loop, headAddr_cons, list.end_, ne_eq, hne1, hne2,
          not_false_eq_true, and_self, if_true, hl1.deref_node h1, hl2.deref_node h2,
          hl1.incr_node p1 t a1 x h1, hl2.incr_node p2 u a2 x h2, hrun]
      · refine ⟨p1, (a1, x) :: t, p2, (a2, y) :: u, h1, h2, by simp [dropCommon, hxy], ?_⟩
        simp only [list.compare_loop, headAddr_cons, list.end_, ne_eq, hne1, hne2,
          not_false_eq_true, and_self, if_true, hl1.deref_node h1, hl2.deref_node h2, hxy,
          if_false]

theorem IsList.head_eq_end_iff {m : ListMem α} {e : Nat} {xs : List (Nat × α)}
    (hl : IsList m e xs) {q r : List (Nat × α)} (hx : xs = q ++ r) :
    (some (headAddr e r) = some e) ↔ r = [] := by
  cases r with
  | nil => simp [headAddr_nil]
  | cons n r =>
    obtain ⟨a, v⟩ := n
    simp only [headAddr_cons, reduceCtorEq, iff_false]
    exact hl.node_ne_end hx

/-- Value returned by `operator==` of lists. -/
theorem list_operator_eq_spec [DecidableEq α] {m : ListMem α} {e1 e2 : Nat}
    {xs ys : List (Nat × α)} (hl1 : IsList m e1 xs) (hl2 : IsList m e2 ys) (hb : m.Bounded) :
    list.operator_eq m e1 e2 =
      some (bothEmpty (dropCommon (xs.map Prod.snd) (ys.map Prod.snd))) := by
  obtain ⟨q1, r1, q2, r2, e1', e2', hd, hrun⟩ := list_compare_loop_spec hl1 hl2 xs ys [] []
    m.fuel rfl rfl (by
      have := hl1.length_lt hb
      unfold ListMem.fuel
      omega)
  simp only [list.operator_eq, hl1.begin_eq, hl2.begin_eq, hrun, hd, list.end_,
    hl1.head_eq_end_iff e1', hl2.head_eq_end_iff e2']
  cases r1 <;> cases r2 <;> simp [bothEmpty]

/-- Value returned by `operator<` of lists. -/
theorem list_operator_lt_spec [DecidableEq α] [LT α] [∀ a b : α, Decidable (a < b)]
    {m : ListMem α} {e1 e2 : Nat} {xs ys : List (Nat × α)} (hl1 : IsList m e1 xs)
    (hl2 : IsList m e2 ys) (hb : m.Bounded) :
    list.operator_lt m e1 e2 =
      some (lexLtRest (dropCommon (xs.map Prod.snd) (ys.map Prod.snd))) := by
  obtain ⟨q1, r1, q2, r2, e1', e2', hd, hrun⟩ := list_compare_loop_spec hl1 hl2 xs ys [] []
    m.fuel rfl rfl (by
      have := hl1.length_lt hb
      unfold ListMem.fuel
      omega)
  simp only [list.operator_lt, hl1.begin_eq, hl2.begin_eq, hrun, hd, list.end_, ne_eq,
    hl1.head_eq_end_iff e1', hl2.head_eq_end_iff e2']
  cases r1 with
  | nil => cases r2 <;> simp [lexLtRest]
  | cons n1 s =>
    cases r2 with
    | nil => simp [lexLtRest]
    | cons n2 t =>
      obtain ⟨a1, x⟩ := n1
      obtain ⟨a2, y⟩ := n2
      simp [lexLtRest, headAddr_cons, hl1.deref_node e1', hl2.deref_node e2']

theorem holds_exampleVectorA : exampleVectorA.Holds [1, 2] := by
  refine ⟨rfl, rfl, by decide, ?_⟩
  intro i hi
  have hi' : i < 2 := hi
  interval_cases i <;> rfl

theorem holds_exampleVectorB : exampleVectorB.Holds [1, 3] := by
  refine ⟨rfl, rfl, by decide, ?_⟩
  intro i hi
  have hi' : i < 2 := hi
  interval_cases i <;> rfl

/-- The two lists of `twoIntLists`. -/
theorem isList_twoIntLists :
    IsList twoIntLists 0 [(1, 1), (2, 2)] ∧ IsList twoIntLists 3 [(4, 1), (5, 3)] ∧
      twoIntLists.Bounded := by
  refine ⟨⟨⟨0, rfl⟩, ⟨rfl, rfl, trivial⟩, by decide⟩,
    ⟨⟨0, rfl⟩, ⟨rfl, rfl, trivial⟩, by decide⟩, ?_⟩
  intro a ha
  have h0 : a ≠ 0 := by simp only [twoIntLists] at ha; omega
  have h1 : a ≠ 1 := by simp only [twoIntLists] at ha; omega
  have h2 : a ≠ 2 := by simp only [twoIntLists] at ha; omega
  have h3 : a ≠ 3 := by simp only [twoIntLists] at ha; omega
  have h4 : a ≠ 4 := by simp only [twoIntLists] at ha; omega
  have h5 : a ≠ 5 := by simp only [twoIntLists] at ha; omega
  simp [twoIntLists, lstore, h0, h1, h2, h3, h4, h5]

/-- C35: for two vectors of integers that hold the sequences `xs` and `ys`, and for two list
objects of integers (in one memory) whose nodes hold the values `ns1.map Prod.snd` and
`ns2.map Prod.snd`, the operators `<` and `==` return; `a < b` is true exactly when the
sequence of `a` is lexicographically smaller than that of `b`, `a == b` is true exactly
when the two sequences have the same length and the same members, and of `a < b`,
`a == b`, `b < a` exactly one is true. -/
theorem relational_operators_lexicographic (a b : vector Int) (xs ys : List Int)
    (ha : a.Holds xs) (hb : b.Holds ys) (m : ListMem Int) (e1 e2 : Nat)
    (ns1 ns2 : List (Nat × Int)) (hl1 : IsList m e1 ns1) (hl2 : IsList m e2 ns2)
    (hbd : m.Bounded) :
    (∃ r1 r2 r3, a.operator_lt b = some r1 ∧ a.operator_eq b = some r2 ∧
        b.operator_lt a = some r3 ∧
        (r1 = true ↔ lexSmaller xs ys) ∧
        (r2 = true ↔ xs.length = ys.length ∧ ∀ i : Nat, xs[i]? = ys[i]?) ∧
        (r3 = true ↔ lexSmaller ys xs) ∧
        ((r1 = true ∧ r2 = false ∧ r3 = false) ∨ (r1 = false ∧ r2 = true ∧ r3 = false) ∨
          (r1 = false ∧ r2 = false ∧ r3 = true))) ∧
    (∃ r1 r2 r3, list.operator_lt m e1 e2 = some r1 ∧ list.operator_eq m e1 e2 = some r2 ∧
        list.operator_lt m e2 e1 = some r3 ∧
        (r1 = true ↔ lexSmaller (ns1.map Prod.snd) (ns2.map Prod.snd)) ∧
        (r2 = true ↔ (ns1.map Prod.snd).length = (ns2.map Prod.snd).length ∧
          ∀ i : Nat, (ns1.map Prod.snd)[i]? = (ns2.map Prod.snd)[i]?) ∧
        (r3 = true ↔ lexSmaller (ns2.map Prod.snd) (ns1.map Prod.snd)) ∧
        ((r1 = true ∧ r2 = false ∧ r3 = false) ∨ (r1 = false ∧ r2 = true ∧ r3 = false) ∨
          (r1 = false ∧ r2 = false ∧ r3 = true))) := by
  have hsame : ∀ (u w : List Int), (u = w ↔ u.length = w.length ∧ ∀ i : Nat, u[i]? = w[i]?) := by
    intro u w
    constructor
    · intro e
      subst e
      exact ⟨rfl, fun _ => rfl⟩
    · intro e
      exact List.ext_getElem? e.2
  refine ⟨⟨_, _, _, vector.operator_lt_spec ha hb, vector.operator_eq_spec ha hb,
      vector.operator_lt_spec hb ha, lexLtRest_dropCommon xs ys,
      (bothEmpty_dropCommon xs ys).trans (hsame _ _), lexLtRest_dropCommon ys xs,
      results_exactly_one xs ys⟩,
    ⟨_, _, _, list_operator_lt_spec hl1 hl2 hbd, list_operator_eq_spec hl1 hl2 hbd,
      list_operator_lt_spec hl2 hl1 hbd, lexLtRest_dropCommon _ _,
      (bothEmpty_dropCommon _ _).trans (hsame _ _), lexLtRest_dropCommon _ _,
      results_exactly_one _ _⟩⟩

theorem relational_operators_lexicographic_witness :
    (∃ r1 r2 r3, exampleVectorA.operator_lt exampleVectorB = some r1 ∧
        exampleVectorA.operator_eq exampleVectorB = some r2 ∧
        exampleVectorB.operator_lt exampleVectorA = some r3 ∧
        (r1 = true ↔ lexSmaller ([1, 2] : List Int) [1, 3]) ∧
        (r2 = true ↔ ([1, 2] : List Int).length = ([1, 3] : List Int).length ∧
          ∀ i : Nat, ([1, 2] : List Int)[i]? = ([1, 3] : List Int)[i]?) ∧
        (r3 = true ↔ lexSmaller ([1, 3] : List Int) [1, 2]) ∧
        ((r1 = true ∧ r2 = false ∧ r3 = false) ∨ (r1 = false ∧ r2 = true ∧ r3 = false) ∨
          (r1 = false ∧ r2 = false ∧ r3 = true))) ∧
    (∃ r1 r2 r3, list.operator_lt twoIntLists 0 3 = some r1 ∧
        list.operator_eq twoIntLists 0 3 = some r2 ∧
        list.operator_lt twoIntLists 3 0 = some r3 ∧
        (r1 = true ↔ lexSmaller (([(1, 1), (2, 2)] : List (Nat × Int)).map Prod.snd)
          (([(4, 1), (5, 3)] : List (Nat × Int)).map Prod.snd)) ∧
        (r2 = true ↔ (([(1, 1), (2, 2)] : List (Nat × Int)).map Prod.snd).length =
            (([(4, 1), (5, 3)] : List (Nat × Int)).map Prod.snd).length ∧
          ∀ i : Nat, (([(1, 1), (2, 2)] : List (Nat × Int)).map Prod.snd)[i]? =
            (([(4, 1), (5, 3)] : List (Nat × Int)).map Prod.snd)[i]?) ∧
        (r3 = true ↔ lexSmaller (([(4, 1), (5, 3)] : List (Nat × Int)).map Prod.snd)
          (([(1, 1), (2, 2)] : List (Nat × Int)).map Prod.snd)) ∧
        ((r1 = true ∧ r2 = false ∧ r3 = false) ∨ (r1 = false ∧ r2 = true ∧ r3 = false) ∨
          (r1 = false ∧ r2 = false ∧ r3 = true))) :=
  relational_operators_lexicographic exampleVectorA exampleVectorB [1, 2] [1, 3]
    holds_exampleVectorA holds_exampleVectorB twoIntLists 0 3 [(1, 1), (2, 2)]
    [(4, 1), (5, 3)] isList_twoIntLists.1 isList_twoIntLists.2.1 isList_twoIntLists.2.2

/-- Cells after `splice(position, src, src.begin(), src.end())` for a source that is not
empty: `p` is the node of `position` and `tp` the node before it, `e2` is the sentinel of
the source, `f` its first and `ml` its last node. -/
theorem splice_cells (m : ListMem α) (p tp e2 f ml : Nat) (np ntp n2 nf nml : ListNode α)
    (hp : m.heap p = some np) (hpp : np.prev = some tp) (htp : m.heap tp = some ntp)
    (h2 : m.heap e2 = some n2) (h2p : n2.prev = some ml)
    (hf : m.heap f = some nf) (hfp : nf.prev = some e2) (hml : m.heap ml = some nml)
    (d1 : e2 ≠ p) (d2 : e2 ≠ tp) (d3 : e2 ≠ f) (d4 : e2 ≠ ml)
    (d5 : f ≠ p) (d6 : f ≠ tp) (d7 : ml ≠ p) (d8 : ml ≠ tp) :
    ∃ m', list.splice m (some p) (some f) (some e2) = some m' ∧ m'.fresh = m.fresh ∧
      ∀ b, m'.heap b = if b = e2 then some ⟨n2.value, some e2, some e2⟩
        else (m.heap b).map (fun c =>
          ⟨c.value, if b = ml then some p else if b = tp then some f else c.next,
            if b = p then some ml else if b = f then some tp else c.prev⟩) := by
  have d1' := d1.symm
  have d2' := d2.symm
  have d3' := d3.symm
  have d4' := d4.symm
  have d5' := d5.symm
  have d6' := d6.symm
  have d7' := d7.symm
  have d8' := d8.symm
  by_cases c1 : p = tp
  · subst c1
    rw [hp] at htp
    cases htp
    by_cases c2 : f = ml
    · subst c2
      rw [hf] at hml
      cases hml
      simp only [list.splice, ListMem.node, hf, hp, h2, hfp, hpp, h2p, ListMem.write,
        lstore_same, lstore_other _ _ d1, lstore_other _ _ d3, lstore_other _ _ d5,
        lstore_other _ _ d1', lstore_other _ _ d3', lstore_other _ _ d5']
      refine ⟨_, rfl, rfl, ?_⟩
      intro b
      by_cases hb2 : b = e2
      · subst hb2
        simp [lstore, d1, d3]
      · by_cases hbp : b = p
        · subst hbp
          simp [lstore, hb2, d5', hp]
        · by_cases hbf : b = f
          · subst hbf
            simp [lstore, hb2, hbp, hf]
          · simp [lstore, hb2, hbp, hbf]
    · have c2' : ml ≠ f := fun h => c2 h.symm
      simp only [list.splice, ListMem.node, hf, hp, h2, hfp, hpp, h2p, ListMem.write, hml,
        lstore_same, lstore_other _ _ d1, lstore_other _ _ d3, lstore_other _ _ d4,
        lstore_other _ _ d5, lstore_other _ _ d7, lstore_other _ _ c2,
        lstore_other _ _ d1', lstore_other _ _ d3', lstore_other _ _ d4',
        lstore_other _ _ d5', lstore_other _ _ d7', lstore_other _ _ c2']
      refine ⟨_, rfl, rfl, ?_⟩
      intro b
      by_cases hb2 : b = e2
      · subst hb2
        simp [lstore, d1, d3, d4]
      · by_cases hbp : b = p
        · subst hbp
          simp [lstore, hb2, d5', d7', hp]
        · by_cases hbf : b = f
          · subst hbf
            simp [lstore, hb2, hbp, c2, hf]
          · by_cases hbm : b = ml
            · subst hbm
              simp [lstore, hb2, hbp, hbf, hml]
            · simp [lstore, hb2, hbp, hbf, hbm]
  · have c1' : tp ≠ p := fun h => c1 h.symm
    by_cases c2 : f = ml
    · subst c2
      rw [hf] at hml
      cases hml
      simp only [list.splice, ListMem.node, hf, hp, h2, hfp, hpp, h2p, ListMem.write, htp,
        lstore_same, lstore_other _ _ d1, lstore_other _ _ d2, lstore_other _ _ d3,
        lstore_other _ _ d5, lstore_other _ _ d6, lstore_other _ _ c1,
        lstore_other _ _ d1', lstore_other _ _ d2', lstore_other _ _ d3',
        lstore_other _ _ d5', lstore_other _ _ d6', lstore_other _ _ c1']
      refine ⟨_, rfl, rfl, ?_⟩
      intro b
      by_cases hb2 : b = e2
      · subst hb2
        simp [lstore, d1, d2, d3]
      · by_cases hbp : b = p
        · subst hbp
          simp [lstore, hb2, d5', c1, hp]
        · by_cases hbf : b = f
          · subst hbf
            simp [lstore, hb2, hbp, d6, hf]
          · by_cases hbt : b = tp
            · subst hbt
              simp [lstore, hb2, hbp, hbf, htp]
            · simp [lstore, hb2, hbp, hbf, hbt]
    · have c2' : ml ≠ f := fun h => c2 h.symm
      simp only [list.splice, ListMem.node, hf, hp, h2, hfp, hpp, h2p, ListMem.write, htp, hml,
        lstore_same, lstore_other _ _ d1, lstore_other _ _ d2, lstore_other _ _ d3,
        lstore_other _ _ d4, lstore_other _ _ d5, lstore_other _ _ d6, lstore_other _ _ d7,
        lstore_other _ _ d8, lstore_other _ _ c1, lstore_other _ _ c2,
        lstore_other _ _ d1', lstore_other _ _ d2', lstore_other _ _ d3',
        lstore_other _ _ d4', lstore_other _ _ d5', lstore_other _ _ d6',
        lstore_other _ _ d7', lstore_other _ _ d8', lstore_other _ _ c1',
        lstore_other _ _ c2']
      refine ⟨_, rfl, rfl, ?_⟩
      intro b
      by_cases hb2 : b = e2
      · subst hb2
        simp [lstore, d1, d2, d3, d4]
      · by_cases hbp : b = p
        · subst hbp
          simp [lstore, hb2, d5', d7', c1, hp]
        · by_cases hbf : b = f
          · subst hbf
            simp [lstore, hb2, hbp, d6, c2, hf]
          · by_cases hbt : b = tp
            · subst hbt
              simp [lstore, hb2, hbp, hbf, d8', htp]
            · by_cases hbm : b = ml
              · subst hbm
                simp [lstore, hb2, hbp, hbf, hbt, hml]
              · simp [lstore, hb2, hbp, hbf, hbt, hbm]

/-- Effect of `splice(position, src)` for a source that is not empty, `position` being the
cursor that follows the nodes `done` of the target (the first node of `rest`, or `end()`):
the nodes of the source enter the target between `done` and `rest`, and the source is
empty. -/
theorem splice_all_spec {m : ListMem α} {e e2 : Nat} (done rest ys : List (Nat × α))
    (hl : IsList m e (done ++ rest)) (hl2 : IsList m e2 ys) (hne : ys ≠ [])
    (hnd : (e2 :: e :: (done ++ rest ++ ys).map Prod.fst).Nodup) :
    ∃ m', list.splice_all m (some (headAddr e rest)) e2 = some m' ∧ m'.fresh = m.fresh ∧
      IsList m' e (done ++ ys ++ rest) ∧ IsList m' e2 [] ∧
      (∀ b, b ∉ e2 :: e :: (done ++ rest ++ ys).map Prod.fst → m'.heap b = m.heap b) := by
  obtain ⟨d, hd⟩ := hl.sentinel
  obtain ⟨d2, hd2⟩ := hl2.sentinel
  have hring := (ring_iff m.heap e d done rest).1 ⟨hd, hl.chain⟩
  have hRmem : ∀ b, b ∈ (rest ++ (e, d) :: done).map Prod.fst ↔
      b ∈ e :: (done ++ rest).map Prod.fst := by
    intro b
    simp only [List.map_append, List.map_cons, List.mem_append, List.mem_cons]
    tauto
  have hRnd : ((rest ++ (e, d) :: done).map Prod.fst).Nodup := by
    have hp : ((rest ++ (e, d) :: done).map Prod.fst).Perm (e :: (done ++ rest).map Prod.fst) := by
      simp only [List.map_append, List.map_cons]
      exact (List.perm_middle).trans (List.Perm.cons _ List.perm_append_comm)
    exact hp.nodup_iff.2 hl.nodup
  have hRne : rest ++ (e, d) :: done ≠ [] := by simp
  have hhead : ∀ q, headAddr q (rest ++ (e, d) :: done) = headAddr e rest := by
    intro q
    rw [headAddr_append, headAddr_cons]
  have hlast : ∀ q, lastAddr q (rest ++ (e, d) :: done) = lastAddr e done := by
    intro q
    rw [lastAddr_append, lastAddr_cons]
  have hpmem : headAddr e rest ∈ (rest ++ (e, d) :: done).map Prod.fst := by
    rw [← hhead e]; exact headAddr_mem _ hRne
  have htmem : lastAddr e done ∈ (rest ++ (e, d) :: done).map Prod.fst := by
    rw [← hlast e]; exact lastAddr_mem hRne _
  have hfmem : headAddr e2 ys ∈ ys.map Prod.fst := headAddr_mem _ hne
  have hmmem : lastAddr e2 ys ∈ ys.map Prod.fst := lastAddr_mem hne _
  -- distinctness
  rw [List.nodup_cons] at hnd
  obtain ⟨he2, hnd⟩ := hnd
  have hsplit : e :: (done ++ rest ++ ys).map Prod.fst =
      (e :: (done ++ rest).map Prod.fst) ++ ys.map Prod.fst := by simp
  rw [hsplit, List.nodup_append] at hnd
  obtain ⟨-, hndy, hdisj⟩ := hnd
  rw [hsplit, List.mem_append, not_or] at he2
  have hRy : ∀ a, a ∈ (rest ++ (e, d) :: done).map Prod.fst → ∀ b, b ∈ ys.map Prod.fst →
      b ≠ a := by
    intro a ha b hb hab
    exact hdisj ((hRmem a).1 ha) (hab ▸ hb)
  have hRe2 : ∀ a, a ∈ (rest ++ (e, d) :: done).map Prod.fst → e2 ≠ a := by
    intro a ha h
    exact he2.1 ((hRmem e2).1 (h ▸ ha))
  have hye2 : ∀ b, b ∈ ys.map Prod.fst → e2 ≠ b := by
    intro b hb h
    exact he2.2 (h ▸ hb)
  -- the cells
  obtain ⟨np, hnp, hnpp⟩ : ∃ np, m.heap (headAddr e rest) = some np ∧
      np.prev = some (lastAddr e done) := by
    cases hR : rest ++ (e, d) :: done with
    | nil => exact absurd hR hRne
    | cons r0 R' =>
      have h1 := hhead e
      rw [hR] at hring h1
      rw [headAddr_cons] at h1
      rw [← h1]
      exact ⟨_, hring.1, rfl⟩
  obtain ⟨ntp, hntp⟩ := hring.allocated htmem
  obtain ⟨nf, hnf, hnfp⟩ : ∃ nf, m.heap (headAddr e2 ys) = some nf ∧ nf.prev = some e2 := by
    cases ys with
    | nil => exact absurd rfl hne
    | cons y0 ys' => exact ⟨_, hl2.chain.1, rfl⟩
  obtain ⟨nml, hnml⟩ := hl2.chain.allocated hmmem
  obtain ⟨m', hrun, hfr, hpt⟩ := splice_cells m (headAddr e rest) (lastAddr e done) e2
    (headAddr e2 ys) (lastAddr e2 ys) np ntp _ nf nml hnp hnpp hntp hd2 rfl hnf hnfp hnml
    (hRe2 _ hpmem) (hRe2 _ htmem) (hye2 _ hfmem) (hye2 _ hmmem)
    (hRy _ hpmem _ hfmem) (hRy _ htmem _ hfmem) (hRy _ hpmem _ hmmem) (hRy _ htmem _ hmmem)
  refine ⟨m', ?_, hfr, ?_, ?_, ?_⟩
  · simp only [list.splice_all, hl2.begin_eq, list.end_]
    exact hrun
  · have hC1 : Chain m'.heap (lastAddr e done) ys (headAddr e rest) := by
      apply Chain.relink ys e2 e2 (lastAddr e done) (headAddr e rest) hne hndy hl2.chain
      intro b hb
      have h1 : b ≠ e2 := fun h => hye2 b hb h.symm
      have h2 : b ≠ lastAddr e done := hRy _ htmem b hb
      have h3 : b ≠ headAddr e rest := hRy _ hpmem b hb
      rw [hpt b, if_neg h1]
      simp only [h2, h3, if_false]
    have hC2 : Chain m'.heap (lastAddr e2 ys) (rest ++ (e, d) :: done) (headAddr e2 ys) := by
      apply Chain.relink _ (lastAddr e done) (headAddr e rest) (lastAddr e2 ys) (headAddr e2 ys)
        hRne hRnd hring
      intro b hb
      have h1 : b ≠ e2 := fun h => hRe2 b hb h.symm
      have h2 : b ≠ lastAddr e2 ys := fun h => hRy b hb _ hmmem h.symm
      have h3 : b ≠ headAddr e2 ys := fun h => hRy b hb _ hfmem h.symm
      rw [hpt b, if_neg h1, hhead, hlast]
      simp only [h2, h3, if_false]
    have hnew := (ring_iff m'.heap e d done (ys ++ rest)).2 (by
      rw [List.append_assoc, chain_append, hhead, headAddr_append,
        headAddr_of_ne_nil (headAddr e rest) e2 hne,
        lastAddr_of_ne_nil hne (lastAddr e done) e2]
      exact ⟨hC1, hC2⟩)
    rw [← List.append_assoc] at hnew
    refine ⟨⟨d, hnew.1⟩, hnew.2, ?_⟩
    have hp : (e :: (done ++ ys ++ rest).map Prod.fst).Perm
        ((e :: (done ++ rest).map Prod.fst) ++ ys.map Prod.fst) := by
      simp only [List.map_append, List.cons_append, List.append_assoc]
      exact List.Perm.cons _ (List.Perm.append_left _ List.perm_append_comm)
    refine hp.nodup_iff.2 ?_
    rw [List.nodup_append]
    exact ⟨hl.nodup, hndy, hdisj⟩
  · refine ⟨⟨d2, ?_⟩, trivial, by simp⟩
    rw [hpt e2, if_pos rfl]
    rfl
  · intro b hb
    rw [List.mem_cons, not_or] at hb
    obtain ⟨hb1, hb2⟩ := hb
    rw [hsplit, List.mem_append, not_or] at hb2
    have hbR : b ∉ (rest ++ (e, d) :: done).map Prod.fst := fun h => hb2.1 ((hRmem b).1 h)
    have h1 : b ≠ headAddr e rest := fun h => hbR (h ▸ hpmem)
    have h2 : b ≠ lastAddr e done := fun h => hbR (h ▸ htmem)
    have h3 : b ≠ headAddr e2 ys := fun h => hb2.2 (h ▸ hfmem)
    have h4 : b ≠ lastAddr e2 ys := fun h => hb2.2 (h ▸ hmmem)
    rw [hpt b, if_neg hb1]
    simp only [h1, h2, h3, h4, if_false]
    exact ListNode.eta_map _

end ft
